import Mathlib

/-!
Mesh-topology fracture engine (LCM `Topology.cc`).

A shallow embedding of the topology manipulation functions of
`src/LCM/utils/Topology.cc`: the entity store used through the narrow
interface of the mesh bulk data, the relation-graph builder and teardown of
class `topology`, the `Subgraph` surgery operations and the fracture driver.

Conventions of the embedding.

* Mutable C++ state is passed explicitly: a function that mutates the bulk
  data, the subgraph or the `entity_open` map returns the new value.
* A failed `assert`, an out-of-range index, a dereferenced end iterator or a
  dereferenced null entity pointer is the result `none`.
* The integer types `EntityRank`, `EdgeId` and the vertex descriptor `Vertex`
  are `Nat`. `EntityRank` is an unsigned 32 bit integer in the source, so
  `rank - 1` and `rank + 1` are taken modulo `2 ^ 32`.
* The mesh library and the graph library are not part of the repository. The
  store keeps each declared relation once, from the higher to the lower rank
  entity, and shows it on both of its entities; a relation range read from an
  entity is the list of its relations at the time it is read. The graph keeps
  its edges in insertion order.
-/

namespace LCM

/-! ## Entity store -/

/-- Unsigned 32 bit `rank - 1`. -/
def rankPred (r : Nat) : Nat := (r + 4294967295) % 4294967296

/-- Unsigned 32 bit `rank + 1`. -/
def rankSucc (r : Nat) : Nat := (r + 1) % 4294967296

/-- Key of a mesh entity: its rank and its identifier within the rank. -/
structure EntityKey where
  rank : Nat
  id : Nat
deriving DecidableEq, Repr

/-- A relation as it is stored: declared from `e_from` to `e_to` with a local
ordinal. -/
structure Decl where
  e_from : EntityKey
  e_to : EntityKey
  local_id : Nat
deriving DecidableEq, Repr

/-- A relation as one entity sees it (`relations[i].entity()`,
`relations[i].identifier()`). -/
structure Relation where
  entity : EntityKey
  identifier : Nat
deriving DecidableEq, Repr

/-- Rank of the related entity (`relations[i].entity_rank()`). -/
def Relation.entity_rank (r : Relation) : Nat := r.entity.rank

/-- The mesh bulk data: the entities and the declared relations. -/
structure BulkData where
  entities : List EntityKey
  relations : List Decl
deriving DecidableEq, Repr

/-- Order in which the store enumerates the relations of one entity: by rank of
the related entity, then by local ordinal, then by identifier. -/
def relationLE (a b : Relation) : Bool :=
  if a.entity.rank ≠ b.entity.rank then decide (a.entity.rank < b.entity.rank)
  else if a.identifier ≠ b.identifier then decide (a.identifier < b.identifier)
  else decide (a.entity.id ≤ b.entity.id)

/-- How a stored relation shows on entity `e`: on its source as a relation to
the target, on its target as the back relation to the source. -/
def Decl.seenFrom (e : EntityKey) (d : Decl) : Option Relation :=
  if d.e_from = e then some ⟨d.e_to, d.local_id⟩
  else if d.e_to = e then some ⟨d.e_from, d.local_id⟩
  else none

/-- The range `entity.relations()`: every relation of the entity, in both
directions. -/
def BulkData.relations_of (b : BulkData) (e : EntityKey) : List Relation :=
  (b.relations.filterMap (Decl.seenFrom e)).insertionSort
    (fun x y => relationLE x y = true)

/-- The range `entity.relations(rank)`: the relations to entities of one rank. -/
def BulkData.relations_rank (b : BulkData) (e : EntityKey) (rank : Nat) :
    List Relation :=
  (b.relations_of e).filter (fun r => decide (r.entity_rank = rank))

/-- The call `stk::mesh::get_entities(bulk, rank, list)`: the entities of one
rank, ordered by identifier. -/
def get_entities (b : BulkData) (rank : Nat) : List EntityKey :=
  (b.entities.filter (fun e => decide (e.rank = rank))).insertionSort
    (fun x y => x.id ≤ y.id)

/-- The call `bulkData.get_entity(key)`: null when no entity has the key. -/
def BulkData.get_entity (b : BulkData) (key : EntityKey) : Option EntityKey :=
  if key ∈ b.entities then some key else none

/-- The call `bulkData.declare_relation(e_from, e_to, id)`. Declaring a
relation that is already there changes nothing. -/
def BulkData.declare_relation (b : BulkData) (e_from e_to : EntityKey) (id : Nat) :
    BulkData :=
  if (⟨e_from, e_to, id⟩ : Decl) ∈ b.relations then b
  else { b with relations := b.relations ++ [⟨e_from, e_to, id⟩] }

/-- The call `bulkData.destroy_relation(e_from, e_to, id)`. -/
def BulkData.destroy_relation (b : BulkData) (e_from e_to : EntityKey) (id : Nat) :
    BulkData :=
  { b with relations := b.relations.filter (fun d => decide (d ≠ ⟨e_from, e_to, id⟩)) }

/-- The call `bulkData.destroy_entity(entity)`: refused (result `false`) while
the entity still has relations. -/
def BulkData.destroy_entity (b : BulkData) (e : EntityKey) : BulkData × Bool :=
  if b.relations_of e = [] then
    ({ b with entities := b.entities.filter (fun x => decide (x ≠ e)) }, true)
  else (b, false)

/-- Largest identifier in use. -/
def maxId : List EntityKey → Nat
  | [] => 0
  | e :: es => max e.id (maxId es)

/-- The call `bulkData.generate_new_entities(requests, newEntity)` with a
single request of one entity of rank `rank`: the entity gets an unused
identifier. -/
def BulkData.generate_new_entity (b : BulkData) (rank : Nat) :
    BulkData × EntityKey :=
  let key : EntityKey := ⟨rank, maxId b.entities + 1⟩
  ({ b with entities := b.entities ++ [key] }, key)

/-! ## Class `topology` -/

/-- The data members of class `topology` used by the graph functions. -/
structure topology where
  numDim : Nat
  nodeRank : Nat
  edgeRank : Nat
  faceRank : Nat
  elementRank : Nat
  bulkData_ : BulkData
  connectivity_temp : List (List EntityKey)
deriving DecidableEq, Repr

/-- Inner loops of `remove_extra_relations`: collect the relations of `e`
selected by `extra` in `del_relations`/`del_ids`, then destroy them. -/
def remove_selected (b : BulkData) (e : EntityKey) (extra : Relation → Bool) : BulkData :=
  ((b.relations_of e).filter extra).foldl
    (fun acc j => acc.destroy_relation e j.entity j.identifier) b

/-- Embedding of `topology::remove_extra_relations`. -/
def remove_extra_relations (t : topology) : Option topology :=
  let element_lst := get_entities t.bulkData_ t.elementRank
  let b1 := element_lst.foldl
    (fun b element =>
      remove_selected b element (fun j => decide (j.entity_rank ≠ rankPred t.elementRank)))
    t.bulkData_
  if t.elementRank = 3 then
    let face_lst := get_entities b1 (rankPred t.elementRank)
    match face_lst with
    | [] => none
    | f0 :: _ =>
      let entityRank := f0.rank
      let b2 := face_lst.foldl
        (fun b face =>
          remove_selected b face (fun j =>
            decide (j.entity_rank ≠ rankSucc entityRank) &&
            decide (j.entity_rank ≠ rankPred entityRank)))
        b1
      some { t with bulkData_ := b2 }
  else some { t with bulkData_ := b1 }

/-- Embedding of `topology::graph_initialization`. The library call
`stk::mesh::create_adjacent_entities` is the parameter
`create_adjacent_entities`. -/
def graph_initialization (create_adjacent_entities : BulkData → BulkData)
    (t : topology) : Option topology :=
  let b := create_adjacent_entities t.bulkData_
  let element_lst := get_entities b t.elementRank
  let temp := element_lst.map
    (fun element => (b.relations_rank element t.nodeRank).map (fun r => r.entity))
  remove_extra_relations
    { t with bulkData_ := b, connectivity_temp := t.connectivity_temp ++ temp }

/-- Loop body of `graph_cleanup` for one face or edge: destroy every relation
of the entity, oriented from the higher to the lower rank, then destroy the
entity. The relation range is the one read at loop entry. -/
def remove_from_graph (b : BulkData) (e : EntityKey) : BulkData :=
  let b1 := (b.relations_of e).foldl
    (fun acc r =>
      if e.rank > r.entity_rank then acc.destroy_relation e r.entity r.identifier
      else acc.destroy_relation r.entity e r.identifier) b
  (b1.destroy_entity e).1

/-- Last loop of `graph_cleanup` for element number `i`: the inner index `j`
runs to `connectivity_temp.size()`. -/
def add_node_relations (conn : List (List EntityKey)) (b : BulkData)
    (element : EntityKey) (i : Nat) : Option BulkData :=
  (List.range conn.length).foldlM
    (fun acc j => do
      let row ← conn[i]?
      let node ← row[j]?
      pure (acc.declare_relation element node j)) b

/-- Embedding of `topology::graph_cleanup`. -/
def graph_cleanup (t : topology) : Option topology := do
  let element_lst := get_entities t.bulkData_ t.elementRank
  let face_lst := get_entities t.bulkData_ t.faceRank
  let b1 := face_lst.foldl remove_from_graph t.bulkData_
  let edge_lst := get_entities b1 t.edgeRank
  let b2 := edge_lst.foldl remove_from_graph b1
  let b3 ← (List.range element_lst.length).foldlM
    (fun acc i => do
      let element ← element_lst[i]?
      add_node_relations t.connectivity_temp acc element i) b2
  pure { t with bulkData_ := b3 }


/-! ## Class `Subgraph` -/

/-- The map `std::map<EntityKey, bool>` read through `operator[]`, which gives
`false` for a key that was never set. -/
abbrev EntityOpenMap := EntityKey → Bool

/-- The assignment `entity_open[key] = value`. -/
def EntityOpenMap.set (m : EntityOpenMap) (key : EntityKey) (value : Bool) : EntityOpenMap :=
  fun k => if k = key then value else m k

/-- The call `std::map::insert`: an existing key keeps its value. -/
def mapInsert {α β : Type} [DecidableEq α] (m : List (α × β)) (k : α) (v : β) :
    List (α × β) :=
  if (m.lookup k).isSome then m else m ++ [(k, v)]

/-- An edge of the boost graph together with its `EdgeName` property. -/
structure Edge where
  source : Nat
  target : Nat
  edge_id : Nat
deriving DecidableEq, Repr

/-- The boost adjacency list with its two index maps and the mesh it mirrors.
A vertex is its descriptor paired with its `VertexName` property (the rank);
edges are kept in insertion order. -/
structure Subgraph where
  bulkData_ : BulkData
  numDim_ : Nat
  vertices : List (Nat × Nat)
  edges : List Edge
  localGlobalVertexMap : List (Nat × EntityKey)
  globalLocalVertexMap : List (EntityKey × Nat)
deriving DecidableEq, Repr

/-- Descriptor handed out by `boost::add_vertex`: one that is not in use. -/
def newDescriptor : List (Nat × Nat) → Nat
  | [] => 0
  | v :: vs => max (v.1 + 1) (newDescriptor vs)

/-- The range `boost::out_edges(v, g)`. -/
def Subgraph.out_edges (g : Subgraph) (v : Nat) : List Edge :=
  g.edges.filter (fun e => decide (e.source = v))

/-- The range `boost::in_edges(v, g)`. -/
def Subgraph.in_edges (g : Subgraph) (v : Nat) : List Edge :=
  g.edges.filter (fun e => decide (e.target = v))

/-- The call `boost::in_degree(v, g)`. -/
def Subgraph.in_degree (g : Subgraph) (v : Nat) : Nat := (g.in_edges v).length

/-- The call `boost::edge(u, v, g)`: the edge from `u` to `v`, if there is one. -/
def Subgraph.edge (g : Subgraph) (u v : Nat) : Option Edge :=
  g.edges.find? (fun e => decide (e.source = u) && decide (e.target = v))

/-- Embedding of `Subgraph::local_to_global`; the failed assertion is `none`. -/
def Subgraph.local_to_global (g : Subgraph) (localVertex : Nat) : Option EntityKey :=
  g.localGlobalVertexMap.lookup localVertex

/-- Embedding of `Subgraph::global_to_local`; the failed assertion is `none`. -/
def Subgraph.global_to_local (g : Subgraph) (globalVertexKey : EntityKey) : Option Nat :=
  g.globalLocalVertexMap.lookup globalVertexKey

/-- Embedding of `Subgraph::get_vertex_rank`. -/
def Subgraph.get_vertex_rank (g : Subgraph) (vertex : Nat) : Option Nat :=
  g.vertices.lookup vertex

/-- Embedding of `Subgraph::add_vertex`. The request vector has `numDim_ + 1`
entries, so a rank above `numDim_` indexes it out of range. -/
def Subgraph.add_vertex (g : Subgraph) (vertex_rank : Nat) : Option (Subgraph × Nat) :=
  if vertex_rank ≤ g.numDim_ then
    let new := g.bulkData_.generate_new_entity vertex_rank
    let localVertex := newDescriptor g.vertices
    some ({ g with
      bulkData_ := new.1
      vertices := g.vertices ++ [(localVertex, vertex_rank)]
      localGlobalVertexMap := mapInsert g.localGlobalVertexMap localVertex new.2
      globalLocalVertexMap := mapInsert g.globalLocalVertexMap new.2 localVertex }, localVertex)
  else none

/-- Modelled from the spec: the graph type `boostGraph` is declared in
`Topology.h`, which is missing; following the spec, `boost::add_edge` refuses a
pair of vertices that already has an edge ("if already present, return
(·, false)"). The result is whether the pair is free. -/
def Subgraph.boost_add_edge_inserts (g : Subgraph) (u v : Nat) : Bool :=
  (g.edge u v).isNone

/-- Embedding of `Subgraph::add_edge`. -/
def Subgraph.add_edge (g : Subgraph) (edge_id localSourceVertex localTargetVertex : Nat) :
    Option (Subgraph × Bool) :=
  if g.boost_add_edge_inserts localSourceVertex localTargetVertex = false then some (g, false)
  else do
    let globalSourceKey ← g.local_to_global localSourceVertex
    let globalTargetKey ← g.local_to_global localTargetVertex
    let globalSourceVertex ← g.bulkData_.get_entity globalSourceKey
    let globalTargetVertex ← g.bulkData_.get_entity globalTargetKey
    some ({ g with
      bulkData_ := g.bulkData_.declare_relation globalSourceVertex globalTargetVertex edge_id
      edges := g.edges ++ [⟨localSourceVertex, localTargetVertex, edge_id⟩] }, true)

/-- Embedding of `Subgraph::remove_edge`. -/
def Subgraph.remove_edge (g : Subgraph) (localSourceVertex localTargetVertex : Nat) :
    Option Subgraph := do
  let edge ← g.edge localSourceVertex localTargetVertex
  let edge_id := edge.edge_id
  let globalSourceId ← g.local_to_global localSourceVertex
  let globalTargetId ← g.local_to_global localTargetVertex
  let globalSourceVertex ← g.bulkData_.get_entity globalSourceId
  let globalTargetVertex ← g.bulkData_.get_entity globalTargetId
  some { g with
    edges := g.edges.filter
      (fun e => !(decide (e.source = localSourceVertex) && decide (e.target = localTargetVertex)))
    bulkData_ := g.bulkData_.destroy_relation globalSourceVertex globalTargetVertex edge_id }

/-- Loop of `clone_out_edges`: for each relation of the original entity,
declare it on the new entity unless the new entity is already related to the
same target. -/
def clone_relations (b : BulkData) (newEntity : EntityKey) (originalRelations : List Relation) :
    BulkData :=
  originalRelations.foldl
    (fun acc r =>
      if (acc.relations_rank newEntity (rankPred newEntity.rank)).any
          (fun newRelation => decide (r.entity = newRelation.entity)) then acc
      else acc.declare_relation newEntity r.entity r.identifier) b

/-- Embedding of `Subgraph::clone_out_edges`. -/
def Subgraph.clone_out_edges (g : Subgraph) (originalVertex newVertex : Nat) :
    Option Subgraph := do
  let originalKey ← g.local_to_global originalVertex
  let newKey ← g.local_to_global newVertex
  let originalEntity ← g.bulkData_.get_entity originalKey
  let newEntity ← g.bulkData_.get_entity newKey
  let originalRelations :=
    g.bulkData_.relations_rank originalEntity (rankPred originalEntity.rank)
  some { g with bulkData_ := clone_relations g.bulkData_ newEntity originalRelations }

/-! ### Connected components of the undirected projection -/

/-- Neighbours of `u` in an undirected edge list. -/
def uneighbours (es : List (Nat × Nat)) (u : Nat) : List Nat :=
  es.filterMap (fun e => if e.1 = u then some e.2 else if e.2 = u then some e.1 else none)

/-- Vertices reached from `seen` in at most `fuel` rounds of expansion. -/
def ureach (es : List (Nat × Nat)) : Nat → List Nat → List Nat
  | 0, seen => seen
  | fuel + 1, seen =>
    ureach es fuel
      (seen ++ ((seen.flatMap (uneighbours es)).filter (fun w => decide (w ∉ seen))).dedup)

/-- The sweep of `boost::connected_components`: vertices are visited in
order; a vertex without a label starts a new component, numbered by the count
of components found so far, and labels everything reachable from it. -/
def label_components (es : List (Nat × Nat)) (n : Nat) :
    List Nat → List (Nat × Nat) → Nat → List (Nat × Nat) × Nat
  | [], labels, count => (labels, count)
  | u :: us, labels, count =>
    if (labels.lookup u).isSome then label_components es n us labels count
    else
      label_components es n us
        (labels ++ ((ureach es n [u]).filter
          (fun w => (labels.lookup w).isNone)).map (fun w => (w, count)))
        (count + 1)

/-- The call `boost::connected_components(g, &component[0])` on the graph with
vertices `0 .. n-1`: the number of components and the zero-initialised vector
`component`. -/
def connected_components (n : Nat) (es : List (Nat × Nat)) : Nat × List Nat :=
  let r := label_components es n (List.range n) [] 0
  (r.2, (List.range n).map (fun u => (r.1.lookup u).getD 0))

/-- Embedding of `Subgraph::undirected_graph`: the number of components and
the map from subgraph vertex to component number. -/
def Subgraph.undirected_graph (g : Subgraph) (input_vertex : Nat) :
    Option (Nat × List (Nat × Nat)) := do
  let vs := (g.vertices.map Prod.fst).filter (fun v => decide (v ≠ input_vertex))
  -- first add the vertices to the graph
  let undirectedSubVertexMap : List (Nat × Nat) := vs.enum
  let subUndirectedVertexMap : List (Nat × Nat) :=
    vs.enum.foldl (fun m p => mapInsert m p.2 p.1) []
  -- then add the edges
  let uedges ← (vs.flatMap (fun source =>
      (g.out_edges source).filter (fun e => decide (e.target ≠ input_vertex)))).mapM
    (fun e => do
      let usource ← subUndirectedVertexMap.lookup e.source
      let utarget ← subUndirectedVertexMap.lookup e.target
      pure (usource, utarget))
  let cc := connected_components vs.length uedges
  let subComponent ← undirectedSubVertexMap.foldlM
    (fun m p => do
      let c ← cc.2[p.1]?
      pure (mapInsert m p.2 c)) []
  pure (cc.1, subComponent)

/-- Embedding of `Subgraph::clone_boundary_entity`. -/
def Subgraph.clone_boundary_entity (g : Subgraph) (vertex : Nat)
    (entity_open : EntityOpenMap) : Option (Subgraph × EntityOpenMap) :=
  -- check that number of in_edges = 2
  if g.in_degree vertex ≠ 2 then some (g, entity_open)
  else do
    -- check that vertex = open
    let vertKey ← g.local_to_global vertex
    if entity_open vertKey ≠ true then none
    else do
      let vertexRank ← g.get_vertex_rank vertex
      -- create a new vertex of same rank as vertex
      let (g1, newVertex) ← g.add_vertex vertexRank
      -- copy the out_edges of vertex to newVertex
      let g2 ← (g1.out_edges vertex).foldlM
        (fun acc edge => (acc.add_edge edge.edge_id newVertex edge.target).map Prod.fst) g1
      -- copy all out edges not in the subgraph to the new vertex
      let g3 ← g2.clone_out_edges vertex newVertex
      -- remove one of the edges from vertex, copy to newVertex
      let edge ← (g3.in_edges vertex).head?
      let g4 ← g3.remove_edge edge.source vertex
      let (g5, _) ← g4.add_edge edge.edge_id edge.source newVertex
      some (g5, entity_open.set vertKey false)

/-- First loop of `split_articulation_point`: `count` calls of `add_vertex`,
the new vertices collected in order. -/
def Subgraph.add_vertices (g : Subgraph) (vertexRank : Nat) :
    Nat → Option (Subgraph × List Nat)
  | 0 => some (g, [])
  | count + 1 => do
    let (g1, newVertex) ← g.add_vertices vertexRank count
    let (g2, newVert) ← g1.add_vertex vertexRank
    some (g2, newVertex ++ [newVert])

/-- The map of elements to new nodes built by `split_articulation_point` for a
node; a null entity pointer is `none`. -/
def Subgraph.new_connectivity (g : Subgraph) (components : List (Nat × Nat))
    (newVertex : List Nat) : Option (List (Option EntityKey × Option EntityKey)) :=
  components.foldlM
    (fun m i => do
      let componentNum := i.2
      let currentVertex := i.1
      let currentRank ← g.get_vertex_rank currentVertex
      if currentRank = g.numDim_ ∧ componentNum ≠ 0 then do
        let elementKey ← g.local_to_global currentVertex
        let newVert ← newVertex[componentNum - 1]?
        let newKey ← g.local_to_global newVert
        pure (mapInsert m (g.bulkData_.get_entity elementKey) (g.bulkData_.get_entity newKey))
      else pure m) []

/-- Body of the loop of `split_articulation_point` over the in-edges of
`vertex`: an edge whose source is not in component 0 is recorded, as the pair
of its source and its edge id. -/
def Subgraph.removed_step (g : Subgraph) (components : List (Nat × Nat))
    (removed : List (Nat × Nat)) (edge : Edge) : Option (List (Nat × Nat)) := do
  let source := edge.source
  let vertComponent ← components.lookup source
  let sourceKey ← g.local_to_global source
  let _ ← g.bulkData_.get_entity sourceKey
  if vertComponent ≠ 0 then pure (removed ++ [(source, edge.edge_id)])
  else pure removed

/-- The in-edges of `vertex` that `split_articulation_point` moves. -/
def Subgraph.removed_edges (g : Subgraph) (components : List (Nat × Nat)) (vertex : Nat) :
    Option (List (Nat × Nat)) :=
  (g.in_edges vertex).foldlM (g.removed_step components) []

/-- Body of the last loop of `split_articulation_point`: the removed edge is
replaced by an edge to the new vertex of its source's component. -/
def Subgraph.replace_step (components : List (Nat × Nat)) (newVertex : List Nat)
    (vertex : Nat) (g : Subgraph) (edge : Nat × Nat) : Option Subgraph := do
  let source := edge.1
  let edgeId := edge.2
  let vertComponent ← components.lookup source
  let g1 ← g.remove_edge source vertex
  let newVert ← newVertex[vertComponent - 1]?
  let inserted ← g1.add_edge edgeId source newVert
  if inserted.2 = true then pure inserted.1 else none

/-- Last loop of `split_articulation_point` over the removed edges. -/
def Subgraph.replace_edges (g : Subgraph) (components : List (Nat × Nat))
    (newVertex : List Nat) (vertex : Nat) (removed : List (Nat × Nat)) : Option Subgraph :=
  removed.foldlM (Subgraph.replace_step components newVertex vertex) g

/-- Embedding of `Subgraph::split_articulation_point`: the subgraph, the open
map and the returned connectivity map. -/
def Subgraph.split_articulation_point (g : Subgraph) (vertex : Nat)
    (entity_open : EntityOpenMap) :
    Option (Subgraph × EntityOpenMap × List (Option EntityKey × Option EntityKey)) := do
  -- check that vertex = open
  let vertKey ← g.local_to_global vertex
  if entity_open vertKey ≠ true then none
  else do
    let vertexRank ← g.get_vertex_rank vertex
    -- create undirected graph
    let (numComponents, components) ← g.undirected_graph vertex
    if numComponents = 1 then some (g, entity_open, [])
    else do
      let (g1, newVertex) ← g.add_vertices vertexRank (numComponents - 1)
      let new_connectivity ←
        if vertexRank = 0 then g1.new_connectivity components newVertex else some []
      -- copy the out edges of the original vertex to the new vertex
      let g2 ← newVertex.foldlM (fun acc newVert => acc.clone_out_edges vertex newVert) g1
      let removed ← g2.removed_edges components vertex
      let g3 ← g2.replace_edges components newVertex vertex removed
      some (g3, entity_open.set vertKey false, new_connectivity)

/-! ### Well-formed subgraphs -/

/-- Whether a subgraph edge is mirrored by a store relation between the keys
of its end points that carries the edge's id. -/
def Subgraph.mirrored (g : Subgraph) (e : Edge) : Bool :=
  match g.local_to_global e.source, g.local_to_global e.target with
  | some ks, some kt => decide ((⟨ks, kt, e.edge_id⟩ : Decl) ∈ g.bulkData_.relations)
  | _, _ => false

/-- The invariants of the data model for a subgraph over a trimmed store:
vertices are distinct and carry the rank of their entity, edges join vertices
of the subgraph and mirror store relations, stored relations join existing
entities of adjacent ranks, and an entity is related at most once to another. -/
structure Subgraph.WF (g : Subgraph) : Prop where
  numDim_le : g.numDim_ ≤ 3
  vertex_nodup : (g.vertices.map Prod.fst).Nodup
  vertex_rank : ∀ v ∈ g.vertices, v.2 ≤ g.numDim_
  vertex_key : ∀ v ∈ g.vertices, (g.local_to_global v.1).map (fun k => k.rank) = some v.2
  map_keys : ∀ p ∈ g.localGlobalVertexMap, p.1 ∈ g.vertices.map Prod.fst
  map_vals : ∀ p ∈ g.localGlobalVertexMap, p.2 ∈ g.bulkData_.entities
  map_inj : (g.localGlobalVertexMap.map Prod.snd).Nodup
  edge_ends : ∀ e ∈ g.edges,
    e.source ∈ g.vertices.map Prod.fst ∧ e.target ∈ g.vertices.map Prod.fst
  edge_nodup : (g.edges.map (fun e => (e.source, e.target))).Nodup
  mirror : ∀ e ∈ g.edges, g.mirrored e = true
  ent_rank : ∀ e ∈ g.bulkData_.entities, e.rank ≤ g.numDim_
  rel_ends : ∀ d ∈ g.bulkData_.relations,
    d.e_from ∈ g.bulkData_.entities ∧ d.e_to ∈ g.bulkData_.entities
  rel_rank : ∀ d ∈ g.bulkData_.relations, d.e_from.rank = d.e_to.rank + 1
  rel_nodup : g.bulkData_.relations.Nodup
  rel_fun : ∀ d ∈ g.bulkData_.relations, ∀ d' ∈ g.bulkData_.relations,
    d.e_from = d'.e_from → d.e_to = d'.e_to → d.local_id = d'.local_id

/-- The relations stored out of entity `e`, as pairs of target and local id. -/
def BulkData.out_relations (b : BulkData) (e : EntityKey) : List (EntityKey × Nat) :=
  (b.relations.filter (fun d => decide (d.e_from = e))).map (fun d => (d.e_to, d.local_id))


/-- Whether `split_articulation_point` moves the in-edge `e`: its source has a
component number other than 0. -/
def movedEdge (components : List (Nat × Nat)) (e : Edge) : Bool :=
  decide (components.lookup e.source ≠ some 0)

/-- The new vertex that receives the in-edges from `source`:
`newVertex[component(source) - 1]`. -/
def newTarget (components : List (Nat × Nat)) (newVertex : List Nat) (source : Nat) : Nat :=
  newVertex.getD ((components.lookup source).getD 0 - 1) 0

/-! ## Stars and the fracture driver -/

/-- An edge of a star as `topology::star` records it (`stkEdge`). -/
structure stkEdge where
  source : EntityKey
  target : EntityKey
  localId : Nat
deriving DecidableEq, Repr

/-- Order of `EntityKey`: by rank, then by identifier. -/
def EntityKey.less (a b : EntityKey) : Bool :=
  decide (a.rank < b.rank) || (decide (a.rank = b.rank) && decide (a.id < b.id))

/-- The call `std::set::insert` for a set kept as the list of its elements in
increasing order: an element equivalent to one of the set is not inserted. -/
def setInsert {α : Type} (less : α → α → Bool) : List α → α → List α
  | [], a => [a]
  | b :: bs, a =>
    if less a b then a :: b :: bs
    else if less b a then b :: setInsert less bs a
    else b :: bs

/-- Largest rank of an entity of the store. -/
def maxRank : List EntityKey → Nat
  | [] => 0
  | e :: es => max e.rank (maxRank es)

/-- Embedding of `topology::star`, with the two sets passed along. The
comparison `EdgeLessThan` of the edge set is declared in `Topology.h`, which is
missing, and is a parameter. The recursion climbs one rank per call; `fuel`
bounds its depth and the result is `none` when it runs out. -/
def star (EdgeLessThan : stkEdge → stkEdge → Bool) (b : BulkData) :
    Nat → List EntityKey × List stkEdge → EntityKey → Option (List EntityKey × List stkEdge)
  | 0, _, _ => none
  | fuel + 1, sets, entity =>
    let relations := b.relations_rank entity (rankSucc entity.rank)
    let subgraph_entity_lst := setInsert EntityKey.less sets.1 entity
    relations.foldlM
      (fun acc relation =>
        let source := relation.entity
        let edge : stkEdge := ⟨source, entity, relation.identifier⟩
        star EdgeLessThan b fuel (acc.1, setInsert EdgeLessThan acc.2 edge) source)
      (subgraph_entity_lst, sets.2)

/-- The star of an entity from empty sets, with fuel for every rank of the
store. -/
def topology.star (EdgeLessThan : stkEdge → stkEdge → Bool) (b : BulkData)
    (entity : EntityKey) : Option (List EntityKey × List stkEdge) :=
  LCM.star EdgeLessThan b (maxRank b.entities + 2) ([], []) entity

/-- Embedding of the constructor of `Subgraph` from a vertex range and an edge
range. -/
def Subgraph.create (bulkData : BulkData) (vertices : List EntityKey)
    (edges : List stkEdge) (numDim : Nat) : Option Subgraph := do
  let g0 : Subgraph :=
    { bulkData_ := bulkData, numDim_ := numDim, vertices := [], edges := [],
      localGlobalVertexMap := [], globalLocalVertexMap := [] }
  -- insert vertices and create the vertex map
  let g1 ← vertices.foldlM
    (fun (g : Subgraph) globalVertex => do
      let entity ← bulkData.get_entity globalVertex
      let vertexRank := entity.rank
      let localVertex := newDescriptor g.vertices
      pure { g with
        vertices := g.vertices ++ [(localVertex, vertexRank)]
        localGlobalVertexMap := mapInsert g.localGlobalVertexMap localVertex globalVertex
        globalLocalVertexMap := mapInsert g.globalLocalVertexMap globalVertex localVertex })
    g0
  -- add edges to the subgraph
  edges.foldlM
    (fun (g : Subgraph) globalEdge => do
      let localSourceVertex ← g.globalLocalVertexMap.lookup globalEdge.source
      let localTargetVertex ← g.globalLocalVertexMap.lookup globalEdge.target
      if g.boost_add_edge_inserts localSourceVertex localTargetVertex = true then
        pure { g with
          edges := g.edges ++ [⟨localSourceVertex, localTargetVertex, globalEdge.localId⟩] }
      else none)
    g1

/-- The star of an entity as a subgraph, as `fracture_boundary` builds it. -/
def star_subgraph (EdgeLessThan : stkEdge → stkEdge → Bool) (b : BulkData) (numDim : Nat)
    (entity : EntityKey) : Option Subgraph := do
  let sets ← topology.star EdgeLessThan b entity
  Subgraph.create b sets.1 sets.2 numDim

/-- Loop body of `fracture_boundary` for one open segment: clone the open faces
of the segment, then split the segment. -/
def fracture_segment (EdgeLessThan : stkEdge → stkEdge → Bool) (numDim faceRank : Nat)
    (state : BulkData × EntityOpenMap) (segment : EntityKey) :
    Option (BulkData × EntityOpenMap) := do
  let subgraph ← star_subgraph EdgeLessThan state.1 numDim segment
  -- create a list of open faces
  let open_face_lst :=
    ((state.1.relations_rank segment faceRank).filter
      (fun k => state.2 k.entity == true)).map (fun k => k.entity)
  -- iterate over the open faces
  let cloned ← open_face_lst.foldlM
    (fun (acc : Subgraph × EntityOpenMap) face => do
      let faceVertex ← acc.1.global_to_local face
      acc.1.clone_boundary_entity faceVertex acc.2)
    (subgraph, state.2)
  -- split the articulation point (current segment)
  let segmentVertex ← cloned.1.global_to_local segment
  let split ← cloned.1.split_articulation_point segmentVertex cloned.2
  pure (split.1.bulkData_, split.2.1)

/-- The update of one cache record in `fracture_boundary`: the index `k` runs to
`connectivity_temp.size()`, the record is `connectivity_temp[id - 1]`. -/
def update_connectivity (connectivity_temp : List (List EntityKey)) (entity : EntityKey)
    (pair : Option EntityKey × Option EntityKey) : Option (List (List EntityKey)) := do
  let element ← pair.1
  let id := element.id
  (List.range connectivity_temp.length).foldlM
    (fun conn k => do
      if id = 0 then none
      else do
        let row ← conn[id - 1]?
        let x ← row[k]?
        if x = entity then do
          let newNode ← pair.2
          pure (conn.set (id - 1) (row.set k newNode))
        else pure conn)
    connectivity_temp

/-- Loop body of `fracture_boundary` for one open node. The field payload that
`copy_entity_fields` copies is not part of the store of this embedding. -/
def fracture_node (EdgeLessThan : stkEdge → stkEdge → Bool)
    (state : topology × EntityOpenMap) (entity : EntityKey) :
    Option (topology × EntityOpenMap) := do
  let t := state.1
  -- get set of open segments
  let open_segment_lst :=
    ((t.bulkData_.relations_rank entity t.edgeRank).filter
      (fun j => state.2 j.entity == true)).map (fun j => j.entity)
  -- iterate over the open segments
  let afterSegments ← open_segment_lst.foldlM
    (fracture_segment EdgeLessThan t.numDim t.faceRank) (t.bulkData_, state.2)
  -- split the node articulation point
  let subgraph ← star_subgraph EdgeLessThan afterSegments.1 t.numDim entity
  let node ← subgraph.global_to_local entity
  let split ← subgraph.split_articulation_point node afterSegments.2
  -- update the connectivity
  let conn ← split.2.2.foldlM
    (fun conn pair => update_connectivity conn entity pair) t.connectivity_temp
  pure ({ t with bulkData_ := split.1.bulkData_, connectivity_temp := conn }, split.2.1)

/-- Embedding of `topology::fracture_boundary`. -/
def fracture_boundary (EdgeLessThan : stkEdge → stkEdge → Bool) (t : topology)
    (entity_open : EntityOpenMap) : Option (topology × EntityOpenMap) :=
  let node_lst := get_entities t.bulkData_ t.nodeRank
  let open_node_lst := node_lst.filter (fun entity => entity_open entity == true)
  open_node_lst.foldlM (fracture_node EdgeLessThan) (t, entity_open)

/-- An order of star edges by source, then by target. -/
def edgeLessSourceTarget (a b : stkEdge) : Bool :=
  a.source.less b.source || (!(b.source.less a.source) && a.target.less b.target)

/-! ## Example meshes -/

/-- Key of node `i`. -/
def nodeKey (i : Nat) : EntityKey := ⟨0, i⟩

/-- Key of segment `i`. -/
def edgeKey (i : Nat) : EntityKey := ⟨1, i⟩

/-- Key of face `i`. -/
def faceKey (i : Nat) : EntityKey := ⟨2, i⟩

/-- Key of element `i`. -/
def elemKey (i : Nat) : EntityKey := ⟨3, i⟩

/-- Relations from `e` to the listed entities, with local ordinals 0, 1, ... -/
def declAll (e : EntityKey) (ts : List EntityKey) : List Decl :=
  ts.enum.map (fun p => ⟨e, p.2, p.1⟩)

/-- A mesh of one tetrahedron as read from file: the element and its nodes. -/
def tetInput : BulkData :=
  { entities := [elemKey 1, nodeKey 1, nodeKey 2, nodeKey 3, nodeKey 4]
    relations := declAll (elemKey 1) [nodeKey 1, nodeKey 2, nodeKey 3, nodeKey 4] }

/-- The tetrahedron with all its faces and segments and the full downward
adjacency, as `create_adjacent_entities` leaves it. -/
def tetFull : BulkData :=
  { entities := tetInput.entities ++ (List.range 6).map (fun i => edgeKey (i + 1)) ++
      (List.range 4).map (fun i => faceKey (i + 1))
    relations := tetInput.relations
      ++ declAll (elemKey 1) [edgeKey 1, edgeKey 2, edgeKey 3, edgeKey 4, edgeKey 5, edgeKey 6]
      ++ declAll (elemKey 1) [faceKey 1, faceKey 2, faceKey 3, faceKey 4]
      ++ declAll (faceKey 1) [edgeKey 1, edgeKey 5, edgeKey 4]
      ++ declAll (faceKey 1) [nodeKey 1, nodeKey 2, nodeKey 4]
      ++ declAll (faceKey 2) [edgeKey 2, edgeKey 6, edgeKey 5]
      ++ declAll (faceKey 2) [nodeKey 2, nodeKey 3, nodeKey 4]
      ++ declAll (faceKey 3) [edgeKey 3, edgeKey 6, edgeKey 4]
      ++ declAll (faceKey 3) [nodeKey 1, nodeKey 4, nodeKey 3]
      ++ declAll (faceKey 4) [edgeKey 3, edgeKey 2, edgeKey 1]
      ++ declAll (faceKey 4) [nodeKey 1, nodeKey 3, nodeKey 2]
      ++ declAll (edgeKey 1) [nodeKey 1, nodeKey 2] ++ declAll (edgeKey 2) [nodeKey 2, nodeKey 3]
      ++ declAll (edgeKey 3) [nodeKey 3, nodeKey 1] ++ declAll (edgeKey 4) [nodeKey 1, nodeKey 4]
      ++ declAll (edgeKey 5) [nodeKey 2, nodeKey 4] ++ declAll (edgeKey 6) [nodeKey 3, nodeKey 4] }

/-- The topology object of the one-tetrahedron mesh before
`graph_initialization`. -/
def tetTopology : topology :=
  { numDim := 3, nodeRank := 0, edgeRank := 1, faceRank := 2, elementRank := 3
    bulkData_ := tetInput, connectivity_temp := [] }

/-- Part of a trimmed 3D store around a face shared by two elements: the
elements 1 and 2, their common face 1 with its three segments, and one more
face of each element on segment 1. -/
def sharedFaceStore : BulkData :=
  { entities := [elemKey 1, elemKey 2, faceKey 1, faceKey 2, faceKey 3,
      edgeKey 1, edgeKey 2, edgeKey 3]
    relations := [⟨elemKey 1, faceKey 1, 0⟩, ⟨elemKey 1, faceKey 2, 1⟩,
      ⟨elemKey 2, faceKey 1, 0⟩, ⟨elemKey 2, faceKey 3, 1⟩,
      ⟨faceKey 1, edgeKey 1, 0⟩, ⟨faceKey 1, edgeKey 2, 1⟩, ⟨faceKey 1, edgeKey 3, 2⟩,
      ⟨faceKey 2, edgeKey 1, 0⟩, ⟨faceKey 3, edgeKey 1, 0⟩] }

/-- The subgraph of the star of segment 1 in `sharedFaceStore`: vertex 0 is the
segment, vertices 1 to 3 the faces, vertices 4 and 5 the elements. -/
def sharedFaceStar : Subgraph :=
  { bulkData_ := sharedFaceStore
    numDim_ := 3
    vertices := [(0, 1), (1, 2), (2, 2), (3, 2), (4, 3), (5, 3)]
    edges := [⟨1, 0, 0⟩, ⟨2, 0, 0⟩, ⟨3, 0, 0⟩, ⟨4, 1, 0⟩, ⟨4, 2, 1⟩, ⟨5, 1, 0⟩, ⟨5, 3, 1⟩]
    localGlobalVertexMap := [(0, edgeKey 1), (1, faceKey 1), (2, faceKey 2), (3, faceKey 3),
      (4, elemKey 1), (5, elemKey 2)]
    globalLocalVertexMap := [(edgeKey 1, 0), (faceKey 1, 1), (faceKey 2, 2), (faceKey 3, 3),
      (elemKey 1, 4), (elemKey 2, 5)] }

/-- The open map in which the shared face 1 and segment 1 are open. -/
def sharedFaceOpen : EntityOpenMap :=
  fun k => decide (k = faceKey 1) || decide (k = edgeKey 1)

/-- The open map with no open entity. -/
def noneOpen : EntityOpenMap := fun _ => false

/-- Part of a trimmed 2D store around a segment shared by two elements: the
elements 1 and 2, their common segment 1 and its two nodes. -/
def sharedSegmentStore : BulkData :=
  { entities := [⟨2, 1⟩, ⟨2, 2⟩, edgeKey 1, nodeKey 1, nodeKey 2]
    relations := [⟨⟨2, 1⟩, edgeKey 1, 0⟩, ⟨⟨2, 2⟩, edgeKey 1, 1⟩,
      ⟨edgeKey 1, nodeKey 1, 0⟩, ⟨edgeKey 1, nodeKey 2, 1⟩] }

/-- The subgraph of the star of segment 1 in `sharedSegmentStore`: vertex 0 is
the segment, vertices 1 and 2 are the elements. -/
def sharedSegmentStar : Subgraph :=
  { bulkData_ := sharedSegmentStore
    numDim_ := 2
    vertices := [(0, 1), (1, 2), (2, 2)]
    edges := [⟨1, 0, 0⟩, ⟨2, 0, 1⟩]
    localGlobalVertexMap := [(0, edgeKey 1), (1, ⟨2, 1⟩), (2, ⟨2, 2⟩)]
    globalLocalVertexMap := [(edgeKey 1, 0), (⟨2, 1⟩, 1), (⟨2, 2⟩, 2)] }

/-- The open map in which segment 1 and its nodes are open. -/
def sharedSegmentOpen : EntityOpenMap :=
  fun k => decide (k = edgeKey 1) || decide (k = nodeKey 1) || decide (k = nodeKey 2)

/-! ## The fracture criterion and the marking of open entities -/

/-- Embedding of `topology::fracture_criterion`. The argument `random` is the
value that `Teuchos::ScalarTraits<double>::random()` returns; the arithmetic
on it is exact. The rank is compared with the unsigned `numDim - 1`. -/
def topology.fracture_criterion (t : topology) (entity : EntityKey) (p random : ℚ) :
    Option Bool :=
  let rank := entity.rank
  if rank ≠ rankPred t.numDim then none
  else
    let relations := t.bulkData_.relations_rank entity t.elementRank
    if relations.length = 1 then some false
    else some (decide (1 / 2 + 1 / 2 * random < p))

/-- Innermost loop of `set_entities_open`: the nodes of the range are marked
open. -/
def mark_nodes (entity_open : EntityOpenMap) (nodes : List Relation) : EntityOpenMap :=
  nodes.foldl (fun eo node => eo.set node.entity true) entity_open

/-- Body of the loop of `set_entities_open` over the segments of an open face:
the segment and its nodes are marked open. -/
def mark_segment (b : BulkData) (entity_open : EntityOpenMap) (segment : Relation) :
    EntityOpenMap :=
  mark_nodes (entity_open.set segment.entity true)
    (b.relations_rank segment.entity (rankPred segment.entity.rank))

/-- What `set_entities_open` marks for a boundary entity that meets the
criterion. -/
def mark_open (t : topology) (entity_open : EntityOpenMap) (entity : EntityKey) :
    EntityOpenMap :=
  if t.numDim = 3 then
    (t.bulkData_.relations_rank entity (rankPred entity.rank)).foldl
      (mark_segment t.bulkData_) (entity_open.set entity true)
  else if t.numDim = 2 then
    mark_nodes (entity_open.set entity true)
      (t.bulkData_.relations_rank entity (rankPred entity.rank))
  else entity_open

/-- Body of the loop of `set_entities_open` over the boundary entities;
`random i` is the value the generator gives in iteration `i`. -/
def topology.open_step (t : topology) (random : Nat → ℚ) (entity_open : EntityOpenMap)
    (ie : Nat × EntityKey) : Option EntityOpenMap := do
  let is_open ← t.fracture_criterion ie.2 (1 / 2) (random ie.1)
  if is_open = true then pure (mark_open t entity_open ie.2) else pure entity_open

/-- Embedding of `topology::set_entities_open`. -/
def topology.set_entities_open (t : topology) (random : Nat → ℚ)
    (entity_open : EntityOpenMap) : Option EntityOpenMap :=
  let boundary_lst := get_entities t.bulkData_ (rankPred t.numDim)
  boundary_lst.enum.foldlM (t.open_step random) entity_open

/-- One step down the relation graph: `c` is shown by
`e.relations(rank(e) - 1)` and `e` is not a node. -/
def BulkData.childOf (b : BulkData) (e c : EntityKey) : Prop :=
  0 < e.rank ∧ ∃ i, (⟨c, i⟩ : Relation) ∈ b.relations_rank e (rankPred e.rank)

/-- One step up the relation graph: `p` is shown by
`c.relations(rank(c) + 1)`, with local id `i`. -/
def BulkData.parentOf (b : BulkData) (c p : EntityKey) : Prop :=
  ∃ i, (⟨p, i⟩ : Relation) ∈ b.relations_rank c (rankSucc c.rank)

/-- The upward closure: `x` is reached from `e` by climbing to parents. -/
def BulkData.UpReach (b : BulkData) (e x : EntityKey) : Prop :=
  Relation.ReflTransGen b.parentOf e x

/-- The invariants of a trimmed store: ranks are at most the dimension, stored
relations join existing entities of adjacent ranks, and an entity is related at
most once to another. -/
structure BulkData.Trimmed (b : BulkData) (numDim : Nat) : Prop where
  numDim_le : numDim ≤ 3
  ent_rank : ∀ e ∈ b.entities, e.rank ≤ numDim
  rel_ends : ∀ d ∈ b.relations, d.e_from ∈ b.entities ∧ d.e_to ∈ b.entities
  rel_rank : ∀ d ∈ b.relations, d.e_from.rank = d.e_to.rank + 1
  rel_nodup : b.relations.Nodup
  rel_fun : ∀ d ∈ b.relations, ∀ d' ∈ b.relations,
    d.e_from = d'.e_from → d.e_to = d'.e_to → d.local_id = d'.local_id

/-! ## Removal of a vertex and the index maps -/

/-- Embedding of `Subgraph::remove_vertex`. The descriptors of the other
vertices are kept; the relations of the entity are the range read before the
first one is destroyed. -/
def Subgraph.remove_vertex (g : Subgraph) (vertex : Nat) : Option Subgraph := do
  -- get the global entity key of vertex
  let key ← g.local_to_global vertex
  -- look up entity from key
  let entity ← g.bulkData_.get_entity key
  -- destroy all relations to or from the entity
  let relations := g.bulkData_.relations_of entity
  let b1 := relations.foldl
    (fun (acc : BulkData) r => acc.destroy_relation entity r.entity r.identifier) g.bulkData_
  -- remove the entity from stk mesh
  let deleted := b1.destroy_entity entity
  if deleted.2 = true then
    some { g with
      globalLocalVertexMap := g.globalLocalVertexMap.filter (fun p => decide (p.1 ≠ key))
      localGlobalVertexMap := g.localGlobalVertexMap.filter (fun p => decide (p.1 ≠ vertex))
      edges := g.edges.filter
        (fun e => !(decide (e.source = vertex) || decide (e.target = vertex)))
      vertices := g.vertices.filter (fun p => decide (p.1 ≠ vertex))
      bulkData_ := deleted.1 }
  else none

/-- The two index maps of a subgraph are inverse to each other and pair the
vertices of the subgraph with their keys: each map has one entry per key, the
entries of one map are the entries of the other turned around, the local
vertices that have an entry are the vertices of the graph, and each key is an
entity of the store. -/
structure Subgraph.IndexMaps (g : Subgraph) : Prop where
  vertex_nodup : (g.vertices.map Prod.fst).Nodup
  local_nodup : (g.localGlobalVertexMap.map Prod.fst).Nodup
  global_nodup : (g.globalLocalVertexMap.map Prod.fst).Nodup
  local_vertex : ∀ v ∈ g.localGlobalVertexMap.map Prod.fst, v ∈ g.vertices.map Prod.fst
  vertex_local : ∀ v ∈ g.vertices.map Prod.fst, v ∈ g.localGlobalVertexMap.map Prod.fst
  local_global : ∀ p ∈ g.localGlobalVertexMap, (p.2, p.1) ∈ g.globalLocalVertexMap
  global_local : ∀ p ∈ g.globalLocalVertexMap, (p.2, p.1) ∈ g.localGlobalVertexMap
  key_entity : ∀ p ∈ g.globalLocalVertexMap, p.1 ∈ g.bulkData_.entities

/-! ## Two quadrilaterals -/

/-- Key of the 2D element `i`. -/
def quadKey (i : Nat) : EntityKey := ⟨2, i⟩

/-- A 2D mesh of two quadrilaterals as read from file: element 1 on the nodes
1, 2, 5, 4 and element 2 on the nodes 2, 3, 6, 5. -/
def twoQuadInput : BulkData :=
  { entities := [quadKey 1, quadKey 2, nodeKey 1, nodeKey 2, nodeKey 3, nodeKey 4,
      nodeKey 5, nodeKey 6]
    relations := declAll (quadKey 1) [nodeKey 1, nodeKey 2, nodeKey 5, nodeKey 4]
      ++ declAll (quadKey 2) [nodeKey 2, nodeKey 3, nodeKey 6, nodeKey 5] }

/-- The two quadrilaterals with their seven segments and the full downward
adjacency; segment 2 joins the nodes 2 and 5 and is shared. -/
def twoQuadFull : BulkData :=
  { entities := twoQuadInput.entities ++ (List.range 7).map (fun i => edgeKey (i + 1))
    relations := twoQuadInput.relations
      ++ declAll (quadKey 1) [edgeKey 1, edgeKey 2, edgeKey 3, edgeKey 4]
      ++ declAll (quadKey 2) [edgeKey 5, edgeKey 6, edgeKey 7, edgeKey 2]
      ++ declAll (edgeKey 1) [nodeKey 1, nodeKey 2] ++ declAll (edgeKey 2) [nodeKey 2, nodeKey 5]
      ++ declAll (edgeKey 3) [nodeKey 5, nodeKey 4] ++ declAll (edgeKey 4) [nodeKey 4, nodeKey 1]
      ++ declAll (edgeKey 5) [nodeKey 2, nodeKey 3] ++ declAll (edgeKey 6) [nodeKey 3, nodeKey 6]
      ++ declAll (edgeKey 7) [nodeKey 6, nodeKey 5] }

/-- The topology object of the two quadrilaterals before
`graph_initialization`; in 2D the face rank of the mesh library is the element
rank. -/
def twoQuadTopology : topology :=
  { numDim := 2, nodeRank := 0, edgeRank := 1, faceRank := 2, elementRank := 2
    bulkData_ := twoQuadInput, connectivity_temp := [] }

/-- The open map of scenario S2: the shared segment and its two nodes. -/
def twoQuadOpen : EntityOpenMap :=
  fun k => decide (k = edgeKey 2) || decide (k = nodeKey 2) || decide (k = nodeKey 5)

/-- A 3D store that holds one face and no element. -/
def loneFaceTopology : topology :=
  { numDim := 3, nodeRank := 0, edgeRank := 1, faceRank := 2, elementRank := 3
    bulkData_ := { entities := [faceKey 1], relations := [] }, connectivity_temp := [] }

/-- The topology object over the store `sharedFaceStore`. -/
def sharedFaceTopology : topology :=
  { numDim := 3, nodeRank := 0, edgeRank := 1, faceRank := 2, elementRank := 3
    bulkData_ := sharedFaceStore, connectivity_temp := [] }

/-- Part of a trimmed 2D store around a node after the segment through it was
split: the elements 1 and 2, segment 1 of element 1 and segment 2 of element
2, and node 1 on both segments. -/
def splitNodeStore : BulkData :=
  { entities := [quadKey 1, quadKey 2, edgeKey 1, edgeKey 2, nodeKey 1]
    relations := [⟨quadKey 1, edgeKey 1, 0⟩, ⟨quadKey 2, edgeKey 2, 0⟩,
      ⟨edgeKey 1, nodeKey 1, 0⟩, ⟨edgeKey 2, nodeKey 1, 1⟩] }

/-- The subgraph of the star of node 1 in `splitNodeStore`: vertex 0 is the
node, vertices 1 and 2 the segments, vertices 3 and 4 the elements. -/
def splitNodeStar : Subgraph :=
  { bulkData_ := splitNodeStore
    numDim_ := 2
    vertices := [(0, 0), (1, 1), (2, 1), (3, 2), (4, 2)]
    edges := [⟨1, 0, 0⟩, ⟨2, 0, 1⟩, ⟨3, 1, 0⟩, ⟨4, 2, 0⟩]
    localGlobalVertexMap := [(0, nodeKey 1), (1, edgeKey 1), (2, edgeKey 2),
      (3, quadKey 1), (4, quadKey 2)]
    globalLocalVertexMap := [(nodeKey 1, 0), (edgeKey 1, 1), (edgeKey 2, 2),
      (quadKey 1, 3), (quadKey 2, 4)] }

/-- The open map in which only node 1 is open. -/
def nodeOneOpen : EntityOpenMap := fun k => decide (k = nodeKey 1)

/-- The stored relation that an edge of a star stands for. -/
def stkEdge.toDecl (d : stkEdge) : Decl := ⟨d.source, d.target, d.localId⟩

/-- Two vertices other than `v` are joined by an edge of the subgraph, in one
direction or the other. -/
def Subgraph.joined (g : Subgraph) (v x y : Nat) : Prop :=
  x ≠ v ∧ y ≠ v ∧
    ∃ e ∈ g.edges, (e.source = x ∧ e.target = y) ∨ (e.source = y ∧ e.target = x)

/-- The subgraph `g` is the star of the entity `v` in the store `b`: it is
well formed over `b`, its index maps are inverse to each other, its vertices
stand for the upward closure of `v`, and its edges for the stored relations
between them. -/
structure Subgraph.IsStar (g : Subgraph) (b : BulkData) (numDim : Nat) (v : EntityKey) :
    Prop where
  wf : g.WF
  maps : g.IndexMaps
  store : g.bulkData_ = b
  dim : g.numDim_ = numDim
  keys : ∀ k, (∃ u, g.local_to_global u = some k) ↔ b.UpReach v k
  edges : ∀ u w ku kw i, g.local_to_global u = some ku → g.local_to_global w = some kw →
    ((⟨u, w, i⟩ : Edge) ∈ g.edges ↔ (⟨ku, kw, i⟩ : Decl) ∈ b.relations)

/-- What is used of the order `EdgeLessThan` of the edge set of a star: it is
a strict order, and two edges that it does not separate have the same end
points. -/
structure EdgeOrder (less : stkEdge → stkEdge → Bool) : Prop where
  irrefl : ∀ x, less x x = false
  trans : ∀ x y z, less x y = true → less y z = true → less x z = true
  sep : ∀ x y, less x y = false → less y x = false →
    x.source = y.source ∧ x.target = y.target

/-- A mesh of a single element after `graph_initialization`: the store is
trimmed, the ranks are those of the mesh library in 2D or 3D, at most one
entity has the element rank, and every entity below the element rank is the
target of a stored relation. -/
structure topology.SingleElement (t : topology) : Prop where
  trimmed : t.bulkData_.Trimmed t.numDim
  dim : t.numDim = 2 ∨ t.numDim = 3
  node_rank : t.nodeRank = 0
  edge_rank : t.edgeRank = 1
  face_rank : t.faceRank = 2
  element_rank : t.elementRank = t.numDim
  one_element : ∀ x ∈ t.bulkData_.entities, ∀ y ∈ t.bulkData_.entities,
    x.rank = t.elementRank → y.rank = t.elementRank → x = y
  parents : ∀ x ∈ t.bulkData_.entities, x.rank < t.elementRank →
    ∃ d ∈ t.bulkData_.relations, d.e_to = x

/-- The one-tetrahedron mesh after `graph_initialization`. -/
def tetTrimmed : topology :=
  (graph_initialization (fun _ => tetFull) tetTopology).getD tetTopology

/-- The open map in which every entity is open. -/
def allOpen : EntityOpenMap := fun _ => true

/-! ## GraphViz output, open-set invariant, further meshes -/

/-- The colour that `topology::output_to_graphviz` gives to the arrow of a
relation: the `switch` on `relation_local_id[i]`. -/
def topology.relation_color (relation_local_id : Nat) : String :=
  match relation_local_id with
  | 0 => "6"
  | 1 => "4"
  | 2 => "2"
  | 3 => "8"
  | 4 => "10"
  | 5 => "12"
  | _ => "9"

/-- The colour that `Subgraph::output_to_graphviz` gives to the arrow of an
out-edge: the `switch` on `edgeId`. -/
def Subgraph.edge_color (edgeId : Nat) : String :=
  match edgeId with
  | 0 => "6"
  | 1 => "4"
  | 2 => "2"
  | 3 => "8"
  | 4 => "10"
  | 5 => "12"
  | _ => "9"

/-- The open-set invariant on a store: every open entity above the node rank
has all the entities one rank below it open (so an open face has its edges
open, and through them its nodes; an open edge has its nodes open). -/
def open_closed (b : BulkData) (entity_open : EntityOpenMap) : Bool :=
  b.entities.all (fun e =>
    !(entity_open e) || decide (e.rank = 0) ||
      (b.relations_rank e (rankPred e.rank)).all (fun r => entity_open r.entity))

/-- An open map on the two quadrilaterals: the shared segment 2 with its nodes
2 and 5, and the boundary segment 1 with its nodes 1 and 2. -/
def twoQuadBoundaryOpen : EntityOpenMap :=
  fun k => decide (k = edgeKey 2) || decide (k = edgeKey 1) || decide (k = nodeKey 1) ||
    decide (k = nodeKey 2) || decide (k = nodeKey 5)

/-- Key of the triangle `i` of the fan mesh. -/
def triKey (i : Nat) : EntityKey := ⟨2, i⟩

/-- A 2D fan of four triangles around node 5 as read from file: triangle `i` on
the rim nodes `i`, `i + 1` (cyclically) and the centre 5. -/
def fanInput : BulkData :=
  { entities := [triKey 1, triKey 2, triKey 3, triKey 4, nodeKey 1, nodeKey 2, nodeKey 3,
      nodeKey 4, nodeKey 5]
    relations := declAll (triKey 1) [nodeKey 1, nodeKey 2, nodeKey 5]
      ++ declAll (triKey 2) [nodeKey 2, nodeKey 3, nodeKey 5]
      ++ declAll (triKey 3) [nodeKey 3, nodeKey 4, nodeKey 5]
      ++ declAll (triKey 4) [nodeKey 4, nodeKey 1, nodeKey 5] }

/-- The fan with its eight segments (1 to 4 on the rim, 5 to 8 the spokes from
the nodes 1 to 4 to the centre) and the full downward adjacency. -/
def fanFull : BulkData :=
  { entities := fanInput.entities ++ (List.range 8).map (fun i => edgeKey (i + 1))
    relations := fanInput.relations
      ++ declAll (triKey 1) [edgeKey 1, edgeKey 6, edgeKey 5]
      ++ declAll (triKey 2) [edgeKey 2, edgeKey 7, edgeKey 6]
      ++ declAll (triKey 3) [edgeKey 3, edgeKey 8, edgeKey 7]
      ++ declAll (triKey 4) [edgeKey 4, edgeKey 5, edgeKey 8]
      ++ declAll (edgeKey 1) [nodeKey 1, nodeKey 2] ++ declAll (edgeKey 2) [nodeKey 2, nodeKey 3]
      ++ declAll (edgeKey 3) [nodeKey 3, nodeKey 4] ++ declAll (edgeKey 4) [nodeKey 4, nodeKey 1]
      ++ declAll (edgeKey 5) [nodeKey 1, nodeKey 5] ++ declAll (edgeKey 6) [nodeKey 2, nodeKey 5]
      ++ declAll (edgeKey 7) [nodeKey 3, nodeKey 5] ++ declAll (edgeKey 8) [nodeKey 4, nodeKey 5] }

/-- The topology object of the fan before `graph_initialization`. -/
def fanTopology : topology :=
  { numDim := 2, nodeRank := 0, edgeRank := 1, faceRank := 2, elementRank := 2
    bulkData_ := fanInput, connectivity_temp := [] }

/-- The connectivity cache of the fan: four records of three nodes. -/
def fanConnectivity : List (List EntityKey) :=
  [[nodeKey 1, nodeKey 2, nodeKey 5], [nodeKey 2, nodeKey 3, nodeKey 5],
    [nodeKey 3, nodeKey 4, nodeKey 5], [nodeKey 4, nodeKey 1, nodeKey 5]]

/-- The two quadrilaterals after `graph_initialization`. -/
def twoQuadTrimmed : topology :=
  (graph_initialization (fun _ => twoQuadFull) twoQuadTopology).getD twoQuadTopology

/-- What the sweep of `connected_components` keeps true of the labels given so
far on the graph with vertices below `n` and edges `es`: labels are below the
count and given to vertices of the graph, a neighbour of a labelled vertex has
the same label, every label below the count is in use, and two vertices with
the same label are joined by a path. -/
def LabelsSound (es : List (Nat × Nat)) (n : Nat) (labels : List (Nat × Nat))
    (count : Nat) : Prop :=
  (∀ u c, labels.lookup u = some c → c < count ∧ u < n) ∧
  (∀ u c, labels.lookup u = some c → ∀ w ∈ uneighbours es u, labels.lookup w = some c) ∧
  (∀ c, c < count → ∃ u, labels.lookup u = some c) ∧
  (∀ u w c, labels.lookup u = some c → labels.lookup w = some c →
    Relation.ReflTransGen (fun x y => y ∈ uneighbours es x) u w)


/-! ## Facts about the entity store -/

theorem mem_destroy_relation {b : BulkData} {x y : EntityKey} {i : Nat} {d : Decl} :
    d ∈ (b.destroy_relation x y i).relations ↔ d ∈ b.relations ∧ d ≠ ⟨x, y, i⟩ := by
  simp [BulkData.destroy_relation, List.mem_filter]

theorem mem_relations_of {b : BulkData} {e : EntityKey} {r : Relation} :
    r ∈ b.relations_of e ↔ ∃ d ∈ b.relations, Decl.seenFrom e d = some r := by
  unfold BulkData.relations_of
  rw [(List.perm_insertionSort _ _).mem_iff, List.mem_filterMap]

theorem mem_get_entities {b : BulkData} {rank : Nat} {e : EntityKey} :
    e ∈ get_entities b rank ↔ e ∈ b.entities ∧ e.rank = rank := by
  unfold get_entities
  rw [(List.perm_insertionSort _ _).mem_iff, List.mem_filter]
  simp

theorem mem_destroy_fold (e : EntityKey) (del : List Relation) (b : BulkData) (d : Decl) :
    d ∈ (del.foldl (fun acc j => acc.destroy_relation e j.entity j.identifier) b).relations ↔
      d ∈ b.relations ∧ ∀ j ∈ del, d ≠ ⟨e, j.entity, j.identifier⟩ := by
  induction del generalizing b with
  | nil => simp
  | cons j js ih =>
    rw [List.foldl_cons, ih, mem_destroy_relation]
    simp only [List.mem_cons, forall_eq_or_imp]
    tauto

theorem entities_destroy_fold (e : EntityKey) (del : List Relation) (b : BulkData) :
    (del.foldl (fun acc j => acc.destroy_relation e j.entity j.identifier) b).entities =
      b.entities := by
  induction del generalizing b with
  | nil => rfl
  | cons j js ih => rw [List.foldl_cons, ih]; rfl

theorem mem_remove_selected {b : BulkData} {e : EntityKey} {extra : Relation → Bool}
    {d : Decl} :
    d ∈ (remove_selected b e extra).relations ↔
      d ∈ b.relations ∧
        ∀ j ∈ b.relations_of e, extra j = true → d ≠ ⟨e, j.entity, j.identifier⟩ := by
  unfold remove_selected
  rw [mem_destroy_fold]
  simp only [List.mem_filter, and_imp]

theorem entities_remove_selected (b : BulkData) (e : EntityKey) (extra : Relation → Bool) :
    (remove_selected b e extra).entities = b.entities := by
  unfold remove_selected
  exact entities_destroy_fold _ _ _

/-- A relation out of `e` that survives `remove_selected` is not selected. -/
theorem remove_selected_out {b : BulkData} {e : EntityKey} {extra : Relation → Bool}
    {d : Decl} (hd : d ∈ (remove_selected b e extra).relations) (he : d.e_from = e) :
    extra ⟨d.e_to, d.local_id⟩ = false := by
  rw [mem_remove_selected] at hd
  by_contra hx
  have hx' : extra ⟨d.e_to, d.local_id⟩ = true := by simpa using hx
  have hm : (⟨d.e_to, d.local_id⟩ : Relation) ∈ b.relations_of e := by
    rw [mem_relations_of]
    exact ⟨d, hd.1, by simp [Decl.seenFrom, he]⟩
  have := hd.2 _ hm hx'
  apply this
  cases d
  simp_all

theorem remove_selected_fold (extra : Relation → Bool) (l : List EntityKey) (b : BulkData) :
    let b' := l.foldl (fun acc e => remove_selected acc e extra) b
    b'.entities = b.entities ∧
    (∀ d ∈ b'.relations, d ∈ b.relations) ∧
    (∀ d ∈ b'.relations, d.e_from ∈ l → extra ⟨d.e_to, d.local_id⟩ = false) := by
  induction l generalizing b with
  | nil => simp
  | cons e es ih =>
    obtain ⟨h1, h2, h3⟩ := ih (remove_selected b e extra)
    refine ⟨?_, ?_, ?_⟩
    · rw [List.foldl_cons]
      exact h1.trans (entities_remove_selected _ _ _)
    · intro d hd
      exact (mem_remove_selected.mp (h2 d hd)).1
    · intro d hd hmem
      rcases List.mem_cons.mp hmem with he | he
      · exact remove_selected_out (h2 d hd) he
      · exact h3 d hd he



theorem remove_extra_relations_spec (t : topology)
    (hdim : t.elementRank = 2 ∨ t.elementRank = 3)
    (hwf : ∀ d ∈ t.bulkData_.relations,
      d.e_to.rank < d.e_from.rank ∧ d.e_from.rank ≤ t.elementRank ∧
        d.e_from ∈ t.bulkData_.entities)
    (hface : t.elementRank = 3 → ∃ f ∈ t.bulkData_.entities, f.rank = 2) :
    ∃ t', remove_extra_relations t = some t' ∧
      t'.connectivity_temp = t.connectivity_temp ∧
      ∀ d ∈ t'.bulkData_.relations,
        d ∈ t.bulkData_.relations ∧ d.e_from.rank = d.e_to.rank + 1 := by
  obtain ⟨hE1, hS1, hX1⟩ := remove_selected_fold
    (fun j => decide (j.entity_rank ≠ rankPred t.elementRank))
    (get_entities t.bulkData_ t.elementRank) t.bulkData_
  have hdef : remove_extra_relations t =
      (let b1 := List.foldl (fun acc e => remove_selected acc e
        (fun j => decide (j.entity_rank ≠ rankPred t.elementRank))) t.bulkData_
        (get_entities t.bulkData_ t.elementRank)
      if t.elementRank = 3 then
        match get_entities b1 (rankPred t.elementRank) with
        | [] => none
        | f0 :: fs =>
          some { t with bulkData_ := (f0 :: fs).foldl (fun b face =>
            remove_selected b face (fun j =>
              decide (j.entity_rank ≠ rankSucc f0.rank) &&
              decide (j.entity_rank ≠ rankPred f0.rank))) b1 }
      else some { t with bulkData_ := b1 }) := by
    unfold remove_extra_relations
    simp only
    split
    · split <;> simp_all
    · rfl
  rw [hdef]
  dsimp only
  generalize List.foldl (fun acc e => remove_selected acc e
        (fun j => decide (j.entity_rank ≠ rankPred t.elementRank))) t.bulkData_
        (get_entities t.bulkData_ t.elementRank) = b1 at hE1 hS1 hX1 ⊢
  -- relations out of an element that survive the first loop
  have helem : ∀ d ∈ b1.relations,
      d.e_from.rank = t.elementRank → d.e_to.rank = rankPred t.elementRank := by
    intro d hd hr
    have hm : d.e_from ∈ get_entities t.bulkData_ t.elementRank :=
      mem_get_entities.mpr ⟨(hwf d (hS1 d hd)).2.2, hr⟩
    have := hX1 d hd hm
    simpa [Relation.entity_rank] using this
  have hp3 : rankPred 3 = 2 := by norm_num [rankPred]
  have hs2 : rankSucc 2 = 3 := by norm_num [rankSucc]
  have hp2 : rankPred 2 = 1 := by norm_num [rankPred]
  rcases hdim with h2 | h3
  · have hne : ¬ t.elementRank = 3 := by omega
    refine ⟨{ t with bulkData_ := b1 }, ?_, rfl, ?_⟩
    · simp only [hne, if_false]
    intro d hd
    obtain ⟨hlt, hle, -⟩ := hwf d (hS1 d hd)
    refine ⟨hS1 d hd, ?_⟩
    have hp := helem d hd
    rw [h2] at hp hle
    rw [hp2] at hp
    by_cases hr : d.e_from.rank = 2
    · rw [hp hr, hr]
    · omega
  · obtain ⟨f, hf, hfr⟩ := hface h3
    have hfm : f ∈ get_entities b1 (rankPred t.elementRank) := by
      rw [mem_get_entities, hE1, h3, hp3]
      exact ⟨hf, hfr⟩
    cases hfl : get_entities b1 (rankPred t.elementRank) with
    | nil => rw [hfl] at hfm; cases hfm
    | cons f0 fs =>
      have hf0 : f0.rank = 2 := by
        have : f0 ∈ get_entities b1 (rankPred t.elementRank) := by
          rw [hfl]; exact List.mem_cons_self _ _
        have := (mem_get_entities.mp this).2
        rw [h3, hp3] at this
        exact this
      obtain ⟨hE2, hS2, hX2⟩ := remove_selected_fold
        (fun j => decide (j.entity_rank ≠ rankSucc f0.rank) &&
          decide (j.entity_rank ≠ rankPred f0.rank))
        (f0 :: fs) b1
      refine ⟨{ t with bulkData_ := (f0 :: fs).foldl (fun b face =>
            remove_selected b face (fun j =>
              decide (j.entity_rank ≠ rankSucc f0.rank) &&
              decide (j.entity_rank ≠ rankPred f0.rank))) b1 }, ?_, rfl, ?_⟩
      · rw [if_pos h3]
      intro d hd
      have hd1 := hS2 d hd
      obtain ⟨hlt, hle, hent⟩ := hwf d (hS1 d hd1)
      refine ⟨hS1 d hd1, ?_⟩
      have hp := helem d hd1
      rw [h3, hp3] at hp
      rw [h3] at hle
      by_cases hr3 : d.e_from.rank = 3
      · rw [hp hr3, hr3]
      by_cases hr2 : d.e_from.rank = 2
      · have hm : d.e_from ∈ f0 :: fs := by
          rw [← hfl, mem_get_entities, hE1, h3, hp3]
          exact ⟨hent, hr2⟩
        have hx := hX2 d hd hm
        rw [hf0, hs2, hp2] at hx
        simp only [Relation.entity_rank, ne_eq, Bool.and_eq_false_imp,
          decide_eq_true_eq, decide_eq_false_iff_not, not_not] at hx
        by_cases h3' : d.e_to.rank = 3
        · omega
        · rw [hx h3', hr2]
      · omega


/-! ## Claims about the relation-graph builder and teardown -/

/-- C1: on a 2D or 3D mesh (element rank 2 or 3) whose store, after
`create_adjacent_entities`, relates entities of the mesh from a higher to a
lower rank (with at least one face in 3D), `graph_initialization` returns and
every relation that remains in the store joins two entities whose ranks differ
by exactly 1. -/
theorem graph_initialization_adjacent_ranks
    (create_adjacent_entities : BulkData → BulkData) (t : topology)
    (hdim : t.elementRank = 2 ∨ t.elementRank = 3)
    (hwf : ∀ d ∈ (create_adjacent_entities t.bulkData_).relations,
      d.e_to.rank < d.e_from.rank ∧ d.e_from.rank ≤ t.elementRank ∧
        d.e_from ∈ (create_adjacent_entities t.bulkData_).entities)
    (hface : t.elementRank = 3 →
      ∃ f ∈ (create_adjacent_entities t.bulkData_).entities, f.rank = 2) :
    ∃ t', graph_initialization create_adjacent_entities t = some t' ∧
      ∀ d ∈ t'.bulkData_.relations, d.e_from.rank = d.e_to.rank + 1 := by
  obtain ⟨t', h1, -, h3⟩ := remove_extra_relations_spec
    { t with
      bulkData_ := create_adjacent_entities t.bulkData_
      connectivity_temp := t.connectivity_temp ++
        (get_entities (create_adjacent_entities t.bulkData_) t.elementRank).map
          (fun element =>
            ((create_adjacent_entities t.bulkData_).relations_rank element t.nodeRank).map
              (fun r => r.entity)) }
    hdim hwf hface
  exact ⟨t', h1, fun d hd => (h3 d hd).2⟩

/-- Witness for C1: the mesh of one tetrahedron with its full adjacency. -/
theorem graph_initialization_adjacent_ranks_witness :
    (tetTopology.elementRank = 2 ∨ tetTopology.elementRank = 3) ∧
    (∀ d ∈ tetFull.relations,
      d.e_to.rank < d.e_from.rank ∧ d.e_from.rank ≤ tetTopology.elementRank ∧
        d.e_from ∈ tetFull.entities) ∧
    ∃ t', graph_initialization (fun _ => tetFull) tetTopology = some t' ∧
      ∀ d ∈ t'.bulkData_.relations, d.e_from.rank = d.e_to.rank + 1 :=
  ⟨by decide, by decide,
    graph_initialization_adjacent_ranks (fun _ => tetFull) tetTopology (by decide)
      (by decide) (by decide)⟩

/-- C2, at the failing input: `graph_cleanup` on the one-tetrahedron mesh, right
after `graph_initialization`. The cache records four nodes for the element,
the inner loop runs to the number of cache records (one), and the element ends
up related to node 1 only. -/
theorem graph_cleanup_tet_drops_nodes :
    ((graph_initialization (fun _ => tetFull) tetTopology).bind graph_cleanup).map
        (fun t => (t.connectivity_temp, t.bulkData_.relations,
          (t.bulkData_.relations_rank (elemKey 1) t.nodeRank).map (fun r => r.entity))) =
      some ([[nodeKey 1, nodeKey 2, nodeKey 3, nodeKey 4]],
        [⟨elemKey 1, nodeKey 1, 0⟩], [nodeKey 1]) := by
  decide

/-- C3, at the failing input: the one-tetrahedron mesh with no entity open goes
through `graph_initialization`, `fracture_boundary` and `graph_cleanup`. No
entity is created, but the element, related to nodes 1 to 4 with ordinals 0 to
3 in the input mesh, comes out related to node 1 only. -/
theorem round_trip_tet_drops_nodes :
    tetInput.relations_rank (elemKey 1) 0 =
      [⟨nodeKey 1, 0⟩, ⟨nodeKey 2, 1⟩, ⟨nodeKey 3, 2⟩, ⟨nodeKey 4, 3⟩] ∧
    (((graph_initialization (fun _ => tetFull) tetTopology).bind
        (fun t => fracture_boundary edgeLessSourceTarget t noneOpen)).bind
        (fun r => graph_cleanup r.1)).map
        (fun t => (t.bulkData_.entities, t.bulkData_.relations_rank (elemKey 1) t.nodeRank)) =
      some (tetInput.entities, [⟨nodeKey 1, 0⟩]) := by
  decide

/-! ## Facts about descriptors, keys and the index map -/

theorem newDescriptor_gt (vs : List (Nat × Nat)) : ∀ v ∈ vs, v.1 < newDescriptor vs := by
  induction vs with
  | nil => simp
  | cons a as ih =>
    intro v hv
    simp only [newDescriptor]
    rcases List.mem_cons.mp hv with rfl | h
    · omega
    · have := ih v h
      omega

theorem newDescriptor_not_mem (vs : List (Nat × Nat)) :
    newDescriptor vs ∉ vs.map Prod.fst := by
  intro h
  obtain ⟨v, hv, he⟩ := List.mem_map.mp h
  have := newDescriptor_gt vs v hv
  omega

theorem maxId_ge (es : List EntityKey) : ∀ e ∈ es, e.id ≤ maxId es := by
  induction es with
  | nil => simp
  | cons a as ih =>
    intro e he
    simp only [maxId]
    rcases List.mem_cons.mp he with rfl | h
    · omega
    · have := ih e h
      omega

theorem new_key_not_mem (es : List EntityKey) (r : Nat) :
    (⟨r, maxId es + 1⟩ : EntityKey) ∉ es := by
  intro h
  have := maxId_ge es _ h
  simp at this

theorem lookup_mem {α β : Type} [BEq α] [LawfulBEq α] {l : List (α × β)} {k : α} {b : β}
    (h : l.lookup k = some b) : (k, b) ∈ l := by
  obtain ⟨l1, l2, rfl, -⟩ := List.lookup_eq_some_iff.mp h
  simp

theorem lookup_of_mem_nodup {α β : Type} [BEq α] [LawfulBEq α] {l : List (α × β)} {k : α}
    {b : β} (hn : (l.map Prod.fst).Nodup) (h : (k, b) ∈ l) : l.lookup k = some b := by
  induction l with
  | nil => cases h
  | cons p ps ih =>
    obtain ⟨k', b'⟩ := p
    rw [List.map_cons, List.nodup_cons] at hn
    rcases List.mem_cons.mp h with he | hm
    · cases he
      simp
    · have hne : k ≠ k' := by
        rintro rfl
        exact hn.1 (List.mem_map.mpr ⟨(k, b), hm, rfl⟩)
      rw [List.lookup_cons]
      have : (k == k') = false := by simpa using hne
      rw [this]
      exact ih hn.2 hm

theorem lookup_of_mem_nodup_first {β : Type} {l : List (Nat × β)} {k : Nat} {b : β}
    (h : (k, b) ∈ l) : (l.lookup k).isSome := by
  rw [List.lookup_isSome_iff]
  exact ⟨(k, b), h, by simp⟩

theorem lookup_none_of_not_mem {α β : Type} [BEq α] [LawfulBEq α] {l : List (α × β)} {k : α}
    (h : k ∉ l.map Prod.fst) : l.lookup k = none := by
  rw [List.lookup_eq_none_iff]
  intro p hp
  have : k ≠ p.1 := by
    rintro rfl
    exact h (List.mem_map.mpr ⟨p, hp, rfl⟩)
  simpa using this

theorem Subgraph.WF.l2g_vertex {g : Subgraph} (h : g.WF) {u : Nat} {k : EntityKey}
    (hk : g.local_to_global u = some k) : u ∈ g.vertices.map Prod.fst :=
  h.map_keys _ (lookup_mem hk)

theorem Subgraph.WF.l2g_entity {g : Subgraph} (h : g.WF) {u : Nat} {k : EntityKey}
    (hk : g.local_to_global u = some k) : k ∈ g.bulkData_.entities :=
  h.map_vals _ (lookup_mem hk)

theorem Subgraph.WF.l2g_inj {g : Subgraph} (h : g.WF) {u w : Nat} {k : EntityKey}
    (hu : g.local_to_global u = some k) (hw : g.local_to_global w = some k) : u = w := by
  have := List.inj_on_of_nodup_map h.map_inj (lookup_mem hu) (lookup_mem hw) rfl
  exact congrArg Prod.fst this

theorem Subgraph.WF.vertex_l2g {g : Subgraph} (h : g.WF) {u : Nat}
    (hu : u ∈ g.vertices.map Prod.fst) :
    ∃ k, g.local_to_global u = some k ∧ k ∈ g.bulkData_.entities ∧
      g.get_vertex_rank u = some k.rank ∧ k.rank ≤ g.numDim_ := by
  obtain ⟨v, hv, rfl⟩ := List.mem_map.mp hu
  have hk := h.vertex_key v hv
  cases hl : g.local_to_global v.1 with
  | none => rw [hl] at hk; cases hk
  | some k =>
    rw [hl] at hk
    simp only [Option.map_some', Option.some.injEq] at hk
    refine ⟨k, rfl, h.l2g_entity hl, ?_, ?_⟩
    · unfold Subgraph.get_vertex_rank
      rw [hk]
      exact lookup_of_mem_nodup h.vertex_nodup hv
    · rw [hk]
      exact h.vertex_rank v hv

theorem Subgraph.WF.mirror_rel {g : Subgraph} (h : g.WF) {e : Edge} (he : e ∈ g.edges) :
    ∃ ks kt, g.local_to_global e.source = some ks ∧ g.local_to_global e.target = some kt ∧
      (⟨ks, kt, e.edge_id⟩ : Decl) ∈ g.bulkData_.relations := by
  have hm := h.mirror e he
  unfold Subgraph.mirrored at hm
  cases hs : g.local_to_global e.source with
  | none => rw [hs] at hm; simp at hm
  | some ks =>
    cases ht : g.local_to_global e.target with
    | none => rw [hs, ht] at hm; simp at hm
    | some kt =>
      rw [hs, ht] at hm
      exact ⟨ks, kt, rfl, rfl, by simpa using hm⟩

theorem Subgraph.WF.edge_ne {g : Subgraph} (h : g.WF) {e : Edge} (he : e ∈ g.edges) :
    e.source ≠ e.target := by
  obtain ⟨ks, kt, hs, ht, hr⟩ := h.mirror_rel he
  intro heq
  rw [heq, ht] at hs
  cases hs
  have := h.rel_rank _ hr
  simp at this

theorem mirrored_of_rel {g : Subgraph} {e : Edge} {ks kt : EntityKey}
    (hs : g.local_to_global e.source = some ks) (ht : g.local_to_global e.target = some kt)
    (hr : (⟨ks, kt, e.edge_id⟩ : Decl) ∈ g.bulkData_.relations) : g.mirrored e = true := by
  unfold Subgraph.mirrored
  rw [hs, ht]
  simpa using hr

/-! ## The mutating primitives on a well-formed subgraph -/

/-- Effect of `add_vertex` on a well-formed subgraph: a fresh vertex with a
fresh entity of the requested rank; edges and relations are untouched. -/
theorem add_vertex_spec {g : Subgraph} (hwf : g.WF) {r : Nat} (hr : r ≤ g.numDim_) :
    ∃ g', g.add_vertex r = some (g', newDescriptor g.vertices) ∧ g'.WF ∧
      g'.numDim_ = g.numDim_ ∧ g'.edges = g.edges ∧
      g'.bulkData_.relations = g.bulkData_.relations ∧
      g'.bulkData_.entities =
        g.bulkData_.entities ++ [⟨r, maxId g.bulkData_.entities + 1⟩] ∧
      g'.vertices = g.vertices ++ [(newDescriptor g.vertices, r)] ∧
      g'.local_to_global (newDescriptor g.vertices) =
        some ⟨r, maxId g.bulkData_.entities + 1⟩ ∧
      (∀ u k, g.local_to_global u = some k → g'.local_to_global u = some k) := by
  have hfresh := newDescriptor_not_mem g.vertices
  have hkey := new_key_not_mem g.bulkData_.entities r
  have hnone : g.localGlobalVertexMap.lookup (newDescriptor g.vertices) = none := by
    apply lookup_none_of_not_mem
    intro h
    obtain ⟨p, hp, he⟩ := List.mem_map.mp h
    exact hfresh (he ▸ hwf.map_keys p hp)
  have hdef : g.add_vertex r = some
      ({ g with
        bulkData_ := { entities := g.bulkData_.entities ++ [⟨r, maxId g.bulkData_.entities + 1⟩],
                       relations := g.bulkData_.relations }
        vertices := g.vertices ++ [(newDescriptor g.vertices, r)]
        localGlobalVertexMap :=
          g.localGlobalVertexMap ++
            [(newDescriptor g.vertices, ⟨r, maxId g.bulkData_.entities + 1⟩)]
        globalLocalVertexMap :=
          mapInsert g.globalLocalVertexMap ⟨r, maxId g.bulkData_.entities + 1⟩
            (newDescriptor g.vertices) }, newDescriptor g.vertices) := by
    unfold Subgraph.add_vertex
    rw [if_pos hr]
    simp only [BulkData.generate_new_entity, mapInsert, hnone]
    rfl
  have hmono : ∀ u k, g.local_to_global u = some k →
      (g.localGlobalVertexMap ++
        [(newDescriptor g.vertices, (⟨r, maxId g.bulkData_.entities + 1⟩ : EntityKey))]).lookup u
        = some k := by
    intro u k hk
    unfold Subgraph.local_to_global at hk
    rw [List.lookup_append, hk]
    rfl
  have hnew : (g.localGlobalVertexMap ++
        [(newDescriptor g.vertices, (⟨r, maxId g.bulkData_.entities + 1⟩ : EntityKey))]).lookup
        (newDescriptor g.vertices) = some ⟨r, maxId g.bulkData_.entities + 1⟩ := by
    rw [List.lookup_append, hnone]
    simp
  refine ⟨_, hdef, ?_, rfl, rfl, rfl, rfl, rfl, hnew, hmono⟩
  refine
    { numDim_le := hwf.numDim_le
      vertex_nodup := ?_
      vertex_rank := ?_
      vertex_key := ?_
      map_keys := ?_
      map_vals := ?_
      map_inj := ?_
      edge_ends := ?_
      edge_nodup := hwf.edge_nodup
      mirror := ?_
      ent_rank := ?_
      rel_ends := ?_
      rel_rank := hwf.rel_rank
      rel_nodup := hwf.rel_nodup
      rel_fun := hwf.rel_fun }
  · show ((g.vertices ++ [(newDescriptor g.vertices, r)]).map Prod.fst).Nodup
    rw [List.map_append, List.nodup_append]
    refine ⟨hwf.vertex_nodup, by simp, ?_⟩
    intro a ha hb
    simp only [List.map_cons, List.map_nil, List.mem_singleton] at hb
    exact hfresh (hb ▸ ha)
  · intro v hv
    rcases List.mem_append.mp hv with h | h
    · exact hwf.vertex_rank v h
    · simp only [List.mem_singleton] at h
      rw [h]
      exact hr
  · intro v hv
    show Option.map _ (List.lookup v.1 _) = _
    rcases List.mem_append.mp hv with h | h
    · obtain ⟨k, hk, -, -, -⟩ := hwf.vertex_l2g (List.mem_map.mpr ⟨v, h, rfl⟩)
      rw [hmono _ _ hk]
      have := hwf.vertex_key v h
      rw [hk] at this
      exact this
    · simp only [List.mem_singleton] at h
      rw [h, hnew]
      rfl
  · intro p hp
    show p.1 ∈ (g.vertices ++ [(newDescriptor g.vertices, r)]).map Prod.fst
    rw [List.map_append, List.mem_append]
    rcases List.mem_append.mp hp with h | h
    · exact Or.inl (hwf.map_keys p h)
    · simp only [List.mem_singleton] at h
      right
      rw [h]
      simp
  · intro p hp
    show p.2 ∈ g.bulkData_.entities ++ [_]
    rw [List.mem_append]
    rcases List.mem_append.mp hp with h | h
    · exact Or.inl (hwf.map_vals p h)
    · simp only [List.mem_singleton] at h
      right
      rw [h]
      simp
  · show ((g.localGlobalVertexMap ++ [_]).map Prod.snd).Nodup
    rw [List.map_append, List.nodup_append]
    refine ⟨hwf.map_inj, by simp, ?_⟩
    intro a ha hb
    simp only [List.map_cons, List.map_nil, List.mem_singleton] at hb
    obtain ⟨p, hp, he⟩ := List.mem_map.mp ha
    exact hkey (hb ▸ he ▸ hwf.map_vals p hp)
  · intro e he
    show e.source ∈ (g.vertices ++ [_]).map Prod.fst ∧ e.target ∈ (g.vertices ++ [_]).map Prod.fst
    rw [List.map_append, List.mem_append, List.mem_append]
    exact ⟨Or.inl (hwf.edge_ends e he).1, Or.inl (hwf.edge_ends e he).2⟩
  · intro e he
    obtain ⟨ks, kt, hs, ht, hrel⟩ := hwf.mirror_rel he
    exact mirrored_of_rel (hmono _ _ hs) (hmono _ _ ht) hrel
  · intro e he
    rcases List.mem_append.mp he with h | h
    · exact hwf.ent_rank e h
    · simp only [List.mem_singleton] at h
      rw [h]
      exact hr
  · intro d hd
    show d.e_from ∈ g.bulkData_.entities ++ [_] ∧ d.e_to ∈ g.bulkData_.entities ++ [_]
    rw [List.mem_append, List.mem_append]
    exact ⟨Or.inl (hwf.rel_ends d hd).1, Or.inl (hwf.rel_ends d hd).2⟩

theorem mem_declare_relation {b : BulkData} {x y : EntityKey} {i : Nat} {d : Decl} :
    d ∈ (b.declare_relation x y i).relations ↔ d ∈ b.relations ∨ d = ⟨x, y, i⟩ := by
  unfold BulkData.declare_relation
  split
  · constructor
    · exact Or.inl
    · rintro (h | rfl)
      · exact h
      · assumption
  · simp

theorem entities_declare_relation (b : BulkData) (x y : EntityKey) (i : Nat) :
    (b.declare_relation x y i).entities = b.entities := by
  unfold BulkData.declare_relation
  split <;> rfl

theorem nodup_declare_relation {b : BulkData} (x y : EntityKey) (i : Nat)
    (h : b.relations.Nodup) : (b.declare_relation x y i).relations.Nodup := by
  unfold BulkData.declare_relation
  split
  · exact h
  · rename_i hn
    show (b.relations ++ [_]).Nodup
    rw [List.nodup_append]
    refine ⟨h, by simp, ?_⟩
    intro a ha hb
    simp only [List.mem_singleton] at hb
    exact hn (hb ▸ ha)

theorem edge_eq_none_iff {g : Subgraph} {u v : Nat} :
    g.edge u v = none ↔ ∀ e ∈ g.edges, ¬ (e.source = u ∧ e.target = v) := by
  unfold Subgraph.edge
  rw [List.find?_eq_none]
  simp

/-- Effect of `add_edge` for a pair of vertices without an edge, on a
well-formed subgraph. -/
theorem add_edge_spec {g : Subgraph} (hwf : g.WF) (id : Nat) {s t : Nat} (ks kt : EntityKey)
    (hs : g.local_to_global s = some ks) (ht : g.local_to_global t = some kt)
    (hfree : g.edge s t = none) (hrank : ks.rank = kt.rank + 1)
    (hfun : ∀ d ∈ g.bulkData_.relations, d.e_from = ks → d.e_to = kt → d.local_id = id) :
    ∃ g', g.add_edge id s t = some (g', true) ∧ g'.WF ∧
      g'.edges = g.edges ++ [⟨s, t, id⟩] ∧
      g'.bulkData_ = g.bulkData_.declare_relation ks kt id ∧
      g'.vertices = g.vertices ∧ g'.numDim_ = g.numDim_ ∧
      g'.localGlobalVertexMap = g.localGlobalVertexMap := by
  have hes : ks ∈ g.bulkData_.entities := hwf.l2g_entity hs
  have het : kt ∈ g.bulkData_.entities := hwf.l2g_entity ht
  have hdef : g.add_edge id s t = some
      ({ g with
        bulkData_ := g.bulkData_.declare_relation ks kt id
        edges := g.edges ++ [⟨s, t, id⟩] }, true) := by
    unfold Subgraph.add_edge Subgraph.boost_add_edge_inserts
    simp [hfree, hs, ht, BulkData.get_entity, hes, het]
  refine ⟨_, hdef, ?_, rfl, rfl, rfl, rfl, rfl⟩
  have hfree' := edge_eq_none_iff.mp hfree
  refine
    { numDim_le := hwf.numDim_le
      vertex_nodup := hwf.vertex_nodup
      vertex_rank := hwf.vertex_rank
      vertex_key := hwf.vertex_key
      map_keys := hwf.map_keys
      map_vals := ?_
      map_inj := hwf.map_inj
      edge_ends := ?_
      edge_nodup := ?_
      mirror := ?_
      ent_rank := ?_
      rel_ends := ?_
      rel_rank := ?_
      rel_nodup := nodup_declare_relation _ _ _ hwf.rel_nodup
      rel_fun := ?_ }
  · intro p hp
    show p.2 ∈ (g.bulkData_.declare_relation ks kt id).entities
    rw [entities_declare_relation]
    exact hwf.map_vals p hp
  · intro e he
    rcases List.mem_append.mp he with h | h
    · exact hwf.edge_ends e h
    · simp only [List.mem_singleton] at h
      rw [h]
      exact ⟨hwf.l2g_vertex hs, hwf.l2g_vertex ht⟩
  · show ((g.edges ++ [_]).map _).Nodup
    rw [List.map_append, List.nodup_append]
    refine ⟨hwf.edge_nodup, by simp, ?_⟩
    intro a ha hb
    simp only [List.map_cons, List.map_nil, List.mem_singleton] at hb
    obtain ⟨e, he, hea⟩ := List.mem_map.mp ha
    rw [hb] at hea
    simp only [Prod.mk.injEq] at hea
    exact hfree' e he hea
  · intro e he
    rcases List.mem_append.mp he with h | h
    · obtain ⟨ks', kt', hs', ht', hrel⟩ := hwf.mirror_rel h
      exact mirrored_of_rel hs' ht' (mem_declare_relation.mpr (Or.inl hrel))
    · simp only [List.mem_singleton] at h
      rw [h]
      exact mirrored_of_rel hs ht (mem_declare_relation.mpr (Or.inr rfl))
  · intro e he
    have : e ∈ (g.bulkData_.declare_relation ks kt id).entities := he
    rw [entities_declare_relation] at this
    exact hwf.ent_rank e this
  · intro d hd
    show d.e_from ∈ (g.bulkData_.declare_relation ks kt id).entities ∧
      d.e_to ∈ (g.bulkData_.declare_relation ks kt id).entities
    rw [entities_declare_relation]
    rcases mem_declare_relation.mp hd with h | h
    · exact hwf.rel_ends d h
    · rw [h]
      exact ⟨hes, het⟩
  · intro d hd
    rcases mem_declare_relation.mp hd with h | h
    · exact hwf.rel_rank d h
    · rw [h]
      exact hrank
  · intro d hd d' hd' h1 h2
    rcases mem_declare_relation.mp hd with h | h <;>
      rcases mem_declare_relation.mp hd' with h' | h'
    · exact hwf.rel_fun d h d' h' h1 h2
    · rw [h'] at h1 h2 ⊢
      exact hfun d h h1 h2
    · rw [h] at h1 h2 ⊢
      exact (hfun d' h' h1.symm h2.symm).symm
    · rw [h, h']

/-- Effect of `remove_edge` for an edge of a well-formed subgraph. -/
theorem remove_edge_spec {g : Subgraph} (hwf : g.WF) {e : Edge} (he : e ∈ g.edges) :
    ∃ g' ks kt, g.remove_edge e.source e.target = some g' ∧ g'.WF ∧
      g.local_to_global e.source = some ks ∧ g.local_to_global e.target = some kt ∧
      g'.edges = g.edges.filter
        (fun x => !(decide (x.source = e.source) && decide (x.target = e.target))) ∧
      g'.bulkData_ = g.bulkData_.destroy_relation ks kt e.edge_id ∧
      g'.vertices = g.vertices ∧ g'.numDim_ = g.numDim_ ∧
      g'.localGlobalVertexMap = g.localGlobalVertexMap := by
  obtain ⟨ks, kt, hs, ht, hrel⟩ := hwf.mirror_rel he
  have hes : ks ∈ g.bulkData_.entities := hwf.l2g_entity hs
  have het : kt ∈ g.bulkData_.entities := hwf.l2g_entity ht
  have hfind : g.edge e.source e.target = some e := by
    cases hf : g.edge e.source e.target with
    | none => exact absurd ⟨rfl, rfl⟩ (edge_eq_none_iff.mp hf e he)
    | some e' =>
      unfold Subgraph.edge at hf
      have hm := List.mem_of_find?_eq_some hf
      have hp := List.find?_some hf
      simp only [Bool.and_eq_true, decide_eq_true_eq] at hp
      have := List.inj_on_of_nodup_map hwf.edge_nodup hm he
        (by simp only [hp.1, hp.2])
      rw [this]
  have hdef : g.remove_edge e.source e.target = some
      { g with
        edges := g.edges.filter
          (fun x => !(decide (x.source = e.source) && decide (x.target = e.target)))
        bulkData_ := g.bulkData_.destroy_relation ks kt e.edge_id } := by
    unfold Subgraph.remove_edge
    simp [hfind, hs, ht, BulkData.get_entity, hes, het]
  refine ⟨_, ks, kt, hdef, ?_, hs, ht, rfl, rfl, rfl, rfl, rfl⟩
  refine
    { numDim_le := hwf.numDim_le
      vertex_nodup := hwf.vertex_nodup
      vertex_rank := hwf.vertex_rank
      vertex_key := hwf.vertex_key
      map_keys := hwf.map_keys
      map_vals := hwf.map_vals
      map_inj := hwf.map_inj
      edge_ends := ?_
      edge_nodup := ?_
      mirror := ?_
      ent_rank := hwf.ent_rank
      rel_ends := ?_
      rel_rank := ?_
      rel_nodup := ?_
      rel_fun := ?_ }
  · intro x hx
    exact hwf.edge_ends x (List.mem_filter.mp hx).1
  · exact List.Nodup.sublist (List.Sublist.map _ (List.filter_sublist _)) hwf.edge_nodup
  · intro x hx
    obtain ⟨hx1, hx2⟩ := List.mem_filter.mp hx
    obtain ⟨ks', kt', hs', ht', hrel'⟩ := hwf.mirror_rel hx1
    refine mirrored_of_rel hs' ht' (mem_destroy_relation.mpr ⟨hrel', ?_⟩)
    intro heq
    simp only [Decl.mk.injEq] at heq
    have h1 := hwf.l2g_inj hs' (heq.1 ▸ hs)
    have h2 := hwf.l2g_inj ht' (heq.2.1 ▸ ht)
    simp [h1, h2] at hx2
  · intro d hd
    exact hwf.rel_ends d (mem_destroy_relation.mp hd).1
  · intro d hd
    exact hwf.rel_rank d (mem_destroy_relation.mp hd).1
  · exact hwf.rel_nodup.filter _
  · intro d hd d' hd'
    exact hwf.rel_fun d (mem_destroy_relation.mp hd).1 d' (mem_destroy_relation.mp hd').1

theorem rankPred_of_pos {r : Nat} (h1 : 1 ≤ r) (h2 : r ≤ 3) : rankPred r = r - 1 := by
  unfold rankPred
  omega

theorem rankPred_zero : rankPred 0 = 4294967295 := by
  norm_num [rankPred]

/-- On a trimmed store the range `relations(rank - 1)` of an entity is the
list of the relations stored out of it. -/
theorem mem_relations_rank_pred {b : BulkData} {e : EntityKey} {r : Relation}
    (hrank : ∀ d ∈ b.relations, d.e_from.rank = d.e_to.rank + 1 ∧ d.e_from.rank ≤ 3) :
    r ∈ b.relations_rank e (rankPred e.rank) ↔
      (⟨e, r.entity, r.identifier⟩ : Decl) ∈ b.relations := by
  unfold BulkData.relations_rank
  rw [List.mem_filter, mem_relations_of]
  simp only [Relation.entity_rank, decide_eq_true_eq]
  constructor
  · rintro ⟨⟨d, hd, hseen⟩, hr⟩
    obtain ⟨h1, h2⟩ := hrank d hd
    unfold Decl.seenFrom at hseen
    split at hseen
    · rename_i hfrom
      cases hseen
      rw [← hfrom]
      exact hd
    · split at hseen
      · rename_i hto
        cases hseen
        exfalso
        simp only at hr
        rw [← hto] at hr
        by_cases h0 : d.e_to.rank = 0
        · rw [h0, rankPred_zero] at hr
          omega
        · rw [rankPred_of_pos (by omega) (by omega)] at hr
          omega
      · cases hseen
  · intro hd
    obtain ⟨h1, h2⟩ := hrank _ hd
    simp only at h1 h2
    refine ⟨⟨_, hd, by simp [Decl.seenFrom]⟩, ?_⟩
    rw [rankPred_of_pos (by omega) h2]
    omega

/-- Whether entity `kn` is seen related to entity `t` through `relations(rank)`
is, when nothing is stored into `kn`, whether a relation is stored from `kn` to
`t`. -/
theorem any_relations_rank_iff {b : BulkData} {kn t : EntityKey} {rank : Nat}
    (hto : ∀ d ∈ b.relations, d.e_to ≠ kn) (ht : t.rank = rank) :
    (b.relations_rank kn rank).any (fun n => decide (t = n.entity)) = true ↔
      ∃ d ∈ b.relations, d.e_from = kn ∧ d.e_to = t := by
  rw [List.any_eq_true]
  constructor
  · rintro ⟨n, hn, ht'⟩
    simp only [decide_eq_true_eq] at ht'
    unfold BulkData.relations_rank at hn
    obtain ⟨d, hd, hseen⟩ := mem_relations_of.mp (List.mem_filter.mp hn).1
    unfold Decl.seenFrom at hseen
    split at hseen
    · rename_i hfrom
      cases hseen
      exact ⟨d, hd, hfrom, ht'.symm⟩
    · split at hseen
      · rename_i h
        exact absurd h (hto d hd)
      · cases hseen
  · rintro ⟨d, hd, hfrom, hdto⟩
    refine ⟨⟨d.e_to, d.local_id⟩, ?_, by simp [hdto]⟩
    unfold BulkData.relations_rank
    rw [List.mem_filter, mem_relations_of]
    refine ⟨⟨d, hd, by simp [Decl.seenFrom, hfrom]⟩, ?_⟩
    simp [Relation.entity_rank, hdto, ht]

theorem clone_relations_cons (b : BulkData) (kn : EntityKey) (r : Relation)
    (rs : List Relation) :
    clone_relations b kn (r :: rs) =
      clone_relations
        (if (b.relations_rank kn (rankPred kn.rank)).any
            (fun n => decide (r.entity = n.entity)) then b
          else b.declare_relation kn r.entity r.identifier) kn rs := rfl

/-- The relations in the store after the loop of `clone_out_edges`. -/
theorem mem_clone_relations (kn : EntityKey) (l : List Relation) :
    ∀ (b : BulkData),
      (∀ r ∈ l, r.entity.rank = rankPred kn.rank) →
      (∀ r ∈ l, r.entity ≠ kn) →
      (∀ r ∈ l, ∀ r' ∈ l, r.entity = r'.entity → r.identifier = r'.identifier) →
      (∀ d ∈ b.relations, d.e_to ≠ kn) →
      ∀ d, d ∈ (clone_relations b kn l).relations ↔
        d ∈ b.relations ∨
          ∃ r ∈ l, d = ⟨kn, r.entity, r.identifier⟩ ∧
            ∀ d' ∈ b.relations, ¬ (d'.e_from = kn ∧ d'.e_to = r.entity) := by
  induction l with
  | nil =>
    intro b _ _ _ _ d
    simp [clone_relations]
  | cons r rs ih =>
    intro b h1 h2 h3 h4 d
    have h1' : ∀ r ∈ rs, r.entity.rank = rankPred kn.rank :=
      fun x hx => h1 x (List.mem_cons_of_mem _ hx)
    have h2' : ∀ r ∈ rs, r.entity ≠ kn := fun x hx => h2 x (List.mem_cons_of_mem _ hx)
    have h3' : ∀ r ∈ rs, ∀ r' ∈ rs, r.entity = r'.entity → r.identifier = r'.identifier :=
      fun x hx y hy => h3 x (List.mem_cons_of_mem _ hx) y (List.mem_cons_of_mem _ hy)
    have hany := any_relations_rank_iff (t := r.entity) h4 (h1 r (List.mem_cons_self _ _))
    rw [clone_relations_cons]
    by_cases hex : ∃ d ∈ b.relations, d.e_from = kn ∧ d.e_to = r.entity
    · have hstep : (b.relations_rank kn (rankPred kn.rank)).any
          (fun n => decide (r.entity = n.entity)) = true := hany.mpr hex
      rw [if_pos hstep, ih b h1' h2' h3' h4 d]
      constructor
      · rintro (h | ⟨r', hr', hd, hno⟩)
        · exact Or.inl h
        · exact Or.inr ⟨r', List.mem_cons_of_mem _ hr', hd, hno⟩
      · rintro (h | ⟨r', hr', hd, hno⟩)
        · exact Or.inl h
        · rcases List.mem_cons.mp hr' with rfl | hr''
          · obtain ⟨d', hd', hc⟩ := hex
            exact absurd hc (hno d' hd')
          · exact Or.inr ⟨r', hr'', hd, hno⟩
    · have hstep : ¬ (b.relations_rank kn (rankPred kn.rank)).any
          (fun n => decide (r.entity = n.entity)) = true := fun h => hex (hany.mp h)
      rw [if_neg hstep]
      have h4' : ∀ d ∈ (b.declare_relation kn r.entity r.identifier).relations,
          d.e_to ≠ kn := by
        intro x hx
        rcases mem_declare_relation.mp hx with h | h
        · exact h4 x h
        · rw [h]
          exact h2 r (List.mem_cons_self _ _)
      rw [ih (b.declare_relation kn r.entity r.identifier) h1' h2' h3' h4' d]
      push_neg at hex
      constructor
      · rintro (h | ⟨r', hr', hd, hno⟩)
        · rcases mem_declare_relation.mp h with h | h
          · exact Or.inl h
          · exact Or.inr ⟨r, List.mem_cons_self _ _, h, fun d' hd' hc => hex d' hd' hc.1 hc.2⟩
        · refine Or.inr ⟨r', List.mem_cons_of_mem _ hr', hd, ?_⟩
          intro d' hd'
          exact hno d' (mem_declare_relation.mpr (Or.inl hd'))
      · rintro (h | ⟨r', hr', hd, hno⟩)
        · exact Or.inl (mem_declare_relation.mpr (Or.inl h))
        · rcases List.mem_cons.mp hr' with rfl | hr''
          · exact Or.inl (mem_declare_relation.mpr (Or.inr hd))
          · by_cases hsame : r'.entity = r.entity
            · left
              refine mem_declare_relation.mpr (Or.inr ?_)
              rw [hd, hsame,
                h3 r' (List.mem_cons_of_mem _ hr'') r (List.mem_cons_self _ _) hsame]
            · right
              refine ⟨r', hr'', hd, ?_⟩
              intro d' hd'
              rcases mem_declare_relation.mp hd' with h | h
              · exact hno d' h
              · rw [h]
                simp only [true_and]
                exact fun hc => hsame hc.symm

theorem clone_relations_entities (kn : EntityKey) (l : List Relation) (b : BulkData) :
    (clone_relations b kn l).entities = b.entities := by
  induction l generalizing b with
  | nil => rfl
  | cons r rs ih =>
    rw [clone_relations_cons]
    split
    · exact ih b
    · rw [ih, entities_declare_relation]

theorem clone_relations_nodup (kn : EntityKey) (l : List Relation) (b : BulkData)
    (h : b.relations.Nodup) : (clone_relations b kn l).relations.Nodup := by
  induction l generalizing b with
  | nil => exact h
  | cons r rs ih =>
    rw [clone_relations_cons]
    split
    · exact ih b h
    · exact ih _ (nodup_declare_relation _ _ _ h)

theorem Subgraph.WF.rel_rank_le {g : Subgraph} (hwf : g.WF) :
    ∀ d ∈ g.bulkData_.relations, d.e_from.rank = d.e_to.rank + 1 ∧ d.e_from.rank ≤ 3 := by
  intro d hd
  refine ⟨hwf.rel_rank d hd, ?_⟩
  have := hwf.ent_rank _ (hwf.rel_ends d hd).1
  have := hwf.numDim_le
  omega

/-- Effect of `clone_out_edges` on a well-formed subgraph when nothing is
stored into the new entity: the new entity gains, with the same local id, every
relation stored out of the original to a target it is not yet related to. -/
theorem clone_out_edges_spec {g : Subgraph} (hwf : g.WF) {orig new : Nat}
    (ko kn : EntityKey)
    (ho : g.local_to_global orig = some ko) (hn : g.local_to_global new = some kn)
    (hrk : ko.rank = kn.rank) (hto : ∀ d ∈ g.bulkData_.relations, d.e_to ≠ kn) :
    ∃ g', g.clone_out_edges orig new = some g' ∧ g'.WF ∧ g'.edges = g.edges ∧
      g'.vertices = g.vertices ∧ g'.numDim_ = g.numDim_ ∧
      g'.localGlobalVertexMap = g.localGlobalVertexMap ∧
      g'.bulkData_.entities = g.bulkData_.entities ∧
      ∀ d, d ∈ g'.bulkData_.relations ↔
        d ∈ g.bulkData_.relations ∨
          (d.e_from = kn ∧ (⟨ko, d.e_to, d.local_id⟩ : Decl) ∈ g.bulkData_.relations ∧
            ∀ d' ∈ g.bulkData_.relations, ¬ (d'.e_from = kn ∧ d'.e_to = d.e_to)) := by
  have heo : ko ∈ g.bulkData_.entities := hwf.l2g_entity ho
  have hen : kn ∈ g.bulkData_.entities := hwf.l2g_entity hn
  have hdef : g.clone_out_edges orig new = some
      { g with bulkData_ := (clone_relations g.bulkData_ kn
          (g.bulkData_.relations_rank ko (rankPred ko.rank))) } := by
    unfold Subgraph.clone_out_edges
    simp [ho, hn, BulkData.get_entity, heo, hen]
  have hL : ∀ r, r ∈ g.bulkData_.relations_rank ko (rankPred ko.rank) ↔
      (⟨ko, r.entity, r.identifier⟩ : Decl) ∈ g.bulkData_.relations :=
    fun r => mem_relations_rank_pred hwf.rel_rank_le
  have h1 : ∀ r ∈ g.bulkData_.relations_rank ko (rankPred ko.rank),
      r.entity.rank = rankPred kn.rank := by
    intro r hr
    unfold BulkData.relations_rank at hr
    have := (List.mem_filter.mp hr).2
    rw [← hrk]
    simpa [Relation.entity_rank] using this
  have h2 : ∀ r ∈ g.bulkData_.relations_rank ko (rankPred ko.rank), r.entity ≠ kn :=
    fun r hr => hto _ ((hL r).mp hr)
  have h3 : ∀ r ∈ g.bulkData_.relations_rank ko (rankPred ko.rank),
      ∀ r' ∈ g.bulkData_.relations_rank ko (rankPred ko.rank),
      r.entity = r'.entity → r.identifier = r'.identifier :=
    fun r hr r' hr' he => hwf.rel_fun _ ((hL r).mp hr) _ ((hL r').mp hr') rfl he
  have hmem := mem_clone_relations kn _ g.bulkData_ h1 h2 h3 hto
  have hchar : ∀ d, d ∈ (clone_relations g.bulkData_ kn
        (g.bulkData_.relations_rank ko (rankPred ko.rank))).relations ↔
      d ∈ g.bulkData_.relations ∨
        (d.e_from = kn ∧ (⟨ko, d.e_to, d.local_id⟩ : Decl) ∈ g.bulkData_.relations ∧
          ∀ d' ∈ g.bulkData_.relations, ¬ (d'.e_from = kn ∧ d'.e_to = d.e_to)) := by
    intro d
    rw [hmem d]
    constructor
    · rintro (h | ⟨r, hr, hd, hno⟩)
      · exact Or.inl h
      · right
        rw [hd]
        exact ⟨rfl, (hL r).mp hr, hno⟩
    · rintro (h | ⟨hf, hrel, hno⟩)
      · exact Or.inl h
      · right
        refine ⟨⟨d.e_to, d.local_id⟩, (hL _).mpr hrel, ?_, hno⟩
        cases d
        simp only at hf
        rw [hf]
  have hent := clone_relations_entities kn
    (g.bulkData_.relations_rank ko (rankPred ko.rank)) g.bulkData_
  refine ⟨_, hdef, ?_, rfl, rfl, rfl, rfl, hent, hchar⟩
  refine
    { numDim_le := hwf.numDim_le
      vertex_nodup := hwf.vertex_nodup
      vertex_rank := hwf.vertex_rank
      vertex_key := hwf.vertex_key
      map_keys := hwf.map_keys
      map_vals := ?_
      map_inj := hwf.map_inj
      edge_ends := hwf.edge_ends
      edge_nodup := hwf.edge_nodup
      mirror := ?_
      ent_rank := ?_
      rel_ends := ?_
      rel_rank := ?_
      rel_nodup := clone_relations_nodup _ _ _ hwf.rel_nodup
      rel_fun := ?_ }
  · intro p hp
    show p.2 ∈ (clone_relations _ _ _).entities
    rw [hent]
    exact hwf.map_vals p hp
  · intro e he
    obtain ⟨ks', kt', hs', ht', hrel'⟩ := hwf.mirror_rel he
    exact mirrored_of_rel hs' ht' ((hchar _).mpr (Or.inl hrel'))
  · intro e he
    have : e ∈ (clone_relations g.bulkData_ kn
      (g.bulkData_.relations_rank ko (rankPred ko.rank))).entities := he
    rw [hent] at this
    exact hwf.ent_rank e this
  · intro d hd
    show d.e_from ∈ (clone_relations _ _ _).entities ∧ d.e_to ∈ (clone_relations _ _ _).entities
    rw [hent]
    rcases (hchar d).mp hd with h | ⟨hf, hrel, -⟩
    · exact hwf.rel_ends d h
    · exact ⟨hf ▸ hen, (hwf.rel_ends _ hrel).2⟩
  · intro d hd
    rcases (hchar d).mp hd with h | ⟨hf, hrel, -⟩
    · exact hwf.rel_rank d h
    · have := hwf.rel_rank _ hrel
      simp only at this
      rw [hf, ← hrk]
      exact this
  · intro d hd d' hd' hf ht
    rcases (hchar d).mp hd with h | ⟨hf1, hrel1, hno1⟩ <;>
      rcases (hchar d').mp hd' with h' | ⟨hf2, hrel2, hno2⟩
    · exact hwf.rel_fun d h d' h' hf ht
    · exact absurd ⟨hf.trans hf2, ht⟩ (hno2 d h)
    · exact absurd ⟨hf.symm.trans hf1, ht.symm⟩ (hno1 d' h')
    · exact hwf.rel_fun ⟨ko, d.e_to, d.local_id⟩ hrel1 ⟨ko, d'.e_to, d'.local_id⟩ hrel2 rfl ht

/-- The loop of `clone_boundary_entity` that copies out-edges to the new vertex
`v'`: every listed edge gets a copy out of `v'` and a mirrored relation out of
the key `k'` of `v'`. -/
theorem copy_out_edges_fold {v' : Nat} {k' : EntityKey} (l : List Edge) :
    ∀ (acc : Subgraph), acc.WF → acc.local_to_global v' = some k' →
      (l.map (fun e => e.target)).Nodup →
      (∀ e ∈ l, ∃ kt, acc.local_to_global e.target = some kt ∧ k'.rank = kt.rank + 1 ∧
        acc.edge v' e.target = none ∧
        ∀ d ∈ acc.bulkData_.relations, ¬ (d.e_from = k' ∧ d.e_to = kt)) →
      ∃ g2, l.foldlM
          (fun a edge => (a.add_edge edge.edge_id v' edge.target).map Prod.fst) acc = some g2 ∧
        g2.WF ∧
        g2.edges = acc.edges ++ l.map (fun e => ⟨v', e.target, e.edge_id⟩) ∧
        (∀ d, d ∈ g2.bulkData_.relations ↔
          d ∈ acc.bulkData_.relations ∨
            ∃ e ∈ l, ∃ kt, acc.local_to_global e.target = some kt ∧
              d = ⟨k', kt, e.edge_id⟩) ∧
        g2.vertices = acc.vertices ∧ g2.numDim_ = acc.numDim_ ∧
        g2.localGlobalVertexMap = acc.localGlobalVertexMap ∧
        g2.bulkData_.entities = acc.bulkData_.entities := by
  induction l with
  | nil =>
    intro acc hwf _ _ _
    exact ⟨acc, rfl, hwf, by simp, by simp, rfl, rfl, rfl, rfl⟩
  | cons e es ih =>
    intro acc hwf hv' hnd hall
    obtain ⟨kt, hkt, hrank, hfree, hnorel⟩ := hall e (List.mem_cons_self _ _)
    obtain ⟨a1, hadd, hwf1, hedges1, hbulk1, hverts1, hdim1, hmap1⟩ :=
      add_edge_spec hwf e.edge_id k' kt hv' hkt hfree hrank
        (fun d hd hf ht => absurd ⟨hf, ht⟩ (hnorel d hd))
    have hl2g : ∀ u, a1.local_to_global u = acc.local_to_global u := by
      intro u
      unfold Subgraph.local_to_global
      rw [hmap1]
    rw [List.map_cons, List.nodup_cons] at hnd
    have hall1 : ∀ e2 ∈ es, ∃ kt2, a1.local_to_global e2.target = some kt2 ∧
        k'.rank = kt2.rank + 1 ∧ a1.edge v' e2.target = none ∧
        ∀ d ∈ a1.bulkData_.relations, ¬ (d.e_from = k' ∧ d.e_to = kt2) := by
      intro e2 he2
      obtain ⟨kt2, hkt2, hrank2, hfree2, hnorel2⟩ := hall e2 (List.mem_cons_of_mem _ he2)
      have hne : e2.target ≠ e.target := by
        intro heq
        exact hnd.1 (List.mem_map.mpr ⟨e2, he2, heq⟩)
      refine ⟨kt2, by rw [hl2g]; exact hkt2, hrank2, ?_, ?_⟩
      · rw [edge_eq_none_iff]
        intro x hx
        rw [hedges1] at hx
        rcases List.mem_append.mp hx with h | h
        · exact edge_eq_none_iff.mp hfree2 x h
        · simp only [List.mem_singleton] at h
          rw [h]
          exact fun hc => hne hc.2.symm
      · intro d hd
        rw [hbulk1] at hd
        rcases mem_declare_relation.mp hd with h | h
        · exact hnorel2 d h
        · rw [h]
          rintro ⟨-, hc⟩
          simp only at hc
          exact hne (hwf.l2g_inj hkt2 (hc ▸ hkt))
    obtain ⟨g2, hfold, hwf2, hedges2, hrel2, hverts2, hdim2, hmap2, hent2⟩ :=
      ih a1 hwf1 (by rw [hl2g]; exact hv') hnd.2 hall1
    refine ⟨g2, ?_, hwf2, ?_, ?_, hverts2.trans hverts1, hdim2.trans hdim1,
      hmap2.trans hmap1, ?_⟩
    · rw [List.foldlM_cons, hadd]
      exact hfold
    · rw [hedges2, hedges1]
      simp
    · intro d
      rw [hrel2 d, hbulk1, mem_declare_relation]
      constructor
      · rintro ((h | h) | ⟨e2, he2, kt2, hkt2, hd⟩)
        · exact Or.inl h
        · exact Or.inr ⟨e, List.mem_cons_self _ _, kt, hkt, h⟩
        · exact Or.inr ⟨e2, List.mem_cons_of_mem _ he2, kt2, by rw [← hl2g]; exact hkt2, hd⟩
      · rintro (h | ⟨e2, he2, kt2, hkt2, hd⟩)
        · exact Or.inl (Or.inl h)
        · rcases List.mem_cons.mp he2 with rfl | he2'
          · rw [hkt] at hkt2
            cases hkt2
            exact Or.inl (Or.inr hd)
          · exact Or.inr ⟨e2, he2', kt2, by rw [hl2g]; exact hkt2, hd⟩
    · rw [hent2, hbulk1, entities_declare_relation]

theorem out_edges_targets_nodup {g : Subgraph} (hwf : g.WF) (v : Nat) :
    ((g.out_edges v).map (fun e => e.target)).Nodup := by
  have hsub : ((g.out_edges v).map (fun e => (e.source, e.target))).Nodup :=
    List.Nodup.sublist (List.Sublist.map _ (List.filter_sublist _)) hwf.edge_nodup
  refine List.Nodup.map_on ?_ (List.Nodup.of_map _ hsub)
  intro x hx y hy hxy
  have hx' := (List.mem_filter.mp hx).2
  have hy' := (List.mem_filter.mp hy).2
  simp only [decide_eq_true_eq] at hx' hy'
  exact List.inj_on_of_nodup_map hsub hx hy (by simp only [hx', hy', hxy])

/-- The first half of `clone_boundary_entity` on a well-formed subgraph: the
new vertex is created, the out-edges of `v` are copied to it, and
`clone_out_edges` completes its downward relations. -/
theorem clone_prepare {g : Subgraph} (hwf : g.WF) {v : Nat} {kv : EntityKey}
    (hv : g.local_to_global v = some kv) :
    ∃ g1 g2 g3,
      g.get_vertex_rank v = some kv.rank ∧
      g.add_vertex kv.rank = some (g1, newDescriptor g.vertices) ∧
      (g1.out_edges v).foldlM
        (fun a edge =>
          (a.add_edge edge.edge_id (newDescriptor g.vertices) edge.target).map Prod.fst) g1
        = some g2 ∧
      g2.clone_out_edges v (newDescriptor g.vertices) = some g3 ∧
      g3.WF ∧
      g3.vertices = g.vertices ++ [(newDescriptor g.vertices, kv.rank)] ∧
      g3.numDim_ = g.numDim_ ∧
      g3.bulkData_.entities =
        g.bulkData_.entities ++ [⟨kv.rank, maxId g.bulkData_.entities + 1⟩] ∧
      g3.local_to_global (newDescriptor g.vertices) =
        some ⟨kv.rank, maxId g.bulkData_.entities + 1⟩ ∧
      (∀ u k, g.local_to_global u = some k → g3.local_to_global u = some k) ∧
      g3.edges = g.edges ++
        (g.out_edges v).map (fun e => ⟨newDescriptor g.vertices, e.target, e.edge_id⟩) ∧
      (∀ d, d ∈ g3.bulkData_.relations ↔
        d ∈ g.bulkData_.relations ∨
          (d.e_from = ⟨kv.rank, maxId g.bulkData_.entities + 1⟩ ∧
            (⟨kv, d.e_to, d.local_id⟩ : Decl) ∈ g.bulkData_.relations)) := by
  have hvv : v ∈ g.vertices.map Prod.fst := hwf.l2g_vertex hv
  obtain ⟨kv', hkv', hkvent, hrankv, hrle⟩ := hwf.vertex_l2g hvv
  rw [hv] at hkv'
  cases hkv'
  have hfresh := newDescriptor_not_mem g.vertices
  have hkey := new_key_not_mem g.bulkData_.entities kv.rank
  obtain ⟨g1, hadd, hwf1, hdim1, hedges1, hrel1, hent1, hverts1, hnew1, hmono1⟩ :=
    add_vertex_spec hwf hrle
  have hout : g1.out_edges v = g.out_edges v := by
    unfold Subgraph.out_edges
    rw [hedges1]
  -- keys of the targets of the out-edges of `v`
  have htgt : ∀ e ∈ g.out_edges v, ∃ kt, g.local_to_global e.target = some kt ∧
      (⟨kv, kt, e.edge_id⟩ : Decl) ∈ g.bulkData_.relations := by
    intro e he
    obtain ⟨he1, he2⟩ := List.mem_filter.mp he
    simp only [decide_eq_true_eq] at he2
    obtain ⟨ks, kt, hs, ht, hrel⟩ := hwf.mirror_rel he1
    rw [he2, hv] at hs
    cases hs
    exact ⟨kt, ht, hrel⟩
  have hnofrom : ∀ d ∈ g.bulkData_.relations,
      d.e_from ≠ ⟨kv.rank, maxId g.bulkData_.entities + 1⟩ :=
    fun d hd hc => hkey (hc ▸ (hwf.rel_ends d hd).1)
  have hnoto : ∀ d ∈ g.bulkData_.relations,
      d.e_to ≠ ⟨kv.rank, maxId g.bulkData_.entities + 1⟩ :=
    fun d hd hc => hkey (hc ▸ (hwf.rel_ends d hd).2)
  have hall : ∀ e ∈ g.out_edges v, ∃ kt, g1.local_to_global e.target = some kt ∧
      (⟨kv.rank, maxId g.bulkData_.entities + 1⟩ : EntityKey).rank = kt.rank + 1 ∧
      g1.edge (newDescriptor g.vertices) e.target = none ∧
      ∀ d ∈ g1.bulkData_.relations,
        ¬ (d.e_from = ⟨kv.rank, maxId g.bulkData_.entities + 1⟩ ∧ d.e_to = kt) := by
    intro e he
    obtain ⟨kt, ht, hrel⟩ := htgt e he
    refine ⟨kt, hmono1 _ _ ht, hwf.rel_rank _ hrel, ?_, ?_⟩
    · rw [edge_eq_none_iff, hedges1]
      intro x hx hc
      exact hfresh (hc.1 ▸ (hwf.edge_ends x hx).1)
    · rw [hrel1]
      exact fun d hd hc => hnofrom d hd hc.1
  obtain ⟨g2, hfold, hwf2, hedges2, hrel2, hverts2, hdim2, hmap2, hent2⟩ :=
    copy_out_edges_fold (g.out_edges v) g1 hwf1 hnew1 (out_edges_targets_nodup hwf v) hall
  have hl2g2 : ∀ u, g2.local_to_global u = g1.local_to_global u := by
    intro u
    unfold Subgraph.local_to_global
    rw [hmap2]
  -- relations after the copy loop
  have hrel2' : ∀ d, d ∈ g2.bulkData_.relations ↔
      d ∈ g.bulkData_.relations ∨
        ∃ e ∈ g.out_edges v, ∃ kt, g.local_to_global e.target = some kt ∧
          d = ⟨⟨kv.rank, maxId g.bulkData_.entities + 1⟩, kt, e.edge_id⟩ := by
    intro d
    rw [hrel2 d, hrel1]
    constructor
    · rintro (h | ⟨e, he, kt, hkt, hd⟩)
      · exact Or.inl h
      · obtain ⟨kt', ht', -⟩ := htgt e he
        have := hmono1 _ _ ht'
        rw [hkt] at this
        cases this
        exact Or.inr ⟨e, he, kt, ht', hd⟩
    · rintro (h | ⟨e, he, kt, hkt, hd⟩)
      · exact Or.inl h
      · exact Or.inr ⟨e, he, kt, hmono1 _ _ hkt, hd⟩
  have hto2 : ∀ d ∈ g2.bulkData_.relations,
      d.e_to ≠ ⟨kv.rank, maxId g.bulkData_.entities + 1⟩ := by
    intro d hd
    rcases (hrel2' d).mp hd with h | ⟨e, he, kt, hkt, hd'⟩
    · exact hnoto d h
    · rw [hd']
      exact fun hc => hkey (hc ▸ hwf.l2g_entity hkt)
  obtain ⟨g3, hclone, hwf3, hedges3, hverts3, hdim3, hmap3, hent3, hrel3⟩ :=
    clone_out_edges_spec hwf2 kv ⟨kv.rank, maxId g.bulkData_.entities + 1⟩
      (by rw [hl2g2]; exact hmono1 _ _ hv)
      (by rw [hl2g2]; exact hnew1) rfl hto2
  have hl2g3 : ∀ u, g3.local_to_global u = g1.local_to_global u := by
    intro u
    unfold Subgraph.local_to_global
    rw [hmap3, hmap2]
  refine ⟨g1, g2, g3, hrankv, hadd, by rw [hout]; exact hfold, hclone, hwf3,
    by rw [hverts3, hverts2, hverts1], by rw [hdim3, hdim2, hdim1],
    by rw [hent3, hent2, hent1], by rw [hl2g3]; exact hnew1,
    fun u k hu => by rw [hl2g3]; exact hmono1 u k hu,
    by rw [hedges3, hedges2, hedges1], ?_⟩
  intro d
  rw [hrel3 d]
  constructor
  · rintro (h | ⟨hf, hrel, -⟩)
    · rcases (hrel2' d).mp h with h' | ⟨e, he, kt, hkt, hd⟩
      · exact Or.inl h'
      · obtain ⟨kt', ht', hr'⟩ := htgt e he
        rw [hkt] at ht'
        cases ht'
        rw [hd]
        exact Or.inr ⟨rfl, hr'⟩
    · rcases (hrel2' _).mp hrel with h' | ⟨e, he, kt, hkt, hd⟩
      · exact Or.inr ⟨hf, h'⟩
      · exfalso
        have : kv = ⟨kv.rank, maxId g.bulkData_.entities + 1⟩ := by
          have := congrArg Decl.e_from hd
          exact this
        exact hkey (this ▸ hkvent)
  · rintro (h | ⟨hf, hrel⟩)
    · exact Or.inl ((hrel2' d).mpr (Or.inl h))
    · by_cases hex : ∃ d' ∈ g2.bulkData_.relations,
          d'.e_from = ⟨kv.rank, maxId g.bulkData_.entities + 1⟩ ∧ d'.e_to = d.e_to
      · obtain ⟨d', hd', hf', ht'⟩ := hex
        left
        rcases (hrel2' d').mp hd' with h' | ⟨e, he, kt, hkt, hde⟩
        · exact absurd hf' (hnofrom d' h')
        · obtain ⟨kt', hkt', hr'⟩ := htgt e he
          rw [hkt] at hkt'
          cases hkt'
          have hkt_eq : kt = d.e_to := by
            rw [hde] at ht'
            exact ht'
          have hid : e.edge_id = d.local_id :=
            hwf.rel_fun ⟨kv, kt, e.edge_id⟩ hr' ⟨kv, d.e_to, d.local_id⟩ hrel rfl hkt_eq
          have hdd : d = d' := by
            rw [hde]
            cases d
            simp only at hf hkt_eq hid
            rw [hf, hkt_eq, hid]
          rw [hdd]
          exact hd'
      · right
        push_neg at hex
        exact ⟨hf, (hrel2' _).mpr (Or.inl hrel), fun d' hd' hc => hex d' hd' hc.1 hc.2⟩

/-- What `clone_boundary_entity` does to a well-formed subgraph when `v` is open
and has the in-edges `e1`, `e2`: the state it returns, described edge by edge
and relation by relation. -/
theorem clone_boundary_entity_spec {g : Subgraph} (hwf : g.WF) {v : Nat} {kv : EntityKey}
    {o : EntityOpenMap} {e1 e2 : Edge} (hin : g.in_edges v = [e1, e2])
    (hv : g.local_to_global v = some kv) (ho : o kv = true) :
    ∃ g' k1,
      g.clone_boundary_entity v o = some (g', o.set kv false) ∧ g'.WF ∧
      g.local_to_global e1.source = some k1 ∧
      g'.vertices = g.vertices ++ [(newDescriptor g.vertices, kv.rank)] ∧
      g'.bulkData_.entities =
        g.bulkData_.entities ++ [⟨kv.rank, maxId g.bulkData_.entities + 1⟩] ∧
      g'.local_to_global (newDescriptor g.vertices) =
        some ⟨kv.rank, maxId g.bulkData_.entities + 1⟩ ∧
      (∀ u k, g.local_to_global u = some k → g'.local_to_global u = some k) ∧
      g'.edges =
        g.edges.filter (fun x => !(decide (x.source = e1.source) && decide (x.target = v))) ++
          (g.out_edges v).map (fun e => ⟨newDescriptor g.vertices, e.target, e.edge_id⟩) ++
          [⟨e1.source, newDescriptor g.vertices, e1.edge_id⟩] ∧
      (∀ d, d ∈ g'.bulkData_.relations ↔
        (d ∈ g.bulkData_.relations ∧ d ≠ ⟨k1, kv, e1.edge_id⟩) ∨
        (d.e_from = ⟨kv.rank, maxId g.bulkData_.entities + 1⟩ ∧
          (⟨kv, d.e_to, d.local_id⟩ : Decl) ∈ g.bulkData_.relations) ∨
        d = ⟨k1, ⟨kv.rank, maxId g.bulkData_.entities + 1⟩, e1.edge_id⟩) := by
  have hfresh := newDescriptor_not_mem g.vertices
  have hkey := new_key_not_mem g.bulkData_.entities kv.rank
  have hdeg : g.in_degree v = 2 := by
    unfold Subgraph.in_degree
    rw [hin]
    rfl
  have he1 : e1 ∈ g.edges ∧ e1.target = v := by
    have : e1 ∈ g.in_edges v := by rw [hin]; exact List.mem_cons_self _ _
    have := List.mem_filter.mp this
    exact ⟨this.1, by simpa using this.2⟩
  obtain ⟨g1, g2, g3, hrankv, hadd, hfold, hclone, hwf3, hverts3, hdim3, hent3, hnew3,
    hmono3, hedges3, hrel3⟩ := clone_prepare hwf hv
  -- the in-edges of `v` are not touched by the first half
  have hin3 : g3.in_edges v = [e1, e2] := by
    unfold Subgraph.in_edges
    rw [hedges3, List.filter_append]
    have : ((g.out_edges v).map
        (fun e => (⟨newDescriptor g.vertices, e.target, e.edge_id⟩ : Edge))).filter
        (fun e => decide (e.target = v)) = [] := by
      rw [List.filter_eq_nil_iff]
      intro x hx
      obtain ⟨e, he, rfl⟩ := List.mem_map.mp hx
      obtain ⟨hm, hs⟩ := List.mem_filter.mp he
      simp only [decide_eq_true_eq] at hs ⊢
      exact fun hc => hwf.edge_ne hm (hs.trans hc.symm)
    rw [this, List.append_nil]
    exact hin
  have he13 : e1 ∈ g3.edges := by
    rw [hedges3]
    exact List.mem_append_left _ he1.1
  obtain ⟨g4, k1, kt4, hrem, hwf4, hs4, ht4, hedges4, hbulk4, hverts4, hdim4, hmap4⟩ :=
    remove_edge_spec hwf3 he13
  rw [he1.2] at hrem ht4 hedges4
  have hkt4 : kt4 = kv := by
    have := hmono3 _ _ hv
    rw [ht4] at this
    cases this
    rfl
  rw [hkt4] at hbulk4
  -- the key of the parent in the original subgraph
  obtain ⟨k1g, kvg, hs1g, ht1g, hrel1g⟩ := hwf.mirror_rel he1.1
  have hk1 : k1g = k1 := by
    have := hmono3 _ _ hs1g
    rw [hs4] at this
    cases this
    rfl
  rw [hk1] at hs1g hrel1g
  rw [he1.2, hv] at ht1g
  cases ht1g
  have hl2g4 : ∀ u, g4.local_to_global u = g3.local_to_global u := by
    intro u
    unfold Subgraph.local_to_global
    rw [hmap4]
  have hto3 : ∀ d ∈ g3.bulkData_.relations,
      d.e_to ≠ ⟨kv.rank, maxId g.bulkData_.entities + 1⟩ := by
    intro d hd hc
    rcases (hrel3 d).mp hd with h | ⟨-, h⟩
    · exact hkey (hc ▸ (hwf.rel_ends d h).2)
    · exact hkey (hc ▸ (hwf.rel_ends _ h).2)
  have hfree4 : g4.edge e1.source (newDescriptor g.vertices) = none := by
    rw [edge_eq_none_iff, hedges4]
    intro x hx hc
    have hx3 := (List.mem_filter.mp hx).1
    rw [hedges3] at hx3
    rcases List.mem_append.mp hx3 with h | h
    · exact hfresh (hc.2 ▸ (hwf.edge_ends x h).2)
    · obtain ⟨e, -, rfl⟩ := List.mem_map.mp h
      simp only at hc
      exact hfresh (hc.1 ▸ (hwf.edge_ends e1 he1.1).1)
  obtain ⟨g5, hadd5, hwf5, hedges5, hbulk5, hverts5, hdim5, hmap5⟩ :=
    add_edge_spec hwf4 e1.edge_id k1 ⟨kv.rank, maxId g.bulkData_.entities + 1⟩
      (by rw [hl2g4]; exact hs4) (by rw [hl2g4]; exact hnew3) hfree4
      (show k1.rank = kv.rank + 1 from hwf.rel_rank _ hrel1g)
      (fun d hd _ ht => by
        rw [hbulk4] at hd
        exact absurd ht (hto3 d (mem_destroy_relation.mp hd).1))
  have hl2g5 : ∀ u, g5.local_to_global u = g3.local_to_global u := by
    intro u
    unfold Subgraph.local_to_global
    rw [hmap5, hmap4]
  have hdef : g.clone_boundary_entity v o = some (g5, o.set kv false) := by
    unfold Subgraph.clone_boundary_entity
    simp only [hdeg, ne_eq, not_true_eq_false, if_false, hv, ho, hrankv, hadd, hfold, hclone,
      hin3, List.head?_cons, hrem, hadd5, Option.bind_eq_bind, Option.some_bind]
  refine ⟨g5, k1, hdef, hwf5, hs1g, by rw [hverts5, hverts4, hverts3],
    by rw [hbulk5, entities_declare_relation, hbulk4]; exact hent3,
    by rw [hl2g5]; exact hnew3, fun u k hu => by rw [hl2g5]; exact hmono3 u k hu, ?_, ?_⟩
  · rw [hedges5, hedges4, hedges3, List.filter_append]
    congr 2
    rw [List.filter_eq_self]
    intro x hx
    obtain ⟨e, -, rfl⟩ := List.mem_map.mp hx
    have : newDescriptor g.vertices ≠ e1.source :=
      fun hc => hfresh (hc ▸ (hwf.edge_ends e1 he1.1).1)
    simp [this]
  · intro d
    rw [hbulk5, mem_declare_relation, hbulk4, mem_destroy_relation, hrel3 d]
    constructor
    · rintro (⟨h | h, hne⟩ | h)
      · exact Or.inl ⟨h, hne⟩
      · exact Or.inr (Or.inl h)
      · exact Or.inr (Or.inr h)
    · rintro (⟨h, hne⟩ | h | h)
      · exact Or.inl ⟨Or.inl h, hne⟩
      · refine Or.inl ⟨Or.inr h, ?_⟩
        intro hc
        have := h.1
        rw [hc] at this
        exact hkey (this ▸ hwf.l2g_entity hs1g)
      · exact Or.inr h

/-! ## Claims about `clone_boundary_entity` -/

theorem mem_out_relations {b : BulkData} {e t : EntityKey} {i : Nat} :
    (t, i) ∈ b.out_relations e ↔ (⟨e, t, i⟩ : Decl) ∈ b.relations := by
  unfold BulkData.out_relations
  rw [List.mem_map]
  constructor
  · rintro ⟨d, hd, heq⟩
    obtain ⟨h1, h2⟩ := List.mem_filter.mp hd
    simp only [decide_eq_true_eq] at h2
    simp only [Prod.mk.injEq] at heq
    cases d
    simp only at h2 heq
    rw [← h2, ← heq.1, ← heq.2]
    exact h1
  · intro h
    exact ⟨_, List.mem_filter.mpr ⟨h, by simp⟩, rfl⟩

theorem nodup_out_relations {b : BulkData} (h : b.relations.Nodup) (e : EntityKey) :
    (b.out_relations e).Nodup := by
  unfold BulkData.out_relations
  refine List.Nodup.map_on ?_ (h.filter _)
  intro x hx y hy hxy
  have hx' := (List.mem_filter.mp hx).2
  have hy' := (List.mem_filter.mp hy).2
  simp only [decide_eq_true_eq] at hx' hy'
  simp only [Prod.mk.injEq] at hxy
  cases x
  cases y
  simp_all

theorem sharedFaceStar_wf : sharedFaceStar.WF :=
  { numDim_le := by decide
    vertex_nodup := by decide
    vertex_rank := by decide
    vertex_key := by decide
    map_keys := by decide
    map_vals := by decide
    map_inj := by decide
    edge_ends := by decide
    edge_nodup := by decide
    mirror := by decide
    ent_rank := by decide
    rel_ends := by decide
    rel_rank := by decide
    rel_nodup := by decide
    rel_fun := by decide }

theorem sharedSegmentStar_wf : sharedSegmentStar.WF :=
  { numDim_le := by decide
    vertex_nodup := by decide
    vertex_rank := by decide
    vertex_key := by decide
    map_keys := by decide
    map_vals := by decide
    map_inj := by decide
    edge_ends := by decide
    edge_nodup := by decide
    mirror := by decide
    ent_rank := by decide
    rel_ends := by decide
    rel_rank := by decide
    rel_nodup := by decide
    rel_fun := by decide }

/-- C4: when `clone_boundary_entity` clones an open vertex `v` with exactly two
incoming edges of a well-formed subgraph, the clone `v'` is a new vertex with a
new entity `k'`, and the multiset of (target rank, local id) pairs of the
relations stored out of `k'` equals that of the relations stored out of the
entity of `v`, which are those `v` had before the call. -/
theorem clone_boundary_entity_out_relations (g : Subgraph) (hwf : g.WF) (v : Nat)
    (kv : EntityKey) (o : EntityOpenMap) (hdeg : g.in_degree v = 2)
    (hv : g.local_to_global v = some kv) (ho : o kv = true) :
    ∃ g' o' v' k', g.clone_boundary_entity v o = some (g', o') ∧
      g'.vertices = g.vertices ++ [(v', kv.rank)] ∧ v' ∉ g.vertices.map Prod.fst ∧
      g'.local_to_global v' = some k' ∧ k' ∉ g.bulkData_.entities ∧
      ((g'.bulkData_.out_relations k').map (fun p => (p.1.rank, p.2))).Perm
        ((g'.bulkData_.out_relations kv).map (fun p => (p.1.rank, p.2))) ∧
      (g'.bulkData_.out_relations kv).Perm (g.bulkData_.out_relations kv) := by
  obtain ⟨e1, e2, hin⟩ := List.length_eq_two.mp hdeg
  obtain ⟨g', k1, hdef, hwf', hk1, hverts, hents, hnew, hmono, hedges, hrel⟩ :=
    clone_boundary_entity_spec hwf hin hv ho
  have hkey := new_key_not_mem g.bulkData_.entities kv.rank
  have hkv : kv ∈ g.bulkData_.entities := hwf.l2g_entity hv
  have hk1e : k1 ∈ g.bulkData_.entities := hwf.l2g_entity hk1
  have he1 : e1 ∈ g.edges ∧ e1.target = v := by
    have : e1 ∈ g.in_edges v := by rw [hin]; exact List.mem_cons_self _ _
    have := List.mem_filter.mp this
    exact ⟨this.1, by simpa using this.2⟩
  have hk1v : k1 ≠ kv := by
    intro hc
    exact hwf.edge_ne he1.1 ((hwf.l2g_inj hk1 (hc ▸ hv)).trans he1.2.symm)
  -- relations out of the clone and out of the original after the call
  have hnewrel : ∀ t i, (⟨⟨kv.rank, maxId g.bulkData_.entities + 1⟩, t, i⟩ : Decl) ∈
      g'.bulkData_.relations ↔ (⟨kv, t, i⟩ : Decl) ∈ g.bulkData_.relations := by
    intro t i
    rw [hrel]
    constructor
    · rintro (⟨h, -⟩ | ⟨-, h⟩ | h)
      · exact absurd (hwf.rel_ends _ h).1 hkey
      · exact h
      · simp only [Decl.mk.injEq] at h
        exact absurd (h.1 ▸ hk1e) hkey
    · intro h
      exact Or.inr (Or.inl ⟨rfl, h⟩)
  have holdrel : ∀ t i, (⟨kv, t, i⟩ : Decl) ∈ g'.bulkData_.relations ↔
      (⟨kv, t, i⟩ : Decl) ∈ g.bulkData_.relations := by
    intro t i
    rw [hrel]
    constructor
    · rintro (⟨h, -⟩ | ⟨h, -⟩ | h)
      · exact h
      · simp only at h
        exact absurd (h ▸ hkv) hkey
      · simp only [Decl.mk.injEq] at h
        exact absurd h.1.symm hk1v
    · intro h
      refine Or.inl ⟨h, ?_⟩
      simp only [ne_eq, Decl.mk.injEq, not_and]
      exact fun hc => absurd hc.symm hk1v
  have hperm1 : (g'.bulkData_.out_relations ⟨kv.rank, maxId g.bulkData_.entities + 1⟩).Perm
      (g'.bulkData_.out_relations kv) := by
    rw [List.perm_ext_iff_of_nodup (nodup_out_relations hwf'.rel_nodup _)
      (nodup_out_relations hwf'.rel_nodup _)]
    rintro ⟨t, i⟩
    rw [mem_out_relations, mem_out_relations, hnewrel, holdrel]
  have hperm2 : (g'.bulkData_.out_relations kv).Perm (g.bulkData_.out_relations kv) := by
    rw [List.perm_ext_iff_of_nodup (nodup_out_relations hwf'.rel_nodup _)
      (nodup_out_relations hwf.rel_nodup _)]
    rintro ⟨t, i⟩
    rw [mem_out_relations, mem_out_relations, holdrel]
  exact ⟨g', o.set kv false, newDescriptor g.vertices, _, hdef, hverts,
    newDescriptor_not_mem g.vertices, hnew, hkey, hperm1.map _, hperm2⟩

/-- Witness for C4 on the star of a segment of a face shared by two elements. -/
theorem clone_boundary_entity_out_relations_witness :
    sharedFaceStar.in_degree 1 = 2 ∧
    ∃ g' o' v' k', sharedFaceStar.clone_boundary_entity 1 sharedFaceOpen = some (g', o') ∧
      g'.vertices = sharedFaceStar.vertices ++ [(v', (faceKey 1).rank)] ∧
      v' ∉ sharedFaceStar.vertices.map Prod.fst ∧
      g'.local_to_global v' = some k' ∧ k' ∉ sharedFaceStar.bulkData_.entities ∧
      ((g'.bulkData_.out_relations k').map (fun p => (p.1.rank, p.2))).Perm
        ((g'.bulkData_.out_relations (faceKey 1)).map (fun p => (p.1.rank, p.2))) ∧
      (g'.bulkData_.out_relations (faceKey 1)).Perm
        (sharedFaceStar.bulkData_.out_relations (faceKey 1)) :=
  ⟨by decide,
    clone_boundary_entity_out_relations sharedFaceStar sharedFaceStar_wf 1 (faceKey 1)
      sharedFaceOpen (by decide) (by decide) (by decide)⟩

/-- C5: when `clone_boundary_entity` clones an open vertex `v` of a well-formed
subgraph whose two incoming edges are `e1` (first) and `e2`, afterwards `v`
keeps exactly the edge `e2`, the clone `v'` has exactly one incoming edge, from
the source of `e1` with the id of `e1`, the two parents are distinct, and the
store mirrors it: the relation from the first parent to `v` is gone, the same
parent is related to the clone with the same id and is the only entity related
to the clone, and the other relations into `v` are unchanged. -/
theorem clone_boundary_entity_in_edges (g : Subgraph) (hwf : g.WF) (v : Nat)
    (kv : EntityKey) (o : EntityOpenMap) (hdeg : g.in_degree v = 2)
    (hv : g.local_to_global v = some kv) (ho : o kv = true) :
    ∃ g' o' v' k' e1 e2 k1 k2, g.clone_boundary_entity v o = some (g', o') ∧
      g.in_edges v = [e1, e2] ∧ e1.source ≠ e2.source ∧
      v' ∉ g.vertices.map Prod.fst ∧ g'.local_to_global v' = some k' ∧
      g.local_to_global e1.source = some k1 ∧ g.local_to_global e2.source = some k2 ∧
      g'.in_edges v = [e2] ∧ g'.in_edges v' = [⟨e1.source, v', e1.edge_id⟩] ∧
      (⟨k1, kv, e1.edge_id⟩ : Decl) ∉ g'.bulkData_.relations ∧
      (⟨k1, k', e1.edge_id⟩ : Decl) ∈ g'.bulkData_.relations ∧
      (⟨k2, kv, e2.edge_id⟩ : Decl) ∈ g'.bulkData_.relations ∧
      (∀ d ∈ g'.bulkData_.relations, d.e_to = k' → d = ⟨k1, k', e1.edge_id⟩) ∧
      (∀ d, d.e_to = kv →
        (d ∈ g'.bulkData_.relations ↔
          d ∈ g.bulkData_.relations ∧ d ≠ ⟨k1, kv, e1.edge_id⟩)) := by
  obtain ⟨e1, e2, hin⟩ := List.length_eq_two.mp hdeg
  obtain ⟨g', k1, hdef, hwf', hk1, hverts, hents, hnew, hmono, hedges, hrel⟩ :=
    clone_boundary_entity_spec hwf hin hv ho
  have hfresh := newDescriptor_not_mem g.vertices
  have hkey := new_key_not_mem g.bulkData_.entities kv.rank
  have hkv : kv ∈ g.bulkData_.entities := hwf.l2g_entity hv
  have hmem : ∀ e, e ∈ [e1, e2] → e ∈ g.edges ∧ e.target = v := by
    intro e he
    have : e ∈ g.in_edges v := by rw [hin]; exact he
    have := List.mem_filter.mp this
    exact ⟨this.1, by simpa using this.2⟩
  have he1 := hmem e1 (List.mem_cons_self _ _)
  have he2 := hmem e2 (List.mem_cons_of_mem _ (List.mem_cons_self _ _))
  -- the two parents are distinct
  have hne : e1.source ≠ e2.source := by
    intro hc
    have hnd : ((g.in_edges v).map (fun e => (e.source, e.target))).Nodup :=
      List.Nodup.sublist (List.Sublist.map _ (List.filter_sublist _)) hwf.edge_nodup
    rw [hin] at hnd
    simp only [List.map_cons, List.map_nil, List.nodup_cons, List.mem_singleton,
      Prod.mk.injEq, not_and] at hnd
    exact hnd.1 hc (he1.2.trans he2.2.symm)
  obtain ⟨k2, kt2, hk2, hkt2, hrel2⟩ := hwf.mirror_rel he2.1
  rw [he2.2, hv] at hkt2
  cases hkt2
  obtain ⟨k1', kt1, hk1', hkt1, hrel1⟩ := hwf.mirror_rel he1.1
  rw [hk1] at hk1'
  cases hk1'
  have hk12 : k1 ≠ k2 := fun hc => hne (hwf.l2g_inj hk1 (hc ▸ hk2))
  have hk1e : k1 ∈ g.bulkData_.entities := hwf.l2g_entity hk1
  -- in-edges of the original vertex
  have hinv : g'.in_edges v = [e2] := by
    unfold Subgraph.in_edges
    rw [hedges, List.filter_append, List.filter_append, List.filter_filter]
    have h1 : g.edges.filter (fun a => decide (a.target = v) &&
        !(decide (a.source = e1.source) && decide (a.target = v))) = [e2] := by
      have : g.edges.filter (fun a => decide (a.target = v) &&
          !(decide (a.source = e1.source) && decide (a.target = v))) =
          (g.in_edges v).filter (fun a => !decide (a.source = e1.source)) := by
        unfold Subgraph.in_edges
        rw [List.filter_filter]
        apply List.filter_congr
        intro x _
        by_cases hx : x.target = v <;> simp [hx]
      rw [this, hin]
      have hne' : ¬ e2.source = e1.source := fun hc => hne hc.symm
      simp [List.filter_cons, hne']
    have h2 : ((g.out_edges v).map
        (fun e => (⟨newDescriptor g.vertices, e.target, e.edge_id⟩ : Edge))).filter
        (fun e => decide (e.target = v)) = [] := by
      rw [List.filter_eq_nil_iff]
      intro x hx
      obtain ⟨e, he, rfl⟩ := List.mem_map.mp hx
      obtain ⟨hm, hs⟩ := List.mem_filter.mp he
      simp only [decide_eq_true_eq] at hs ⊢
      exact fun hc => hwf.edge_ne hm (hs.trans hc.symm)
    have h3 : ([⟨e1.source, newDescriptor g.vertices, e1.edge_id⟩] : List Edge).filter
        (fun e => decide (e.target = v)) = [] := by
      have : newDescriptor g.vertices ≠ v := fun hc => hfresh (hc ▸ hwf.l2g_vertex hv)
      simp [List.filter_cons, this]
    rw [h1, h2, h3]
    rfl
  -- in-edges of the clone
  have hinv' : g'.in_edges (newDescriptor g.vertices) =
      [⟨e1.source, newDescriptor g.vertices, e1.edge_id⟩] := by
    unfold Subgraph.in_edges
    rw [hedges, List.filter_append, List.filter_append]
    have h1 : (g.edges.filter
        (fun x => !(decide (x.source = e1.source) && decide (x.target = v)))).filter
        (fun e => decide (e.target = newDescriptor g.vertices)) = [] := by
      rw [List.filter_eq_nil_iff]
      intro x hx
      have := (hwf.edge_ends x (List.mem_filter.mp hx).1).2
      simp only [decide_eq_true_eq]
      exact fun hc => hfresh (hc ▸ this)
    have h2 : ((g.out_edges v).map
        (fun e => (⟨newDescriptor g.vertices, e.target, e.edge_id⟩ : Edge))).filter
        (fun e => decide (e.target = newDescriptor g.vertices)) = [] := by
      rw [List.filter_eq_nil_iff]
      intro x hx
      obtain ⟨e, he, rfl⟩ := List.mem_map.mp hx
      have := (hwf.edge_ends e (List.mem_filter.mp he).1).2
      simp only [decide_eq_true_eq]
      exact fun hc => hfresh (hc ▸ this)
    rw [h1, h2]
    simp [List.filter_cons]
  refine ⟨g', o.set kv false, newDescriptor g.vertices, _, e1, e2, k1, k2, hdef, hin, hne,
    hfresh, hnew, hk1, hk2, hinv, hinv', ?_, ?_, ?_, ?_, ?_⟩
  · rw [hrel]
    rintro (⟨-, h⟩ | ⟨h, -⟩ | h)
    · exact h rfl
    · simp only at h
      exact hkey (h ▸ hk1e)
    · simp only [Decl.mk.injEq] at h
      exact hkey (h.2.1 ▸ hkv)
  · rw [hrel]
    exact Or.inr (Or.inr rfl)
  · rw [hrel]
    refine Or.inl ⟨hrel2, ?_⟩
    simp only [ne_eq, Decl.mk.injEq, not_and]
    exact fun hc => absurd hc.symm hk12
  · intro d hd hto
    rcases (hrel d).mp hd with ⟨h, -⟩ | ⟨-, h⟩ | h
    · exact absurd (hto ▸ (hwf.rel_ends d h).2) hkey
    · exact absurd (hto ▸ (hwf.rel_ends _ h).2) hkey
    · exact h
  · intro d hto
    rw [hrel]
    constructor
    · rintro (h | ⟨h, hh⟩ | h)
      · exact h
      · exfalso
        -- a relation out of the clone goes to a child of `kv`, never to `kv`
        have := hwf'.rel_rank d ((hrel d).mpr (Or.inr (Or.inl ⟨h, hh⟩)))
        rw [h, hto] at this
        simp at this
      · exfalso
        rw [h] at hto
        simp only at hto
        exact hkey (hto ▸ hkv)
    · exact Or.inl

/-- Witness for C5 on the star of a segment of a face shared by two elements. -/
theorem clone_boundary_entity_in_edges_witness :
    sharedFaceStar.in_degree 1 = 2 ∧ sharedFaceOpen (faceKey 1) = true ∧
    ∃ g' o' v' k' e1 e2 k1 k2,
      sharedFaceStar.clone_boundary_entity 1 sharedFaceOpen = some (g', o') ∧
      sharedFaceStar.in_edges 1 = [e1, e2] ∧ e1.source ≠ e2.source ∧
      v' ∉ sharedFaceStar.vertices.map Prod.fst ∧ g'.local_to_global v' = some k' ∧
      sharedFaceStar.local_to_global e1.source = some k1 ∧
      sharedFaceStar.local_to_global e2.source = some k2 ∧
      g'.in_edges 1 = [e2] ∧ g'.in_edges v' = [⟨e1.source, v', e1.edge_id⟩] ∧
      (⟨k1, faceKey 1, e1.edge_id⟩ : Decl) ∉ g'.bulkData_.relations ∧
      (⟨k1, k', e1.edge_id⟩ : Decl) ∈ g'.bulkData_.relations ∧
      (⟨k2, faceKey 1, e2.edge_id⟩ : Decl) ∈ g'.bulkData_.relations ∧
      (∀ d ∈ g'.bulkData_.relations, d.e_to = k' → d = ⟨k1, k', e1.edge_id⟩) ∧
      (∀ d, d.e_to = faceKey 1 →
        (d ∈ g'.bulkData_.relations ↔
          d ∈ sharedFaceStar.bulkData_.relations ∧ d ≠ ⟨k1, faceKey 1, e1.edge_id⟩)) :=
  ⟨by decide, by decide,
    clone_boundary_entity_in_edges sharedFaceStar sharedFaceStar_wf 1 (faceKey 1)
      sharedFaceOpen (by decide) (by decide) (by decide)⟩

/-- C6: for a vertex whose number of incoming subgraph edges is not 2,
`clone_boundary_entity` returns normally and leaves the subgraph (its vertices,
edges and index maps, and the entity store it mirrors) and the open map
unchanged. -/
theorem clone_boundary_entity_noop_in_degree (g : Subgraph) (v : Nat) (o : EntityOpenMap)
    (hdeg : g.in_degree v ≠ 2) : g.clone_boundary_entity v o = some (g, o) := by
  unfold Subgraph.clone_boundary_entity
  rw [if_pos hdeg]

/-- Witness for C6: face 2 of the example star has one parent element. -/
theorem clone_boundary_entity_noop_in_degree_witness :
    sharedFaceStar.in_degree 2 ≠ 2 ∧
    sharedFaceStar.clone_boundary_entity 2 sharedFaceOpen =
      some (sharedFaceStar, sharedFaceOpen) :=
  ⟨by decide, clone_boundary_entity_noop_in_degree sharedFaceStar 2 sharedFaceOpen (by decide)⟩

/-- C7, counterexample: the shared face of the example star has two incoming
edges and is not open in `noneOpen`; `clone_boundary_entity` does not return
the unchanged state, it stops at the failed assertion. -/
theorem clone_boundary_entity_closed_counterexample :
    sharedFaceStar.in_degree 1 = 2 ∧
    sharedFaceStar.local_to_global 1 = some (faceKey 1) ∧ noneOpen (faceKey 1) = false ∧
    sharedFaceStar.clone_boundary_entity 1 noneOpen ≠ some (sharedFaceStar, noneOpen) ∧
    sharedFaceStar.clone_boundary_entity 1 noneOpen = none := by
  refine ⟨by decide, by decide, by decide, ?_, ?_⟩
  · have : sharedFaceStar.clone_boundary_entity 1 noneOpen = none := by
      unfold Subgraph.clone_boundary_entity
      simp [show sharedFaceStar.in_degree 1 = 2 by decide,
        show sharedFaceStar.local_to_global 1 = some (faceKey 1) by decide, noneOpen]
    rw [this]
    exact fun h => Option.noConfusion h
  · unfold Subgraph.clone_boundary_entity
    simp [show sharedFaceStar.in_degree 1 = 2 by decide,
      show sharedFaceStar.local_to_global 1 = some (faceKey 1) by decide, noneOpen]

/-- C7, amended: for a vertex with exactly two incoming edges whose open flag
is false, `clone_boundary_entity` fails the assertion that the vertex is open;
it does not return, so no state with a new vertex, a changed edge, relation or
flag is produced. -/
theorem clone_boundary_entity_closed_fails (g : Subgraph) (v : Nat) (kv : EntityKey)
    (o : EntityOpenMap) (hdeg : g.in_degree v = 2) (hv : g.local_to_global v = some kv)
    (ho : o kv = false) : g.clone_boundary_entity v o = none := by
  unfold Subgraph.clone_boundary_entity
  simp [hdeg, hv, ho]

/-- Witness for the amended C7 on the example star with no open entity. -/
theorem clone_boundary_entity_closed_fails_witness :
    sharedFaceStar.in_degree 1 = 2 ∧
    sharedFaceStar.local_to_global 1 = some (faceKey 1) ∧ noneOpen (faceKey 1) = false ∧
    sharedFaceStar.clone_boundary_entity 1 noneOpen = none :=
  ⟨by decide, by decide, by decide,
    clone_boundary_entity_closed_fails sharedFaceStar 1 (faceKey 1) noneOpen
      (by decide) (by decide) (by decide)⟩

/-! ## The undirected projection and its components -/

theorem ureach_subset (es : List (Nat × Nat)) (fuel : Nat) :
    ∀ seen : List Nat, ∀ u ∈ seen, u ∈ ureach es fuel seen := by
  induction fuel with
  | zero => intro seen u hu; exact hu
  | succ k ih =>
    intro seen u hu
    unfold ureach
    exact ih _ u (List.mem_append_left _ hu)

/-- Labels given by the sweep of `connected_components` are below the number
of components, labels once given are kept, and every visited vertex has one. -/
theorem label_components_spec (es : List (Nat × Nat)) (n : Nat) (us : List Nat) :
    ∀ (labels : List (Nat × Nat)) (count : Nat),
      (∀ u c, labels.lookup u = some c → c < count) →
      (∀ u c, (label_components es n us labels count).1.lookup u = some c →
        c < (label_components es n us labels count).2) ∧
      (∀ u c, labels.lookup u = some c →
        (label_components es n us labels count).1.lookup u = some c) ∧
      (∀ u ∈ us, ((label_components es n us labels count).1.lookup u).isSome) := by
  induction us with
  | nil =>
    intro labels count h
    exact ⟨h, fun _ _ h => h, fun _ hu => by cases hu⟩
  | cons a as ih =>
    intro labels count h
    unfold label_components
    split
    · rename_i hsome
      obtain ⟨h1, h2, h3⟩ := ih labels count h
      refine ⟨h1, h2, ?_⟩
      intro u hu
      rcases List.mem_cons.mp hu with rfl | hu'
      · obtain ⟨c, hc⟩ := Option.isSome_iff_exists.mp hsome
        rw [h2 _ _ hc]
        rfl
      · exact h3 u hu'
    · rename_i hnone
      have hnone' : labels.lookup a = none := by
        cases hl : labels.lookup a with
        | none => rfl
        | some c => rw [hl] at hnone; simp at hnone
      have hinv : ∀ u c, (labels ++ ((ureach es n [a]).filter
          (fun w => (labels.lookup w).isNone)).map (fun w => (w, count))).lookup u = some c →
          c < count + 1 := by
        intro u c hc
        rw [List.lookup_append] at hc
        cases hl : labels.lookup u with
        | some c' =>
          rw [hl] at hc
          simp only [Option.or_some, Option.some.injEq] at hc
          have := h u c' hl
          omega
        | none =>
          rw [hl] at hc
          simp only [Option.none_or] at hc
          have := lookup_mem hc
          obtain ⟨w, -, hw⟩ := List.mem_map.mp this
          simp only [Prod.mk.injEq] at hw
          omega
      obtain ⟨h1, h2, h3⟩ := ih _ _ hinv
      refine ⟨h1, ?_, ?_⟩
      · intro u c hc
        apply h2
        rw [List.lookup_append, hc]
        rfl
      · intro u hu
        rcases List.mem_cons.mp hu with rfl | hu'
        · have : (labels ++ ((ureach es n [u]).filter
              (fun w => (labels.lookup w).isNone)).map (fun w => (w, count))).lookup u =
              some count := by
            rw [List.lookup_append, hnone', Option.none_or]
            have hs := lookup_of_mem_nodup_first (List.mem_map.mpr ⟨u, List.mem_filter.mpr
              ⟨ureach_subset es n [u] u (List.mem_singleton.mpr rfl), by simp [hnone']⟩, rfl⟩ :
                (u, count) ∈ ((ureach es n [u]).filter
                  (fun w => (labels.lookup w).isNone)).map (fun w => (w, count)))
            obtain ⟨c', hc'⟩ := Option.isSome_iff_exists.mp hs
            obtain ⟨w, -, hw⟩ := List.mem_map.mp (lookup_mem hc')
            simp only [Prod.mk.injEq] at hw
            rw [hc', hw.2]
          rw [h2 _ _ this]
          rfl
        · exact h3 u hu'

/-- Every vertex of the graph handed to `connected_components` gets a
component number below the number of components. -/
theorem connected_components_spec (n : Nat) (es : List (Nat × Nat)) :
    ∀ u, u < n → ∃ c, (connected_components n es).2[u]? = some c ∧
      c < (connected_components n es).1 := by
  intro u hu
  obtain ⟨h1, -, h3⟩ := label_components_spec es n (List.range n) [] 0
    (fun _ _ h => by simp at h)
  obtain ⟨c, hc⟩ := Option.isSome_iff_exists.mp (h3 u (List.mem_range.mpr hu))
  refine ⟨c, ?_, h1 u c hc⟩
  unfold connected_components
  simp only [List.getElem?_map]
  rw [List.getElem?_range hu]
  simp [hc]

theorem mapInsert_lookup_mono {α β : Type} [DecidableEq α] {m : List (α × β)} {u : α} {c : β}
    (k : α) (x : β) (h : m.lookup u = some c) : (mapInsert m k x).lookup u = some c := by
  unfold mapInsert
  split
  · exact h
  · rw [List.lookup_append, h]
    rfl

theorem mapInsert_lookup_self {α β : Type} [DecidableEq α] (m : List (α × β)) (k : α) (x : β) :
    ∃ c, (mapInsert m k x).lookup k = some c ∧ (c = x ∨ m.lookup k = some c) := by
  unfold mapInsert
  split
  · rename_i h
    obtain ⟨c, hc⟩ := Option.isSome_iff_exists.mp h
    exact ⟨c, hc, Or.inr hc⟩
  · rename_i h
    have hn : m.lookup k = none := by
      cases hl : m.lookup k with
      | none => rfl
      | some c => rw [hl] at h; simp at h
    refine ⟨x, ?_, Or.inl rfl⟩
    rw [List.lookup_append, hn]
    simp

theorem mapInsert_lookup_cases {α β : Type} [DecidableEq α] (m : List (α × β)) (k : α) (x : β)
    {u : α} {c : β} (h : (mapInsert m k x).lookup u = some c) :
    m.lookup u = some c ∨ (u = k ∧ c = x) := by
  unfold mapInsert at h
  split at h
  · exact Or.inl h
  · rw [List.lookup_append] at h
    cases hl : m.lookup u with
    | some c' =>
      rw [hl] at h
      simp only [Option.or_some, Option.some.injEq] at h
      rw [h]
      left
      trivial
    | none =>
      rw [hl] at h
      simp only [Option.none_or] at h
      have := lookup_mem h
      simp only [List.mem_singleton, Prod.mk.injEq] at this
      exact Or.inr this

theorem foldl_mapInsert_lookup (ps : List (Nat × Nat)) :
    ∀ (m0 : List (Nat × Nat)) (u : Nat),
      (u ∈ ps.map Prod.snd ∨ (m0.lookup u).isSome) →
      ((ps.foldl (fun m p => mapInsert m p.2 p.1) m0).lookup u).isSome := by
  induction ps with
  | nil =>
    intro m0 u h
    rcases h with h | h
    · cases h
    · exact h
  | cons p ps ih =>
    intro m0 u h
    rw [List.foldl_cons]
    apply ih
    rcases h with h | h
    · rw [List.map_cons] at h
      rcases List.mem_cons.mp h with rfl | h'
      · right
        obtain ⟨c, hc, -⟩ := mapInsert_lookup_self m0 p.2 p.1
        rw [hc]
        rfl
      · exact Or.inl h'
    · right
      obtain ⟨c, hc⟩ := Option.isSome_iff_exists.mp h
      rw [mapInsert_lookup_mono _ _ hc]
      rfl

theorem mem_mapInsert {α β : Type} [DecidableEq α] {m : List (α × β)} {k : α} {x : β}
    {p : α × β} (h : p ∈ mapInsert m k x) : p ∈ m ∨ p = (k, x) := by
  unfold mapInsert at h
  split at h
  · exact Or.inl h
  · rcases List.mem_append.mp h with h' | h'
    · exact Or.inl h'
    · exact Or.inr (List.mem_singleton.mp h')

theorem foldlM_mapInsert (f : Nat × Nat → Option Nat) (P : Nat → Prop) (ps : List (Nat × Nat)) :
    ∀ (m0 : List (Nat × Nat)),
      (∀ p ∈ ps, ∃ c, f p = some c ∧ P c) →
      (∀ p ∈ m0, P p.2) →
      ∃ m, ps.foldlM (fun m p => do
          let c ← f p
          pure (mapInsert m p.2 c)) m0 = some m ∧
        (∀ p ∈ m, P p.2) ∧
        (∀ u, (u ∈ ps.map Prod.snd ∨ (m0.lookup u).isSome) → (m.lookup u).isSome) ∧
        (∀ u, (m.lookup u).isSome → (u ∈ ps.map Prod.snd ∨ (m0.lookup u).isSome)) := by
  induction ps with
  | nil =>
    intro m0 _ h0
    refine ⟨m0, rfl, h0, ?_, fun u h => Or.inr h⟩
    rintro u (h | h)
    · cases h
    · exact h
  | cons p ps ih =>
    intro m0 hf h0
    obtain ⟨c, hc, hP⟩ := hf p (List.mem_cons_self _ _)
    have h0' : ∀ q ∈ mapInsert m0 p.2 c, P q.2 := by
      intro q h
      rcases mem_mapInsert h with h' | h'
      · exact h0 q h'
      · rw [h']
        exact hP
    obtain ⟨m, hm, h1, h2, h3⟩ := ih (mapInsert m0 p.2 c)
      (fun q hq => hf q (List.mem_cons_of_mem _ hq)) h0'
    refine ⟨m, ?_, h1, ?_, ?_⟩
    · rw [List.foldlM_cons, hc]
      exact hm
    · rintro u (h | h)
      · rw [List.map_cons] at h
        rcases List.mem_cons.mp h with rfl | h'
        · apply h2
          right
          obtain ⟨c', hc', -⟩ := mapInsert_lookup_self m0 p.2 c
          rw [hc']
          rfl
        · exact h2 u (Or.inl h')
      · apply h2
        right
        obtain ⟨c', hc'⟩ := Option.isSome_iff_exists.mp h
        rw [mapInsert_lookup_mono _ _ hc']
        rfl
    · intro u hu
      rcases h3 u hu with h | h
      · exact Or.inl (List.mem_cons_of_mem _ h)
      · obtain ⟨c', hc'⟩ := Option.isSome_iff_exists.mp h
        rcases mapInsert_lookup_cases _ _ _ hc' with h' | ⟨h', -⟩
        · right
          rw [h']
          rfl
        · left
          rw [h']
          exact List.mem_cons_self _ _

theorem mapM_option_some {α β : Type} (f : α → Option β) (l : List α)
    (h : ∀ x ∈ l, ∃ y, f x = some y) : ∃ ys, l.mapM f = some ys := by
  induction l with
  | nil => exact ⟨[], rfl⟩
  | cons a as ih =>
    obtain ⟨y, hy⟩ := h a (List.mem_cons_self _ _)
    obtain ⟨ys, hys⟩ := ih (fun x hx => h x (List.mem_cons_of_mem _ hx))
    refine ⟨y :: ys, ?_⟩
    rw [List.mapM_cons, hy, hys]
    rfl

/-- On a well-formed subgraph `undirected_graph` returns, and its component map
gives every vertex other than the input vertex (and no other) a component
number below the number of components. -/
theorem undirected_graph_spec {g : Subgraph} (hwf : g.WF) (v : Nat) :
    ∃ k comps, g.undirected_graph v = some (k, comps) ∧
      (∀ p ∈ comps, p.2 < k) ∧
      (∀ u, u ∈ g.vertices.map Prod.fst → u ≠ v → (comps.lookup u).isSome) ∧
      (∀ u, (comps.lookup u).isSome → u ∈ g.vertices.map Prod.fst ∧ u ≠ v) := by
  have hvs : ∀ u, u ∈ (g.vertices.map Prod.fst).filter (fun w => decide (w ≠ v)) ↔
      u ∈ g.vertices.map Prod.fst ∧ u ≠ v := by
    intro u
    rw [List.mem_filter]
    simp
  have hsnd : ∀ u, u ∈ (((g.vertices.map Prod.fst).filter
      (fun w => decide (w ≠ v))).enum.map Prod.snd) ↔
      u ∈ g.vertices.map Prod.fst ∧ u ≠ v := by
    intro u
    rw [List.enum_map_snd]
    exact hvs u
  -- the edges of the undirected graph
  obtain ⟨uedges, hmap⟩ := mapM_option_some
    (fun e : Edge => do
      let usource ← (((g.vertices.map Prod.fst).filter
        (fun w => decide (w ≠ v))).enum.foldl (fun m p => mapInsert m p.2 p.1) []).lookup e.source
      let utarget ← (((g.vertices.map Prod.fst).filter
        (fun w => decide (w ≠ v))).enum.foldl (fun m p => mapInsert m p.2 p.1) []).lookup e.target
      pure (usource, utarget))
    (((g.vertices.map Prod.fst).filter (fun w => decide (w ≠ v))).flatMap (fun source =>
      (g.out_edges source).filter (fun e => decide (e.target ≠ v))))
    (by
      intro e he
      obtain ⟨source, hsrc, he'⟩ := List.mem_flatMap.mp he
      obtain ⟨he1, he2⟩ := List.mem_filter.mp he'
      obtain ⟨he3, he4⟩ := List.mem_filter.mp he1
      simp only [decide_eq_true_eq] at he2 he4
      have h1 := foldl_mapInsert_lookup
        ((g.vertices.map Prod.fst).filter (fun w => decide (w ≠ v))).enum [] e.source
        (Or.inl ((hsnd _).mpr (he4 ▸ (hvs _).mp hsrc)))
      have h2 := foldl_mapInsert_lookup
        ((g.vertices.map Prod.fst).filter (fun w => decide (w ≠ v))).enum [] e.target
        (Or.inl ((hsnd _).mpr ⟨(hwf.edge_ends e he3).2, he2⟩))
      obtain ⟨a, ha⟩ := Option.isSome_iff_exists.mp h1
      obtain ⟨b, hb⟩ := Option.isSome_iff_exists.mp h2
      exact ⟨(a, b), by dsimp only; rw [ha, hb]; rfl⟩)
  obtain ⟨m, hm, h1, h2, h3⟩ := foldlM_mapInsert
    (fun p => (connected_components
      ((g.vertices.map Prod.fst).filter (fun w => decide (w ≠ v))).length uedges).2[p.1]?)
    (fun c => c < (connected_components
      ((g.vertices.map Prod.fst).filter (fun w => decide (w ≠ v))).length uedges).1)
    ((g.vertices.map Prod.fst).filter (fun w => decide (w ≠ v))).enum []
    (fun p hp => connected_components_spec _ _ p.1 (List.fst_lt_of_mem_enum hp))
    (fun _ h => by cases h)
  refine ⟨_, m, ?_, h1, ?_, ?_⟩
  · unfold Subgraph.undirected_graph
    dsimp only
    rw [hmap]
    simp only [Option.bind_eq_bind, Option.some_bind] at hm ⊢
    rw [hm]
    rfl
  · intro u hu hne
    exact h2 u (Or.inl ((hsnd u).mpr ⟨hu, hne⟩))
  · intro u hu
    rcases h3 u hu with h | h
    · exact (hsnd u).mp h
    · simp at h

/-! ## The steps of `split_articulation_point` -/

/-- Effect of the loop that creates the new vertices: `count` fresh vertices of
rank `r` with fresh entities; edges and relations are untouched. -/
theorem add_vertices_spec {g : Subgraph} (hwf : g.WF) {r : Nat} (hr : r ≤ g.numDim_)
    (count : Nat) :
    ∃ g1 newVertex, g.add_vertices r count = some (g1, newVertex) ∧ g1.WF ∧
      newVertex.length = count ∧ g1.edges = g.edges ∧
      g1.bulkData_.relations = g.bulkData_.relations ∧ g1.numDim_ = g.numDim_ ∧
      g1.vertices = g.vertices ++ newVertex.map (fun x => (x, r)) ∧
      newVertex.Nodup ∧ (∀ x ∈ newVertex, x ∉ g.vertices.map Prod.fst) ∧
      (∀ u k, g.local_to_global u = some k → g1.local_to_global u = some k) ∧
      (∀ x ∈ newVertex, ∃ k, g1.local_to_global x = some k ∧ k.rank = r ∧
        k ∉ g.bulkData_.entities) ∧
      (∀ e ∈ g.bulkData_.entities, e ∈ g1.bulkData_.entities) := by
  induction count with
  | zero =>
    refine ⟨g, [], rfl, hwf, rfl, rfl, rfl, rfl, by simp, List.nodup_nil, ?_, ?_, ?_, ?_⟩
    · intro x hx; cases hx
    · exact fun _ _ h => h
    · intro x hx; cases hx
    · exact fun _ h => h
  | succ n ih =>
    obtain ⟨g1, nv, hdef, hwf1, hlen, hedges, hrel, hdim, hverts, hnd, hfresh, hmono, hkeys,
      hents⟩ := ih
    obtain ⟨g2, hadd, hwf2, hdim2, hedges2, hrel2, hent2, hverts2, hnew2, hmono2⟩ :=
      add_vertex_spec hwf1 (hdim ▸ hr)
    have hmemv : ∀ u, u ∈ g1.vertices.map Prod.fst ↔
        u ∈ g.vertices.map Prod.fst ∨ u ∈ nv := by
      intro u
      rw [hverts, List.map_append, List.mem_append, List.map_map]
      simp
    have hnot : newDescriptor g1.vertices ∉ g.vertices.map Prod.fst ∧
        newDescriptor g1.vertices ∉ nv := by
      have := newDescriptor_not_mem g1.vertices
      rw [hmemv, not_or] at this
      exact this
    have hnot2 := hnot.2
    refine ⟨g2, nv ++ [newDescriptor g1.vertices], ?_, hwf2, ?_, hedges2.trans hedges,
      hrel2.trans hrel, hdim2.trans hdim, ?_, ?_, ?_, ?_, ?_, ?_⟩
    · unfold Subgraph.add_vertices
      rw [hdef]
      simp only [Option.bind_eq_bind, Option.some_bind]
      rw [hadd]
      rfl
    · rw [List.length_append, hlen]
      rfl
    · rw [hverts2, hverts, List.map_append, List.append_assoc]
      rfl
    · rw [List.nodup_append]
      refine ⟨hnd, by simp, ?_⟩
      intro a ha hb
      rw [List.mem_singleton] at hb
      exact hnot2 (hb ▸ ha)
    · intro x hx
      rcases List.mem_append.mp hx with h | h
      · exact hfresh x h
      · rw [List.mem_singleton] at h
        rw [h]
        exact hnot.1
    · exact fun u k hu => hmono2 u k (hmono u k hu)
    · intro x hx
      rcases List.mem_append.mp hx with h | h
      · obtain ⟨k, hk, hkr, hkn⟩ := hkeys x h
        exact ⟨k, hmono2 x k hk, hkr, hkn⟩
      · rw [List.mem_singleton] at h
        rw [h]
        refine ⟨_, hnew2, rfl, ?_⟩
        intro hc
        exact new_key_not_mem g1.bulkData_.entities r (hents _ hc)
    · intro e he
      rw [hent2]
      exact List.mem_append_left _ (hents e he)

/-- Effect of the loop that calls `clone_out_edges` for every new vertex: each
new entity gains exactly the relations stored out of the entity of `v`. -/
theorem clone_all_spec {v : Nat} {kv : EntityKey} (l : List Nat) :
    ∀ (acc : Subgraph), acc.WF → acc.local_to_global v = some kv → l.Nodup →
      (∀ x ∈ l, ∃ k, acc.local_to_global x = some k ∧ k.rank = kv.rank ∧ k ≠ kv ∧
        ∀ d ∈ acc.bulkData_.relations, d.e_to ≠ k ∧ d.e_from ≠ k) →
      ∃ g2, l.foldlM (fun a newVert => a.clone_out_edges v newVert) acc = some g2 ∧
        g2.WF ∧ g2.edges = acc.edges ∧ g2.vertices = acc.vertices ∧
        g2.numDim_ = acc.numDim_ ∧
        g2.localGlobalVertexMap = acc.localGlobalVertexMap ∧
        g2.bulkData_.entities = acc.bulkData_.entities ∧
        ∀ d, d ∈ g2.bulkData_.relations ↔
          d ∈ acc.bulkData_.relations ∨
            ∃ x ∈ l, ∃ k, acc.local_to_global x = some k ∧ d.e_from = k ∧
              (⟨kv, d.e_to, d.local_id⟩ : Decl) ∈ acc.bulkData_.relations := by
  induction l with
  | nil =>
    intro acc hwf _ _ _
    exact ⟨acc, rfl, hwf, rfl, rfl, rfl, rfl, rfl, by simp⟩
  | cons x xs ih =>
    intro acc hwf hv hnd hall
    rw [List.nodup_cons] at hnd
    obtain ⟨k, hk, hkr, hkv, hfree⟩ := hall x (List.mem_cons_self _ _)
    obtain ⟨a1, hclone, hwf1, hedges1, hverts1, hdim1, hmap1, hent1, hrel1⟩ :=
      clone_out_edges_spec hwf kv k hv hk hkr.symm (fun d hd => (hfree d hd).1)
    have hl2g : ∀ u, a1.local_to_global u = acc.local_to_global u := by
      intro u
      unfold Subgraph.local_to_global
      rw [hmap1]
    have hrel1' : ∀ d, d ∈ a1.bulkData_.relations ↔
        d ∈ acc.bulkData_.relations ∨
          (d.e_from = k ∧ (⟨kv, d.e_to, d.local_id⟩ : Decl) ∈ acc.bulkData_.relations) := by
      intro d
      rw [hrel1 d]
      constructor
      · rintro (h | ⟨h1, h2, -⟩)
        · exact Or.inl h
        · exact Or.inr ⟨h1, h2⟩
      · rintro (h | ⟨h1, h2⟩)
        · exact Or.inl h
        · exact Or.inr ⟨h1, h2, fun d' hd' hc => (hfree d' hd').2 hc.1⟩
    have hkvrel : ∀ t i, (⟨kv, t, i⟩ : Decl) ∈ a1.bulkData_.relations ↔
        (⟨kv, t, i⟩ : Decl) ∈ acc.bulkData_.relations := by
      intro t i
      rw [hrel1']
      constructor
      · rintro (h | ⟨h, -⟩)
        · exact h
        · exact absurd h.symm hkv
      · exact Or.inl
    have hall1 : ∀ x2 ∈ xs, ∃ k2, a1.local_to_global x2 = some k2 ∧ k2.rank = kv.rank ∧
        k2 ≠ kv ∧ ∀ d ∈ a1.bulkData_.relations, d.e_to ≠ k2 ∧ d.e_from ≠ k2 := by
      intro x2 hx2
      obtain ⟨k2, hk2, hkr2, hkv2, hfree2⟩ := hall x2 (List.mem_cons_of_mem _ hx2)
      have hne : k ≠ k2 := by
        intro hc
        have := hwf.l2g_inj hk (hc ▸ hk2)
        exact hnd.1 (this ▸ hx2)
      refine ⟨k2, by rw [hl2g]; exact hk2, hkr2, hkv2, ?_⟩
      intro d hd
      rcases (hrel1' d).mp hd with h | ⟨h1, h2⟩
      · exact hfree2 d h
      · exact ⟨(hfree2 _ h2).1, h1 ▸ hne⟩
    obtain ⟨g2, hfold, hwf2, hedges2, hverts2, hdim2, hmap2, hent2, hrel2⟩ :=
      ih a1 hwf1 (by rw [hl2g]; exact hv) hnd.2 hall1
    refine ⟨g2, ?_, hwf2, hedges2.trans hedges1, hverts2.trans hverts1, hdim2.trans hdim1,
      hmap2.trans hmap1, hent2.trans hent1, ?_⟩
    · rw [List.foldlM_cons, hclone]
      exact hfold
    · intro d
      rw [hrel2 d, hrel1' d]
      constructor
      · rintro ((h | ⟨h1, h2⟩) | ⟨x2, hx2, k2, hk2, h1, h2⟩)
        · exact Or.inl h
        · exact Or.inr ⟨x, List.mem_cons_self _ _, k, hk, h1, h2⟩
        · exact Or.inr ⟨x2, List.mem_cons_of_mem _ hx2, k2, by rw [← hl2g]; exact hk2, h1,
            (hkvrel _ _).mp h2⟩
      · rintro (h | ⟨x2, hx2, k2, hk2, h1, h2⟩)
        · exact Or.inl (Or.inl h)
        · rcases List.mem_cons.mp hx2 with rfl | hx2'
          · rw [hk] at hk2
            cases hk2
            exact Or.inl (Or.inr ⟨h1, h2⟩)
          · exact Or.inr ⟨x2, hx2', k2, by rw [hl2g]; exact hk2, h1, (hkvrel _ _).mpr h2⟩

theorem removed_edges_fold (g : Subgraph) (components : List (Nat × Nat)) (l : List Edge) :
    ∀ (acc : List (Nat × Nat)),
      (∀ e ∈ l, ∃ c k, components.lookup e.source = some c ∧
        g.local_to_global e.source = some k ∧ k ∈ g.bulkData_.entities) →
      l.foldlM (g.removed_step components) acc =
        some (acc ++ (l.filter (movedEdge components)).map (fun e => (e.source, e.edge_id))) := by
  induction l with
  | nil => intro acc _; simp
  | cons e es ih =>
    intro acc hall
    obtain ⟨c, k, hc, hk, hent⟩ := hall e (List.mem_cons_self _ _)
    have hge : g.bulkData_.get_entity k = some k := by
      unfold BulkData.get_entity
      rw [if_pos hent]
    have hstep : g.removed_step components acc e =
        some (if c ≠ 0 then acc ++ [(e.source, e.edge_id)] else acc) := by
      unfold Subgraph.removed_step
      simp only [hc, hk, hge, Option.bind_eq_bind, Option.some_bind, Option.pure_def]
      split <;> rfl
    rw [List.foldlM_cons, hstep]
    simp only [Option.bind_eq_bind, Option.some_bind]
    rw [ih _ (fun x hx => hall x (List.mem_cons_of_mem _ hx)), List.filter_cons]
    by_cases h0 : c = 0
    · have hm : movedEdge components e = false := by
        unfold movedEdge
        rw [hc, h0]
        simp
      simp [h0, hm]
    · have hm : movedEdge components e = true := by
        unfold movedEdge
        rw [hc]
        simpa using h0
      simp [h0, hm]

/-- The list of edges that `split_articulation_point` decides to move. -/
theorem removed_edges_spec (g : Subgraph) (components : List (Nat × Nat)) (v : Nat)
    (hall : ∀ e ∈ g.in_edges v, ∃ c k, components.lookup e.source = some c ∧
      g.local_to_global e.source = some k ∧ k ∈ g.bulkData_.entities) :
    g.removed_edges components v =
      some (((g.in_edges v).filter (movedEdge components)).map
        (fun e => (e.source, e.edge_id))) := by
  unfold Subgraph.removed_edges
  rw [removed_edges_fold g components (g.in_edges v) [] hall]
  rfl

/-- Effect of the loop that replaces the moved in-edges of `v` on a well-formed
subgraph. -/
theorem replace_edges_spec {v : Nat} {kv : EntityKey} {components : List (Nat × Nat)}
    {newVertex : List Nat} (removed : List (Nat × Nat)) :
    ∀ (acc : Subgraph), acc.WF → acc.local_to_global v = some kv →
      (removed.map Prod.fst).Nodup →
      (∀ p ∈ removed, (⟨p.1, v, p.2⟩ : Edge) ∈ acc.edges ∧
        ∃ c x ks kx, components.lookup p.1 = some c ∧ newVertex[c - 1]? = some x ∧ x ≠ v ∧
          acc.local_to_global p.1 = some ks ∧ acc.local_to_global x = some kx ∧
          kx.rank = kv.rank ∧ acc.edge p.1 x = none ∧
          ∀ d ∈ acc.bulkData_.relations, ¬ (d.e_from = ks ∧ d.e_to = kx)) →
      ∃ g3, acc.replace_edges components newVertex v removed = some g3 ∧ g3.WF ∧
        g3.vertices = acc.vertices ∧ g3.numDim_ = acc.numDim_ ∧
        g3.localGlobalVertexMap = acc.localGlobalVertexMap ∧
        g3.bulkData_.entities = acc.bulkData_.entities ∧
        g3.edges =
          acc.edges.filter
            (fun e => !(decide (e.target = v) && decide (e.source ∈ removed.map Prod.fst))) ++
          removed.map (fun p => ⟨p.1, newTarget components newVertex p.1, p.2⟩) ∧
        (∀ d, (∀ p ∈ removed, ∀ ks, acc.local_to_global p.1 = some ks → d.e_from ≠ ks) →
          (d ∈ g3.bulkData_.relations ↔ d ∈ acc.bulkData_.relations)) ∧
        (∀ d, d ∈ g3.bulkData_.relations ↔
          (d ∈ acc.bulkData_.relations ∧
            ∀ p ∈ removed, ∀ ks, acc.local_to_global p.1 = some ks → d ≠ ⟨ks, kv, p.2⟩) ∨
          ∃ p ∈ removed, ∃ ks kx, acc.local_to_global p.1 = some ks ∧
            acc.local_to_global (newTarget components newVertex p.1) = some kx ∧
            d = ⟨ks, kx, p.2⟩) := by
  induction removed with
  | nil =>
    intro acc hwf _ _ _
    refine ⟨acc, rfl, hwf, rfl, rfl, rfl, rfl, ?_, fun _ _ => Iff.rfl, fun d => by simp⟩
    simp
  | cons p ps ih =>
    intro acc hwf hv hnd hall
    rw [List.map_cons, List.nodup_cons] at hnd
    obtain ⟨hedge, c, x, ks, kx, hc, hx, hxv, hks, hkx, hrk, hfree, hnorel⟩ :=
      hall p (List.mem_cons_self _ _)
    -- remove the edge from the source to `v`
    obtain ⟨a1, ks1, kt1, hrem, hwf1, hs1, ht1, hedges1, hbulk1, hverts1, hdim1, hmap1⟩ :=
      remove_edge_spec hwf hedge
    simp only at hrem hs1 ht1 hedges1 hbulk1
    rw [hks] at hs1
    cases hs1
    rw [hv] at ht1
    cases ht1
    have hl2g1 : ∀ u, a1.local_to_global u = acc.local_to_global u := by
      intro u
      unfold Subgraph.local_to_global
      rw [hmap1]
    obtain ⟨ks', kv', hs', hv', hrel'⟩ := hwf.mirror_rel hedge
    simp only at hs' hv' hrel'
    rw [hks] at hs'
    cases hs'
    rw [hv] at hv'
    cases hv'
    -- add the edge from the source to the new vertex
    have hfree1 : a1.edge p.1 x = none := by
      rw [edge_eq_none_iff, hedges1]
      intro e he
      exact edge_eq_none_iff.mp hfree e (List.mem_filter.mp he).1
    obtain ⟨a2, hadd, hwf2, hedges2, hbulk2, hverts2, hdim2, hmap2⟩ :=
      add_edge_spec hwf1 p.2 ks kx (by rw [hl2g1]; exact hks) (by rw [hl2g1]; exact hkx)
        hfree1 (by rw [hrk]; exact hwf.rel_rank _ hrel')
        (fun d hd hf ht => by
          rw [hbulk1] at hd
          exact absurd ⟨hf, ht⟩ (hnorel d (mem_destroy_relation.mp hd).1))
    have hl2g2 : ∀ u, a2.local_to_global u = acc.local_to_global u := by
      intro u
      unfold Subgraph.local_to_global
      rw [hmap2, hmap1]
    have hall2 : ∀ q ∈ ps, (⟨q.1, v, q.2⟩ : Edge) ∈ a2.edges ∧
        ∃ c x ks kx, components.lookup q.1 = some c ∧ newVertex[c - 1]? = some x ∧ x ≠ v ∧
          a2.local_to_global q.1 = some ks ∧ a2.local_to_global x = some kx ∧
          kx.rank = kv.rank ∧ a2.edge q.1 x = none ∧
          ∀ d ∈ a2.bulkData_.relations, ¬ (d.e_from = ks ∧ d.e_to = kx) := by
      intro q hq
      obtain ⟨hedge2, c2, x2, ks2, kx2, hc2, hx2, hxv2, hks2, hkx2, hrk2, hfree2, hnorel2⟩ :=
        hall q (List.mem_cons_of_mem _ hq)
      have hne : q.1 ≠ p.1 := by
        intro hc'
        exact hnd.1 (List.mem_map.mpr ⟨q, hq, hc'⟩)
      refine ⟨?_, c2, x2, ks2, kx2, hc2, hx2, hxv2, by rw [hl2g2]; exact hks2,
        by rw [hl2g2]; exact hkx2, hrk2, ?_, ?_⟩
      · rw [hedges2, hedges1]
        apply List.mem_append_left
        rw [List.mem_filter]
        refine ⟨hedge2, ?_⟩
        simp [hne]
      · rw [edge_eq_none_iff, hedges2, hedges1]
        intro e he
        rcases List.mem_append.mp he with h | h
        · exact edge_eq_none_iff.mp hfree2 e (List.mem_filter.mp h).1
        · rw [List.mem_singleton] at h
          rw [h]
          exact fun hc' => hne hc'.1.symm
      · intro d hd
        rw [hbulk2, mem_declare_relation, hbulk1, mem_destroy_relation] at hd
        rcases hd with ⟨h, -⟩ | h
        · exact hnorel2 d h
        · rw [h]
          rintro ⟨hc1, -⟩
          simp only at hc1
          exact hne (hwf.l2g_inj hks2 (hc1 ▸ hks))
    obtain ⟨g3, hrep, hwf3, hverts3, hdim3, hmap3, hent3, hedges3, hrel3, hfull3⟩ :=
      ih a2 hwf2 (by rw [hl2g2]; exact hv) hnd.2 hall2
    have hnt : newTarget components newVertex p.1 = x := by
      unfold newTarget
      rw [hc]
      simp only [Option.getD_some]
      rw [List.getD_eq_getElem?_getD, hx]
      rfl
    refine ⟨g3, ?_, hwf3, by rw [hverts3, hverts2, hverts1], by rw [hdim3, hdim2, hdim1],
      by rw [hmap3, hmap2, hmap1],
      by rw [hent3, hbulk2, entities_declare_relation, hbulk1]; rfl, ?_, ?_, ?_⟩
    · have hstep : Subgraph.replace_step components newVertex v acc p = some a2 := by
        unfold Subgraph.replace_step
        simp only [hc, hrem, hx, hadd, Option.bind_eq_bind, Option.some_bind, if_true,
          Option.pure_def]
      unfold Subgraph.replace_edges
      rw [List.foldlM_cons, hstep]
      exact hrep
    · have hmc : (p :: ps).map
          (fun q => (⟨q.1, newTarget components newVertex q.1, q.2⟩ : Edge)) =
          ⟨p.1, x, p.2⟩ ::
            ps.map (fun q => (⟨q.1, newTarget components newVertex q.1, q.2⟩ : Edge)) := by
        rw [List.map_cons, hnt]
      rw [hmc, hedges3, hedges2, hedges1, List.filter_append, List.filter_filter]
      have h1 : List.filter
          (fun e => !(decide (e.target = v) && decide (e.source ∈ ps.map Prod.fst)))
          [(⟨p.1, x, p.2⟩ : Edge)] = [⟨p.1, x, p.2⟩] := by
        simp [List.filter_cons, hxv]
      rw [h1, List.append_assoc]
      congr 1
      apply List.filter_congr
      intro e _
      by_cases h1 : e.target = v <;> by_cases h2 : e.source = p.1 <;>
        simp [h1, h2]
    · intro d hd
      have hd2 : ∀ q ∈ ps, ∀ ks, a2.local_to_global q.1 = some ks → d.e_from ≠ ks := by
        intro q hq ks2 hks2
        rw [hl2g2] at hks2
        exact hd q (List.mem_cons_of_mem _ hq) ks2 hks2
      rw [hrel3 d hd2, hbulk2, mem_declare_relation, hbulk1, mem_destroy_relation]
      have hne := hd p (List.mem_cons_self _ _) ks hks
      constructor
      · rintro (⟨h, -⟩ | h)
        · exact h
        · rw [h] at hne
          exact absurd rfl hne
      · intro h
        refine Or.inl ⟨h, ?_⟩
        intro hc'
        rw [hc'] at hne
        exact absurd rfl hne
    · intro d
      have hstep : d ∈ a2.bulkData_.relations ↔
          (d ∈ acc.bulkData_.relations ∧ d ≠ ⟨ks, kv, p.2⟩) ∨ d = ⟨ks, kx, p.2⟩ := by
        rw [hbulk2, mem_declare_relation, hbulk1, mem_destroy_relation]
      have hkxv : kx ≠ kv := fun hc' => hxv (hwf.l2g_inj hkx (hc' ▸ hv))
      rw [hfull3 d, hstep]
      constructor
      · rintro (⟨hd | hd, hps⟩ | ⟨q, hq, ks2, kx2, hks2, hkx2, hd⟩)
        · left
          refine ⟨hd.1, ?_⟩
          intro q hq ks2 hks2
          rcases List.mem_cons.mp hq with rfl | hq'
          · rw [hks] at hks2
            cases hks2
            exact hd.2
          · exact hps q hq' ks2 (by rw [hl2g2]; exact hks2)
        · right
          exact ⟨p, List.mem_cons_self _ _, ks, kx, hks, by rw [hnt]; exact hkx, hd⟩
        · right
          rw [hl2g2] at hks2 hkx2
          exact ⟨q, List.mem_cons_of_mem _ hq, ks2, kx2, hks2, hkx2, hd⟩
      · rintro (⟨hd, hall'⟩ | ⟨q, hq, ks2, kx2, hks2, hkx2, hd⟩)
        · left
          refine ⟨Or.inl ⟨hd, hall' p (List.mem_cons_self _ _) ks hks⟩, ?_⟩
          intro q hq ks2 hks2
          rw [hl2g2] at hks2
          exact hall' q (List.mem_cons_of_mem _ hq) ks2 hks2
        · rcases List.mem_cons.mp hq with rfl | hq'
          · rw [hks] at hks2
            cases hks2
            rw [hnt, hkx] at hkx2
            cases hkx2
            left
            refine ⟨Or.inr hd, ?_⟩
            intro q' _ ks3 _ hc'
            rw [hd] at hc'
            simp only [Decl.mk.injEq] at hc'
            exact hkxv hc'.2.1
          · right
            exact ⟨q, hq', ks2, kx2, by rw [hl2g2]; exact hks2, by rw [hl2g2]; exact hkx2, hd⟩

theorem in_edges_sources_nodup {g : Subgraph} (hwf : g.WF) (v : Nat) :
    ((g.in_edges v).map (fun e => e.source)).Nodup := by
  have hsub : ((g.in_edges v).map (fun e => (e.source, e.target))).Nodup :=
    List.Nodup.sublist (List.Sublist.map _ (List.filter_sublist _)) hwf.edge_nodup
  refine List.Nodup.map_on ?_ (List.Nodup.of_map _ hsub)
  intro x hx y hy hxy
  have hx' := (List.mem_filter.mp hx).2
  have hy' := (List.mem_filter.mp hy).2
  simp only [decide_eq_true_eq] at hx' hy'
  exact List.inj_on_of_nodup_map hsub hx hy (by simp only [hx', hy', hxy])

theorem foldlM_option_some {α β : Type} (f : β → α → Option β) (l : List α)
    (h : ∀ x ∈ l, ∀ acc, ∃ acc', f acc x = some acc') :
    ∀ acc, ∃ r, l.foldlM f acc = some r := by
  induction l with
  | nil => intro acc; exact ⟨acc, rfl⟩
  | cons a as ih =>
    intro acc
    obtain ⟨acc', hacc⟩ := h a (List.mem_cons_self _ _) acc
    obtain ⟨r, hr⟩ := ih (fun x hx => h x (List.mem_cons_of_mem _ hx)) acc'
    exact ⟨r, by rw [List.foldlM_cons, hacc]; exact hr⟩

theorem mem_in_edges {g : Subgraph} {v : Nat} {e : Edge} :
    e ∈ g.in_edges v ↔ e ∈ g.edges ∧ e.target = v := by
  unfold Subgraph.in_edges
  rw [List.mem_filter]
  simp

/-- What `split_articulation_point` does to a well-formed subgraph when the
projection without the open vertex `v` does not have exactly one component:
the state it returns, described vertex by vertex, edge by edge and relation by
relation, together with the intermediate state after the new vertices were
added, from which the returned map is computed. -/
theorem split_articulation_point_full {g : Subgraph} (hwf : g.WF) {v : Nat}
    {kv : EntityKey} {o : EntityOpenMap} {k : Nat} {comps : List (Nat × Nat)}
    (hv : g.local_to_global v = some kv) (ho : o kv = true)
    (hug : g.undirected_graph v = some (k, comps)) (hk : k ≠ 1)
    (hlt : ∀ p ∈ comps, p.2 < k)
    (hsome : ∀ u, u ∈ g.vertices.map Prod.fst → u ≠ v → (comps.lookup u).isSome)
    (hdom : ∀ u, (comps.lookup u).isSome → u ∈ g.vertices.map Prod.fst ∧ u ≠ v) :
    ∃ g' nc nv, g.split_articulation_point v o = some (g', o.set kv false, nc) ∧ g'.WF ∧
      nv.length = k - 1 ∧ nv.Nodup ∧ (∀ x ∈ nv, x ∉ g.vertices.map Prod.fst) ∧
      g'.vertices = g.vertices ++ nv.map (fun x => (x, kv.rank)) ∧
      g'.edges =
        g.edges.filter (fun e => !(decide (e.target = v) && movedEdge comps e)) ++
          ((g.in_edges v).filter (movedEdge comps)).map
            (fun e => ⟨e.source, newTarget comps nv e.source, e.edge_id⟩) ∧
      (∀ e ∈ g.in_edges v, movedEdge comps e = true →
        ∃ c, comps.lookup e.source = some c ∧ c ≠ 0 ∧
          nv[c - 1]? = some (newTarget comps nv e.source)) ∧
      (∀ x ∈ nv, ∃ kx, g'.local_to_global x = some kx ∧ kx ∉ g.bulkData_.entities ∧
        kx.rank = kv.rank ∧
        ∀ t i, (⟨kx, t, i⟩ : Decl) ∈ g'.bulkData_.relations ↔
          (⟨kv, t, i⟩ : Decl) ∈ g.bulkData_.relations) ∧
      (∃ g1, g.add_vertices kv.rank (k - 1) = some (g1, nv) ∧ g1.WF ∧
        (if kv.rank = 0 then g1.new_connectivity comps nv else some []) = some nc ∧
        g'.localGlobalVertexMap = g1.localGlobalVertexMap ∧
        g1.vertices = g.vertices ++ nv.map (fun x => (x, kv.rank)) ∧
        g1.numDim_ = g.numDim_ ∧
        (∀ u ku, g.local_to_global u = some ku → g1.local_to_global u = some ku) ∧
        g'.numDim_ = g.numDim_ ∧
        (∀ d, d ∈ g'.bulkData_.relations ↔
          (d ∈ g.bulkData_.relations ∧
            ∀ e ∈ g.in_edges v, movedEdge comps e = true →
              ∀ ks, g.local_to_global e.source = some ks → d ≠ ⟨ks, kv, e.edge_id⟩) ∨
          (∃ x ∈ nv, ∃ kx, g1.local_to_global x = some kx ∧ d.e_from = kx ∧
            (⟨kv, d.e_to, d.local_id⟩ : Decl) ∈ g.bulkData_.relations) ∨
          ∃ e ∈ g.in_edges v, movedEdge comps e = true ∧
            ∃ ks kx, g.local_to_global e.source = some ks ∧
              g1.local_to_global (newTarget comps nv e.source) = some kx ∧
              d = ⟨ks, kx, e.edge_id⟩)) := by
  have hvv : v ∈ g.vertices.map Prod.fst := hwf.l2g_vertex hv
  obtain ⟨kv', hkv', hkvent, hrankv, hrle⟩ := hwf.vertex_l2g hvv
  rw [hv] at hkv'
  cases hkv'
  obtain ⟨g1, nv, hadd, hwf1, hlen, hedges1, hrel1, hdim1, hverts1, hnd1, hfresh1, hmono1,
    hkeys1, hents1⟩ := add_vertices_spec hwf hrle (k - 1)
  -- the connectivity map
  have hnc : ∃ nc, (if kv.rank = 0 then g1.new_connectivity comps nv else some []) =
      some nc := by
    split
    · unfold Subgraph.new_connectivity
      apply foldlM_option_some
      intro i hi acc
      have hlook : (comps.lookup i.1).isSome := by
        rw [List.lookup_isSome_iff]
        exact ⟨i, hi, by simp⟩
      have hiv := (hdom i.1 hlook).1
      have hiv1 : i.1 ∈ g1.vertices.map Prod.fst := by
        rw [hverts1, List.map_append]
        exact List.mem_append_left _ hiv
      obtain ⟨ki, hki, -, hranki, -⟩ := hwf1.vertex_l2g hiv1
      simp only [hranki, hki, Option.bind_eq_bind, Option.some_bind]
      split
      · rename_i hcond
        have hlt' := hlt i hi
        have hidx : i.2 - 1 < nv.length := by
          rw [hlen]
          omega
        rw [List.getElem?_eq_getElem hidx]
        obtain ⟨kx, hkx, -, -⟩ := hkeys1 _ (List.getElem_mem hidx)
        simp only [Option.some_bind, hkx]
        exact ⟨_, rfl⟩
      · exact ⟨_, rfl⟩
    · exact ⟨[], rfl⟩
  obtain ⟨nc, hnc⟩ := hnc
  -- clone the out edges for every new vertex
  have hall2 : ∀ x ∈ nv, ∃ kx, g1.local_to_global x = some kx ∧ kx.rank = kv.rank ∧
      kx ≠ kv ∧ ∀ d ∈ g1.bulkData_.relations, d.e_to ≠ kx ∧ d.e_from ≠ kx := by
    intro x hx
    obtain ⟨kx, hkx, hkr, hkn⟩ := hkeys1 x hx
    refine ⟨kx, hkx, hkr, fun hc => hkn (hc ▸ hkvent), ?_⟩
    intro d hd
    rw [hrel1] at hd
    exact ⟨fun hc => hkn (hc ▸ (hwf.rel_ends d hd).2),
      fun hc => hkn (hc ▸ (hwf.rel_ends d hd).1)⟩
  obtain ⟨g2, hfold, hwf2, hedges2, hverts2, hdim2, hmap2, hent2, hrel2⟩ :=
    clone_all_spec nv g1 hwf1 (hmono1 _ _ hv) hnd1 hall2
  have hl2g2 : ∀ u, g2.local_to_global u = g1.local_to_global u := by
    intro u
    unfold Subgraph.local_to_global
    rw [hmap2]
  have hin2 : g2.in_edges v = g.in_edges v := by
    unfold Subgraph.in_edges
    rw [hedges2, hedges1]
  -- component, key and entity of the source of every in-edge
  have hsrc : ∀ e ∈ g.in_edges v, ∃ c ks, comps.lookup e.source = some c ∧ c < k ∧
      g.local_to_global e.source = some ks ∧ ks ∈ g.bulkData_.entities := by
    intro e he
    obtain ⟨he1, he2⟩ := mem_in_edges.mp he
    have hne : e.source ≠ v := fun hc => hwf.edge_ne he1 (hc.trans he2.symm)
    obtain ⟨c, hc⟩ := Option.isSome_iff_exists.mp
      (hsome e.source (hwf.edge_ends e he1).1 hne)
    obtain ⟨ks, hks, hkse, -, -⟩ := hwf.vertex_l2g (hwf.edge_ends e he1).1
    exact ⟨c, ks, hc, hlt _ (lookup_mem hc), hks, hkse⟩
  have hrem : g2.removed_edges comps v = some
      (((g.in_edges v).filter (movedEdge comps)).map (fun e => (e.source, e.edge_id))) := by
    rw [← hin2]
    apply removed_edges_spec
    intro e he
    rw [hin2] at he
    obtain ⟨c, ks, hc, -, hks, hkse⟩ := hsrc e he
    refine ⟨c, ks, hc, by rw [hl2g2]; exact hmono1 _ _ hks, ?_⟩
    rw [hent2]
    exact hents1 _ hkse
  -- what is known of a moved edge
  have hmoved : ∀ e ∈ g.in_edges v, movedEdge comps e = true →
      ∃ c, comps.lookup e.source = some c ∧ c ≠ 0 ∧
        nv[c - 1]? = some (newTarget comps nv e.source) ∧
        newTarget comps nv e.source ∈ nv := by
    intro e he hm
    obtain ⟨c, ks, hc, hck, -, -⟩ := hsrc e he
    have hc0 : c ≠ 0 := by
      intro h0
      unfold movedEdge at hm
      rw [hc, h0] at hm
      simp at hm
    have hidx : c - 1 < nv.length := by
      rw [hlen]
      omega
    have hnt : newTarget comps nv e.source = nv[c - 1] := by
      unfold newTarget
      rw [hc]
      simp only [Option.getD_some]
      rw [List.getD_eq_getElem?_getD, List.getElem?_eq_getElem hidx]
      rfl
    exact ⟨c, hc, hc0, by rw [hnt, List.getElem?_eq_getElem hidx], hnt ▸ List.getElem_mem hidx⟩
  have hto2 : ∀ d ∈ g2.bulkData_.relations, d.e_to ∈ g.bulkData_.entities := by
    intro d hd
    rcases (hrel2 d).mp hd with h | ⟨-, -, -, -, -, h⟩
    · rw [hrel1] at h
      exact (hwf.rel_ends d h).2
    · rw [hrel1] at h
      exact (hwf.rel_ends _ h).2
  have hndR : ((((g.in_edges v).filter (movedEdge comps)).map
      (fun e => (e.source, e.edge_id))).map Prod.fst).Nodup := by
    rw [List.map_map]
    exact List.Nodup.sublist (List.Sublist.map _ (List.filter_sublist _))
      (in_edges_sources_nodup hwf v)
  obtain ⟨g3, hrep, hwf3, hverts3, hdim3, hmap3, hent3, hedges3, hrel3, hfull3⟩ :=
    @replace_edges_spec v kv comps nv
      (((g.in_edges v).filter (movedEdge comps)).map (fun e => (e.source, e.edge_id)))
      g2 hwf2 (by rw [hl2g2]; exact hmono1 _ _ hv) hndR
      (by
        intro p hp
        obtain ⟨e, he, rfl⟩ := List.mem_map.mp hp
        obtain ⟨he1, he2⟩ := List.mem_filter.mp he
        obtain ⟨hee, het⟩ := mem_in_edges.mp he1
        obtain ⟨c, hc, hc0, hx, hxnv⟩ := hmoved e he1 he2
        obtain ⟨c', ks, hc', -, hks, hkse⟩ := hsrc e he1
        obtain ⟨kx, hkx, hkr, hkn⟩ := hkeys1 _ hxnv
        refine ⟨?_, c, _, ks, kx, hc, hx, ?_, by rw [hl2g2]; exact hmono1 _ _ hks,
          by rw [hl2g2]; exact hkx, hkr, ?_, ?_⟩
        · rw [hedges2, hedges1]
          have : (⟨e.source, v, e.edge_id⟩ : Edge) = e := by
            cases e
            simp only at het
            rw [het]
          rw [this]
          exact hee
        · exact fun hc'' => hfresh1 _ hxnv (hc'' ▸ hvv)
        · rw [edge_eq_none_iff, hedges2, hedges1]
          intro e' he' hc''
          exact hfresh1 _ hxnv (hc''.2 ▸ (hwf.edge_ends e' he').2)
        · intro d hd hc''
          exact hkn (hc''.2 ▸ hto2 d hd))
  have hdef : g.split_articulation_point v o = some (g3, o.set kv false, nc) := by
    unfold Subgraph.split_articulation_point
    simp only [hv, ho, hrankv, hug, hk, hadd, hfold, hrem, hrep, Option.bind_eq_bind,
      Option.some_bind, ne_eq, not_true_eq_false, if_false]
    by_cases h0 : kv.rank = 0
    · rw [if_pos h0] at hnc
      rw [if_pos h0, hnc]
      rfl
    · rw [if_neg h0] at hnc
      cases hnc
      rw [if_neg h0]
  refine ⟨g3, nc, nv, hdef, hwf3, hlen, hnd1, hfresh1, by rw [hverts3, hverts2, hverts1], ?_,
    fun e he hm => by
      obtain ⟨c, hc, hc0, hx, -⟩ := hmoved e he hm
      exact ⟨c, hc, hc0, hx⟩, ?_,
    ⟨g1, hadd, hwf1, hnc, by rw [hmap3, hmap2], hverts1, hdim1, hmono1,
      by rw [hdim3, hdim2, hdim1], ?_⟩⟩
  · rw [hedges3, hedges2, hedges1]
    congr 1
    swap
    · rw [List.map_map]
      rfl
    apply List.filter_congr
    intro e he
    by_cases het : e.target = v
    · simp only [het, decide_True, Bool.true_and]
      congr 1
      by_cases hm : movedEdge comps e = true
      · rw [hm]
        simp only [decide_eq_true_eq, List.map_map]
        exact List.mem_map.mpr ⟨e, List.mem_filter.mpr ⟨mem_in_edges.mpr ⟨he, het⟩, hm⟩, rfl⟩
      · have hm' : movedEdge comps e = false := by simpa using hm
        rw [hm']
        simp only [decide_eq_false_iff_not, List.map_map]
        intro hc
        obtain ⟨e', he', hs⟩ := List.mem_map.mp hc
        have hm2 := (List.mem_filter.mp he').2
        unfold movedEdge at hm2 hm'
        simp only [Function.comp] at hs
        rw [hs] at hm2
        rw [hm2] at hm'
        cases hm'
    · simp [het]
  · intro x hx
    obtain ⟨kx, hkx, hkr, hkn⟩ := hkeys1 x hx
    refine ⟨kx, ?_, hkn, hkr, ?_⟩
    · unfold Subgraph.local_to_global
      rw [hmap3, hmap2]
      exact hkx
    · intro t i
      rw [hrel3, hrel2, hrel1]
      · constructor
        · rintro (h | ⟨-, -, -, -, -, h⟩)
          · exact absurd (hwf.rel_ends _ h).1 hkn
          · exact h
        · intro h
          exact Or.inr ⟨x, hx, kx, hkx, rfl, h⟩
      · intro p hp ks hks
        obtain ⟨e, he, rfl⟩ := List.mem_map.mp hp
        obtain ⟨c', ks', -, -, hks', hkse⟩ := hsrc e (List.mem_filter.mp he).1
        rw [hl2g2, hmono1 _ _ hks'] at hks
        cases hks
        intro hc
        have hc' : kx = ks := hc
        exact hkn (hc' ▸ hkse)

  · intro d
    have hsrc2 : ∀ e ∈ g.in_edges v, ∀ ks, g2.local_to_global e.source = some ks ↔
        g.local_to_global e.source = some ks := by
      intro e he ks
      obtain ⟨c', ks', -, -, hks', -⟩ := hsrc e he
      rw [hl2g2, hmono1 _ _ hks', hks']
    rw [hfull3 d, hrel2 d, hrel1]
    constructor
    · rintro (⟨hd | ⟨x, hx, kx, hkx, hfrom, hd⟩, hps⟩ | ⟨p, hp, ks, kx, hks, hkx, hd⟩)
      · left
        refine ⟨hd, ?_⟩
        intro e he hm ks hks
        exact hps (e.source, e.edge_id)
          (List.mem_map.mpr ⟨e, List.mem_filter.mpr ⟨he, hm⟩, rfl⟩) ks
          ((hsrc2 e he ks).mpr hks)
      · exact Or.inr (Or.inl ⟨x, hx, kx, hkx, hfrom, hd⟩)
      · obtain ⟨e, he, rfl⟩ := List.mem_map.mp hp
        obtain ⟨he1, he2⟩ := List.mem_filter.mp he
        refine Or.inr (Or.inr ⟨e, he1, he2, ks, kx, (hsrc2 e he1 ks).mp hks, ?_, hd⟩)
        rw [← hl2g2]
        exact hkx
    · rintro (⟨hd, hall⟩ | ⟨x, hx, kx, hkx, hfrom, hd⟩ | ⟨e, he, hm, ks, kx, hks, hkx, hd⟩)
      · left
        refine ⟨Or.inl hd, ?_⟩
        intro p hp ks hks
        obtain ⟨e, he, rfl⟩ := List.mem_map.mp hp
        obtain ⟨he1, he2⟩ := List.mem_filter.mp he
        exact hall e he1 he2 ks ((hsrc2 e he1 ks).mp hks)
      · left
        refine ⟨Or.inr ⟨x, hx, kx, hkx, hfrom, hd⟩, ?_⟩
        intro p hp ks hks hc
        obtain ⟨e, he, rfl⟩ := List.mem_map.mp hp
        obtain ⟨c', ks', -, -, hks', hkse⟩ := hsrc e (List.mem_filter.mp he).1
        rw [hsrc2 e (List.mem_filter.mp he).1 ks, hks'] at hks
        cases hks
        obtain ⟨kx', hkx', -, hkn⟩ := hkeys1 x hx
        rw [hkx] at hkx'
        cases hkx'
        rw [hc] at hfrom
        simp only at hfrom
        exact hkn (hfrom ▸ hkse)
      · right
        refine ⟨(e.source, e.edge_id), List.mem_map.mpr ⟨e, List.mem_filter.mpr ⟨he, hm⟩, rfl⟩,
          ks, kx, (hsrc2 e he ks).mpr hks, ?_, hd⟩
        rw [hl2g2]
        exact hkx

/-- What `split_articulation_point` does to a well-formed subgraph when the
projection without the open vertex `v` does not have exactly one component:
the state it returns, described vertex by vertex, edge by edge and relation by
relation. -/
theorem split_articulation_point_spec {g : Subgraph} (hwf : g.WF) {v : Nat}
    {kv : EntityKey} {o : EntityOpenMap} {k : Nat} {comps : List (Nat × Nat)}
    (hv : g.local_to_global v = some kv) (ho : o kv = true)
    (hug : g.undirected_graph v = some (k, comps)) (hk : k ≠ 1)
    (hlt : ∀ p ∈ comps, p.2 < k)
    (hsome : ∀ u, u ∈ g.vertices.map Prod.fst → u ≠ v → (comps.lookup u).isSome)
    (hdom : ∀ u, (comps.lookup u).isSome → u ∈ g.vertices.map Prod.fst ∧ u ≠ v) :
    ∃ g' nc nv, g.split_articulation_point v o = some (g', o.set kv false, nc) ∧ g'.WF ∧
      nv.length = k - 1 ∧ nv.Nodup ∧ (∀ x ∈ nv, x ∉ g.vertices.map Prod.fst) ∧
      g'.vertices = g.vertices ++ nv.map (fun x => (x, kv.rank)) ∧
      g'.edges =
        g.edges.filter (fun e => !(decide (e.target = v) && movedEdge comps e)) ++
          ((g.in_edges v).filter (movedEdge comps)).map
            (fun e => ⟨e.source, newTarget comps nv e.source, e.edge_id⟩) ∧
      (∀ e ∈ g.in_edges v, movedEdge comps e = true →
        ∃ c, comps.lookup e.source = some c ∧ c ≠ 0 ∧
          nv[c - 1]? = some (newTarget comps nv e.source)) ∧
      (∀ x ∈ nv, ∃ kx, g'.local_to_global x = some kx ∧ kx ∉ g.bulkData_.entities ∧
        kx.rank = kv.rank ∧
        ∀ t i, (⟨kx, t, i⟩ : Decl) ∈ g'.bulkData_.relations ↔
          (⟨kv, t, i⟩ : Decl) ∈ g.bulkData_.relations) := by
  obtain ⟨g', nc, nv, h1, h2, h3, h4, h5, h6, h7, h8, h9, -⟩ :=
    split_articulation_point_full hwf hv ho hug hk hlt hsome hdom
  exact ⟨g', nc, nv, h1, h2, h3, h4, h5, h6, h7, h8, h9⟩

/-! ## Claims about `split_articulation_point` -/

theorem sum_ite_eq_one (nv : List Nat) (a : Nat) (hnd : nv.Nodup) (ha : a ∈ nv) :
    (nv.map (fun x => if a = x then 1 else 0)).sum = 1 := by
  induction nv with
  | nil => cases ha
  | cons b bs ih =>
    rw [List.nodup_cons] at hnd
    rw [List.map_cons, List.sum_cons]
    by_cases hab : a = b
    · have hz : (bs.map (fun x => if a = x then 1 else 0)).sum = 0 := by
        apply List.sum_eq_zero
        intro y hy
        obtain ⟨x, hx, rfl⟩ := List.mem_map.mp hy
        have : a ≠ x := fun hc => hnd.1 (hab ▸ hc ▸ hx)
        simp [this]
      rw [if_pos hab, hz]
    · rw [if_neg hab, Nat.zero_add]
      rcases List.mem_cons.mp ha with h | h
      · exact absurd h hab
      · exact ih hnd.2 h

/-- Counting a list by the value of `f` over a duplicate-free list that holds
every value gives the length of the list. -/
theorem sum_count_by {α : Type} (nv : List Nat) (hnd : nv.Nodup) (f : α → Nat) (l : List α)
    (h : ∀ e ∈ l, f e ∈ nv) :
    (nv.map (fun x => (l.filter (fun e => decide (f e = x))).length)).sum = l.length := by
  induction l with
  | nil => simp
  | cons a as ih =>
    have hfun : (fun x => ((a :: as).filter (fun e => decide (f e = x))).length) =
        (fun x => (if f a = x then 1 else 0) +
          (as.filter (fun e => decide (f e = x))).length) := by
      funext x
      rw [List.filter_cons]
      by_cases hx : f a = x
      · simp [hx]
        omega
      · simp [hx]
    rw [hfun, List.sum_map_add, sum_ite_eq_one nv (f a) hnd (h a (List.mem_cons_self _ _)),
      ih (fun e he => h e (List.mem_cons_of_mem _ he)), List.length_cons]
    omega

/-- In-edges after the split, read off the edge list that
`split_articulation_point` leaves. -/
theorem split_in_edges {g g' : Subgraph} (hwf : g.WF) {v : Nat} {comps : List (Nat × Nat)}
    {nv : List Nat} (hvv : v ∈ g.vertices.map Prod.fst)
    (hfresh : ∀ x ∈ nv, x ∉ g.vertices.map Prod.fst)
    (hedges : g'.edges =
      g.edges.filter (fun e => !(decide (e.target = v) && movedEdge comps e)) ++
        ((g.in_edges v).filter (movedEdge comps)).map
          (fun e => ⟨e.source, newTarget comps nv e.source, e.edge_id⟩))
    (hnt : ∀ e ∈ g.in_edges v, movedEdge comps e = true →
      newTarget comps nv e.source ∈ nv) :
    g'.in_edges v = (g.in_edges v).filter (fun e => !movedEdge comps e) ∧
    ∀ x ∈ nv, g'.in_edges x =
      (((g.in_edges v).filter (movedEdge comps)).filter
        (fun e => decide (newTarget comps nv e.source = x))).map
        (fun e => ⟨e.source, newTarget comps nv e.source, e.edge_id⟩) := by
  have hdefin : ∀ (h : Subgraph) (w : Nat),
      h.in_edges w = h.edges.filter (fun e => decide (e.target = w)) := fun _ _ => rfl
  constructor
  · rw [hdefin g' v, hedges, List.filter_append]
    have h2 : (((g.in_edges v).filter (movedEdge comps)).map
        (fun e => (⟨e.source, newTarget comps nv e.source, e.edge_id⟩ : Edge))).filter
        (fun e => decide (e.target = v)) = [] := by
      rw [List.filter_eq_nil_iff]
      intro y hy
      obtain ⟨e, he, rfl⟩ := List.mem_map.mp hy
      obtain ⟨he1, he2⟩ := List.mem_filter.mp he
      simp only [decide_eq_true_eq]
      intro hc
      exact hfresh _ (hnt e he1 he2) (hc ▸ hvv)
    rw [h2, List.append_nil, hdefin g v, List.filter_filter, List.filter_filter]
    apply List.filter_congr
    intro e _
    by_cases h1 : e.target = v <;> simp [h1]
  · intro x hx
    rw [hdefin g' x, hedges, List.filter_append]
    have h1 : (g.edges.filter (fun e => !(decide (e.target = v) && movedEdge comps e))).filter
        (fun e => decide (e.target = x)) = [] := by
      rw [List.filter_eq_nil_iff]
      intro e he
      simp only [decide_eq_true_eq]
      intro hc
      exact hfresh x hx (hc ▸ (hwf.edge_ends e (List.mem_filter.mp he).1).2)
    rw [h1, List.nil_append, List.filter_map]
    rfl

/-- C8: on a well-formed subgraph `split_articulation_point` on an open vertex
`v` returns, and afterwards the number of incoming edges of `v` plus the
numbers of incoming edges of the newly created vertices equals the number of
incoming edges `v` had before the call, whatever the number of components. -/
theorem split_articulation_point_in_degree (g : Subgraph) (hwf : g.WF) (v : Nat)
    (kv : EntityKey) (o : EntityOpenMap) (hv : g.local_to_global v = some kv)
    (ho : o kv = true) :
    ∃ g' o' nc, ∃ nv : List Nat, g.split_articulation_point v o = some (g', o', nc) ∧
      g'.vertices = g.vertices ++ nv.map (fun x => (x, kv.rank)) ∧
      (∀ x ∈ nv, x ∉ g.vertices.map Prod.fst) ∧
      g'.in_degree v + (nv.map (fun x => g'.in_degree x)).sum = g.in_degree v := by
  obtain ⟨k, comps, hug, hlt, hsome, hdom⟩ := undirected_graph_spec hwf v
  have hvv : v ∈ g.vertices.map Prod.fst := hwf.l2g_vertex hv
  by_cases hk : k = 1
  · refine ⟨g, o, [], [], ?_, by simp, by simp, by simp⟩
    obtain ⟨kv', hkv', -, hrankv, -⟩ := hwf.vertex_l2g hvv
    rw [hv] at hkv'
    cases hkv'
    unfold Subgraph.split_articulation_point
    simp only [hv, ho, hrankv, hug, hk, Option.bind_eq_bind, Option.some_bind, ne_eq,
      not_true_eq_false, if_false, if_true]
  · obtain ⟨g', nc, nv, hdef, hwf', hlen, hnd, hfresh, hverts, hedges, hmoved, hrels⟩ :=
      split_articulation_point_spec hwf hv ho hug hk hlt hsome hdom
    have hnt : ∀ e ∈ g.in_edges v, movedEdge comps e = true →
        newTarget comps nv e.source ∈ nv := by
      intro e he hm
      obtain ⟨c, -, -, hx⟩ := hmoved e he hm
      exact List.getElem?_mem hx
    obtain ⟨hinv, hinx⟩ := split_in_edges hwf hvv hfresh hedges hnt
    refine ⟨g', o.set kv false, nc, nv, hdef, hverts, hfresh, ?_⟩
    have hsum : (nv.map (fun x => g'.in_degree x)).sum =
        ((g.in_edges v).filter (movedEdge comps)).length := by
      rw [← sum_count_by nv hnd (fun e : Edge => newTarget comps nv e.source)
        ((g.in_edges v).filter (movedEdge comps))
        (fun e he => hnt e (List.mem_filter.mp he).1 (List.mem_filter.mp he).2)]
      congr 1
      apply List.map_congr_left
      intro x hx
      unfold Subgraph.in_degree
      rw [hinx x hx, List.length_map]
    unfold Subgraph.in_degree at hsum ⊢
    have hsplit := @List.length_eq_length_filter_add _ (g.in_edges v) (movedEdge comps)
    rw [hsum, hinv]
    omega

/-- Witness for C8 on the star of a segment shared by two elements. -/
theorem split_articulation_point_in_degree_witness :
    sharedSegmentStar.local_to_global 0 = some (edgeKey 1) ∧
    sharedSegmentOpen (edgeKey 1) = true ∧
    ∃ g' o' nc, ∃ nv : List Nat,
      sharedSegmentStar.split_articulation_point 0 sharedSegmentOpen = some (g', o', nc) ∧
      g'.vertices = sharedSegmentStar.vertices ++ nv.map (fun x => (x, (edgeKey 1).rank)) ∧
      (∀ x ∈ nv, x ∉ sharedSegmentStar.vertices.map Prod.fst) ∧
      g'.in_degree 0 + (nv.map (fun x => g'.in_degree x)).sum =
        sharedSegmentStar.in_degree 0 :=
  ⟨by decide, by decide,
    split_articulation_point_in_degree sharedSegmentStar sharedSegmentStar_wf 0 (edgeKey 1)
      sharedSegmentOpen (by decide) (by decide)⟩

/-- C9: on a well-formed subgraph, every copy that `split_articulation_point`
creates for the open vertex `v` has a new entity whose stored out-relations are
those `v` had before the call, with the same targets and local ids (so the same
number of them), all to entities of the rank below that of `v`. -/
theorem split_articulation_point_out_relations (g : Subgraph) (hwf : g.WF) (v : Nat)
    (kv : EntityKey) (o : EntityOpenMap) (hv : g.local_to_global v = some kv)
    (ho : o kv = true) :
    ∃ g' o' nc, ∃ nv : List Nat, g.split_articulation_point v o = some (g', o', nc) ∧
      g'.vertices = g.vertices ++ nv.map (fun x => (x, kv.rank)) ∧
      ∀ x ∈ nv, ∃ kx, g'.local_to_global x = some kx ∧ kx ∉ g.bulkData_.entities ∧
        (g'.bulkData_.out_relations kx).Perm (g.bulkData_.out_relations kv) ∧
        (g'.bulkData_.out_relations kx).length = (g.bulkData_.out_relations kv).length ∧
        ∀ p ∈ g'.bulkData_.out_relations kx, p.1.rank + 1 = kv.rank := by
  obtain ⟨k, comps, hug, hlt, hsome, hdom⟩ := undirected_graph_spec hwf v
  have hvv : v ∈ g.vertices.map Prod.fst := hwf.l2g_vertex hv
  by_cases hk : k = 1
  · refine ⟨g, o, [], [], ?_, by simp, by simp⟩
    obtain ⟨kv', hkv', -, hrankv, -⟩ := hwf.vertex_l2g hvv
    rw [hv] at hkv'
    cases hkv'
    unfold Subgraph.split_articulation_point
    simp only [hv, ho, hrankv, hug, hk, Option.bind_eq_bind, Option.some_bind, ne_eq,
      not_true_eq_false, if_false, if_true]
  · obtain ⟨g', nc, nv, hdef, hwf', hlen, hnd, hfresh, hverts, hedges, hmoved, hrels⟩ :=
      split_articulation_point_spec hwf hv ho hug hk hlt hsome hdom
    refine ⟨g', o.set kv false, nc, nv, hdef, hverts, ?_⟩
    intro x hx
    obtain ⟨kx, hkx, hkn, hkr, hrel⟩ := hrels x hx
    have hperm : (g'.bulkData_.out_relations kx).Perm (g.bulkData_.out_relations kv) := by
      rw [List.perm_ext_iff_of_nodup (nodup_out_relations hwf'.rel_nodup _)
        (nodup_out_relations hwf.rel_nodup _)]
      rintro ⟨t, i⟩
      rw [mem_out_relations, mem_out_relations, hrel]
    refine ⟨kx, hkx, hkn, hperm, hperm.length_eq, ?_⟩
    rintro ⟨t, i⟩ hp
    have := hwf.rel_rank _ ((hrel t i).mp (mem_out_relations.mp hp))
    exact this.symm

/-- Witness for C9 on the star of a segment shared by two elements. -/
theorem split_articulation_point_out_relations_witness :
    sharedSegmentStar.local_to_global 0 = some (edgeKey 1) ∧
    sharedSegmentOpen (edgeKey 1) = true ∧
    ∃ g' o' nc, ∃ nv : List Nat,
      sharedSegmentStar.split_articulation_point 0 sharedSegmentOpen = some (g', o', nc) ∧
      g'.vertices = sharedSegmentStar.vertices ++ nv.map (fun x => (x, (edgeKey 1).rank)) ∧
      ∀ x ∈ nv, ∃ kx, g'.local_to_global x = some kx ∧
        kx ∉ sharedSegmentStar.bulkData_.entities ∧
        (g'.bulkData_.out_relations kx).Perm
          (sharedSegmentStar.bulkData_.out_relations (edgeKey 1)) ∧
        (g'.bulkData_.out_relations kx).length =
          (sharedSegmentStar.bulkData_.out_relations (edgeKey 1)).length ∧
        ∀ p ∈ g'.bulkData_.out_relations kx, p.1.rank + 1 = (edgeKey 1).rank :=
  ⟨by decide, by decide,
    split_articulation_point_out_relations sharedSegmentStar sharedSegmentStar_wf 0
      (edgeKey 1) sharedSegmentOpen (by decide) (by decide)⟩

/-- C10: on a well-formed subgraph, when the undirected projection without the
open vertex `v` has `k > 1` components (numbered by `components`),
`split_articulation_point` creates exactly `k - 1` new vertices of the rank of
`v`; every incoming edge of `v` whose source lies in a component `c ≠ 0` is
gone and the edge from the same source with the same id to the new vertex
number `c - 1` is there instead; the incoming edges left on `v` are exactly
those whose source lies in component 0; and every incoming edge of a new
vertex is such a replacement. -/
theorem split_articulation_point_components (g : Subgraph) (hwf : g.WF) (v : Nat)
    (kv : EntityKey) (o : EntityOpenMap) (k : Nat) (components : List (Nat × Nat))
    (hv : g.local_to_global v = some kv) (ho : o kv = true)
    (hug : g.undirected_graph v = some (k, components)) (hk : 1 < k) :
    ∃ g' o' nc, ∃ newVertex : List Nat,
      g.split_articulation_point v o = some (g', o', nc) ∧
      newVertex.length = k - 1 ∧ newVertex.Nodup ∧
      (∀ x ∈ newVertex, x ∉ g.vertices.map Prod.fst) ∧
      g'.vertices = g.vertices ++ newVertex.map (fun x => (x, kv.rank)) ∧
      (∀ x ∈ newVertex, g'.get_vertex_rank x = g.get_vertex_rank v) ∧
      (∀ e ∈ g.in_edges v, ∀ c, components.lookup e.source = some c → c ≠ 0 →
        e ∉ g'.edges ∧
        ∃ x, newVertex[c - 1]? = some x ∧ (⟨e.source, x, e.edge_id⟩ : Edge) ∈ g'.edges) ∧
      g'.in_edges v =
        (g.in_edges v).filter (fun e => decide (components.lookup e.source = some 0)) ∧
      (∀ x ∈ newVertex, ∀ e' ∈ g'.in_edges x,
        ∃ e ∈ g.in_edges v, ∃ c, components.lookup e.source = some c ∧ c ≠ 0 ∧
          newVertex[c - 1]? = some x ∧ e' = ⟨e.source, x, e.edge_id⟩) := by
  obtain ⟨k', comps', hug', hlt, hsome, hdom⟩ := undirected_graph_spec hwf v
  rw [hug] at hug'
  cases hug'
  have hvv : v ∈ g.vertices.map Prod.fst := hwf.l2g_vertex hv
  obtain ⟨kv', hkv', -, hrankv, -⟩ := hwf.vertex_l2g hvv
  rw [hv] at hkv'
  cases hkv'
  obtain ⟨g', nc, nv, hdef, hwf', hlen, hnd, hfresh, hverts, hedges, hmoved, hrels⟩ :=
    split_articulation_point_spec hwf hv ho hug (by omega) hlt hsome hdom
  have hnt : ∀ e ∈ g.in_edges v, movedEdge components e = true →
      newTarget components nv e.source ∈ nv := by
    intro e he hm
    obtain ⟨c, -, -, hx⟩ := hmoved e he hm
    exact List.getElem?_mem hx
  obtain ⟨hinv, hinx⟩ := split_in_edges hwf hvv hfresh hedges hnt
  -- the component of the source of an in-edge
  have hsrc : ∀ e ∈ g.in_edges v, (components.lookup e.source).isSome := by
    intro e he
    obtain ⟨he1, he2⟩ := mem_in_edges.mp he
    exact hsome e.source (hwf.edge_ends e he1).1
      (fun hc => hwf.edge_ne he1 (hc.trans he2.symm))
  refine ⟨g', o.set kv false, nc, nv, hdef, hlen, hnd, hfresh, hverts, ?_, ?_, ?_, ?_⟩
  · intro x hx
    rw [hrankv]
    obtain ⟨kx, hkx, -, hkr, -⟩ := hrels x hx
    have hxv : x ∈ g'.vertices.map Prod.fst := hwf'.l2g_vertex hkx
    obtain ⟨kx', hkx', -, hrankx, -⟩ := hwf'.vertex_l2g hxv
    rw [hkx] at hkx'
    cases hkx'
    rw [hrankx, hkr]
  · intro e he c hc hc0
    have hm : movedEdge components e = true := by
      unfold movedEdge
      rw [hc]
      simpa using hc0
    obtain ⟨he1, he2⟩ := mem_in_edges.mp he
    obtain ⟨c', hc', -, hx⟩ := hmoved e he hm
    rw [hc] at hc'
    cases hc'
    refine ⟨?_, _, hx, ?_⟩
    · rw [hedges]
      intro hmem
      rcases List.mem_append.mp hmem with h | h
      · have := (List.mem_filter.mp h).2
        simp [he2, hm] at this
      · obtain ⟨e0, he0, heq⟩ := List.mem_map.mp h
        obtain ⟨he01, he02⟩ := List.mem_filter.mp he0
        have htgt : newTarget components nv e0.source = v := by
          rw [← heq] at he2
          exact he2
        exact hfresh _ (hnt e0 he01 he02) (htgt ▸ hvv)
    · rw [hedges]
      apply List.mem_append_right
      exact List.mem_map.mpr ⟨e, List.mem_filter.mpr ⟨he, hm⟩, rfl⟩
  · rw [hinv]
    apply List.filter_congr
    intro e he
    obtain ⟨c, hc⟩ := Option.isSome_iff_exists.mp (hsrc e he)
    unfold movedEdge
    rw [hc]
    by_cases h0 : c = 0 <;> simp [h0]
  · intro x hx e' he'
    rw [hinx x hx] at he'
    obtain ⟨e, he, rfl⟩ := List.mem_map.mp he'
    obtain ⟨he1, he2⟩ := List.mem_filter.mp he
    obtain ⟨he3, he4⟩ := List.mem_filter.mp he1
    simp only [decide_eq_true_eq] at he2
    obtain ⟨c, hc, hc0, hxc⟩ := hmoved e he3 he4
    rw [he2] at hxc
    exact ⟨e, he3, c, hc, hc0, hxc, by rw [he2]⟩

/-- Witness for C10 on the star of a segment shared by two elements: without
the segment the two elements are two components. -/
theorem split_articulation_point_components_witness :
    sharedSegmentStar.local_to_global 0 = some (edgeKey 1) ∧
    sharedSegmentOpen (edgeKey 1) = true ∧
    sharedSegmentStar.undirected_graph 0 = some (2, [(1, 0), (2, 1)]) ∧
    ∃ g' o' nc, ∃ newVertex : List Nat,
      sharedSegmentStar.split_articulation_point 0 sharedSegmentOpen = some (g', o', nc) ∧
      newVertex.length = 2 - 1 ∧ newVertex.Nodup ∧
      (∀ x ∈ newVertex, x ∉ sharedSegmentStar.vertices.map Prod.fst) ∧
      g'.vertices =
        sharedSegmentStar.vertices ++ newVertex.map (fun x => (x, (edgeKey 1).rank)) ∧
      (∀ x ∈ newVertex, g'.get_vertex_rank x = sharedSegmentStar.get_vertex_rank 0) ∧
      (∀ e ∈ sharedSegmentStar.in_edges 0, ∀ c,
        List.lookup e.source [(1, 0), (2, 1)] = some c → c ≠ 0 →
        e ∉ g'.edges ∧
        ∃ x, newVertex[c - 1]? = some x ∧ (⟨e.source, x, e.edge_id⟩ : Edge) ∈ g'.edges) ∧
      g'.in_edges 0 =
        (sharedSegmentStar.in_edges 0).filter
          (fun e => decide (List.lookup e.source [(1, 0), (2, 1)] = some 0)) ∧
      (∀ x ∈ newVertex, ∀ e' ∈ g'.in_edges x,
        ∃ e ∈ sharedSegmentStar.in_edges 0, ∃ c,
          List.lookup e.source [(1, 0), (2, 1)] = some c ∧ c ≠ 0 ∧
          newVertex[c - 1]? = some x ∧ e' = ⟨e.source, x, e.edge_id⟩) :=
  ⟨by decide, by decide, by decide,
    split_articulation_point_components sharedSegmentStar sharedSegmentStar_wf 0 (edgeKey 1)
      sharedSegmentOpen 2 [(1, 0), (2, 1)] (by decide) (by decide) (by decide) (by decide)⟩

/-! ## A vertex that is no articulation point, and the fracture driver -/

/-- C11: when the projection of the subgraph without the open vertex `v` has
exactly one connected component, `split_articulation_point` returns the empty
map and the subgraph it was given: no vertex is created, no edge of the
subgraph and no relation of the store is changed. -/
theorem split_articulation_point_single_component (g : Subgraph) (v : Nat) (kv : EntityKey)
    (r : Nat) (o : EntityOpenMap) (comps : List (Nat × Nat))
    (hv : g.local_to_global v = some kv) (ho : o kv = true)
    (hr : g.get_vertex_rank v = some r)
    (hug : g.undirected_graph v = some (1, comps)) :
    g.split_articulation_point v o = some (g, o, []) := by
  unfold Subgraph.split_articulation_point
  simp only [hv, ho, hr, hug, Option.bind_eq_bind, Option.some_bind, ne_eq,
    not_true_eq_false, if_false, if_true]

theorem split_articulation_point_single_component_witness :
    sharedFaceStar.split_articulation_point 0 sharedFaceOpen =
      some (sharedFaceStar, sharedFaceOpen, []) :=
  split_articulation_point_single_component sharedFaceStar 0 (edgeKey 1) 1 sharedFaceOpen
    [(1, 0), (2, 0), (3, 0), (4, 0), (5, 0)] (by decide) (by decide) (by decide) (by decide)

/-- C13: on the cache of two quadrilaterals the update for the pair of
element 2 and a new node 7 that replaces node 5 leaves the record of element 2
as it was: the loop index stops at the number of records, 2, and node 5 at
position 3 of the record is kept. -/
theorem update_connectivity_keeps_old_node :
    update_connectivity
      [[nodeKey 1, nodeKey 2, nodeKey 5, nodeKey 4], [nodeKey 2, nodeKey 3, nodeKey 6, nodeKey 5]]
      (nodeKey 5) (some (quadKey 2), some (nodeKey 7)) =
    some [[nodeKey 1, nodeKey 2, nodeKey 5, nodeKey 4],
      [nodeKey 2, nodeKey 3, nodeKey 6, nodeKey 5]] := by
  decide

/-- C16: when no node of the mesh is open, `fracture_boundary` returns the
topology and the open map it was given: the store, the connectivity cache and
every open value are unchanged. -/
theorem fracture_boundary_no_open_node (EdgeLessThan : stkEdge → stkEdge → Bool)
    (t : topology) (entity_open : EntityOpenMap)
    (h : ∀ e ∈ get_entities t.bulkData_ t.nodeRank, entity_open e = false) :
    fracture_boundary EdgeLessThan t entity_open = some (t, entity_open) := by
  unfold fracture_boundary
  have hnil : (get_entities t.bulkData_ t.nodeRank).filter
      (fun entity => entity_open entity == true) = [] := by
    rw [List.filter_eq_nil_iff]
    intro e he
    rw [h e he]
    decide
  simp only [hnil]
  rfl

theorem fracture_boundary_no_open_node_witness :
    fracture_boundary edgeLessSourceTarget twoQuadTopology noneOpen =
      some (twoQuadTopology, noneOpen) :=
  fracture_boundary_no_open_node edgeLessSourceTarget twoQuadTopology noneOpen
    (fun _ _ => rfl)

set_option maxRecDepth 100000 in
/-- C18: scenario S2 on two quadrilaterals that share segment 2 between the
nodes 2 and 5. `graph_initialization` followed by `fracture_boundary` creates
segment 8 and the nodes 9 and 10, and afterwards the cache records of the two
elements still share node 5: the record of element 2 holds the new node 9 in
place of node 2 but keeps node 5 at position 3. -/
theorem two_quads_fracture_cache_shares_node :
    ((graph_initialization (fun _ => twoQuadFull) twoQuadTopology).bind
      (fun t => fracture_boundary edgeLessSourceTarget t twoQuadOpen)).map
        (fun r => (r.1.bulkData_.entities.filter (fun e => decide (e ∉ twoQuadFull.entities)),
          r.1.connectivity_temp)) =
    some ([edgeKey 8, nodeKey 9, nodeKey 10],
      [[nodeKey 1, nodeKey 2, nodeKey 5, nodeKey 4],
        [nodeKey 9, nodeKey 3, nodeKey 6, nodeKey 5]]) := by
  decide

/-! ## Marking of open entities -/

theorem rank_of_mem_relations_rank {b : BulkData} {e : EntityKey} {rank : Nat} {r : Relation}
    (h : r ∈ b.relations_rank e rank) : r.entity.rank = rank := by
  unfold BulkData.relations_rank at h
  have h2 := (List.mem_filter.mp h).2
  simpa [Relation.entity_rank] using h2

theorem mark_nodes_true (nodes : List Relation) :
    ∀ (o : EntityOpenMap) (x : EntityKey),
      mark_nodes o nodes x = true ↔ o x = true ∨ ∃ r ∈ nodes, r.entity = x := by
  induction nodes with
  | nil => intro o x; simp [mark_nodes]
  | cons a as ih =>
    intro o x
    have hstep : mark_nodes o (a :: as) = mark_nodes (o.set a.entity true) as := rfl
    rw [hstep, ih]
    unfold EntityOpenMap.set
    by_cases hx : x = a.entity
    · simp [hx]
    · have hx' : ¬ a.entity = x := fun h => hx h.symm
      simp [hx, hx']

theorem mark_segment_true (b : BulkData) (o : EntityOpenMap) (s : Relation) (x : EntityKey) :
    mark_segment b o s x = true ↔
      o x = true ∨ x = s.entity ∨
        ∃ r ∈ b.relations_rank s.entity (rankPred s.entity.rank), r.entity = x := by
  unfold mark_segment
  rw [mark_nodes_true]
  unfold EntityOpenMap.set
  by_cases hx : x = s.entity
  · simp [hx]
  · simp [hx]

theorem mark_segments_true (b : BulkData) (segs : List Relation) :
    ∀ (o : EntityOpenMap) (x : EntityKey),
      segs.foldl (mark_segment b) o x = true ↔
        o x = true ∨ ∃ s ∈ segs, x = s.entity ∨
          ∃ r ∈ b.relations_rank s.entity (rankPred s.entity.rank), r.entity = x := by
  induction segs with
  | nil => intro o x; simp
  | cons a as ih =>
    intro o x
    rw [List.foldl_cons, ih, mark_segment_true]
    simp only [List.mem_cons, exists_eq_or_imp, or_assoc]

/-- An open map is closed downward when the children of each open entity
above the nodes are open. -/
theorem mark_open_closed (t : topology) (o : EntityOpenMap) (e : EntityKey)
    (hrank : e.rank = rankPred t.numDim)
    (hcl : ∀ x c, o x = true → t.bulkData_.childOf x c → o c = true) :
    ∀ x c, mark_open t o e x = true → t.bulkData_.childOf x c → mark_open t o e c = true := by
  intro x c hx hxc
  obtain ⟨hpos, i, hi⟩ := hxc
  unfold mark_open at hx ⊢
  by_cases h3 : t.numDim = 3
  · rw [if_pos h3] at hx ⊢
    rw [mark_segments_true] at hx ⊢
    have he : e.rank = 2 := by rw [hrank, h3]; norm_num [rankPred]
    rcases hx with hx | ⟨s, hs, hx | ⟨r, hr, hx⟩⟩
    · unfold EntityOpenMap.set at hx
      by_cases hxe : x = e
      · subst hxe
        exact Or.inr ⟨⟨c, i⟩, hi, Or.inl rfl⟩
      · rw [if_neg hxe] at hx
        left
        unfold EntityOpenMap.set
        split
        · rfl
        · exact hcl x c hx ⟨hpos, i, hi⟩
    · subst hx
      exact Or.inr ⟨s, hs, Or.inr ⟨⟨c, i⟩, hi, rfl⟩⟩
    · exfalso
      have h1 := rank_of_mem_relations_rank hs
      have h2 := rank_of_mem_relations_rank hr
      rw [he] at h1
      have h1' : s.entity.rank = 1 := by rw [h1]; norm_num [rankPred]
      rw [h1'] at h2
      have h2' : r.entity.rank = 0 := by rw [h2]; norm_num [rankPred]
      rw [hx] at h2'
      omega
  · rw [if_neg h3] at hx ⊢
    by_cases h2 : t.numDim = 2
    · rw [if_pos h2] at hx ⊢
      rw [mark_nodes_true] at hx ⊢
      have he : e.rank = 1 := by rw [hrank, h2]; norm_num [rankPred]
      rcases hx with hx | ⟨r, hr, hx⟩
      · unfold EntityOpenMap.set at hx
        by_cases hxe : x = e
        · subst hxe
          exact Or.inr ⟨⟨c, i⟩, hi, rfl⟩
        · rw [if_neg hxe] at hx
          left
          unfold EntityOpenMap.set
          split
          · rfl
          · exact hcl x c hx ⟨hpos, i, hi⟩
      · exfalso
        have h1 := rank_of_mem_relations_rank hr
        rw [he] at h1
        have h1' : r.entity.rank = 0 := by rw [h1]; norm_num [rankPred]
        rw [hx] at h1'
        omega
    · rw [if_neg h2] at hx ⊢
      exact hcl x c hx ⟨hpos, i, hi⟩

/-- The criterion returns a value for every entity of rank `numDim - 1`. -/
theorem fracture_criterion_some (t : topology) (e : EntityKey) (p random : ℚ)
    (hrank : e.rank = rankPred t.numDim) :
    ∃ r, t.fracture_criterion e p random = some r := by
  unfold topology.fracture_criterion
  simp only [hrank, ne_eq, not_true_eq_false, if_false]
  split
  · exact ⟨_, rfl⟩
  · exact ⟨_, rfl⟩

/-- The criterion is not met by an entity with exactly one parent element. -/
theorem fracture_criterion_one_parent (t : topology) (e : EntityKey) (p random : ℚ)
    (hrank : e.rank = rankPred t.numDim)
    (hone : (t.bulkData_.relations_rank e t.elementRank).length = 1) :
    t.fracture_criterion e p random = some false := by
  unfold topology.fracture_criterion
  simp only [hrank, ne_eq, not_true_eq_false, if_false, hone, if_true]

theorem open_steps_closed (t : topology) (random : Nat → ℚ) (l : List (Nat × EntityKey)) :
    ∀ o : EntityOpenMap, (∀ ie ∈ l, ie.2.rank = rankPred t.numDim) →
      (∀ x c, o x = true → t.bulkData_.childOf x c → o c = true) →
      ∃ o', l.foldlM (t.open_step random) o = some o' ∧
        ∀ x c, o' x = true → t.bulkData_.childOf x c → o' c = true := by
  induction l with
  | nil => intro o _ hcl; exact ⟨o, rfl, hcl⟩
  | cons a as ih =>
    intro o hr hcl
    obtain ⟨r, hcrit⟩ := fracture_criterion_some t a.2 (1 / 2) (random a.1)
      (hr a (List.mem_cons_self _ _))
    have hstep : ∃ o1, t.open_step random o a = some o1 ∧
        ∀ x c, o1 x = true → t.bulkData_.childOf x c → o1 c = true := by
      unfold topology.open_step
      rw [hcrit]
      simp only [Option.bind_eq_bind, Option.some_bind]
      split
      · exact ⟨_, rfl, mark_open_closed t o a.2 (hr a (List.mem_cons_self _ _)) hcl⟩
      · exact ⟨_, rfl, hcl⟩
    obtain ⟨o1, ho1, hcl1⟩ := hstep
    obtain ⟨o', ho', hcl'⟩ := ih o1 (fun ie hie => hr ie (List.mem_cons_of_mem _ hie)) hcl1
    exact ⟨o', by rw [List.foldlM_cons, ho1]; exact ho', hcl'⟩

/-- C14: `set_entities_open` applied to a map with no open entry returns a map
in which, for every open entity above the nodes, every entity reached from it
by going down the relations to the next lower rank (its segments and their
nodes in 3D, its nodes in 2D) is open too. -/
theorem set_entities_open_downward_closed (t : topology) (random : Nat → ℚ) :
    ∃ o, t.set_entities_open random noneOpen = some o ∧
      ∀ e c, o e = true → Relation.TransGen t.bulkData_.childOf e c → o c = true := by
  have hr : ∀ ie ∈ (get_entities t.bulkData_ (rankPred t.numDim)).enum,
      ie.2.rank = rankPred t.numDim := by
    intro ie hie
    have hmem : ie.2 ∈ get_entities t.bulkData_ (rankPred t.numDim) := by
      exact List.snd_mem_of_mem_enum hie
    exact (mem_get_entities.mp hmem).2
  obtain ⟨o, ho, hcl⟩ := open_steps_closed t random _ noneOpen hr
    (fun x c hx _ => by cases hx)
  refine ⟨o, ho, ?_⟩
  intro e c he hec
  induction hec with
  | single h => exact hcl _ _ he h
  | tail _ h ih => exact hcl _ _ ih h

theorem set_entities_open_downward_closed_witness :
    ∃ o, sharedFaceTopology.set_entities_open (fun _ => -1) noneOpen = some o ∧
      ∀ e c, o e = true →
        Relation.TransGen sharedFaceTopology.bulkData_.childOf e c → o c = true :=
  set_entities_open_downward_closed sharedFaceTopology (fun _ => -1)

/-- C15: for a face that has no parent element the criterion is the random
draw: with the draw `-1` and `p = 1 / 2` it returns true, and
`set_entities_open` marks the face open. -/
theorem fracture_criterion_lone_face :
    loneFaceTopology.fracture_criterion (faceKey 1) (1 / 2) (-1) = some true ∧
      (loneFaceTopology.set_entities_open (fun _ => -1) noneOpen).map
        (fun o => o (faceKey 1)) = some true := by
  have h1 : loneFaceTopology.fracture_criterion (faceKey 1) (1 / 2) (-1) = some true := by
    have hrel : loneFaceTopology.bulkData_.relations_rank (faceKey 1)
        loneFaceTopology.elementRank = [] := by decide
    have hrk : (faceKey 1).rank = rankPred loneFaceTopology.numDim := by
      norm_num [rankPred, faceKey, loneFaceTopology]
    unfold topology.fracture_criterion
    simp only [hrk, hrel, ne_eq, not_true_eq_false, if_false]
    norm_num
  refine ⟨h1, ?_⟩
  have hb : get_entities loneFaceTopology.bulkData_ (rankPred loneFaceTopology.numDim) =
      [faceKey 1] := by
    have hrk : rankPred loneFaceTopology.numDim = 2 := by
      norm_num [rankPred, loneFaceTopology]
    rw [hrk]
    decide
  unfold topology.set_entities_open
  simp only [hb, List.enum_cons, List.enumFrom_cons, List.enumFrom_nil, List.enum_nil,
    List.foldlM_cons, List.foldlM_nil]
  unfold topology.open_step
  simp only [h1, Option.bind_eq_bind, Option.some_bind, if_true]
  decide

/-! ## The map returned by a node split -/

theorem mapInsert_keys_nodup {α β : Type} [DecidableEq α] {m : List (α × β)} (k : α) (x : β)
    (h : (m.map Prod.fst).Nodup) : ((mapInsert m k x).map Prod.fst).Nodup := by
  unfold mapInsert
  split
  · exact h
  · rename_i hnone
    rw [List.map_append, List.nodup_append]
    refine ⟨h, by simp, ?_⟩
    intro a ha hb
    simp only [List.map_cons, List.map_nil, List.mem_singleton] at hb
    subst hb
    apply hnone
    obtain ⟨p, hp, hpa⟩ := List.mem_map.mp ha
    rw [List.lookup_isSome_iff]
    exact ⟨p, hp, by simp [hpa]⟩

theorem mem_mapInsert_of_absent {α β : Type} [DecidableEq α] {m : List (α × β)} {k : α} {x : β}
    (h : ∀ p ∈ m, p.1 ≠ k) (p : α × β) : p ∈ mapInsert m k x ↔ p ∈ m ∨ p = (k, x) := by
  unfold mapInsert
  have hn : ¬ (m.lookup k).isSome = true := by
    rw [List.lookup_isSome_iff]
    rintro ⟨q, hq, hqk⟩
    exact h q hq (by simpa using hqk : k = q.1).symm
  rw [if_neg hn, List.mem_append, List.mem_singleton]

/-- A loop that inserts, for the items that meet a condition, a key and a
value into a map: when the keys of these items are distinct and new, the map
gains exactly their entries. -/
theorem foldlM_mapInsert_if {ι α β : Type} [DecidableEq α]
    (f : List (α × β) → ι → Option (List (α × β))) (cond : ι → Bool) (key : ι → α)
    (val : ι → β) (l : List ι) :
    ∀ m0 : List (α × β),
      (∀ m, ∀ i ∈ l, f m i = some (if cond i = true then mapInsert m (key i) (val i) else m)) →
      (∀ p ∈ m0, ∀ i ∈ l, cond i = true → p.1 ≠ key i) →
      l.Pairwise (fun i j => cond i = true → cond j = true → key i ≠ key j) →
      ∃ nc, l.foldlM f m0 = some nc ∧
        ∀ p, p ∈ nc ↔ p ∈ m0 ∨ ∃ i ∈ l, cond i = true ∧ p = (key i, val i) := by
  induction l with
  | nil =>
    intro m0 _ _ _
    exact ⟨m0, rfl, fun p => by simp⟩
  | cons a as ih =>
    intro m0 hf h0 hpw
    rw [List.pairwise_cons] at hpw
    have hmem1 : ∀ p, p ∈ (if cond a = true then mapInsert m0 (key a) (val a) else m0) ↔
        p ∈ m0 ∨ (cond a = true ∧ p = (key a, val a)) := by
      intro p
      by_cases hc : cond a = true
      · rw [if_pos hc, mem_mapInsert_of_absent
          (fun q hq => h0 q hq a (List.mem_cons_self _ _) hc)]
        simp [hc]
      · rw [if_neg hc]
        simp [hc]
    obtain ⟨nc, hnc, hmem⟩ := ih (if cond a = true then mapInsert m0 (key a) (val a) else m0)
      (fun m i hi => hf m i (List.mem_cons_of_mem _ hi))
      (by
        intro p hp i hi hci
        rcases (hmem1 p).mp hp with hp0 | ⟨hca, rfl⟩
        · exact h0 p hp0 i (List.mem_cons_of_mem _ hi) hci
        · exact hpw.1 i hi hca hci)
      hpw.2
    refine ⟨nc, ?_, ?_⟩
    · rw [List.foldlM_cons, hf m0 a (List.mem_cons_self _ _)]
      exact hnc
    · intro p
      rw [hmem p, hmem1 p]
      simp only [List.mem_cons, exists_eq_or_imp]
      tauto

/-- The component map of `undirected_graph` has one entry per vertex. -/
theorem undirected_graph_keys_nodup {g : Subgraph} {v k : Nat} {comps : List (Nat × Nat)}
    (hug : g.undirected_graph v = some (k, comps)) : (comps.map Prod.fst).Nodup := by
  have hfold : ∀ (f : Nat × Nat → Option Nat) (ps : List (Nat × Nat)) (m0 m : List (Nat × Nat)),
      ps.foldlM (fun m p => do
          let c ← f p
          pure (mapInsert m p.2 c)) m0 = some m →
      (m0.map Prod.fst).Nodup → (m.map Prod.fst).Nodup := by
    intro f ps
    induction ps with
    | nil =>
      intro m0 m h h0
      cases h
      exact h0
    | cons p ps ih =>
      intro m0 m h h0
      rw [List.foldlM_cons] at h
      cases hc : f p with
      | none => simp [hc] at h
      | some c =>
        simp only [hc, Option.bind_eq_bind, Option.some_bind] at h
        exact ih _ _ h (mapInsert_keys_nodup _ _ h0)
  unfold Subgraph.undirected_graph at hug
  simp only [Option.bind_eq_bind, Option.bind_eq_some] at hug
  obtain ⟨uedges, -, m, hm, heq⟩ := hug
  cases heq
  exact hfold _ _ _ _ hm List.nodup_nil

/-- The map built for a node split has exactly one entry for each vertex of
element rank in a component other than 0: the key of the vertex paired with the
key of the new vertex of its component. -/
theorem new_connectivity_spec {g1 : Subgraph} (hwf1 : g1.WF) {comps : List (Nat × Nat)}
    {nv : List Nat} {k : Nat} (hnd : (comps.map Prod.fst).Nodup)
    (hcomps : ∀ i ∈ comps, i.1 ∈ g1.vertices.map Prod.fst ∧ i.2 < k)
    (hlen : nv.length = k - 1) (hnv : ∀ x ∈ nv, x ∈ g1.vertices.map Prod.fst) :
    ∃ nc, g1.new_connectivity comps nv = some nc ∧
      ∀ p, p ∈ nc ↔ ∃ i ∈ comps,
        decide (g1.get_vertex_rank i.1 = some g1.numDim_ ∧ i.2 ≠ 0) = true ∧
        p = (g1.local_to_global i.1, (nv[i.2 - 1]?).bind g1.local_to_global) := by
  obtain ⟨nc, hnc, hmem⟩ := foldlM_mapInsert_if
    (fun (m : List (Option EntityKey × Option EntityKey)) (i : Nat × Nat) => do
      let componentNum := i.2
      let currentVertex := i.1
      let currentRank ← g1.get_vertex_rank currentVertex
      if currentRank = g1.numDim_ ∧ componentNum ≠ 0 then do
        let elementKey ← g1.local_to_global currentVertex
        let newVert ← nv[componentNum - 1]?
        let newKey ← g1.local_to_global newVert
        pure (mapInsert m (g1.bulkData_.get_entity elementKey)
          (g1.bulkData_.get_entity newKey))
      else pure m)
    (fun i => decide (g1.get_vertex_rank i.1 = some g1.numDim_ ∧ i.2 ≠ 0))
    (fun i => g1.local_to_global i.1)
    (fun i => (nv[i.2 - 1]?).bind g1.local_to_global)
    comps []
    (by
      intro m i hi
      obtain ⟨hiv, hik⟩ := hcomps i hi
      obtain ⟨ki, hki, hkient, hranki, -⟩ := hwf1.vertex_l2g hiv
      simp only [hranki, hki, Option.bind_eq_bind, Option.some_bind, Option.some.injEq,
        decide_eq_true_eq]
      by_cases hc : ki.rank = g1.numDim_ ∧ i.2 ≠ 0
      · rw [if_pos hc, if_pos hc]
        have hidx : i.2 - 1 < nv.length := by
          rw [hlen]
          omega
        rw [List.getElem?_eq_getElem hidx]
        obtain ⟨kx, hkx, hkxent, -, -⟩ := hwf1.vertex_l2g (hnv _ (List.getElem_mem hidx))
        simp only [Option.some_bind, hkx]
        have h1 : g1.bulkData_.get_entity ki = some ki := by
          unfold BulkData.get_entity
          rw [if_pos hkient]
        have h2 : g1.bulkData_.get_entity kx = some kx := by
          unfold BulkData.get_entity
          rw [if_pos hkxent]
        rw [h1, h2]
        rfl
      · rw [if_neg hc, if_neg hc]
        rfl)
    (fun _ h => by cases h)
    (by
      have hpw : comps.Pairwise (fun i j => i.1 ≠ j.1) := List.pairwise_map.mp hnd
      refine List.Pairwise.imp_of_mem ?_ hpw
      intro i j hi hj hij _ _ heq
      obtain ⟨ki, hki, -⟩ := hwf1.vertex_l2g (hcomps i hi).1
      dsimp only at heq
      rw [hki] at heq
      exact hij (hwf1.l2g_inj hki heq.symm))
  refine ⟨nc, hnc, ?_⟩
  intro p
  rw [hmem p]
  simp

/-- C12: on a well-formed subgraph, when the projection without the open vertex
`v` has `k > 1` components, the map returned by `split_articulation_point` is
empty if `v` is not a node; if `v` is a node, it holds for every vertex `s` of
element rank in a component `c ≠ 0` exactly one entry, which pairs the entity of
`s` with the entity of the new vertex number `c - 1`, it holds no entry for a
vertex of element rank in component 0, and every entry is of that kind. -/
theorem split_articulation_point_replacement_map (g : Subgraph) (hwf : g.WF) (v : Nat)
    (kv : EntityKey) (o : EntityOpenMap) (k : Nat) (components : List (Nat × Nat))
    (hv : g.local_to_global v = some kv) (ho : o kv = true)
    (hug : g.undirected_graph v = some (k, components)) (hk : 1 < k) :
    ∃ g' nc, ∃ newVertex : List Nat,
      g.split_articulation_point v o = some (g', o.set kv false, nc) ∧
      newVertex.length = k - 1 ∧
      g'.vertices = g.vertices ++ newVertex.map (fun x => (x, kv.rank)) ∧
      (kv.rank ≠ 0 → nc = []) ∧
      (kv.rank = 0 →
        (∀ s c ks, components.lookup s = some c → g.get_vertex_rank s = some g.numDim_ →
          g.local_to_global s = some ks →
          (c = 0 → ∀ q, (some ks, q) ∉ nc) ∧
          (c ≠ 0 → ∃ x kx, newVertex[c - 1]? = some x ∧ g'.local_to_global x = some kx ∧
            (some ks, some kx) ∈ nc ∧ ∀ q, (some ks, q) ∈ nc → q = some kx)) ∧
        (∀ p ∈ nc, ∃ s c ks, components.lookup s = some c ∧ c ≠ 0 ∧
          g.get_vertex_rank s = some g.numDim_ ∧ g.local_to_global s = some ks ∧
          p.1 = some ks)) := by
  obtain ⟨k', comps', hug', hlt, hsome, hdom⟩ := undirected_graph_spec hwf v
  rw [hug] at hug'
  cases hug'
  obtain ⟨g', nc, nv, hdef, -, hlen, -, -, hverts, -, -, -, g1, -, hwf1, hnc, hmap, hverts1,
    hdim1, hmono1, -⟩ := split_articulation_point_full hwf hv ho hug (by omega) hlt hsome hdom
  have hndk := undirected_graph_keys_nodup hug
  have hcv : ∀ i ∈ components, i.1 ∈ g.vertices.map Prod.fst := by
    intro i hi
    exact (hdom i.1 (lookup_of_mem_nodup_first hi)).1
  have hcomps : ∀ i ∈ components, i.1 ∈ g1.vertices.map Prod.fst ∧ i.2 < k := by
    intro i hi
    refine ⟨?_, hlt i hi⟩
    rw [hverts1, List.map_append]
    exact List.mem_append_left _ (hcv i hi)
  have hnv : ∀ x ∈ nv, x ∈ g1.vertices.map Prod.fst := by
    intro x hx
    rw [hverts1, List.map_append, List.map_map]
    exact List.mem_append_right _ (List.mem_map.mpr ⟨x, hx, rfl⟩)
  have hrank1 : ∀ s, s ∈ g.vertices.map Prod.fst →
      g1.get_vertex_rank s = g.get_vertex_rank s := by
    intro s hs
    obtain ⟨ks, -, -, hr, -⟩ := hwf.vertex_l2g hs
    unfold Subgraph.get_vertex_rank at hr ⊢
    rw [hverts1, List.lookup_append, hr]
    rfl
  have hl2g' : ∀ u, g'.local_to_global u = g1.local_to_global u := by
    intro u
    unfold Subgraph.local_to_global
    rw [hmap]
  obtain ⟨nc0, hnc0, hmem⟩ := new_connectivity_spec hwf1 hndk hcomps hlen hnv
  refine ⟨g', nc, nv, hdef, hlen, hverts, ?_, ?_⟩
  · intro h0
    rw [if_neg h0] at hnc
    cases hnc
    rfl
  · intro h0
    rw [if_pos h0, hnc0] at hnc
    cases hnc
    -- an entry with the key of `s` comes from the pair of `s` in the component map
    have hentry : ∀ s c ks q, components.lookup s = some c →
        g.local_to_global s = some ks → (some ks, q) ∈ nc →
        c ≠ 0 ∧ q = (nv[c - 1]?).bind g1.local_to_global := by
      intro s c ks q hc hks hq
      obtain ⟨i, hi, hcond, heq⟩ := (hmem _).mp hq
      simp only [Prod.mk.injEq] at heq
      have hi1 : i.1 = s := hwf1.l2g_inj heq.1.symm (hmono1 _ _ hks)
      have hi2 : components.lookup i.1 = some i.2 := lookup_of_mem_nodup hndk hi
      rw [hi1, hc] at hi2
      cases hi2
      simp only [decide_eq_true_eq] at hcond
      exact ⟨hcond.2, heq.2⟩
    refine ⟨?_, ?_⟩
    · intro s c ks hc hr hks
      have hsv : s ∈ g.vertices.map Prod.fst := hwf.l2g_vertex hks
      refine ⟨?_, ?_⟩
      · intro hc0 q hq
        exact (hentry s c ks q hc hks hq).1 hc0
      · intro hc0
        have hidx : c - 1 < nv.length := by
          have := hlt _ (lookup_mem hc)
          simp only at this
          rw [hlen]
          omega
        obtain ⟨kx, hkx, -⟩ := hwf1.vertex_l2g (hnv _ (List.getElem_mem hidx))
        have hval : (nv[c - 1]?).bind g1.local_to_global = some kx := by
          rw [List.getElem?_eq_getElem hidx]
          exact hkx
        refine ⟨nv[c - 1], kx, List.getElem?_eq_getElem hidx, by rw [hl2g']; exact hkx, ?_, ?_⟩
        · apply (hmem _).mpr
          refine ⟨(s, c), lookup_mem hc, ?_, ?_⟩
          · simp only [decide_eq_true_eq]
            exact ⟨by rw [hrank1 s hsv, hdim1]; exact hr, hc0⟩
          · simp only [Prod.mk.injEq]
            exact ⟨(hmono1 _ _ hks).symm, hval.symm⟩
        · intro q hq
          rw [(hentry s c ks q hc hks hq).2, hval]
    · intro p hp
      obtain ⟨i, hi, hcond, heq⟩ := (hmem _).mp hp
      simp only [decide_eq_true_eq] at hcond
      have hiv := hcv i hi
      obtain ⟨ki, hki, -⟩ := hwf.vertex_l2g hiv
      refine ⟨i.1, i.2, ki, lookup_of_mem_nodup hndk hi, hcond.2, ?_, hki, ?_⟩
      · rw [← hrank1 i.1 hiv, ← hdim1]
        exact hcond.1
      · rw [heq]
        exact hmono1 _ _ hki

theorem split_articulation_point_replacement_map_witness :
    ∃ g' nc, ∃ newVertex : List Nat,
      splitNodeStar.split_articulation_point 0 nodeOneOpen =
        some (g', nodeOneOpen.set (nodeKey 1) false, nc) ∧
      newVertex.length = 2 - 1 ∧
      g'.vertices = splitNodeStar.vertices ++ newVertex.map (fun x => (x, (nodeKey 1).rank)) ∧
      ((nodeKey 1).rank ≠ 0 → nc = []) ∧
      ((nodeKey 1).rank = 0 →
        (∀ s c ks, List.lookup s [(1, 0), (2, 1), (3, 0), (4, 1)] = some c →
          splitNodeStar.get_vertex_rank s = some splitNodeStar.numDim_ →
          splitNodeStar.local_to_global s = some ks →
          (c = 0 → ∀ q, (some ks, q) ∉ nc) ∧
          (c ≠ 0 → ∃ x kx, newVertex[c - 1]? = some x ∧ g'.local_to_global x = some kx ∧
            (some ks, some kx) ∈ nc ∧ ∀ q, (some ks, q) ∈ nc → q = some kx)) ∧
        (∀ p ∈ nc, ∃ s c ks, List.lookup s [(1, 0), (2, 1), (3, 0), (4, 1)] = some c ∧ c ≠ 0 ∧
          splitNodeStar.get_vertex_rank s = some splitNodeStar.numDim_ ∧
          splitNodeStar.local_to_global s = some ks ∧ p.1 = some ks)) :=
  split_articulation_point_replacement_map splitNodeStar
    { numDim_le := by decide
      vertex_nodup := by decide
      vertex_rank := by decide
      vertex_key := by decide
      map_keys := by decide
      map_vals := by decide
      map_inj := by decide
      edge_ends := by decide
      edge_nodup := by decide
      mirror := by decide
      ent_rank := by decide
      rel_ends := by decide
      rel_rank := by decide
      rel_nodup := by decide
      rel_fun := by decide }
    0 (nodeKey 1) nodeOneOpen 2 [(1, 0), (2, 1), (3, 0), (4, 1)]
    (by decide) (by decide) (by decide) (by decide)

/-! ## The index maps of a subgraph -/

theorem mapInsert_absent {α β : Type} [DecidableEq α] {m : List (α × β)} {k : α} (x : β)
    (h : ∀ p ∈ m, p.1 ≠ k) : mapInsert m k x = m ++ [(k, x)] := by
  unfold mapInsert
  have hn : ¬ (m.lookup k).isSome = true := by
    rw [List.lookup_isSome_iff]
    rintro ⟨q, hq, hqk⟩
    exact h q hq (by simpa using hqk : k = q.1).symm
  rw [if_neg hn]

theorem foldlM_invariant {α β : Type} (f : β → α → Option β) (P : β → Prop) (l : List α)
    (hf : ∀ acc x acc', f acc x = some acc' → P acc → P acc') :
    ∀ acc r, l.foldlM f acc = some r → P acc → P r := by
  induction l with
  | nil =>
    intro acc r h hP
    cases h
    exact hP
  | cons a as ih =>
    intro acc r h hP
    rw [List.foldlM_cons] at h
    cases hfa : f acc a with
    | none => rw [hfa] at h; cases h
    | some acc' =>
      rw [hfa] at h
      exact ih acc' r h (hf acc a acc' hfa hP)

/-- With the index maps inverse to each other, the two lookups are inverse
partial functions. -/
theorem Subgraph.IndexMaps.inverse {g : Subgraph} (h : g.IndexMaps) (v : Nat) (k : EntityKey) :
    g.local_to_global v = some k ↔ g.global_to_local k = some v := by
  unfold Subgraph.local_to_global Subgraph.global_to_local
  constructor
  · intro hl
    exact lookup_of_mem_nodup h.global_nodup (h.local_global _ (lookup_mem hl))
  · intro hg
    exact lookup_of_mem_nodup h.local_nodup (h.global_local _ (lookup_mem hg))

/-- With the index maps inverse to each other, the local vertices that have a
key are the vertices of the graph. -/
theorem Subgraph.IndexMaps.vertex_iff {g : Subgraph} (h : g.IndexMaps) (v : Nat) :
    v ∈ g.vertices.map Prod.fst ↔ ∃ k, g.local_to_global v = some k := by
  unfold Subgraph.local_to_global
  constructor
  · intro hv
    obtain ⟨p, hp, hpv⟩ := List.mem_map.mp (h.vertex_local v hv)
    exact ⟨p.2, lookup_of_mem_nodup h.local_nodup (by rw [← hpv]; exact hp)⟩
  · rintro ⟨k, hk⟩
    exact h.local_vertex v (List.mem_map.mpr ⟨(v, k), lookup_mem hk, rfl⟩)

/-- A step that changes neither the vertices nor the maps and removes no
entity keeps the index maps. -/
theorem Subgraph.IndexMaps.same {g g' : Subgraph} (h : g.IndexMaps)
    (hv : g'.vertices = g.vertices)
    (hl : g'.localGlobalVertexMap = g.localGlobalVertexMap)
    (hg : g'.globalLocalVertexMap = g.globalLocalVertexMap)
    (he : ∀ e ∈ g.bulkData_.entities, e ∈ g'.bulkData_.entities) : g'.IndexMaps :=
  { vertex_nodup := by rw [hv]; exact h.vertex_nodup
    local_nodup := by rw [hl]; exact h.local_nodup
    global_nodup := by rw [hg]; exact h.global_nodup
    local_vertex := by rw [hl, hv]; exact h.local_vertex
    vertex_local := by rw [hl, hv]; exact h.vertex_local
    local_global := by rw [hl, hg]; exact h.local_global
    global_local := by rw [hl, hg]; exact h.global_local
    key_entity := by
      rw [hg]
      exact fun p hp => he _ (h.key_entity p hp) }

/-- A step that adds a new vertex with a new key to the graph and to the two
maps keeps the index maps. -/
theorem Subgraph.IndexMaps.grow {g g' : Subgraph} (h : g.IndexMaps) (v r : Nat)
    (k : EntityKey) (hv : v ∉ g.vertices.map Prod.fst)
    (hk : ∀ p ∈ g.globalLocalVertexMap, p.1 ≠ k)
    (hverts : g'.vertices = g.vertices ++ [(v, r)])
    (hl : g'.localGlobalVertexMap = mapInsert g.localGlobalVertexMap v k)
    (hg : g'.globalLocalVertexMap = mapInsert g.globalLocalVertexMap k v)
    (he : ∀ e ∈ g.bulkData_.entities, e ∈ g'.bulkData_.entities)
    (hke : k ∈ g'.bulkData_.entities) : g'.IndexMaps := by
  have hvl : ∀ p ∈ g.localGlobalVertexMap, p.1 ≠ v := by
    intro p hp hc
    exact hv (h.local_vertex _ (List.mem_map.mpr ⟨p, hp, hc⟩))
  rw [mapInsert_absent _ hvl] at hl
  rw [mapInsert_absent _ hk] at hg
  refine
    { vertex_nodup := ?_, local_nodup := ?_, global_nodup := ?_, local_vertex := ?_,
      vertex_local := ?_, local_global := ?_, global_local := ?_, key_entity := ?_ }
  · rw [hverts, List.map_append, List.nodup_append]
    refine ⟨h.vertex_nodup, by simp, ?_⟩
    intro a ha hb
    simp only [List.map_cons, List.map_nil, List.mem_singleton] at hb
    exact hv (hb ▸ ha)
  · rw [hl, List.map_append, List.nodup_append]
    refine ⟨h.local_nodup, by simp, ?_⟩
    intro a ha hb
    simp only [List.map_cons, List.map_nil, List.mem_singleton] at hb
    obtain ⟨p, hp, hpa⟩ := List.mem_map.mp ha
    exact hvl p hp (hpa.trans hb)
  · rw [hg, List.map_append, List.nodup_append]
    refine ⟨h.global_nodup, by simp, ?_⟩
    intro a ha hb
    simp only [List.map_cons, List.map_nil, List.mem_singleton] at hb
    obtain ⟨p, hp, hpa⟩ := List.mem_map.mp ha
    exact hk p hp (hpa.trans hb)
  · intro u hu
    rw [hl, List.map_append, List.mem_append] at hu
    rw [hverts, List.map_append, List.mem_append]
    rcases hu with hu | hu
    · exact Or.inl (h.local_vertex u hu)
    · exact Or.inr hu
  · intro u hu
    rw [hverts, List.map_append, List.mem_append] at hu
    rw [hl, List.map_append, List.mem_append]
    rcases hu with hu | hu
    · exact Or.inl (h.vertex_local u hu)
    · exact Or.inr hu
  · intro p hp
    rw [hl, List.mem_append, List.mem_singleton] at hp
    rw [hg, List.mem_append, List.mem_singleton]
    rcases hp with hp | hp
    · exact Or.inl (h.local_global p hp)
    · right
      rw [hp]
  · intro p hp
    rw [hg, List.mem_append, List.mem_singleton] at hp
    rw [hl, List.mem_append, List.mem_singleton]
    rcases hp with hp | hp
    · exact Or.inl (h.global_local p hp)
    · right
      rw [hp]
  · intro p hp
    rw [hg, List.mem_append, List.mem_singleton] at hp
    rcases hp with hp | hp
    · exact he _ (h.key_entity p hp)
    · rw [hp]
      exact hke

theorem add_vertex_index_maps {g g' : Subgraph} {r v : Nat} (h : g.IndexMaps)
    (hadd : g.add_vertex r = some (g', v)) : g'.IndexMaps := by
  unfold Subgraph.add_vertex at hadd
  split at hadd
  · simp only [Option.some.injEq, Prod.mk.injEq] at hadd
    obtain ⟨hg', hv'⟩ := hadd
    subst hg'
    refine h.grow (newDescriptor g.vertices) r (g.bulkData_.generate_new_entity r).2
      (newDescriptor_not_mem _) ?_ rfl rfl rfl ?_ ?_
    · intro p hp hc
      have := h.key_entity p hp
      rw [hc] at this
      exact new_key_not_mem _ _ this
    · intro e he
      exact List.mem_append_left _ he
    · exact List.mem_append_right _ (List.mem_singleton.mpr rfl)
  · cases hadd

theorem add_edge_index_maps {g g' : Subgraph} {id s t : Nat} {b : Bool} (h : g.IndexMaps)
    (hadd : g.add_edge id s t = some (g', b)) : g'.IndexMaps := by
  unfold Subgraph.add_edge at hadd
  split at hadd
  · simp only [Option.some.injEq, Prod.mk.injEq] at hadd
    rw [← hadd.1]
    exact h
  · simp only [Option.bind_eq_bind, Option.bind_eq_some, Option.some.injEq,
      Prod.mk.injEq] at hadd
    obtain ⟨ks, -, kt, -, es, -, et, -, hg', -⟩ := hadd
    subst hg'
    exact h.same rfl rfl rfl (fun e he => by
      show e ∈ (g.bulkData_.declare_relation es et id).entities
      rw [entities_declare_relation]
      exact he)

theorem remove_edge_index_maps {g g' : Subgraph} {s t : Nat} (h : g.IndexMaps)
    (hrem : g.remove_edge s t = some g') : g'.IndexMaps := by
  unfold Subgraph.remove_edge at hrem
  simp only [Option.bind_eq_bind, Option.bind_eq_some, Option.some.injEq] at hrem
  obtain ⟨e, -, ks, -, kt, -, es, -, et, -, hg'⟩ := hrem
  subst hg'
  exact h.same rfl rfl rfl (fun _ he => he)

theorem clone_out_edges_index_maps {g g' : Subgraph} {u w : Nat} (h : g.IndexMaps)
    (hc : g.clone_out_edges u w = some g') : g'.IndexMaps := by
  unfold Subgraph.clone_out_edges at hc
  simp only [Option.bind_eq_bind, Option.bind_eq_some, Option.some.injEq] at hc
  obtain ⟨ko, -, kn, -, eo, -, en, -, hg'⟩ := hc
  subst hg'
  exact h.same rfl rfl rfl (fun e he => by
    show e ∈ (clone_relations g.bulkData_ en _).entities
    rw [clone_relations_entities]
    exact he)

theorem remove_vertex_index_maps {g g' : Subgraph} {v : Nat} (h : g.IndexMaps)
    (hrem : g.remove_vertex v = some g') : g'.IndexMaps := by
  unfold Subgraph.remove_vertex at hrem
  simp only [Option.bind_eq_bind, Option.bind_eq_some] at hrem
  obtain ⟨key, hkey, entity, hent, hrest⟩ := hrem
  have hek : entity = key := by
    unfold BulkData.get_entity at hent
    split at hent
    · cases hent
      rfl
    · cases hent
  subst hek
  split at hrest
  swap
  · cases hrest
  rename_i hdel
  simp only [Option.some.injEq] at hrest
  subst hrest
  have hvk : (v, entity) ∈ g.localGlobalVertexMap := lookup_mem hkey
  have hkv : (entity, v) ∈ g.globalLocalVertexMap := h.local_global _ hvk
  have hents : ∀ e ∈ g.bulkData_.entities, e ≠ entity →
      e ∈ (((g.bulkData_.relations_of entity).foldl
        (fun (acc : BulkData) r => acc.destroy_relation entity r.entity r.identifier)
        g.bulkData_).destroy_entity entity).1.entities := by
    intro e he hne
    unfold BulkData.destroy_entity at hdel ⊢
    split
    · simp only
      rw [List.mem_filter, entities_destroy_fold]
      exact ⟨he, by simpa using hne⟩
    · rename_i hc
      rw [if_neg hc] at hdel
      cases hdel
  refine
    { vertex_nodup := ?_, local_nodup := ?_, global_nodup := ?_, local_vertex := ?_,
      vertex_local := ?_, local_global := ?_, global_local := ?_, key_entity := ?_ }
  · exact List.Nodup.sublist (List.Sublist.map _ (List.filter_sublist _)) h.vertex_nodup
  · exact List.Nodup.sublist (List.Sublist.map _ (List.filter_sublist _)) h.local_nodup
  · exact List.Nodup.sublist (List.Sublist.map _ (List.filter_sublist _)) h.global_nodup
  · intro u hu
    obtain ⟨p, hp, hpu⟩ := List.mem_map.mp hu
    obtain ⟨hp1, hp2⟩ := List.mem_filter.mp hp
    simp only [ne_eq, decide_not, Bool.not_eq_true', decide_eq_false_iff_not] at hp2
    obtain ⟨q, hq, hqu⟩ := List.mem_map.mp
      (h.local_vertex u (List.mem_map.mpr ⟨p, hp1, hpu⟩))
    refine List.mem_map.mpr ⟨q, List.mem_filter.mpr ⟨hq, ?_⟩, hqu⟩
    simp only [ne_eq, decide_not, Bool.not_eq_true', decide_eq_false_iff_not]
    rw [hqu, ← hpu]
    exact hp2
  · intro u hu
    obtain ⟨p, hp, hpu⟩ := List.mem_map.mp hu
    obtain ⟨hp1, hp2⟩ := List.mem_filter.mp hp
    simp only [ne_eq, decide_not, Bool.not_eq_true', decide_eq_false_iff_not] at hp2
    obtain ⟨q, hq, hqu⟩ := List.mem_map.mp
      (h.vertex_local u (List.mem_map.mpr ⟨p, hp1, hpu⟩))
    refine List.mem_map.mpr ⟨q, List.mem_filter.mpr ⟨hq, ?_⟩, hqu⟩
    simp only [ne_eq, decide_not, Bool.not_eq_true', decide_eq_false_iff_not]
    rw [hqu, ← hpu]
    exact hp2
  · intro p hp
    obtain ⟨hp1, hp2⟩ := List.mem_filter.mp hp
    simp only [ne_eq, decide_not, Bool.not_eq_true', decide_eq_false_iff_not] at hp2
    refine List.mem_filter.mpr ⟨h.local_global p hp1, ?_⟩
    simp only [ne_eq, decide_not, Bool.not_eq_true', decide_eq_false_iff_not]
    intro hc
    have h1 : (p.2, p.1) ∈ g.globalLocalVertexMap := h.local_global p hp1
    rw [hc] at h1
    have h2 := lookup_of_mem_nodup h.global_nodup h1
    have h3 := lookup_of_mem_nodup h.global_nodup hkv
    rw [h2] at h3
    exact hp2 (Option.some.inj h3)
  · intro p hp
    obtain ⟨hp1, hp2⟩ := List.mem_filter.mp hp
    simp only [ne_eq, decide_not, Bool.not_eq_true', decide_eq_false_iff_not] at hp2
    refine List.mem_filter.mpr ⟨h.global_local p hp1, ?_⟩
    simp only [ne_eq, decide_not, Bool.not_eq_true', decide_eq_false_iff_not]
    intro hc
    have h1 : (p.2, p.1) ∈ g.localGlobalVertexMap := h.global_local p hp1
    rw [hc] at h1
    have h2 := lookup_of_mem_nodup h.local_nodup h1
    have h3 := lookup_of_mem_nodup h.local_nodup hvk
    rw [h2] at h3
    exact hp2 (Option.some.inj h3)
  · intro p hp
    obtain ⟨hp1, hp2⟩ := List.mem_filter.mp hp
    simp only [ne_eq, decide_not, Bool.not_eq_true', decide_eq_false_iff_not] at hp2
    exact hents _ (h.key_entity p hp1) hp2

theorem clone_boundary_entity_index_maps {g g' : Subgraph} {v : Nat} {o o' : EntityOpenMap}
    (h : g.IndexMaps) (hc : g.clone_boundary_entity v o = some (g', o')) : g'.IndexMaps := by
  unfold Subgraph.clone_boundary_entity at hc
  split at hc
  · simp only [Option.some.injEq, Prod.mk.injEq] at hc
    rw [← hc.1]
    exact h
  · simp only [Option.bind_eq_bind, Option.bind_eq_some] at hc
    obtain ⟨kv, -, hc⟩ := hc
    split at hc
    · cases hc
    · simp only [Option.bind_eq_some] at hc
      obtain ⟨r, -, ⟨g1, nv⟩, hadd, g2, hfold, g3, hclone, e, -, g4, hrem, ⟨g5, b⟩, hadd2,
        heq⟩ := hc
      simp only [Option.some.injEq, Prod.mk.injEq] at heq
      rw [← heq.1]
      have h1 := add_vertex_index_maps h hadd
      have h2 : g2.IndexMaps := by
        refine foldlM_invariant _ Subgraph.IndexMaps _ ?_ g1 g2 hfold h1
        intro acc x acc' hx hacc
        simp only [Option.map_eq_some'] at hx
        obtain ⟨⟨a, b'⟩, ha, hab⟩ := hx
        simp only at hab
        subst hab
        exact add_edge_index_maps hacc ha
      exact add_edge_index_maps
        (remove_edge_index_maps (clone_out_edges_index_maps h2 hclone) hrem) hadd2

theorem add_vertices_index_maps {r : Nat} (count : Nat) :
    ∀ {g g' : Subgraph} {nv : List Nat}, g.IndexMaps →
      g.add_vertices r count = some (g', nv) → g'.IndexMaps := by
  induction count with
  | zero =>
    intro g g' nv h hadd
    unfold Subgraph.add_vertices at hadd
    simp only [Option.some.injEq, Prod.mk.injEq] at hadd
    rw [← hadd.1]
    exact h
  | succ n ih =>
    intro g g' nv h hadd
    unfold Subgraph.add_vertices at hadd
    simp only [Option.bind_eq_bind, Option.bind_eq_some] at hadd
    obtain ⟨⟨g1, nv1⟩, h1, ⟨g2, x⟩, h2, heq⟩ := hadd
    simp only [Option.some.injEq, Prod.mk.injEq] at heq
    rw [← heq.1]
    exact add_vertex_index_maps (ih h h1) h2

theorem split_articulation_point_index_maps {g g' : Subgraph} {v : Nat}
    {o o' : EntityOpenMap} {nc : List (Option EntityKey × Option EntityKey)}
    (h : g.IndexMaps) (hs : g.split_articulation_point v o = some (g', o', nc)) :
    g'.IndexMaps := by
  unfold Subgraph.split_articulation_point at hs
  simp only [Option.bind_eq_bind, Option.bind_eq_some] at hs
  obtain ⟨kv, -, hs⟩ := hs
  split at hs
  · cases hs
  · simp only [Option.bind_eq_some] at hs
    obtain ⟨r, -, ⟨k, comps⟩, -, hs⟩ := hs
    by_cases hk : k = 1
    · rw [if_pos hk] at hs
      simp only [Option.some.injEq, Prod.mk.injEq] at hs
      rw [← hs.1]
      exact h
    · rw [if_neg hk] at hs
      simp only [Option.bind_eq_bind, Option.bind_eq_some] at hs
      obtain ⟨⟨g1, nv⟩, hadd, hs⟩ := hs
      have hrest : ∃ g2 removed g3,
          List.foldlM (fun acc newVert => acc.clone_out_edges v newVert) g1 nv = some g2 ∧
          g2.replace_edges comps nv v removed = some g3 ∧ g3 = g' := by
        split at hs
        · simp only [Option.some_bind, Option.bind_eq_some, Option.some.injEq,
            Prod.mk.injEq] at hs
          obtain ⟨ncv, -, g2, hfold, removed, -, g3, hrep, heq, -⟩ := hs
          exact ⟨g2, removed, g3, hfold, hrep, heq⟩
        · simp only [Option.some_bind, Option.bind_eq_some, Option.some.injEq,
            Prod.mk.injEq] at hs
          obtain ⟨g2, hfold, removed, -, g3, hrep, heq, -⟩ := hs
          exact ⟨g2, removed, g3, hfold, hrep, heq⟩
      obtain ⟨g2, removed, g3, hfold, hrep, heq⟩ := hrest
      rw [← heq]
      have h1 := add_vertices_index_maps _ h hadd
      have h2 : g2.IndexMaps := by
        refine foldlM_invariant _ Subgraph.IndexMaps _ ?_ g1 g2 hfold h1
        intro acc x acc' hx hacc
        exact clone_out_edges_index_maps hacc hx
      unfold Subgraph.replace_edges at hrep
      refine foldlM_invariant _ Subgraph.IndexMaps _ ?_ g2 g3 hrep h2
      intro acc x acc' hx hacc
      unfold Subgraph.replace_step at hx
      simp only [Option.bind_eq_bind, Option.bind_eq_some] at hx
      obtain ⟨c, -, ga, hga, y, -, ⟨gb, b⟩, hgb, hfin⟩ := hx
      split at hfin
      · simp only [Option.pure_def, Option.some.injEq] at hfin
        rw [← hfin]
        exact add_edge_index_maps (remove_edge_index_maps hacc hga) hgb
      · cases hfin

theorem create_vertices_index_maps (b : BulkData) (f : Subgraph → EntityKey → Option Subgraph)
    (hf : ∀ g x g1, f g x = some g1 → ∃ entity, b.get_entity x = some entity ∧
      g1 = { g with
        vertices := g.vertices ++ [(newDescriptor g.vertices, entity.rank)]
        localGlobalVertexMap := mapInsert g.localGlobalVertexMap (newDescriptor g.vertices) x
        globalLocalVertexMap := mapInsert g.globalLocalVertexMap x (newDescriptor g.vertices) })
    (l : List EntityKey) :
    ∀ (g r : Subgraph), l.Nodup → (∀ p ∈ g.globalLocalVertexMap, p.1 ∉ l) →
      g.IndexMaps → g.bulkData_ = b → l.foldlM f g = some r →
      r.IndexMaps ∧ r.bulkData_ = b := by
  induction l with
  | nil =>
    intro g r _ _ h hb hfold
    cases hfold
    exact ⟨h, hb⟩
  | cons a as ih =>
    intro g r hnd hdis h hb hfold
    rw [List.foldlM_cons] at hfold
    cases hstep : f g a with
    | none => rw [hstep] at hfold; cases hfold
    | some g1 =>
      rw [hstep] at hfold
      obtain ⟨entity, hent, hg1⟩ := hf g a g1 hstep
      have ha : a ∈ b.entities := by
        unfold BulkData.get_entity at hent
        split at hent
        · assumption
        · cases hent
      rw [List.nodup_cons] at hnd
      have hk : ∀ p ∈ g.globalLocalVertexMap, p.1 ≠ a :=
        fun p hp hc => hdis p hp (hc ▸ List.mem_cons_self _ _)
      have hgl : g1.globalLocalVertexMap =
          mapInsert g.globalLocalVertexMap a (newDescriptor g.vertices) := by rw [hg1]
      refine ih g1 r hnd.2 ?_ ?_ (by rw [hg1]; exact hb) hfold
      · intro p hp
        rw [hgl, mapInsert_absent _ hk, List.mem_append, List.mem_singleton] at hp
        rcases hp with hp | hp
        · exact fun hc => hdis p hp (List.mem_cons_of_mem _ hc)
        · rw [hp]
          exact hnd.1
      · exact h.grow (newDescriptor g.vertices) entity.rank a (newDescriptor_not_mem _) hk
          (by rw [hg1]) (by rw [hg1]) hgl (fun _ he => by rw [hg1]; exact he)
          (by rw [hg1]; exact hb ▸ ha)

theorem create_index_maps {b : BulkData} {vs : List EntityKey} {es : List stkEdge} {n : Nat}
    {g : Subgraph} (hnd : vs.Nodup) (hc : Subgraph.create b vs es n = some g) :
    g.IndexMaps := by
  unfold Subgraph.create at hc
  obtain ⟨g1, hverts, hedges⟩ := Option.bind_eq_some.mp hc
  have h0 : Subgraph.IndexMaps
      { bulkData_ := b, numDim_ := n, vertices := [], edges := [],
        localGlobalVertexMap := [], globalLocalVertexMap := [] } :=
    { vertex_nodup := List.nodup_nil
      local_nodup := List.nodup_nil
      global_nodup := List.nodup_nil
      local_vertex := fun _ hv => hv
      vertex_local := fun _ hv => hv
      local_global := fun _ hp => by cases hp
      global_local := fun _ hp => by cases hp
      key_entity := fun _ hp => by cases hp }
  have h1 := (create_vertices_index_maps b _ ?_ vs _ g1 hnd (fun _ hp => by cases hp) h0 rfl
    hverts).1
  · refine foldlM_invariant _ Subgraph.IndexMaps _ ?_ g1 g hedges h1
    intro acc x acc' hx hacc
    simp only [Option.bind_eq_bind, Option.bind_eq_some] at hx
    obtain ⟨s, -, t, -, hx⟩ := hx
    split at hx
    · simp only [Option.pure_def, Option.some.injEq] at hx
      subst hx
      exact hacc.same rfl rfl rfl (fun _ he => he)
    · cases hx
  · intro g0 x g1 hstep
    simp only [Option.bind_eq_bind, Option.bind_eq_some, Option.pure_def,
      Option.some.injEq] at hstep
    obtain ⟨entity, hent, hg1⟩ := hstep
    exact ⟨entity, hent, hg1.symm⟩

/-- C20: the constructor of `Subgraph`, given a set of keys, leaves the two
index maps inverse to each other, with one entry for each vertex of the graph;
and when this holds of a subgraph, it holds of the subgraph that `add_vertex`,
`remove_vertex`, `add_edge`, `remove_edge`, `clone_boundary_entity` or
`split_articulation_point` returns. -/
theorem index_maps_preserved :
    (∀ (b : BulkData) (vs : List EntityKey) (es : List stkEdge) (n : Nat) (g : Subgraph),
      vs.Nodup → Subgraph.create b vs es n = some g → g.IndexMaps) ∧
    (∀ (g : Subgraph) (r : Nat) (res : Subgraph × Nat),
      g.IndexMaps → g.add_vertex r = some res → res.1.IndexMaps) ∧
    (∀ (g : Subgraph) (v : Nat) (g' : Subgraph),
      g.IndexMaps → g.remove_vertex v = some g' → g'.IndexMaps) ∧
    (∀ (g : Subgraph) (id s t : Nat) (res : Subgraph × Bool),
      g.IndexMaps → g.add_edge id s t = some res → res.1.IndexMaps) ∧
    (∀ (g : Subgraph) (s t : Nat) (g' : Subgraph),
      g.IndexMaps → g.remove_edge s t = some g' → g'.IndexMaps) ∧
    (∀ (g : Subgraph) (v : Nat) (o : EntityOpenMap) (res : Subgraph × EntityOpenMap),
      g.IndexMaps → g.clone_boundary_entity v o = some res → res.1.IndexMaps) ∧
    (∀ (g : Subgraph) (v : Nat) (o : EntityOpenMap)
      (res : Subgraph × EntityOpenMap × List (Option EntityKey × Option EntityKey)),
      g.IndexMaps → g.split_articulation_point v o = some res → res.1.IndexMaps) :=
  ⟨fun _ _ _ _ _ hnd hc => create_index_maps hnd hc,
    fun _ _ _ h hr => add_vertex_index_maps h hr,
    fun _ _ _ h hr => remove_vertex_index_maps h hr,
    fun _ _ _ _ _ h hr => add_edge_index_maps h hr,
    fun _ _ _ _ h hr => remove_edge_index_maps h hr,
    fun _ _ _ _ h hr => clone_boundary_entity_index_maps h hr,
    fun _ _ _ _ h hr => split_articulation_point_index_maps h hr⟩

theorem sharedSegmentStar_index_maps : sharedSegmentStar.IndexMaps :=
  { vertex_nodup := by decide
    local_nodup := by decide
    global_nodup := by decide
    local_vertex := by decide
    vertex_local := by decide
    local_global := by decide
    global_local := by decide
    key_entity := by decide }

theorem sharedFaceStar_index_maps : sharedFaceStar.IndexMaps :=
  { vertex_nodup := by decide
    local_nodup := by decide
    global_nodup := by decide
    local_vertex := by decide
    vertex_local := by decide
    local_global := by decide
    global_local := by decide
    key_entity := by decide }

theorem splitNodeStar_index_maps : splitNodeStar.IndexMaps :=
  { vertex_nodup := by decide
    local_nodup := by decide
    global_nodup := by decide
    local_vertex := by decide
    vertex_local := by decide
    local_global := by decide
    global_local := by decide
    key_entity := by decide }

theorem index_maps_preserved_witness :
    (∃ g, Subgraph.create sharedSegmentStore [edgeKey 1, quadKey 1, quadKey 2]
      [⟨quadKey 1, edgeKey 1, 0⟩, ⟨quadKey 2, edgeKey 1, 1⟩] 2 = some g ∧ g.IndexMaps) ∧
    (∃ res, sharedSegmentStar.add_vertex 1 = some res ∧ res.1.IndexMaps) ∧
    (∃ g', sharedSegmentStar.remove_vertex 1 = some g' ∧ g'.IndexMaps) ∧
    (∃ res, splitNodeStar.add_edge 1 3 2 = some res ∧ res.1.IndexMaps) ∧
    (∃ g', sharedSegmentStar.remove_edge 1 0 = some g' ∧ g'.IndexMaps) ∧
    (∃ res, sharedFaceStar.clone_boundary_entity 1 sharedFaceOpen = some res ∧
      res.1.IndexMaps) ∧
    (∃ res, sharedSegmentStar.split_articulation_point 0 sharedSegmentOpen = some res ∧
      res.1.IndexMaps) :=
  ⟨Exists.imp (fun g h => ⟨h, index_maps_preserved.1 _ _ _ _ g (by decide) h⟩)
      (Option.isSome_iff_exists.mp (by decide)),
    Exists.imp
      (fun res h => ⟨h, index_maps_preserved.2.1 _ _ res sharedSegmentStar_index_maps h⟩)
      (Option.isSome_iff_exists.mp (by decide)),
    Exists.imp
      (fun g h => ⟨h, index_maps_preserved.2.2.1 _ _ g sharedSegmentStar_index_maps h⟩)
      (Option.isSome_iff_exists.mp (by decide)),
    Exists.imp
      (fun res h => ⟨h, index_maps_preserved.2.2.2.1 _ _ _ _ res splitNodeStar_index_maps h⟩)
      (Option.isSome_iff_exists.mp (by decide)),
    Exists.imp
      (fun g h => ⟨h, index_maps_preserved.2.2.2.2.1 _ _ _ g sharedSegmentStar_index_maps h⟩)
      (Option.isSome_iff_exists.mp (by decide)),
    Exists.imp
      (fun res h =>
        ⟨h, index_maps_preserved.2.2.2.2.2.1 _ _ _ res sharedFaceStar_index_maps h⟩)
      (Option.isSome_iff_exists.mp (by decide)),
    Exists.imp
      (fun res h =>
        ⟨h, index_maps_preserved.2.2.2.2.2.2 _ _ _ res sharedSegmentStar_index_maps h⟩)
      (Option.isSome_iff_exists.mp (by decide))⟩

/-! ## The star of an entity -/

theorem maxRank_ge (es : List EntityKey) : ∀ e ∈ es, e.rank ≤ maxRank es := by
  induction es with
  | nil => simp
  | cons a as ih =>
    intro e he
    simp only [maxRank]
    rcases List.mem_cons.mp he with rfl | h
    · omega
    · have := ih e h
      omega

theorem mem_setInsert_iff {α : Type} (less : α → α → Bool) (a x : α) :
    ∀ l : List α, (∀ b ∈ l, less a b = false → less b a = false → b = a) →
      (x ∈ setInsert less l a ↔ x ∈ l ∨ x = a) := by
  intro l
  induction l with
  | nil => intro _; simp [setInsert]
  | cons b bs ih =>
    intro h
    unfold setInsert
    by_cases h1 : less a b = true
    · rw [if_pos h1]
      simp only [List.mem_cons]
      tauto
    · rw [if_neg h1]
      by_cases h2 : less b a = true
      · rw [if_pos h2, List.mem_cons, ih (fun c hc => h c (List.mem_cons_of_mem _ hc)),
          List.mem_cons]
        tauto
      · rw [if_neg h2]
        have hba : b = a := h b (List.mem_cons_self _ _) (by simpa using h1) (by simpa using h2)
        simp only [List.mem_cons]
        constructor
        · exact fun hx => Or.inl hx
        · rintro (hx | hx)
          · exact hx
          · exact Or.inl (hx.trans hba.symm)

theorem EntityKey.less_total {a b : EntityKey} (h1 : a.less b = false) (h2 : b.less a = false) :
    b = a := by
  unfold EntityKey.less at h1 h2
  simp only [Bool.or_eq_false_iff, decide_eq_false_iff_not, Bool.and_eq_false_imp,
    decide_eq_true_eq] at h1 h2
  obtain ⟨ra, ia⟩ := a
  obtain ⟨rb, ib⟩ := b
  simp only at h1 h2
  have hr : ra = rb := by omega
  have hi : ia = ib := by
    have := h1.2 hr
    have := h2.2 hr.symm
    omega
  rw [hr, hi]

/-- On a trimmed store the range `relations(rank + 1)` of an entity is the
list of the relations stored into it. -/
theorem mem_relations_rank_succ {b : BulkData} {e : EntityKey} {r : Relation}
    (hrank : ∀ d ∈ b.relations, d.e_from.rank = d.e_to.rank + 1 ∧ d.e_from.rank ≤ 3) :
    r ∈ b.relations_rank e (rankSucc e.rank) ↔
      (⟨r.entity, e, r.identifier⟩ : Decl) ∈ b.relations := by
  unfold BulkData.relations_rank
  rw [List.mem_filter, mem_relations_of]
  simp only [Relation.entity_rank, decide_eq_true_eq]
  constructor
  · rintro ⟨⟨d, hd, hseen⟩, hr⟩
    obtain ⟨h1, h2⟩ := hrank d hd
    unfold Decl.seenFrom at hseen
    split at hseen
    · rename_i hfrom
      cases hseen
      exfalso
      simp only at hr
      rw [← hfrom] at hr
      unfold rankSucc at hr
      omega
    · split at hseen
      · rename_i hto
        cases hseen
        simp only
        rw [← hto]
        exact hd
      · cases hseen
  · intro hd
    obtain ⟨h1, h2⟩ := hrank _ hd
    simp only at h1 h2
    refine ⟨⟨_, hd, ?_⟩, ?_⟩
    · unfold Decl.seenFrom
      simp only
      have hne : r.entity ≠ e := by
        intro hc
        rw [hc] at h1
        omega
      rw [if_neg hne, if_pos trivial]
    · rw [h1]
      unfold rankSucc
      omega

theorem star_succ (less : stkEdge → stkEdge → Bool) (b : BulkData) (fuel : Nat)
    (sets : List EntityKey × List stkEdge) (e : EntityKey) :
    star less b (fuel + 1) sets e =
      (b.relations_rank e (rankSucc e.rank)).foldlM
        (fun acc relation =>
          star less b fuel
            (acc.1, setInsert less acc.2 ⟨relation.entity, e, relation.identifier⟩)
            relation.entity)
        (setInsert EntityKey.less sets.1 e, sets.2) := rfl

/-- The loop of `star` over the parents of `e`, given what the recursive calls
do: the sets gain the upward closures of the parents and the edges from the
parents to `e`. -/
theorem star_fold (less : stkEdge → stkEdge → Bool) (b : BulkData) (fuel : Nat)
    (e : EntityKey)
    (hset : ∀ (l : List stkEdge) (a : stkEdge), (∀ d ∈ l, d.toDecl ∈ b.relations) →
      a.toDecl ∈ b.relations → ∀ x, x ∈ setInsert less l a ↔ x ∈ l ∨ x = a)
    (ih : ∀ p sets, b.parentOf e p → (∀ d ∈ sets.2, d.toDecl ∈ b.relations) →
      ∃ res, star less b fuel sets p = some res ∧
        (∀ x, x ∈ res.1 ↔ x ∈ sets.1 ∨ b.UpReach p x) ∧
        (∀ d, d ∈ res.2 ↔ d ∈ sets.2 ∨ (b.UpReach p d.target ∧ d.toDecl ∈ b.relations)))
    (hstored : ∀ r ∈ b.relations_rank e (rankSucc e.rank),
      (⟨r.entity, e, r.identifier⟩ : Decl) ∈ b.relations) :
    ∀ (l : List Relation), (∀ r ∈ l, r ∈ b.relations_rank e (rankSucc e.rank)) →
      ∀ acc : List EntityKey × List stkEdge, (∀ d ∈ acc.2, d.toDecl ∈ b.relations) →
      ∃ res,
        l.foldlM
          (fun acc relation =>
            star less b fuel
              (acc.1, setInsert less acc.2 ⟨relation.entity, e, relation.identifier⟩)
              relation.entity) acc = some res ∧
        (∀ x, x ∈ res.1 ↔ x ∈ acc.1 ∨ ∃ r ∈ l, b.UpReach r.entity x) ∧
        (∀ d, d ∈ res.2 ↔ d ∈ acc.2 ∨ ∃ r ∈ l,
          d = ⟨r.entity, e, r.identifier⟩ ∨
            (b.UpReach r.entity d.target ∧ d.toDecl ∈ b.relations)) := by
  intro l
  induction l with
  | nil =>
    intro _ acc _
    exact ⟨acc, rfl, fun x => by simp, fun d => by simp⟩
  | cons r rs ihl =>
    intro hl acc hacc
    have hr := hl r (List.mem_cons_self _ _)
    have hedge : (⟨r.entity, e, r.identifier⟩ : stkEdge).toDecl ∈ b.relations :=
      hstored r hr
    have hpar : b.parentOf e r.entity := ⟨r.identifier, hr⟩
    have hacc1 : ∀ d ∈ setInsert less acc.2 ⟨r.entity, e, r.identifier⟩,
        d.toDecl ∈ b.relations := by
      intro d hd
      rcases (hset acc.2 _ hacc hedge d).mp hd with h | h
      · exact hacc d h
      · rw [h]
        exact hedge
    obtain ⟨res1, hres1, hv1, he1⟩ :=
      ih r.entity (acc.1, setInsert less acc.2 ⟨r.entity, e, r.identifier⟩) hpar hacc1
    have hst1 : ∀ d ∈ res1.2, d.toDecl ∈ b.relations := by
      intro d hd
      rcases (he1 d).mp hd with h | h
      · exact hacc1 d h
      · exact h.2
    obtain ⟨res, hres, hv, he⟩ :=
      ihl (fun x hx => hl x (List.mem_cons_of_mem _ hx)) res1 hst1
    refine ⟨res, ?_, ?_, ?_⟩
    · rw [List.foldlM_cons]
      simp only [Option.bind_eq_bind]
      rw [hres1]
      exact hres
    · intro x
      rw [hv x, hv1 x]
      simp only [List.mem_cons, exists_eq_or_imp, or_assoc]
    · intro d
      rw [he d, he1 d]
      simp only [hset acc.2 _ hacc hedge d, List.mem_cons, exists_eq_or_imp, or_assoc]

/-- What `star` computes on a trimmed store with enough fuel: the entity set
gains the upward closure of the entity and the edge set gains the stored
relations into the members of that closure. -/
theorem star_spec (less : stkEdge → stkEdge → Bool) (b : BulkData)
    (hrank : ∀ d ∈ b.relations, d.e_from.rank = d.e_to.rank + 1 ∧ d.e_from.rank ≤ 3)
    (hends : ∀ d ∈ b.relations, d.e_from ∈ b.entities ∧ d.e_to ∈ b.entities)
    (hfun : ∀ d ∈ b.relations, ∀ d' ∈ b.relations,
      d.e_from = d'.e_from → d.e_to = d'.e_to → d.local_id = d'.local_id)
    (hsep : ∀ x y : stkEdge, less x y = false → less y x = false →
      x.source = y.source ∧ x.target = y.target) :
    ∀ (fuel : Nat) (e : EntityKey) (sets : List EntityKey × List stkEdge),
      1 ≤ fuel → maxRank b.entities + 1 ≤ fuel + e.rank →
      (∀ d ∈ sets.2, d.toDecl ∈ b.relations) →
      ∃ res, star less b fuel sets e = some res ∧
        (∀ x, x ∈ res.1 ↔ x ∈ sets.1 ∨ b.UpReach e x) ∧
        (∀ d, d ∈ res.2 ↔ d ∈ sets.2 ∨ (b.UpReach e d.target ∧ d.toDecl ∈ b.relations)) := by
  have hset : ∀ (l : List stkEdge) (a : stkEdge), (∀ d ∈ l, d.toDecl ∈ b.relations) →
      a.toDecl ∈ b.relations → ∀ x, x ∈ setInsert less l a ↔ x ∈ l ∨ x = a := by
    intro l a hl ha x
    apply mem_setInsert_iff
    intro c hc h1 h2
    obtain ⟨hs, ht⟩ := hsep a c h1 h2
    have hid := hfun _ (hl c hc) _ ha hs.symm ht.symm
    obtain ⟨cs, ct, ci⟩ := c
    obtain ⟨as, at', ai⟩ := a
    simp only [stkEdge.toDecl] at hid hs ht
    rw [hs, ht, hid]
  intro fuel
  induction fuel with
  | zero => intro e sets h; omega
  | succ fuel ih =>
    intro e sets _ hfuel hsets
    have hstored : ∀ r ∈ b.relations_rank e (rankSucc e.rank),
        (⟨r.entity, e, r.identifier⟩ : Decl) ∈ b.relations :=
      fun r hr => (mem_relations_rank_succ hrank).mp hr
    obtain ⟨res, hres, hv, he⟩ := star_fold less b fuel e hset
      (by
        intro p sets' hp hsets'
        obtain ⟨i, hi⟩ := hp
        have hd := hstored _ hi
        simp only at hd
        have hpe := (hends _ hd).1
        simp only at hpe
        have hpr := maxRank_ge _ _ hpe
        have hpk := (hrank _ hd).1
        simp only at hpk
        exact ih p sets' (by omega) (by omega) hsets')
      hstored _ (fun _ hr => hr) (setInsert EntityKey.less sets.1 e, sets.2) hsets
    refine ⟨res, by rw [star_succ]; exact hres, ?_, ?_⟩
    · intro x
      rw [hv x, mem_setInsert_iff EntityKey.less e x sets.1
        (fun c _ h1 h2 => EntityKey.less_total h1 h2)]
      constructor
      · rintro ((h | h) | ⟨r, hr, h⟩)
        · exact Or.inl h
        · exact Or.inr (h ▸ Relation.ReflTransGen.refl)
        · exact Or.inr (Relation.ReflTransGen.head ⟨r.identifier, hr⟩ h)
      · rintro (h | h)
        · exact Or.inl (Or.inl h)
        · rcases Relation.ReflTransGen.cases_head h with h' | ⟨c, ⟨i, hi⟩, hc⟩
          · exact Or.inl (Or.inr h'.symm)
          · exact Or.inr ⟨⟨c, i⟩, hi, hc⟩
    · intro d
      rw [he d]
      constructor
      · rintro (h | ⟨r, hr, h | ⟨h1, h2⟩⟩)
        · exact Or.inl h
        · right
          rw [h]
          exact ⟨Relation.ReflTransGen.refl, hstored r hr⟩
        · exact Or.inr ⟨Relation.ReflTransGen.head ⟨r.identifier, hr⟩ h1, h2⟩
      · rintro (h | ⟨h1, h2⟩)
        · exact Or.inl h
        · right
          rcases Relation.ReflTransGen.cases_head h1 with h' | ⟨c, ⟨i, hi⟩, hc⟩
          · refine ⟨⟨d.source, d.localId⟩, ?_, Or.inl ?_⟩
            · rw [mem_relations_rank_succ hrank, h']
              exact h2
            · rw [h']
          · exact ⟨⟨c, i⟩, hi, Or.inr ⟨hc, h2⟩⟩

theorem BulkData.Trimmed.hrank {b : BulkData} {numDim : Nat} (h : b.Trimmed numDim) :
    ∀ d ∈ b.relations, d.e_from.rank = d.e_to.rank + 1 ∧ d.e_from.rank ≤ 3 := by
  intro d hd
  refine ⟨h.rel_rank d hd, ?_⟩
  have := h.ent_rank _ (h.rel_ends d hd).1
  have := h.numDim_le
  omega

/-- A parent has the next rank and is stored with a relation to its child. -/
theorem BulkData.Trimmed.parent {b : BulkData} {numDim : Nat} (h : b.Trimmed numDim)
    {c p : EntityKey} (hp : b.parentOf c p) :
    p.rank = c.rank + 1 ∧ p ∈ b.entities ∧ c ∈ b.entities ∧
      ∃ i, (⟨p, c, i⟩ : Decl) ∈ b.relations := by
  obtain ⟨i, hi⟩ := hp
  have hd := (mem_relations_rank_succ h.hrank).mp hi
  simp only at hd
  exact ⟨h.rel_rank _ hd, (h.rel_ends _ hd).1, (h.rel_ends _ hd).2, i, hd⟩

theorem BulkData.Trimmed.upReach_rank {b : BulkData} {numDim : Nat} (h : b.Trimmed numDim)
    {e x : EntityKey} (hx : b.UpReach e x) : e.rank ≤ x.rank := by
  induction hx with
  | refl => exact le_refl _
  | tail _ hp ih =>
    have := (h.parent hp).1
    omega

theorem edgeLessSourceTarget_sep (x y : stkEdge) (h1 : edgeLessSourceTarget x y = false)
    (h2 : edgeLessSourceTarget y x = false) : x.source = y.source ∧ x.target = y.target := by
  unfold edgeLessSourceTarget at h1 h2
  simp only [Bool.or_eq_false_iff, Bool.and_eq_false_imp, Bool.not_eq_true',
    Bool.not_eq_eq_eq_not, Bool.not_true] at h1 h2
  have hs : x.source = y.source := EntityKey.less_total h2.1 h1.1
  exact ⟨hs, EntityKey.less_total (h2.2 h1.1) (h1.2 h2.1)⟩

/-- C19: on a trimmed store `star(e)` returns the upward closure of `e`: an
entity is in the returned vertex set exactly when it is reached from `e` by
climbing relations to parents of the next rank, so no member has a rank below
that of `e`; an edge is in the returned edge set exactly when it is a stored
relation, with its local id, from a member to a member; and both end points of
a returned edge are members. The order of the edge set is any order that
separates edges with different end points. -/
theorem star_upward_closure (EdgeLessThan : stkEdge → stkEdge → Bool) (b : BulkData)
    (numDim : Nat) (e : EntityKey) (htr : b.Trimmed numDim)
    (hsep : ∀ x y : stkEdge, EdgeLessThan x y = false → EdgeLessThan y x = false →
      x.source = y.source ∧ x.target = y.target) :
    ∃ V E, topology.star EdgeLessThan b e = some (V, E) ∧
      (∀ x, x ∈ V ↔ b.UpReach e x) ∧
      (∀ x ∈ V, e.rank ≤ x.rank) ∧
      (∀ d, d ∈ E ↔ d.source ∈ V ∧ d.target ∈ V ∧ d.toDecl ∈ b.relations) ∧
      (∀ d ∈ E, d.source ∈ V ∧ d.target ∈ V ∧
        (⟨d.source, d.localId⟩ : Relation) ∈
          b.relations_rank d.target (rankSucc d.target.rank)) := by
  obtain ⟨res, hres, hv, he⟩ := star_spec EdgeLessThan b htr.hrank htr.rel_ends htr.rel_fun
    hsep (maxRank b.entities + 2) e ([], []) (by omega) (by omega) (fun _ h => by cases h)
  have hv' : ∀ x, x ∈ res.1 ↔ b.UpReach e x := by
    intro x
    rw [hv x]
    simp
  have hsrc : ∀ d : stkEdge, b.UpReach e d.target → d.toDecl ∈ b.relations →
      b.UpReach e d.source := by
    intro d ht hd
    exact Relation.ReflTransGen.tail ht
      ⟨d.localId, (mem_relations_rank_succ htr.hrank).mpr hd⟩
  have he' : ∀ d, d ∈ res.2 ↔ b.UpReach e d.target ∧ d.toDecl ∈ b.relations := by
    intro d
    rw [he d]
    simp
  refine ⟨res.1, res.2, hres, hv', ?_, ?_, ?_⟩
  · intro x hx
    exact htr.upReach_rank ((hv' x).mp hx)
  · intro d
    rw [he' d, hv', hv']
    constructor
    · rintro ⟨h1, h2⟩
      exact ⟨hsrc d h1 h2, h1, h2⟩
    · rintro ⟨-, h1, h2⟩
      exact ⟨h1, h2⟩
  · intro d hd
    obtain ⟨h1, h2⟩ := (he' d).mp hd
    rw [hv', hv']
    exact ⟨hsrc d h1 h2, h1, (mem_relations_rank_succ htr.hrank).mpr h2⟩

theorem sharedFaceStore_trimmed : sharedFaceStore.Trimmed 3 :=
  { numDim_le := by decide
    ent_rank := by decide
    rel_ends := by decide
    rel_rank := by decide
    rel_nodup := by decide
    rel_fun := by decide }

theorem star_upward_closure_witness :
    ∃ V E, topology.star edgeLessSourceTarget sharedFaceStore (edgeKey 1) = some (V, E) ∧
      (∀ x, x ∈ V ↔ sharedFaceStore.UpReach (edgeKey 1) x) ∧
      (∀ x ∈ V, (edgeKey 1).rank ≤ x.rank) ∧
      (∀ d, d ∈ E ↔ d.source ∈ V ∧ d.target ∈ V ∧ d.toDecl ∈ sharedFaceStore.relations) ∧
      (∀ d ∈ E, d.source ∈ V ∧ d.target ∈ V ∧
        (⟨d.source, d.localId⟩ : Relation) ∈
          sharedFaceStore.relations_rank d.target (rankSucc d.target.rank)) :=
  star_upward_closure edgeLessSourceTarget sharedFaceStore 3 (edgeKey 1)
    sharedFaceStore_trimmed edgeLessSourceTarget_sep

/-! ## Completeness of the component sweep -/

theorem mem_uneighbours {es : List (Nat × Nat)} {x y : Nat} :
    y ∈ uneighbours es x ↔
      ∃ e ∈ es, (e.1 = x ∧ e.2 = y) ∨ (e.1 ≠ x ∧ e.2 = x ∧ e.1 = y) := by
  unfold uneighbours
  rw [List.mem_filterMap]
  constructor
  · rintro ⟨e, he, h⟩
    refine ⟨e, he, ?_⟩
    split at h
    · rename_i h1
      exact Or.inl ⟨h1, Option.some.inj h⟩
    · rename_i h1
      split at h
      · rename_i h2
        exact Or.inr ⟨h1, h2, Option.some.inj h⟩
      · cases h
  · rintro ⟨e, he, h | h⟩
    · exact ⟨e, he, by rw [if_pos h.1, h.2]⟩
    · exact ⟨e, he, by rw [if_neg h.1, if_pos h.2.1, h.2.2]⟩

theorem uneighbours_of_edge {es : List (Nat × Nat)} {a b : Nat} (h : (a, b) ∈ es) :
    b ∈ uneighbours es a ∧ a ∈ uneighbours es b := by
  refine ⟨mem_uneighbours.mpr ⟨(a, b), h, Or.inl ⟨rfl, rfl⟩⟩, ?_⟩
  by_cases hab : a = b
  · exact mem_uneighbours.mpr ⟨(a, b), h, Or.inl ⟨hab, hab.symm⟩⟩
  · exact mem_uneighbours.mpr ⟨(a, b), h, Or.inr ⟨hab, rfl, rfl⟩⟩

theorem uneighbours_lt {es : List (Nat × Nat)} {n x y : Nat}
    (hes : ∀ e ∈ es, e.1 < n ∧ e.2 < n) (h : y ∈ uneighbours es x) : y < n := by
  obtain ⟨e, he, h1 | h1⟩ := mem_uneighbours.mp h
  · rw [← h1.2]
    exact (hes e he).2
  · rw [← h1.2.2]
    exact (hes e he).1

/-- A list without repetition of `n` numbers below `n` holds every number
below `n`. -/
theorem mem_of_nodup_of_length {n : Nat} {l : List Nat} (hnd : l.Nodup)
    (hlt : ∀ x ∈ l, x < n) (hlen : n ≤ l.length) : ∀ y, y < n → y ∈ l := by
  intro y hy
  have hsub : l.toFinset ⊆ Finset.range n := by
    intro x hx
    rw [List.mem_toFinset] at hx
    exact Finset.mem_range.mpr (hlt x hx)
  have hcard : (Finset.range n).card ≤ l.toFinset.card := by
    rw [List.toFinset_card_of_nodup hnd, Finset.card_range]
    exact hlen
  have heq := Finset.eq_of_subset_of_card_le hsub hcard
  have : y ∈ l.toFinset := by
    rw [heq]
    exact Finset.mem_range.mpr hy
  exact List.mem_toFinset.mp this

theorem ureach_succ (es : List (Nat × Nat)) (fuel : Nat) (seen : List Nat) :
    ureach es (fuel + 1) seen =
      ureach es fuel
        (seen ++ ((seen.flatMap (uneighbours es)).filter
          (fun w => decide (w ∉ seen))).dedup) := rfl

/-- A set closed under neighbours is a fixed point of the expansion. -/
theorem ureach_fixed (es : List (Nat × Nat)) (seen : List Nat)
    (hcl : ∀ x ∈ seen, ∀ y ∈ uneighbours es x, y ∈ seen) :
    ∀ fuel, ureach es fuel seen = seen := by
  have hnew : ((seen.flatMap (uneighbours es)).filter
      (fun w => decide (w ∉ seen))).dedup = [] := by
    rw [List.dedup_eq_nil, List.filter_eq_nil_iff]
    intro y hy
    obtain ⟨x, hx, hxy⟩ := List.mem_flatMap.mp hy
    simpa using hcl x hx y hxy
  intro fuel
  induction fuel with
  | zero => rfl
  | succ k ih => rw [ureach_succ, hnew, List.append_nil, ih]

/-- With one round of expansion for each vertex the set reached is closed
under neighbours. -/
theorem ureach_closed (es : List (Nat × Nat)) (n : Nat)
    (hes : ∀ e ∈ es, e.1 < n ∧ e.2 < n) :
    ∀ (fuel : Nat) (seen : List Nat), seen.Nodup → (∀ x ∈ seen, x < n) →
      n ≤ seen.length + fuel →
      ∀ x ∈ ureach es fuel seen, ∀ y ∈ uneighbours es x, y ∈ ureach es fuel seen := by
  intro fuel
  induction fuel with
  | zero =>
    intro seen hnd hlt hlen x _ y hy
    exact mem_of_nodup_of_length hnd hlt (by omega) y (uneighbours_lt hes hy)
  | succ k ih =>
    intro seen hnd hlt hlen
    rw [ureach_succ]
    by_cases hnew : ((seen.flatMap (uneighbours es)).filter
        (fun w => decide (w ∉ seen))).dedup = []
    · have hcl : ∀ x ∈ seen, ∀ y ∈ uneighbours es x, y ∈ seen := by
        intro x hx y hy
        by_contra hc
        have : y ∈ ((seen.flatMap (uneighbours es)).filter
            (fun w => decide (w ∉ seen))).dedup := by
          rw [List.mem_dedup, List.mem_filter]
          exact ⟨List.mem_flatMap.mpr ⟨x, hx, hy⟩, by simpa using hc⟩
        rw [hnew] at this
        cases this
      rw [hnew, List.append_nil, ureach_fixed es seen hcl k]
      exact hcl
    · apply ih
      · rw [List.nodup_append]
        refine ⟨hnd, List.nodup_dedup _, ?_⟩
        intro a ha hb
        rw [List.mem_dedup, List.mem_filter] at hb
        simp only [decide_eq_true_eq] at hb
        exact hb.2 ha
      · intro x hx
        rcases List.mem_append.mp hx with h | h
        · exact hlt x h
        · rw [List.mem_dedup, List.mem_filter] at h
          obtain ⟨w, -, hw⟩ := List.mem_flatMap.mp h.1
          exact uneighbours_lt hes hw
      · rw [List.length_append]
        have : 0 < (((seen.flatMap (uneighbours es)).filter
            (fun w => decide (w ∉ seen))).dedup).length := List.length_pos.mpr hnew
        omega

/-- Every vertex joined to the seed by a path is reached. -/
theorem ureach_connected (es : List (Nat × Nat)) (n : Nat) (hn : 0 < n)
    (hes : ∀ e ∈ es, e.1 < n ∧ e.2 < n) (u : Nat)
    (hu : Relation.ReflTransGen (fun x y => y ∈ uneighbours es x) 0 u) :
    u ∈ ureach es n [0] := by
  have hcl := ureach_closed es n hes n [0] (List.nodup_singleton 0)
    (fun x hx => by rw [List.mem_singleton.mp hx]; exact hn) (by simp)
  induction hu with
  | refl => exact ureach_subset es n [0] 0 (List.mem_singleton.mpr rfl)
  | tail _ hbc ih => exact hcl _ ih _ hbc

theorem label_components_labelled (es : List (Nat × Nat)) (n : Nat) (us : List Nat) :
    ∀ (labels : List (Nat × Nat)) (count : Nat),
      (∀ u ∈ us, (labels.lookup u).isSome) →
      label_components es n us labels count = (labels, count) := by
  induction us with
  | nil => intro labels count _; rfl
  | cons a as ih =>
    intro labels count h
    unfold label_components
    rw [if_pos (h a (List.mem_cons_self _ _))]
    exact ih labels count (fun u hu => h u (List.mem_cons_of_mem _ hu))

/-- A connected graph on `n > 0` vertices has one component. -/
theorem connected_components_one (n : Nat) (es : List (Nat × Nat)) (hn : 0 < n)
    (hes : ∀ e ∈ es, e.1 < n ∧ e.2 < n)
    (hconn : ∀ u, u < n → Relation.ReflTransGen (fun x y => y ∈ uneighbours es x) 0 u) :
    (connected_components n es).1 = 1 := by
  obtain ⟨m, rfl⟩ : ∃ m, n = m + 1 := ⟨n - 1, by omega⟩
  unfold connected_components
  simp only
  rw [List.range_succ_eq_map]
  unfold label_components
  have h0 : ¬ ((([] : List (Nat × Nat)).lookup 0).isSome = true) := by simp
  rw [if_neg h0]
  rw [label_components_labelled]
  intro u hu
  obtain ⟨w, hw, rfl⟩ := List.mem_map.mp hu
  have hlt : w + 1 < m + 1 := by
    have := List.mem_range.mp hw
    omega
  have hr := ureach_connected es (m + 1) hn hes (w + 1) (hconn _ hlt)
  apply lookup_of_mem_nodup_first (b := 0)
  rw [List.nil_append]
  apply List.mem_map.mpr
  exact ⟨w + 1, List.mem_filter.mpr ⟨hr, by simp⟩, rfl⟩

/-! ## A connected projection has one component -/

theorem foldl_mapInsert_swap (ps : List (Nat × Nat)) :
    ∀ m0 : List (Nat × Nat), ((m0.map Prod.fst) ++ ps.map Prod.snd).Nodup →
      ps.foldl (fun m p => mapInsert m p.2 p.1) m0 = m0 ++ ps.map (fun p => (p.2, p.1)) := by
  induction ps with
  | nil => intro m0 _; simp
  | cons p ps ih =>
    intro m0 hnd
    rw [List.foldl_cons]
    have habs : ∀ q ∈ m0, q.1 ≠ p.2 := by
      intro q hq hc
      rw [List.nodup_append] at hnd
      exact hnd.2.2 (List.mem_map.mpr ⟨q, hq, rfl⟩) (by rw [hc]; simp)
    rw [mapInsert_absent _ habs, ih]
    · simp
    · rw [List.map_append]
      simp only [List.map_cons, List.map_nil, List.append_assoc, List.singleton_append]
      simpa using hnd

/-- The map from the vertices of the projection to their indices. -/
theorem lookup_enum_index {vs : List Nat} (hnd : vs.Nodup) (u i : Nat) :
    (vs.enum.foldl (fun m p => mapInsert m p.2 p.1) []).lookup u = some i ↔
      vs[i]? = some u := by
  rw [foldl_mapInsert_swap _ [] (by simpa [List.enum_map_snd] using hnd), List.nil_append]
  have hkeys : ((vs.enum.map (fun p => (p.2, p.1))).map Prod.fst).Nodup := by
    rw [List.map_map]
    have : (Prod.fst ∘ fun p : Nat × Nat => (p.2, p.1)) = Prod.snd := rfl
    rw [this, List.enum_map_snd]
    exact hnd
  constructor
  · intro h
    have hm := lookup_mem h
    obtain ⟨p, hp, hpe⟩ := List.mem_map.mp hm
    simp only [Prod.mk.injEq] at hpe
    have := List.mem_enum_iff_getElem?.mp hp
    rw [hpe.1, hpe.2] at this
    exact this
  · intro h
    apply lookup_of_mem_nodup hkeys
    exact List.mem_map.mpr ⟨(i, u), List.mem_enum_iff_getElem?.mpr h, rfl⟩

theorem mapM_some_mem {α β : Type} (f : α → Option β) :
    ∀ (l : List α) (ys : List β), l.mapM f = some ys →
      (∀ x ∈ l, ∃ y ∈ ys, f x = some y) ∧ (∀ y ∈ ys, ∃ x ∈ l, f x = some y) := by
  intro l
  induction l with
  | nil =>
    intro ys h
    simp only [List.mapM_nil, Option.pure_def, Option.some.injEq] at h
    subst h
    exact ⟨fun _ hx => (by cases hx), fun _ hy => (by cases hy)⟩
  | cons a as ih =>
    intro ys h
    rw [List.mapM_cons] at h
    simp only [Option.bind_eq_bind, Option.bind_eq_some, Option.pure_def,
      Option.some.injEq] at h
    obtain ⟨y, hy, ys', hys', rfl⟩ := h
    obtain ⟨h1, h2⟩ := ih ys' hys'
    refine ⟨?_, ?_⟩
    · intro x hx
      rcases List.mem_cons.mp hx with rfl | hx'
      · exact ⟨y, List.mem_cons_self _ _, hy⟩
      · obtain ⟨z, hz, hfz⟩ := h1 x hx'
        exact ⟨z, List.mem_cons_of_mem _ hz, hfz⟩
    · intro z hz
      rcases List.mem_cons.mp hz with rfl | hz'
      · exact ⟨a, List.mem_cons_self _ _, hy⟩
      · obtain ⟨x, hx, hfx⟩ := h2 z hz'
        exact ⟨x, List.mem_cons_of_mem _ hx, hfx⟩

/-- When the vertices of a well-formed subgraph other than `v` are all joined
to one of them by paths that avoid `v`, `undirected_graph` counts one
component. -/
theorem undirected_graph_one {g : Subgraph} (hwf : g.WF) (v root : Nat)
    (hroot : root ∈ g.vertices.map Prod.fst) (hrv : root ≠ v)
    (hconn : ∀ u ∈ g.vertices.map Prod.fst, u ≠ v →
      Relation.ReflTransGen (g.joined v) u root) :
    ∃ comps, g.undirected_graph v = some (1, comps) := by
  obtain ⟨k, comps, hug, -, -, -⟩ := undirected_graph_spec hwf v
  suffices hk : k = 1 by
    rw [hk] at hug
    exact ⟨comps, hug⟩
  have hug' := hug
  unfold Subgraph.undirected_graph at hug'
  simp only [Option.bind_eq_bind, Option.bind_eq_some, Option.pure_def, Option.some.injEq,
    Prod.mk.injEq] at hug'
  obtain ⟨uedges, hmap, m, -, hk, -⟩ := hug'
  rw [← hk]
  obtain ⟨hm1, hm2⟩ := mapM_some_mem _ _ _ hmap
  have hnd : ((g.vertices.map Prod.fst).filter (fun w => decide (w ≠ v))).Nodup :=
    hwf.vertex_nodup.filter _
  have hvs : ∀ u, u ∈ (g.vertices.map Prod.fst).filter (fun w => decide (w ≠ v)) ↔
      u ∈ g.vertices.map Prod.fst ∧ u ≠ v := by
    intro u
    rw [List.mem_filter]
    simp
  have hidx : ∀ u, u ∈ g.vertices.map Prod.fst → u ≠ v →
      ∃ i, (((g.vertices.map Prod.fst).filter (fun w => decide (w ≠ v))).enum.foldl
        (fun m p => mapInsert m p.2 p.1) []).lookup u = some i ∧
        ((g.vertices.map Prod.fst).filter (fun w => decide (w ≠ v)))[i]? = some u := by
    intro u hu huv
    obtain ⟨i, hi⟩ := List.getElem?_of_mem ((hvs u).mpr ⟨hu, huv⟩)
    exact ⟨i, (lookup_enum_index hnd u i).mpr hi, hi⟩
  -- an edge of the subgraph that avoids `v` is an edge of the projection
  have hedge : ∀ e ∈ g.edges, e.source ≠ v → e.target ≠ v →
      ∃ a b, (((g.vertices.map Prod.fst).filter (fun w => decide (w ≠ v))).enum.foldl
          (fun m p => mapInsert m p.2 p.1) []).lookup e.source = some a ∧
        (((g.vertices.map Prod.fst).filter (fun w => decide (w ≠ v))).enum.foldl
          (fun m p => mapInsert m p.2 p.1) []).lookup e.target = some b ∧
        (a, b) ∈ uedges := by
    intro e he hs ht
    obtain ⟨hes, het⟩ := hwf.edge_ends e he
    obtain ⟨a, ha, -⟩ := hidx _ hes hs
    obtain ⟨b, hb, -⟩ := hidx _ het ht
    have hel : e ∈ ((g.vertices.map Prod.fst).filter (fun w => decide (w ≠ v))).flatMap
        (fun source => (g.out_edges source).filter (fun e => decide (e.target ≠ v))) := by
      rw [List.mem_flatMap]
      refine ⟨e.source, (hvs _).mpr ⟨hes, hs⟩, ?_⟩
      rw [List.mem_filter]
      refine ⟨?_, by simpa using ht⟩
      unfold Subgraph.out_edges
      rw [List.mem_filter]
      exact ⟨he, by simp⟩
    obtain ⟨y, hy, hfy⟩ := hm1 e hel
    rw [ha, hb] at hfy
    simp only [Option.some_bind, Option.some.injEq] at hfy
    rw [← hfy] at hy
    exact ⟨a, b, ha, hb, hy⟩
  apply connected_components_one
  · exact List.length_pos_of_mem ((hvs root).mpr ⟨hroot, hrv⟩)
  · intro p hp
    obtain ⟨e, -, hfe⟩ := hm2 p hp
    simp only [Option.bind_eq_some, Option.some.injEq] at hfe
    obtain ⟨a, ha, b, hb, hab⟩ := hfe
    rw [← hab]
    have h1 := (lookup_enum_index hnd _ _).mp ha
    have h2 := (lookup_enum_index hnd _ _).mp hb
    exact ⟨(List.getElem?_eq_some.mp h1).1, (List.getElem?_eq_some.mp h2).1⟩
  · intro i hi
    have h0 : 0 < ((g.vertices.map Prod.fst).filter (fun w => decide (w ≠ v))).length := by
      omega
    have hlift : ∀ x y, g.joined v x y →
        (fun a b => b ∈ uneighbours uedges a)
          (((((g.vertices.map Prod.fst).filter (fun w => decide (w ≠ v))).enum.foldl
            (fun m p => mapInsert m p.2 p.1) []).lookup x).getD 0)
          (((((g.vertices.map Prod.fst).filter (fun w => decide (w ≠ v))).enum.foldl
            (fun m p => mapInsert m p.2 p.1) []).lookup y).getD 0) := by
      rintro x y ⟨hxv, hyv, e, he, h | h⟩
      · obtain ⟨hx, hy⟩ := h
        subst hx hy
        obtain ⟨a, b, ha, hb, hab⟩ := hedge e he hxv hyv
        rw [ha, hb]
        exact (uneighbours_of_edge hab).1
      · obtain ⟨hy, hx⟩ := h
        subst hx hy
        obtain ⟨a, b, ha, hb, hab⟩ := hedge e he hyv hxv
        rw [ha, hb]
        exact (uneighbours_of_edge hab).2
    have hsym : Symmetric (g.joined v) := by
      rintro x y ⟨hx, hy, e, he, h⟩
      exact ⟨hy, hx, e, he, h.symm⟩
    have hu0 := List.getElem?_eq_getElem h0
    have hui := List.getElem?_eq_getElem hi
    have hm0 := (hvs _).mp (List.getElem_mem h0)
    have hmi := (hvs _).mp (List.getElem_mem hi)
    have hpath := (hconn _ hm0.1 hm0.2).trans
      (Relation.ReflTransGen.symmetric hsym (hconn _ hmi.1 hmi.2))
    have hl := Relation.ReflTransGen.lift (p := fun a b => b ∈ uneighbours uedges a)
      (fun x => ((((g.vertices.map Prod.fst).filter (fun w => decide (w ≠ v))).enum.foldl
        (fun m p => mapInsert m p.2 p.1) []).lookup x).getD 0) hlift hpath
    simp only at hl
    rw [(lookup_enum_index hnd _ _).mpr hu0, (lookup_enum_index hnd _ _).mpr hui] at hl
    exact hl

/-! ## The sets of a star are sorted -/

theorem mem_setInsert_sub {α : Type} (less : α → α → Bool) (a x : α) :
    ∀ l : List α, x ∈ setInsert less l a → x ∈ l ∨ x = a := by
  intro l
  induction l with
  | nil =>
    intro h
    simp only [setInsert, List.mem_singleton] at h
    exact Or.inr h
  | cons b bs ih =>
    intro h
    unfold setInsert at h
    split at h
    · rcases List.mem_cons.mp h with h' | h'
      · exact Or.inr h'
      · exact Or.inl h'
    · split at h
      · rcases List.mem_cons.mp h with h' | h'
        · exact Or.inl (h' ▸ List.mem_cons_self _ _)
        · rcases ih h' with h'' | h''
          · exact Or.inl (List.mem_cons_of_mem _ h'')
          · exact Or.inr h''
      · exact Or.inl h

theorem setInsert_pairwise {α : Type} (less : α → α → Bool)
    (htrans : ∀ a b c, less a b = true → less b c = true → less a c = true) (a : α) :
    ∀ l : List α, l.Pairwise (fun x y => less x y = true) →
      (setInsert less l a).Pairwise (fun x y => less x y = true) := by
  intro l
  induction l with
  | nil => intro _; simp [setInsert]
  | cons b bs ih =>
    intro h
    rw [List.pairwise_cons] at h
    unfold setInsert
    split
    · rename_i hab
      rw [List.pairwise_cons]
      refine ⟨?_, List.pairwise_cons.mpr h⟩
      intro x hx
      rcases List.mem_cons.mp hx with rfl | hx'
      · exact hab
      · exact htrans _ _ _ hab (h.1 x hx')
    · split
      · rename_i hba
        rw [List.pairwise_cons]
        refine ⟨?_, ih h.2⟩
        intro x hx
        rcases mem_setInsert_sub less a x bs hx with hx' | hx'
        · exact h.1 x hx'
        · rw [hx']
          exact hba
      · exact List.pairwise_cons.mpr h

theorem EntityKey.less_iff (a b : EntityKey) :
    a.less b = true ↔ a.rank < b.rank ∨ (a.rank = b.rank ∧ a.id < b.id) := by
  unfold EntityKey.less
  simp

theorem EntityKey.less_trans (a b c : EntityKey) (h1 : a.less b = true)
    (h2 : b.less c = true) : a.less c = true := by
  rw [EntityKey.less_iff] at h1 h2 ⊢
  omega

theorem EntityKey.less_irrefl (a : EntityKey) : a.less a = false := by
  cases h : a.less a with
  | false => rfl
  | true =>
    rw [EntityKey.less_iff] at h
    omega

/-- The two sets of `star` stay sorted. -/
theorem star_pairwise (less : stkEdge → stkEdge → Bool) (b : BulkData)
    (htrans : ∀ x y z, less x y = true → less y z = true → less x z = true) :
    ∀ (fuel : Nat) (e : EntityKey) (sets res : List EntityKey × List stkEdge),
      star less b fuel sets e = some res →
      sets.1.Pairwise (fun x y => x.less y = true) ∧
        sets.2.Pairwise (fun x y => less x y = true) →
      res.1.Pairwise (fun x y => x.less y = true) ∧
        res.2.Pairwise (fun x y => less x y = true) := by
  intro fuel
  induction fuel with
  | zero =>
    intro e sets res h
    cases h
  | succ fuel ih =>
    intro e sets res h hs
    rw [star_succ] at h
    refine foldlM_invariant _
      (fun acc : List EntityKey × List stkEdge =>
        acc.1.Pairwise (fun x y => x.less y = true) ∧
          acc.2.Pairwise (fun x y => less x y = true)) _ ?_ _ res h ?_
    · intro acc r acc' hstep hacc
      exact ih _ _ _ hstep ⟨hacc.1, setInsert_pairwise less htrans _ _ hacc.2⟩
    · exact ⟨setInsert_pairwise EntityKey.less EntityKey.less_trans _ _ hs.1, hs.2⟩

/-! ## The subgraph built from a star -/

/-- The vertex loop of the constructor of `Subgraph` on a list of distinct
keys of entities. -/
theorem create_vertices_spec (b : BulkData) (f : Subgraph → EntityKey → Option Subgraph)
    (hf : ∀ g x, x ∈ b.entities → f g x = some { g with
        vertices := g.vertices ++ [(newDescriptor g.vertices, x.rank)]
        localGlobalVertexMap := mapInsert g.localGlobalVertexMap (newDescriptor g.vertices) x
        globalLocalVertexMap := mapInsert g.globalLocalVertexMap x (newDescriptor g.vertices) })
    (l : List EntityKey) :
    ∀ g : Subgraph, l.Nodup → (∀ x ∈ l, x ∈ b.entities) →
      (∀ p ∈ g.globalLocalVertexMap, p.1 ∉ l) → g.IndexMaps → g.bulkData_ = b →
      (∀ p ∈ g.vertices, ∃ k, (p.1, k) ∈ g.localGlobalVertexMap ∧ k.rank = p.2) →
      ∃ r, l.foldlM f g = some r ∧ r.IndexMaps ∧ r.bulkData_ = b ∧ r.numDim_ = g.numDim_ ∧
        r.edges = g.edges ∧
        (∀ p ∈ r.vertices, ∃ k, (p.1, k) ∈ r.localGlobalVertexMap ∧ k.rank = p.2) ∧
        (∀ k, k ∈ r.globalLocalVertexMap.map Prod.fst ↔
          k ∈ g.globalLocalVertexMap.map Prod.fst ∨ k ∈ l) := by
  induction l with
  | nil =>
    intro g _ _ _ h hb hv
    exact ⟨g, rfl, h, hb, rfl, rfl, hv, fun k => by simp⟩
  | cons a as ih =>
    intro g hnd hent hdis h hb hv
    rw [List.nodup_cons] at hnd
    have ha := hent a (List.mem_cons_self _ _)
    have hk : ∀ p ∈ g.globalLocalVertexMap, p.1 ≠ a :=
      fun p hp hc => hdis p hp (hc ▸ List.mem_cons_self _ _)
    have hvl : ∀ p ∈ g.localGlobalVertexMap, p.1 ≠ newDescriptor g.vertices := by
      intro p hp hc
      exact newDescriptor_not_mem g.vertices
        (hc ▸ h.local_vertex _ (List.mem_map.mpr ⟨p, hp, rfl⟩))
    obtain ⟨r, hr, hri, hrb, hrd, hre, hrv, hrk⟩ := ih
      { g with
        vertices := g.vertices ++ [(newDescriptor g.vertices, a.rank)]
        localGlobalVertexMap := mapInsert g.localGlobalVertexMap (newDescriptor g.vertices) a
        globalLocalVertexMap := mapInsert g.globalLocalVertexMap a (newDescriptor g.vertices) }
      hnd.2 (fun x hx => hent x (List.mem_cons_of_mem _ hx))
      (by
        intro p hp
        simp only at hp
        rw [mapInsert_absent _ hk, List.mem_append, List.mem_singleton] at hp
        rcases hp with hp | hp
        · exact fun hc => hdis p hp (List.mem_cons_of_mem _ hc)
        · rw [hp]
          exact hnd.1)
      (h.grow (newDescriptor g.vertices) a.rank a (newDescriptor_not_mem _) hk rfl rfl rfl
        (fun _ he => he) (by rw [hb]; exact ha))
      hb
      (by
        intro p hp
        simp only at hp ⊢
        rw [mapInsert_absent _ hvl]
        rcases List.mem_append.mp hp with hp | hp
        · obtain ⟨k, hk1, hk2⟩ := hv p hp
          exact ⟨k, List.mem_append_left _ hk1, hk2⟩
        · rw [List.mem_singleton] at hp
          rw [hp]
          exact ⟨a, List.mem_append_right _ (List.mem_singleton.mpr rfl), rfl⟩)
    refine ⟨r, ?_, hri, hrb, hrd, hre, hrv, ?_⟩
    · rw [List.foldlM_cons, hf g a ha]
      exact hr
    · intro k
      rw [hrk k]
      simp only
      rw [mapInsert_absent _ hk, List.map_append, List.mem_append]
      simp only [List.map_cons, List.map_nil, List.mem_singleton, List.mem_cons]
      tauto

/-- The edge loop of the constructor of `Subgraph` on a list of edges between
keys of the map, no two of which have the same end points. -/
theorem create_edges_spec (f : Subgraph → stkEdge → Option Subgraph)
    (hf : ∀ g d s t, g.globalLocalVertexMap.lookup d.source = some s →
      g.globalLocalVertexMap.lookup d.target = some t →
      g.boost_add_edge_inserts s t = true →
      f g d = some { g with edges := g.edges ++ [⟨s, t, d.localId⟩] })
    (idx : EntityKey → Nat) (l : List stkEdge) :
    ∀ g : Subgraph,
      (∀ d ∈ l, g.globalLocalVertexMap.lookup d.source = some (idx d.source) ∧
        g.globalLocalVertexMap.lookup d.target = some (idx d.target)) →
      (g.edges.map (fun e => (e.source, e.target)) ++
        l.map (fun d => (idx d.source, idx d.target))).Nodup →
      ∃ r, l.foldlM f g = some r ∧
        r.edges = g.edges ++ l.map (fun d => ⟨idx d.source, idx d.target, d.localId⟩) ∧
        r.vertices = g.vertices ∧ r.localGlobalVertexMap = g.localGlobalVertexMap ∧
        r.globalLocalVertexMap = g.globalLocalVertexMap ∧ r.bulkData_ = g.bulkData_ ∧
        r.numDim_ = g.numDim_ := by
  induction l with
  | nil =>
    intro g _ _
    exact ⟨g, rfl, by simp, rfl, rfl, rfl, rfl, rfl⟩
  | cons a as ih =>
    intro g hlook hnd
    obtain ⟨h1, h2⟩ := hlook a (List.mem_cons_self _ _)
    have hfree : g.boost_add_edge_inserts (idx a.source) (idx a.target) = true := by
      unfold Subgraph.boost_add_edge_inserts
      rw [Option.isNone_iff_eq_none, edge_eq_none_iff]
      intro e he hc
      rw [List.nodup_append] at hnd
      refine hnd.2.2 (List.mem_map.mpr ⟨e, he, rfl⟩) ?_
      rw [hc.1, hc.2]
      simp
    obtain ⟨r, hr, hre, hrv, hrl, hrg, hrb, hrd⟩ := ih
      { g with edges := g.edges ++ [⟨idx a.source, idx a.target, a.localId⟩] }
      (fun d hd => hlook d (List.mem_cons_of_mem _ hd))
      (by
        simp only [List.map_append, List.map_cons, List.map_nil, List.append_assoc,
          List.singleton_append]
        simpa using hnd)
    refine ⟨r, ?_, ?_, hrv, hrl, hrg, hrb, hrd⟩
    · rw [List.foldlM_cons, hf g a _ _ h1 h2 hfree]
      exact hr
    · rw [hre]
      simp

/-- The constructor of `Subgraph` on the sets of a star over a trimmed store:
it returns a well-formed subgraph with inverse index maps, whose vertices stand
for the keys of the vertex set and whose edges for the edges of the edge set. -/
theorem create_spec (b : BulkData) (numDim : Nat) (V : List EntityKey) (E : List stkEdge)
    (htr : b.Trimmed numDim) (hV : V.Nodup) (hVe : ∀ k ∈ V, k ∈ b.entities)
    (hE : ∀ d ∈ E, d.source ∈ V ∧ d.target ∈ V ∧ d.toDecl ∈ b.relations)
    (hEn : E.Nodup) :
    ∃ g, Subgraph.create b V E numDim = some g ∧ g.WF ∧ g.IndexMaps ∧ g.bulkData_ = b ∧
      g.numDim_ = numDim ∧ (∀ k, (∃ u, g.local_to_global u = some k) ↔ k ∈ V) ∧
      (∀ u w ku kw i, g.local_to_global u = some ku → g.local_to_global w = some kw →
        ((⟨u, w, i⟩ : Edge) ∈ g.edges ↔ (⟨ku, kw, i⟩ : stkEdge) ∈ E)) := by
  have h0 : Subgraph.IndexMaps
      { bulkData_ := b, numDim_ := numDim, vertices := [], edges := [],
        localGlobalVertexMap := [], globalLocalVertexMap := [] } :=
    { vertex_nodup := List.nodup_nil
      local_nodup := List.nodup_nil
      global_nodup := List.nodup_nil
      local_vertex := fun _ hv => hv
      vertex_local := fun _ hv => hv
      local_global := fun _ hp => by cases hp
      global_local := fun _ hp => by cases hp
      key_entity := fun _ hp => by cases hp }
  obtain ⟨g1, hg1, hi1, hb1, hd1, he1, hv1, hk1⟩ := create_vertices_spec b
    (fun (g : Subgraph) globalVertex => do
      let entity ← b.get_entity globalVertex
      let vertexRank := entity.rank
      let localVertex := newDescriptor g.vertices
      pure { g with
        vertices := g.vertices ++ [(localVertex, vertexRank)]
        localGlobalVertexMap := mapInsert g.localGlobalVertexMap localVertex globalVertex
        globalLocalVertexMap := mapInsert g.globalLocalVertexMap globalVertex localVertex })
    (by
      intro g x hx
      have : b.get_entity x = some x := by
        unfold BulkData.get_entity
        rw [if_pos hx]
      simp only [this, Option.bind_eq_bind, Option.some_bind]
      rfl)
    V _ hV hVe (fun _ hp => by cases hp) h0 rfl (fun _ hp => by cases hp)
  simp only at hd1 he1 hk1
  -- the index of a key
  have hlook : ∀ k ∈ V, ∃ u, g1.globalLocalVertexMap.lookup k = some u := by
    intro k hk
    obtain ⟨p, hp, hpk⟩ := List.mem_map.mp ((hk1 k).mpr (Or.inr hk))
    exact ⟨p.2, lookup_of_mem_nodup hi1.global_nodup (by rw [← hpk]; exact hp)⟩
  have hidx : ∀ k ∈ V, g1.globalLocalVertexMap.lookup k =
      some ((g1.globalLocalVertexMap.lookup k).getD 0) := by
    intro k hk
    obtain ⟨u, hu⟩ := hlook k hk
    rw [hu]
    rfl
  have hinj : ∀ k ∈ V, ∀ k' ∈ V, (g1.globalLocalVertexMap.lookup k).getD 0 =
      (g1.globalLocalVertexMap.lookup k').getD 0 → k = k' := by
    intro k hk k' hk' heq
    have h1 := hi1.global_local _ (lookup_mem (hidx k hk))
    have h2 := hi1.global_local _ (lookup_mem (hidx k' hk'))
    simp only at h1 h2
    rw [heq] at h1
    have h3 := lookup_of_mem_nodup hi1.local_nodup h1
    rw [lookup_of_mem_nodup hi1.local_nodup h2] at h3
    exact (Option.some.inj h3).symm
  have hpairs : (E.map (fun d => ((g1.globalLocalVertexMap.lookup d.source).getD 0,
      (g1.globalLocalVertexMap.lookup d.target).getD 0))).Nodup := by
    refine List.Nodup.map_on ?_ hEn
    intro d hd d' hd' heq
    simp only [Prod.mk.injEq] at heq
    obtain ⟨hs, ht, hst⟩ := hE d hd
    obtain ⟨hs', ht', hst'⟩ := hE d' hd'
    have e1 := hinj _ hs _ hs' heq.1
    have e2 := hinj _ ht _ ht' heq.2
    have e3 := htr.rel_fun _ hst _ hst' e1 e2
    obtain ⟨ds, dt, di⟩ := d
    obtain ⟨ds', dt', di'⟩ := d'
    simp only [stkEdge.toDecl] at e1 e2 e3
    rw [e1, e2, e3]
  obtain ⟨g, hg, hge, hgv, hgl, hgg, hgb, hgd⟩ := create_edges_spec
    (fun (g : Subgraph) globalEdge => do
      let localSourceVertex ← g.globalLocalVertexMap.lookup globalEdge.source
      let localTargetVertex ← g.globalLocalVertexMap.lookup globalEdge.target
      if g.boost_add_edge_inserts localSourceVertex localTargetVertex = true then
        pure { g with
          edges := g.edges ++ [⟨localSourceVertex, localTargetVertex, globalEdge.localId⟩] }
      else none)
    (by
      intro g d s t h1 h2 h3
      simp only [h1, h2, h3, Option.bind_eq_bind, Option.some_bind, if_true]
      rfl)
    (fun k => (g1.globalLocalVertexMap.lookup k).getD 0) E g1
    (fun d hd => ⟨hidx _ (hE d hd).1, hidx _ (hE d hd).2.1⟩)
    (by rw [he1]; simpa using hpairs)
  rw [he1, List.nil_append] at hge
  have hgi : g.IndexMaps := hi1.same hgv hgl hgg (fun _ he => by rw [hgb]; exact he)
  have hl2g : ∀ u, g.local_to_global u = g1.local_to_global u := by
    intro u
    unfold Subgraph.local_to_global
    rw [hgl]
  have hg2l : ∀ k, g.global_to_local k = g1.globalLocalVertexMap.lookup k := by
    intro k
    unfold Subgraph.global_to_local
    rw [hgg]
  have hkeys : ∀ k, (∃ u, g.local_to_global u = some k) ↔ k ∈ V := by
    intro k
    constructor
    · rintro ⟨u, hu⟩
      have := (hgi.inverse u k).mp hu
      rw [hg2l] at this
      have hm : k ∈ g1.globalLocalVertexMap.map Prod.fst :=
        List.mem_map.mpr ⟨(k, u), lookup_mem this, rfl⟩
      rcases (hk1 k).mp hm with h | h
      · cases h
      · exact h
    · intro hk
      obtain ⟨u, hu⟩ := hlook k hk
      exact ⟨u, (hgi.inverse u k).mpr (by rw [hg2l]; exact hu)⟩
  -- an edge of the graph comes from an edge of the set
  have hedge : ∀ e ∈ g.edges, ∃ d ∈ E, g.local_to_global e.source = some d.source ∧
      g.local_to_global e.target = some d.target ∧ e.edge_id = d.localId := by
    intro e he
    rw [hge] at he
    obtain ⟨d, hd, hde⟩ := List.mem_map.mp he
    refine ⟨d, hd, ?_, ?_, ?_⟩
    · rw [← hde]
      exact (hgi.inverse _ _).mpr (by rw [hg2l]; exact hidx _ (hE d hd).1)
    · rw [← hde]
      exact (hgi.inverse _ _).mpr (by rw [hg2l]; exact hidx _ (hE d hd).2.1)
    · rw [← hde]
  have hkey_ent : ∀ p ∈ g.localGlobalVertexMap, p.2 ∈ b.entities := by
    intro p hp
    have := hgi.key_entity _ (hgi.local_global p hp)
    rw [hgb, hb1] at this
    exact this
  refine ⟨g, ?_, ?_, hgi, by rw [hgb, hb1], by rw [hgd, hd1], hkeys, ?_⟩
  · unfold Subgraph.create
    exact Option.bind_eq_some.mpr ⟨g1, hg1, hg⟩
  · have hbb : g.bulkData_ = b := by rw [hgb, hb1]
    have hdd : g.numDim_ = numDim := by rw [hgd, hd1]
    refine
      { numDim_le := by rw [hdd]; exact htr.numDim_le
        vertex_nodup := hgi.vertex_nodup
        vertex_rank := ?_
        vertex_key := ?_
        map_keys := fun p hp => hgi.local_vertex _ (List.mem_map.mpr ⟨p, hp, rfl⟩)
        map_vals := fun p hp => by rw [hbb]; exact hkey_ent p hp
        map_inj := ?_
        edge_ends := ?_
        edge_nodup := ?_
        mirror := ?_
        ent_rank := by rw [hbb, hdd]; exact htr.ent_rank
        rel_ends := by rw [hbb]; exact htr.rel_ends
        rel_rank := by rw [hbb]; exact htr.rel_rank
        rel_nodup := by rw [hbb]; exact htr.rel_nodup
        rel_fun := by rw [hbb]; exact htr.rel_fun }
    · intro v hv
      rw [hgv] at hv
      obtain ⟨k, hk, hkr⟩ := hv1 v hv
      rw [← hgl] at hk
      rw [hdd, ← hkr]
      exact htr.ent_rank _ (hkey_ent _ hk)
    · intro v hv
      rw [hgv] at hv
      obtain ⟨k, hk, hkr⟩ := hv1 v hv
      rw [hl2g]
      unfold Subgraph.local_to_global
      rw [lookup_of_mem_nodup hi1.local_nodup hk, ← hkr]
      rfl
    · have hnd : g.localGlobalVertexMap.Nodup := List.Nodup.of_map _ hgi.local_nodup
      refine List.Nodup.map_on ?_ hnd
      intro p hp q hq hpq
      have h1 := hgi.local_global p hp
      have h2 := hgi.local_global q hq
      rw [hpq] at h1
      have h3 := lookup_of_mem_nodup hgi.global_nodup h1
      rw [lookup_of_mem_nodup hgi.global_nodup h2] at h3
      exact Prod.ext (Option.some.inj h3).symm hpq
    · intro e he
      obtain ⟨d, -, hs, ht, -⟩ := hedge e he
      exact ⟨hgi.local_vertex _ (List.mem_map.mpr ⟨_, lookup_mem hs, rfl⟩),
        hgi.local_vertex _ (List.mem_map.mpr ⟨_, lookup_mem ht, rfl⟩)⟩
    · rw [hge, List.map_map]
      exact hpairs
    · intro e he
      obtain ⟨d, hd, hs, ht, hid⟩ := hedge e he
      unfold Subgraph.mirrored
      rw [hs, ht]
      simp only [decide_eq_true_eq]
      rw [hbb, hid]
      exact (hE d hd).2.2
  · intro u w ku kw i hu hw
    constructor
    · intro he
      obtain ⟨d, hd, hs, ht, hid⟩ := hedge _ he
      simp only at hs ht hid
      rw [hu] at hs
      rw [hw] at ht
      obtain ⟨ds, dt, di⟩ := d
      simp only [Option.some.injEq] at hs ht hid
      rw [hs, ht, hid]
      exact hd
    · intro hd
      rw [hge]
      refine List.mem_map.mpr ⟨_, hd, ?_⟩
      have h1 := (hgi.inverse u ku).mp hu
      have h2 := (hgi.inverse w kw).mp hw
      rw [hg2l] at h1 h2
      simp only [h1, h2, Option.getD_some]

theorem edgeLessSourceTarget_iff (x y : stkEdge) :
    edgeLessSourceTarget x y = true ↔
      x.source.less y.source = true ∨
        (y.source.less x.source = false ∧ x.target.less y.target = true) := by
  unfold edgeLessSourceTarget
  simp

theorem edgeLessSourceTarget_order : EdgeOrder edgeLessSourceTarget :=
  { irrefl := by
      intro x
      cases h : edgeLessSourceTarget x x with
      | false => rfl
      | true =>
        rw [edgeLessSourceTarget_iff, EntityKey.less_irrefl, EntityKey.less_irrefl] at h
        simp at h
    trans := by
      intro x y z h1 h2
      have hf : ∀ a b : EntityKey, a.less b = false ↔ ¬ (a.less b = true) := by
        intro a b
        simp
      rw [edgeLessSourceTarget_iff, hf] at h1 h2 ⊢
      simp only [EntityKey.less_iff] at h1 h2 ⊢
      omega
    sep := edgeLessSourceTarget_sep }

/-- On a trimmed store the subgraph that `fracture_boundary` builds for an
entity of the store is the star of that entity. -/
theorem star_subgraph_spec (less : stkEdge → stkEdge → Bool) (b : BulkData) (numDim : Nat)
    (v : EntityKey) (htr : b.Trimmed numDim) (hord : EdgeOrder less) (hv : v ∈ b.entities) :
    ∃ g, star_subgraph less b numDim v = some g ∧ g.IsStar b numDim v := by
  obtain ⟨res, hres, hmv, hme⟩ := star_spec less b htr.hrank htr.rel_ends htr.rel_fun
    hord.sep (maxRank b.entities + 2) v ([], []) (by omega) (by omega)
    (fun _ h => by cases h)
  obtain ⟨hp1, hp2⟩ := star_pairwise less b hord.trans _ _ _ _ hres
    ⟨List.Pairwise.nil, List.Pairwise.nil⟩
  have hmv' : ∀ x, x ∈ res.1 ↔ b.UpReach v x := by
    intro x
    rw [hmv x]
    simp
  have hme' : ∀ d, d ∈ res.2 ↔ b.UpReach v d.target ∧ d.toDecl ∈ b.relations := by
    intro d
    rw [hme d]
    simp
  have hV : res.1.Nodup := by
    refine List.Pairwise.imp ?_ hp1
    intro x y hxy hc
    rw [hc, EntityKey.less_irrefl] at hxy
    cases hxy
  have hEn : res.2.Nodup := by
    refine List.Pairwise.imp ?_ hp2
    intro x y hxy hc
    rw [hc, hord.irrefl] at hxy
    cases hxy
  have hVe : ∀ k ∈ res.1, k ∈ b.entities := by
    intro k hk
    rcases Relation.ReflTransGen.cases_tail ((hmv' k).mp hk) with h | ⟨c, -, hc⟩
    · rw [h]
      exact hv
    · exact (htr.parent hc).2.1
  have hE : ∀ d ∈ res.2, d.source ∈ res.1 ∧ d.target ∈ res.1 ∧ d.toDecl ∈ b.relations := by
    intro d hd
    obtain ⟨h1, h2⟩ := (hme' d).mp hd
    refine ⟨(hmv' _).mpr ?_, (hmv' _).mpr h1, h2⟩
    exact Relation.ReflTransGen.tail h1
      ⟨d.localId, (mem_relations_rank_succ htr.hrank).mpr h2⟩
  obtain ⟨g, hg, hwf, hmaps, hb, hd, hkeys, hedges⟩ :=
    create_spec b numDim res.1 res.2 htr hV hVe hE hEn
  refine ⟨g, ?_, ⟨hwf, hmaps, hb, hd, ?_, ?_⟩⟩
  · unfold star_subgraph topology.star
    exact Option.bind_eq_some.mpr ⟨res, hres, hg⟩
  · intro k
    rw [hkeys k, hmv' k]
  · intro u w ku kw i hu hw
    rw [hedges u w ku kw i hu hw, hme']
    simp only [stkEdge.toDecl, and_iff_right_iff_imp]
    intro _
    exact (hmv' kw).mp ((hkeys kw).mp ⟨w, hw⟩)

/-! ## A mesh of a single element -/

theorem foldlM_fixed {α β : Type} (f : β → α → Option β) (a : β) (l : List α)
    (h : ∀ x ∈ l, f a x = some a) : l.foldlM f a = some a := by
  induction l with
  | nil => rfl
  | cons x xs ih =>
    rw [List.foldlM_cons, h x (List.mem_cons_self _ _)]
    exact ih (fun y hy => h y (List.mem_cons_of_mem _ hy))

theorem split_articulation_point_one {g : Subgraph} {v : Nat} {kv : EntityKey} {r : Nat}
    {o : EntityOpenMap} {comps : List (Nat × Nat)}
    (hv : g.local_to_global v = some kv) (ho : o kv = true)
    (hr : g.get_vertex_rank v = some r)
    (hug : g.undirected_graph v = some (1, comps)) :
    g.split_articulation_point v o = some (g, o, []) := by
  unfold Subgraph.split_articulation_point
  simp only [hv, ho, hr, hug, Option.bind_eq_bind, Option.some_bind, ne_eq,
    not_true_eq_false, if_false, if_true]

theorem length_le_one_of_all_eq {α : Type} {l : List α} (hnd : l.Nodup)
    (h : ∀ x ∈ l, ∀ y ∈ l, x = y) : l.length ≤ 1 := by
  match l, hnd, h with
  | [], _, _ => simp
  | [_], _, _ => simp
  | a :: b :: _, hnd, h =>
    exfalso
    have hab : a = b := h a (by simp) b (by simp)
    rw [List.nodup_cons] at hnd
    exact hnd.1 (by rw [hab]; simp)

/-- In the star of an entity below the element rank of a single-element mesh,
every vertex other than the entity is joined to the vertex of the element by a
path of edges that avoids the entity. -/
theorem star_chain {t : topology} (hm : t.SingleElement) {g : Subgraph} {v : EntityKey}
    {sv : Nat} (hg : g.IsStar t.bulkData_ t.numDim v) (hsv : g.local_to_global sv = some v) :
    ∀ (n : Nat) (k : EntityKey) (u : Nat), t.numDim - k.rank = n →
      t.bulkData_.UpReach v k → k ≠ v → g.local_to_global u = some k →
      ∃ w ke, g.local_to_global w = some ke ∧ ke.rank = t.numDim ∧ w ≠ sv ∧
        Relation.ReflTransGen (g.joined sv) u w := by
  intro n
  induction n with
  | zero =>
    intro k u hn hk hkv hu
    have hke : k ∈ t.bulkData_.entities := by
      have := hg.wf.l2g_entity hu
      rw [hg.store] at this
      exact this
    have hle := hm.trimmed.ent_rank k hke
    refine ⟨u, k, hu, by omega, ?_, Relation.ReflTransGen.refl⟩
    intro hc
    rw [hc, hsv] at hu
    exact hkv (Option.some.inj hu).symm
  | succ n ih =>
    intro k u hn hk hkv hu
    have hke : k ∈ t.bulkData_.entities := by
      have := hg.wf.l2g_entity hu
      rw [hg.store] at this
      exact this
    obtain ⟨d, hd, hdk⟩ := hm.parents k hke (by rw [hm.element_rank]; omega)
    obtain ⟨df, dt, di⟩ := d
    simp only at hdk
    subst hdk
    have hpar : t.bulkData_.parentOf dt df :=
      ⟨di, (mem_relations_rank_succ hm.trimmed.hrank).mpr hd⟩
    have hrk := hm.trimmed.rel_rank _ hd
    simp only at hrk
    have hup : t.bulkData_.UpReach v df := Relation.ReflTransGen.tail hk hpar
    have hvr := hm.trimmed.upReach_rank hk
    have hne : df ≠ v := by
      intro hc
      rw [hc] at hrk
      omega
    obtain ⟨up, hup'⟩ := (hg.keys df).mpr hup
    have hedge : (⟨up, u, di⟩ : Edge) ∈ g.edges := (hg.edges up u df dt di hup' hu).mpr hd
    have husv : u ≠ sv := by
      intro hc
      rw [hc, hsv] at hu
      exact hkv (Option.some.inj hu).symm
    have hupsv : up ≠ sv := by
      intro hc
      rw [hc, hsv] at hup'
      exact hne (Option.some.inj hup').symm
    obtain ⟨w, ke, hw, hker, hwsv, hpath⟩ := ih df up (by omega) hup hne hup'
    exact ⟨w, ke, hw, hker, hwsv,
      Relation.ReflTransGen.head ⟨husv, hupsv, _, hedge, Or.inr ⟨rfl, rfl⟩⟩ hpath⟩

/-- In a single-element mesh an open entity below the element rank is no
articulation point of its star: `split_articulation_point` returns the
subgraph and the open map it was given, and the empty map. -/
theorem split_single_element {t : topology} (hm : t.SingleElement) {g : Subgraph}
    {v : EntityKey} (hg : g.IsStar t.bulkData_ t.numDim v) (hv : v ∈ t.bulkData_.entities)
    (hrank : v.rank < t.numDim) (o : EntityOpenMap) (ho : o v = true) :
    ∃ sv, g.global_to_local v = some sv ∧
      g.split_articulation_point sv o = some (g, o, []) := by
  obtain ⟨sv, hsv⟩ := (hg.keys v).mpr Relation.ReflTransGen.refl
  refine ⟨sv, (hg.maps.inverse sv v).mp hsv, ?_⟩
  obtain ⟨kv, hkv, -, hr, -⟩ := hg.wf.vertex_l2g (hg.wf.l2g_vertex hsv)
  -- a parent of the entity
  obtain ⟨d, hd, hdk⟩ := hm.parents v hv (by rw [hm.element_rank]; exact hrank)
  obtain ⟨df, dt, di⟩ := d
  simp only at hdk
  subst hdk
  have hpar : t.bulkData_.parentOf dt df :=
    ⟨di, (mem_relations_rank_succ hm.trimmed.hrank).mpr hd⟩
  have hrk := hm.trimmed.rel_rank _ hd
  simp only at hrk
  have hne : df ≠ dt := by
    intro hc
    rw [hc] at hrk
    omega
  have hup : t.bulkData_.UpReach dt df :=
    Relation.ReflTransGen.tail Relation.ReflTransGen.refl hpar
  obtain ⟨up, hup'⟩ := (hg.keys df).mpr hup
  obtain ⟨root, ke, hroot, hker, hrsv, -⟩ :=
    star_chain hm hg hsv _ df up rfl hup hne hup'
  obtain ⟨comps, hug⟩ := undirected_graph_one hg.wf sv root (hg.wf.l2g_vertex hroot) hrsv
    (by
      intro u hu husv
      obtain ⟨k, hk, hkent, -, -⟩ := hg.wf.vertex_l2g hu
      have hkv' : k ≠ dt := by
        intro hc
        rw [hc] at hk
        exact husv (hg.wf.l2g_inj hk hsv)
      obtain ⟨w, ke', hw, hker', -, hpath⟩ :=
        star_chain hm hg hsv _ k u rfl ((hg.keys k).mp ⟨u, hk⟩) hkv' hk
      have hkk : ke' = ke := by
        have h1 := hg.wf.l2g_entity hw
        have h2 := hg.wf.l2g_entity hroot
        rw [hg.store] at h1 h2
        exact hm.one_element _ h1 _ h2 (by rw [hm.element_rank]; exact hker')
          (by rw [hm.element_rank]; exact hker)
      rw [hkk] at hw
      rw [hg.wf.l2g_inj hw hroot] at hpath
      exact hpath)
  exact split_articulation_point_one hsv ho hr hug

/-- In a single-element mesh a face has at most one incoming edge in a star,
so `clone_boundary_entity` returns the subgraph and the open map it was
given. -/
theorem clone_single_element {t : topology} (hm : t.SingleElement) {g : Subgraph}
    {v f : EntityKey} (hg : g.IsStar t.bulkData_ t.numDim v) {fv : Nat}
    (hfv : g.local_to_global fv = some f) (hfr : f.rank = 2) (o : EntityOpenMap) :
    g.clone_boundary_entity fv o = some (g, o) := by
  have hdeg : g.in_degree fv ≤ 1 := by
    unfold Subgraph.in_degree
    rw [← List.length_map (g.in_edges fv) (fun e => e.source)]
    apply length_le_one_of_all_eq (in_edges_sources_nodup hg.wf fv)
    have hsrc : ∀ x ∈ (g.in_edges fv).map (fun e => e.source),
        ∃ k, g.local_to_global x = some k ∧ k ∈ t.bulkData_.entities ∧
          k.rank = t.elementRank := by
      intro x hx
      obtain ⟨e, he, rfl⟩ := List.mem_map.mp hx
      obtain ⟨he1, he2⟩ := mem_in_edges.mp he
      obtain ⟨k, hk, hkent, -, -⟩ := hg.wf.vertex_l2g (hg.wf.edge_ends e he1).1
      rw [hg.store] at hkent
      have hd : (⟨k, f, e.edge_id⟩ : Decl) ∈ t.bulkData_.relations := by
        apply (hg.edges e.source fv k f e.edge_id hk hfv).mp
        rw [← he2]
        exact he1
      have hrk := hm.trimmed.rel_rank _ hd
      simp only at hrk
      have hle := hm.trimmed.ent_rank k hkent
      have hdim := hm.dim
      refine ⟨k, hk, hkent, ?_⟩
      rw [hm.element_rank]
      omega
    intro x hx y hy
    obtain ⟨kx, hkx, hxe, hxr⟩ := hsrc x hx
    obtain ⟨ky, hky, hye, hyr⟩ := hsrc y hy
    have := hm.one_element kx hxe ky hye hxr hyr
    rw [this] at hkx
    exact hg.wf.l2g_inj hkx hky
  unfold Subgraph.clone_boundary_entity
  rw [if_pos (by omega)]

/-- In a single-element mesh the loop body of `fracture_boundary` for an open
segment changes nothing. -/
theorem fracture_segment_single_element (less : stkEdge → stkEdge → Bool) {t : topology}
    (hm : t.SingleElement) (hord : EdgeOrder less) (o : EntityOpenMap) (s : EntityKey)
    (hs : s ∈ t.bulkData_.entities) (hsr : s.rank = 1) (ho : o s = true) :
    fracture_segment less t.numDim t.faceRank (t.bulkData_, o) s = some (t.bulkData_, o) := by
  obtain ⟨g, hg, hstar⟩ := star_subgraph_spec less t.bulkData_ t.numDim s hm.trimmed hord hs
  have hdim := hm.dim
  obtain ⟨sv, hsv, hsplit⟩ := split_single_element hm hstar hs (by omega) o ho
  have hfaces :
      (((t.bulkData_.relations_rank s t.faceRank).filter
        (fun k => o k.entity == true)).map (fun k => k.entity)).foldlM
        (fun (acc : Subgraph × EntityOpenMap) face => do
          let faceVertex ← acc.1.global_to_local face
          acc.1.clone_boundary_entity faceVertex acc.2)
        (g, o) = some (g, o) := by
    apply foldlM_fixed
    intro f hf
    obtain ⟨k, hk, rfl⟩ := List.mem_map.mp hf
    have hk' := (List.mem_filter.mp hk).1
    have hfr : k.entity.rank = 2 := by
      rw [rank_of_mem_relations_rank hk', hm.face_rank]
    have hpar : t.bulkData_.parentOf s k.entity := by
      refine ⟨k.identifier, ?_⟩
      have : rankSucc s.rank = t.faceRank := by
        rw [hsr, hm.face_rank]
        norm_num [rankSucc]
      rw [this]
      exact hk'
    obtain ⟨fv, hfv⟩ := (hstar.keys k.entity).mpr
      (Relation.ReflTransGen.tail Relation.ReflTransGen.refl hpar)
    have hgl := (hstar.maps.inverse fv k.entity).mp hfv
    simp only [hgl, Option.bind_eq_bind, Option.some_bind]
    exact clone_single_element hm hstar hfv hfr o
  unfold fracture_segment
  simp only [hg, Option.bind_eq_bind, Option.some_bind]
  simp only [Option.bind_eq_bind] at hfaces
  rw [hfaces]
  simp only [Option.some_bind, hsv, hsplit, hstar.store]
  rfl

/-- In a single-element mesh the loop body of `fracture_boundary` for an open
node changes nothing. -/
theorem fracture_node_single_element (less : stkEdge → stkEdge → Bool) {t : topology}
    (hm : t.SingleElement) (hord : EdgeOrder less) (o : EntityOpenMap) (n : EntityKey)
    (hn : n ∈ t.bulkData_.entities) (hnr : n.rank = 0) (ho : o n = true) :
    fracture_node less (t, o) n = some (t, o) := by
  have hdim := hm.dim
  have hsegs :
      (((t.bulkData_.relations_rank n t.edgeRank).filter
        (fun j => o j.entity == true)).map (fun j => j.entity)).foldlM
        (fracture_segment less t.numDim t.faceRank) (t.bulkData_, o) =
        some (t.bulkData_, o) := by
    apply foldlM_fixed
    intro s hs
    obtain ⟨j, hj, rfl⟩ := List.mem_map.mp hs
    obtain ⟨hj1, hj2⟩ := List.mem_filter.mp hj
    have hsr : j.entity.rank = 1 := by
      rw [rank_of_mem_relations_rank hj1, hm.edge_rank]
    have hpar : t.bulkData_.parentOf n j.entity := by
      refine ⟨j.identifier, ?_⟩
      have : rankSucc n.rank = t.edgeRank := by
        rw [hnr, hm.edge_rank]
        norm_num [rankSucc]
      rw [this]
      exact hj1
    exact fracture_segment_single_element less hm hord o j.entity
      (hm.trimmed.parent hpar).2.1 hsr (by simpa using hj2)
  obtain ⟨g, hg, hstar⟩ := star_subgraph_spec less t.bulkData_ t.numDim n hm.trimmed hord hn
  obtain ⟨sv, hsv, hsplit⟩ := split_single_element hm hstar hn (by omega) o ho
  unfold fracture_node
  simp only [Option.bind_eq_bind]
  rw [hsegs]
  simp only [Option.some_bind, hg, hsv, hsplit, hstar.store, List.foldlM_nil, Option.pure_def]

/-- C17: on a mesh of a single element, for every open map,
`fracture_boundary` returns the topology and the open map it was given: no
entity is created, no relation is added or removed and the cache is unchanged.
Every face has at most one incoming edge, so no face is cloned, and every star
without its centre has one component, so no vertex is split. -/
theorem fracture_boundary_single_element (EdgeLessThan : stkEdge → stkEdge → Bool)
    (t : topology) (entity_open : EntityOpenMap) (hm : t.SingleElement)
    (hord : EdgeOrder EdgeLessThan) :
    fracture_boundary EdgeLessThan t entity_open = some (t, entity_open) := by
  unfold fracture_boundary
  apply foldlM_fixed
  intro n hn
  obtain ⟨hn1, hn2⟩ := List.mem_filter.mp hn
  obtain ⟨hn3, hn4⟩ := mem_get_entities.mp hn1
  exact fracture_node_single_element EdgeLessThan hm hord entity_open n hn3
    (by rw [hn4, hm.node_rank]) (by simpa using hn2)

set_option maxRecDepth 100000 in
theorem tetTrimmed_single_element : tetTrimmed.SingleElement :=
  { trimmed :=
      { numDim_le := by decide
        ent_rank := by decide
        rel_ends := by decide
        rel_rank := by decide
        rel_nodup := by decide
        rel_fun := by decide }
    dim := by decide
    node_rank := by decide
    edge_rank := by decide
    face_rank := by decide
    element_rank := by decide
    one_element := by decide
    parents := by decide }

theorem fracture_boundary_single_element_witness :
    fracture_boundary edgeLessSourceTarget tetTrimmed allOpen = some (tetTrimmed, allOpen) :=
  fracture_boundary_single_element edgeLessSourceTarget tetTrimmed allOpen
    tetTrimmed_single_element edgeLessSourceTarget_order

/-! ## Edge colours, repeated edges, vertex removal, cache indices -/

/-- The two emitters use the same table of colours. -/
theorem edge_color_eq_relation_color (id : Nat) :
    Subgraph.edge_color id = topology.relation_color id := by
  unfold Subgraph.edge_color topology.relation_color
  rfl

/-- From local id 6 on, the colour is the default one. -/
theorem relation_color_default (id : Nat) (h : 6 ≤ id) : topology.relation_color id = "9" := by
  obtain ⟨n, rfl⟩ : ∃ n, id = n + 6 := ⟨id - 6, by omega⟩
  rfl

/-- C27, as stated, fails: the local ids 6 and 0 agree modulo 6, and both
emitters give them different colours. -/
theorem graphviz_color_mod_six_counterexample :
    ¬ (∀ a b : Nat, a % 6 = b % 6 →
      topology.relation_color a = topology.relation_color b ∧
        Subgraph.edge_color a = Subgraph.edge_color b) := by
  intro h
  exact absurd (h 6 0 rfl).1 (by decide)

/-- C27, amended: in both GraphViz emitters the colour of a relation is read
off a table of its local id, with the colours 6, 4, 2, 8, 10, 12 for the local
ids 0 to 5 and the default colour 9 for every other local id (6 and above); the
two emitters agree. -/
theorem graphviz_color_table (id : Nat) :
    topology.relation_color id = (["6", "4", "2", "8", "10", "12"].getD id "9") ∧
      Subgraph.edge_color id = (["6", "4", "2", "8", "10", "12"].getD id "9") := by
  rw [edge_color_eq_relation_color]
  refine ⟨?_, ?_⟩ <;>
  · by_cases h : 6 ≤ id
    · rw [relation_color_default id h]
      obtain ⟨n, rfl⟩ : ∃ n, id = n + 6 := ⟨id - 6, by omega⟩
      rfl
    · have h6 : id < 6 := by omega
      interval_cases id <;> rfl

/-- C22: `add_edge` on a pair of vertices that already has an edge returns the
subgraph it was given, store included, with the flag `false`; the edge of the
pair keeps its edge id. -/
theorem add_edge_existing_pair (g : Subgraph) (id s t : Nat) (e : Edge)
    (he : g.edge s t = some e) :
    g.add_edge id s t = some (g, false) ∧
      ∀ g', g.add_edge id s t = some (g', false) →
        g'.edges = g.edges ∧ g'.edge s t = some e ∧ g'.bulkData_ = g.bulkData_ := by
  have h : g.add_edge id s t = some (g, false) := by
    unfold Subgraph.add_edge Subgraph.boost_add_edge_inserts
    rw [he]
    rfl
  refine ⟨h, ?_⟩
  intro g' hg'
  rw [h] at hg'
  cases hg'
  exact ⟨rfl, he, rfl⟩

theorem add_edge_existing_pair_witness :
    sharedSegmentStar.edge 1 0 = some ⟨1, 0, 0⟩ ∧
    (sharedSegmentStar.add_edge 7 1 0 = some (sharedSegmentStar, false) ∧
      ∀ g', sharedSegmentStar.add_edge 7 1 0 = some (g', false) →
        g'.edges = sharedSegmentStar.edges ∧ g'.edge 1 0 = some ⟨1, 0, 0⟩ ∧
          g'.bulkData_ = sharedSegmentStar.bulkData_) :=
  ⟨by decide, add_edge_existing_pair sharedSegmentStar 7 1 0 ⟨1, 0, 0⟩ (by decide)⟩

/-- C23, at the failing input: in the star of the shared segment, vertex 0 (the
segment) has two parents. `remove_vertex` calls `destroy_relation` with the
segment as the source of every relation, the two relations from its parents
stay in the store, `destroy_entity` refuses and the assertion on its result
fails. A vertex without parents (vertex 1, an element) is removed. -/
theorem remove_vertex_with_parents_fails :
    sharedSegmentStar.in_degree 0 = 2 ∧
    sharedSegmentStar.remove_vertex 0 = none ∧
    (sharedSegmentStar.remove_vertex 1).isSome = true := by
  decide

/-- The relations that `remove_vertex` destroys all start at the entity, so a
relation stored from another entity to it survives the loop. -/
theorem remove_vertex_loop_keeps (kv : EntityKey) (d : Decl) (hd : d.e_from ≠ kv)
    (l : List Relation) :
    ∀ b : BulkData, d ∈ b.relations →
      d ∈ (l.foldl (fun (acc : BulkData) r => acc.destroy_relation kv r.entity r.identifier)
        b).relations := by
  induction l with
  | nil => exact fun _ h => h
  | cons r rs ih =>
    intro b h
    rw [List.foldl_cons]
    apply ih
    rw [mem_destroy_relation]
    refine ⟨h, ?_⟩
    rintro rfl
    exact hd rfl

/-- A vertex whose entity has a parent cannot be removed: `destroy_entity`
refuses an entity that still has a relation. -/
theorem remove_vertex_parent_none (g : Subgraph) (v : Nat) (kv p : EntityKey) (i : Nat)
    (hv : g.local_to_global v = some kv)
    (hp : (⟨p, kv, i⟩ : Decl) ∈ g.bulkData_.relations) (hne : p ≠ kv) :
    g.remove_vertex v = none := by
  unfold Subgraph.remove_vertex
  rw [hv]
  simp only [Option.bind_eq_bind, Option.some_bind]
  cases hent : g.bulkData_.get_entity kv with
  | none => rfl
  | some ent =>
    have hek : ent = kv := by
      unfold BulkData.get_entity at hent
      split at hent
      · exact (Option.some.inj hent).symm
      · cases hent
    subst hek
    simp only [Option.some_bind]
    have hkeep := remove_vertex_loop_keeps ent ⟨p, ent, i⟩ hne (g.bulkData_.relations_of ent)
      g.bulkData_ hp
    have hne' : ((g.bulkData_.relations_of ent).foldl
        (fun (acc : BulkData) r => acc.destroy_relation ent r.entity r.identifier)
        g.bulkData_).relations_of ent ≠ [] := by
      intro hnil
      have hmem : (⟨p, i⟩ : Relation) ∈ ((g.bulkData_.relations_of ent).foldl
          (fun (acc : BulkData) r => acc.destroy_relation ent r.entity r.identifier)
          g.bulkData_).relations_of ent := by
        rw [mem_relations_of]
        refine ⟨_, hkeep, ?_⟩
        simp [Decl.seenFrom, hne]
      rw [hnil] at hmem
      cases hmem
    unfold BulkData.destroy_entity
    rw [if_neg hne']
    rfl

/-! ## Indices into the connectivity cache -/

/-- A loop in the option monad that fails at one of its steps, whatever the
state, fails. -/
theorem foldlM_none_of_step {α β : Type} (f : β → α → Option β) (l : List α) (x : α)
    (hx : x ∈ l) (hf : ∀ acc, f acc x = none) : ∀ acc, l.foldlM f acc = none := by
  induction l with
  | nil => cases hx
  | cons a as ih =>
    intro acc
    rw [List.foldlM_cons]
    cases hfa : f acc a with
    | none => rfl
    | some acc' =>
      rcases List.mem_cons.mp hx with rfl | h
      · rw [hf acc] at hfa
        cases hfa
      · exact ih h acc'

/-- The records of the cache keep their number and their lengths through the
update loop. -/
theorem update_connectivity_shape (N : Nat) (conn : List (List EntityKey)) (i : Nat)
    (row : List EntityKey) (k : Nat) (x : EntityKey)
    (h : ∀ r ∈ conn, r.length = N) (hrow : conn[i]? = some row) :
    ∀ r ∈ conn.set i (row.set k x), r.length = N := by
  intro r hr
  rcases List.mem_or_eq_of_mem_set hr with hm | rfl
  · exact h r hm
  · rw [List.length_set]
    exact h row (List.getElem?_mem hrow)

/-- A loop in the option monad fails when one of its steps fails on every state
that satisfies an invariant of the loop. -/
theorem foldlM_none_of_step_inv {α β : Type} (f : β → α → Option β) (P : β → Prop)
    (l : List α) (x : α) (hx : x ∈ l) (hf : ∀ acc, P acc → f acc x = none)
    (hP : ∀ acc y acc', P acc → f acc y = some acc' → P acc') :
    ∀ acc, P acc → l.foldlM f acc = none := by
  induction l with
  | nil => cases hx
  | cons a as ih =>
    intro acc hacc
    rw [List.foldlM_cons]
    cases hfa : f acc a with
    | none => rfl
    | some acc' =>
      rcases List.mem_cons.mp hx with rfl | h
      · rw [hf acc hacc] at hfa
        cases hfa
      · exact ih h acc' (hP acc a acc' hacc hfa)

/-- C28, refuted in general: with a cache of `E` records of `N` nodes each and
more elements than nodes per element (`N < E`), the loop of `graph_cleanup`
that re-declares the nodes of an element reads the cache out of range for every
element, and so does the connectivity update of `fracture_boundary` for every
pair of a replacement map. -/
theorem connectivity_index_out_of_range (conn : List (List EntityKey)) (N : Nat)
    (hrows : ∀ row ∈ conn, row.length = N) (hEN : N < conn.length) :
    (∀ b element i, add_node_relations conn b element i = none) ∧
    (∀ entity pair, update_connectivity conn entity pair = none) := by
  have hmem : N ∈ List.range conn.length := List.mem_range.mpr hEN
  constructor
  · intro b element i
    unfold add_node_relations
    apply foldlM_none_of_step _ _ N hmem
    intro acc
    cases hi : (conn[i]?) with
    | none => rfl
    | some row =>
      have hlen : row.length = N := hrows row (List.getElem?_mem hi)
      have : row[N]? = none := List.getElem?_eq_none (by omega)
      simp [this]
  · intro entity pair
    unfold update_connectivity
    cases hp : pair.1 with
    | none => rfl
    | some element =>
      simp only [Option.bind_eq_bind, Option.some_bind]
      refine foldlM_none_of_step_inv _ (fun cur => ∀ r ∈ cur, r.length = N) _ N hmem ?_ ?_
        conn hrows
      · intro cur hc
        by_cases hid : element.id = 0
        · simp [hid]
        · rw [if_neg hid]
          cases hrow : (cur[element.id - 1]?) with
          | none => rfl
          | some row =>
            have hlen : row.length = N := hc row (List.getElem?_mem hrow)
            have : row[N]? = none := List.getElem?_eq_none (by omega)
            simp [this]
      · intro cur k cur' hc hstep
        by_cases hid : element.id = 0
        · simp [hid] at hstep
        · rw [if_neg hid] at hstep
          cases hrow : (cur[element.id - 1]?) with
          | none => rw [hrow] at hstep; cases hstep
          | some row =>
            rw [hrow, Option.some_bind] at hstep
            cases hx : (row[k]?) with
            | none => rw [hx] at hstep; cases hstep
            | some x =>
              rw [hx, Option.some_bind] at hstep
              by_cases hxe : x = entity
              · rw [if_pos hxe] at hstep
                cases hnn : pair.2 with
                | none => rw [hnn] at hstep; cases hstep
                | some newNode =>
                  rw [hnn, Option.some_bind] at hstep
                  cases hstep
                  exact update_connectivity_shape N cur _ row k newNode hc hrow
              · rw [if_neg hxe] at hstep
                cases hstep
                exact hc

theorem connectivity_index_out_of_range_witness :
    (∀ row ∈ fanConnectivity, row.length = 3) ∧ 3 < fanConnectivity.length ∧
    ((∀ b element i, add_node_relations fanConnectivity b element i = none) ∧
      (∀ entity pair, update_connectivity fanConnectivity entity pair = none)) :=
  ⟨by decide, by decide, connectivity_index_out_of_range fanConnectivity 3 (by decide) (by decide)⟩

/-- The fan of four triangles, end to end: `graph_initialization` builds the
cache of four records of three nodes, and `graph_cleanup` then fails on an
out-of-range read. -/
theorem fan_graph_cleanup_fails :
    (graph_initialization (fun _ => fanFull) fanTopology).map
        (fun t => t.connectivity_temp) = some fanConnectivity ∧
    (graph_initialization (fun _ => fanFull) fanTopology).bind graph_cleanup = none := by
  decide

/-- The record of an element is found at its identifier minus one: an element
whose identifier is 0 or larger than the number of records is out of range. -/
theorem update_connectivity_unknown_id (conn : List (List EntityKey)) (entity element : EntityKey)
    (newNode : Option EntityKey) (hne : conn ≠ [])
    (hid : element.id = 0 ∨ conn.length < element.id) :
    update_connectivity conn entity (some element, newNode) = none := by
  unfold update_connectivity
  simp only [Option.bind_eq_bind, Option.some_bind]
  have h0 : 0 ∈ List.range conn.length :=
    List.mem_range.mpr (List.length_pos.mpr hne)
  refine foldlM_none_of_step_inv _ (fun cur => cur.length = conn.length) _ 0 h0 ?_ ?_ conn rfl
  · intro cur hc
    rcases hid with h | h
    · simp [h]
    · have hnone : cur[element.id - 1]? = none := List.getElem?_eq_none (by omega)
      simp [hnone]
  · intro cur k cur' hc hstep
    by_cases hid0 : element.id = 0
    · simp [hid0] at hstep
    · rw [if_neg hid0] at hstep
      cases hrow : (cur[element.id - 1]?) with
      | none => rw [hrow] at hstep; cases hstep
      | some row =>
        rw [hrow, Option.some_bind] at hstep
        cases hx : (row[k]?) with
        | none => rw [hx] at hstep; cases hstep
        | some x =>
          rw [hx, Option.some_bind] at hstep
          by_cases hxe : x = entity
          · rw [if_pos hxe] at hstep
            cases newNode with
            | none => cases hstep
            | some nn =>
              cases hstep
              rw [List.length_set]
              exact hc
          · rw [if_neg hxe] at hstep
            cases hstep
            exact hc

/-! ## What the surgery operations keep, read off a call that returned -/

/-- A subgraph edge that is mirrored has keys at both ends and its relation in
the store. -/
theorem rel_of_mirrored {g : Subgraph} {e : Edge} (hm : g.mirrored e = true) :
    ∃ ks kt, g.local_to_global e.source = some ks ∧ g.local_to_global e.target = some kt ∧
      (⟨ks, kt, e.edge_id⟩ : Decl) ∈ g.bulkData_.relations := by
  unfold Subgraph.mirrored at hm
  cases hs : g.local_to_global e.source with
  | none => rw [hs] at hm; simp at hm
  | some ks =>
    cases ht : g.local_to_global e.target with
    | none => rw [hs, ht] at hm; simp at hm
    | some kt =>
      rw [hs, ht] at hm
      exact ⟨ks, kt, rfl, rfl, by simpa using hm⟩

/-- The key of an entity that `get_entity` finds. -/
theorem get_entity_some {b : BulkData} {k e : EntityKey} (h : b.get_entity k = some e) :
    e = k ∧ k ∈ b.entities := by
  unfold BulkData.get_entity at h
  split at h
  · exact ⟨(Option.some.inj h).symm, by assumption⟩
  · cases h

/-- Every call of `add_edge` that returns keeps the edges mirrored. -/
theorem add_edge_mirror {g g' : Subgraph} {id s t : Nat} {b : Bool}
    (hm : ∀ e ∈ g.edges, g.mirrored e = true) (h : g.add_edge id s t = some (g', b)) :
    ∀ e ∈ g'.edges, g'.mirrored e = true := by
  unfold Subgraph.add_edge at h
  split at h
  · cases h
    exact hm
  · simp only [Option.bind_eq_bind, Option.bind_eq_some] at h
    obtain ⟨ks, hs, kt, ht, es, hes, et, het, h⟩ := h
    obtain ⟨rfl, -⟩ := get_entity_some hes
    obtain ⟨rfl, -⟩ := get_entity_some het
    cases h
    intro e he
    rcases List.mem_append.mp he with he | he
    · obtain ⟨k1, k2, h1, h2, hr⟩ := rel_of_mirrored (hm e he)
      exact mirrored_of_rel (g := { g with
          bulkData_ := g.bulkData_.declare_relation es et id
          edges := g.edges ++ [⟨s, t, id⟩] }) h1 h2 (mem_declare_relation.mpr (Or.inl hr))
    · rw [List.mem_singleton] at he
      subst he
      exact mirrored_of_rel (g := { g with
          bulkData_ := g.bulkData_.declare_relation es et id
          edges := g.edges ++ [⟨s, t, id⟩] }) hs ht (mem_declare_relation.mpr (Or.inr rfl))

/-- The edge that `edge` finds joins the two vertices asked for. -/
theorem edge_some {g : Subgraph} {s t : Nat} {e : Edge} (h : g.edge s t = some e) :
    e ∈ g.edges ∧ e.source = s ∧ e.target = t := by
  unfold Subgraph.edge at h
  have hm := List.mem_of_find?_eq_some h
  have hp := List.find?_some h
  simp only [Bool.and_eq_true, decide_eq_true_eq] at hp
  exact ⟨hm, hp.1, hp.2⟩

/-- Every call of `remove_edge` that returns on a well-formed subgraph leaves a
well-formed subgraph. -/
theorem remove_edge_returns_wf {g g' : Subgraph} {s t : Nat} (hwf : g.WF)
    (h : g.remove_edge s t = some g') : g'.WF := by
  have h0 := h
  unfold Subgraph.remove_edge at h0
  simp only [Option.bind_eq_bind, Option.bind_eq_some] at h0
  obtain ⟨e, he, -⟩ := h0
  obtain ⟨hmem, rfl, rfl⟩ := edge_some he
  obtain ⟨g'', ks, kt, hrem, hwf', -⟩ := remove_edge_spec hwf hmem
  rw [hrem] at h
  cases h
  exact hwf'

/-- Every call of `clone_boundary_entity` that returns on a well-formed subgraph
leaves a well-formed subgraph and sets no open flag. -/
theorem clone_boundary_entity_returns {g g' : Subgraph} {v : Nat} {o o' : EntityOpenMap}
    (hwf : g.WF) (h : g.clone_boundary_entity v o = some (g', o')) :
    g'.WF ∧ ∀ k, o' k = true → o k = true := by
  by_cases hdeg : g.in_degree v = 2
  · obtain ⟨e1, e2, hin⟩ := List.length_eq_two.mp hdeg
    cases hv : g.local_to_global v with
    | none =>
      unfold Subgraph.clone_boundary_entity at h
      simp [hdeg, hv] at h
    | some kv =>
      by_cases ho : o kv = true
      · obtain ⟨g'', k1, hdef, hwf', -⟩ := clone_boundary_entity_spec hwf hin hv ho
        rw [hdef] at h
        cases h
        refine ⟨hwf', ?_⟩
        intro k hk
        unfold EntityOpenMap.set at hk
        split at hk
        · cases hk
        · exact hk
      · unfold Subgraph.clone_boundary_entity at h
        simp [hdeg, hv, ho] at h
  · unfold Subgraph.clone_boundary_entity at h
    rw [if_pos hdeg] at h
    cases h
    exact ⟨hwf, fun _ hk => hk⟩

/-- Every call of `split_articulation_point` that returns on a well-formed
subgraph leaves a well-formed subgraph and sets no open flag. -/
theorem split_articulation_point_returns {g : Subgraph} {v : Nat} {o : EntityOpenMap}
    {res : Subgraph × EntityOpenMap × List (Option EntityKey × Option EntityKey)}
    (hwf : g.WF) (h : g.split_articulation_point v o = some res) :
    res.1.WF ∧ ∀ k, res.2.1 k = true → o k = true := by
  obtain ⟨k, comps, hug, hlt, hsome, hdom⟩ := undirected_graph_spec hwf v
  cases hv : g.local_to_global v with
  | none =>
    unfold Subgraph.split_articulation_point at h
    simp [hv] at h
  | some kv =>
    by_cases ho : o kv = true
    · obtain ⟨kv', hkv', -, hrankv, -⟩ := hwf.vertex_l2g (hwf.l2g_vertex hv)
      rw [hv] at hkv'
      cases hkv'
      by_cases hk : k = 1
      · subst hk
        rw [split_articulation_point_one hv ho hrankv hug] at h
        cases h
        exact ⟨hwf, fun _ hk => hk⟩
      · obtain ⟨g'', nc, nv, hdef, hwf', -⟩ :=
          split_articulation_point_spec hwf hv ho hug hk hlt hsome hdom
        rw [hdef] at h
        cases h
        refine ⟨hwf', ?_⟩
        intro x hx
        simp only at hx
        unfold EntityOpenMap.set at hx
        split at hx
        · cases hx
        · exact hx
    · unfold Subgraph.split_articulation_point at h
      simp [hv, ho] at h

/-! ## The mirror invariant and the open map of a clone -/

/-- C21: on a subgraph that satisfies the invariants of the data model (its
edges mirror store relations), every call of `add_edge`, `remove_edge`,
`clone_boundary_entity` and `split_articulation_point` that returns leaves
every subgraph edge `(s, t)` with id `i` mirrored by the store relation
`(key s, key t, i)`. In particular `add_edge` of an absent pair returns, adds
that one edge and that one store relation, and `remove_edge` of an edge
returns, removes that edge and the store relation with the edge's stored id,
and nothing else. -/
theorem mirror_invariant (g : Subgraph) (hwf : g.WF) :
    (∀ id s t g' b, g.add_edge id s t = some (g', b) →
      ∀ e ∈ g'.edges, g'.mirrored e = true) ∧
    (∀ s t g', g.remove_edge s t = some g' → ∀ e ∈ g'.edges, g'.mirrored e = true) ∧
    (∀ v o g' o', g.clone_boundary_entity v o = some (g', o') →
      ∀ e ∈ g'.edges, g'.mirrored e = true) ∧
    (∀ v o res, g.split_articulation_point v o = some res →
      ∀ e ∈ res.1.edges, res.1.mirrored e = true) ∧
    (∀ id s t ks kt, g.edge s t = none → g.local_to_global s = some ks →
      g.local_to_global t = some kt →
      ∃ g', g.add_edge id s t = some (g', true) ∧ g'.edges = g.edges ++ [⟨s, t, id⟩] ∧
        ∀ d, d ∈ g'.bulkData_.relations ↔ d ∈ g.bulkData_.relations ∨ d = ⟨ks, kt, id⟩) ∧
    (∀ e ∈ g.edges, ∀ ks kt, g.local_to_global e.source = some ks →
      g.local_to_global e.target = some kt →
      ∃ g', g.remove_edge e.source e.target = some g' ∧
        (∀ x, x ∈ g'.edges ↔ x ∈ g.edges ∧ x ≠ e) ∧
        ∀ d, d ∈ g'.bulkData_.relations ↔
          d ∈ g.bulkData_.relations ∧ d ≠ ⟨ks, kt, e.edge_id⟩) := by
  refine ⟨?_, ?_, ?_, ?_, ?_, ?_⟩
  · intro id s t g' b h
    exact add_edge_mirror hwf.mirror h
  · intro s t g' h
    exact (remove_edge_returns_wf hwf h).mirror
  · intro v o g' o' h
    exact (clone_boundary_entity_returns hwf h).1.mirror
  · intro v o res h
    exact (split_articulation_point_returns hwf h).1.mirror
  · intro id s t ks kt hfree hs ht
    have hes : ks ∈ g.bulkData_.entities := hwf.l2g_entity hs
    have het : kt ∈ g.bulkData_.entities := hwf.l2g_entity ht
    refine ⟨{ g with
        bulkData_ := g.bulkData_.declare_relation ks kt id
        edges := g.edges ++ [⟨s, t, id⟩] }, ?_, rfl, ?_⟩
    · unfold Subgraph.add_edge Subgraph.boost_add_edge_inserts
      simp [hfree, hs, ht, BulkData.get_entity, hes, het]
    · intro d
      exact mem_declare_relation
  · intro e he ks kt hs ht
    obtain ⟨g', ks', kt', hrem, -, hs', ht', hedges, hbulk, -⟩ := remove_edge_spec hwf he
    rw [hs] at hs'
    rw [ht] at ht'
    cases hs'
    cases ht'
    refine ⟨g', hrem, ?_, ?_⟩
    · intro x
      rw [hedges, List.mem_filter]
      constructor
      · rintro ⟨hx, hne⟩
        refine ⟨hx, ?_⟩
        rintro rfl
        simp at hne
      · rintro ⟨hx, hne⟩
        refine ⟨hx, ?_⟩
        simp only [Bool.not_eq_true', Bool.and_eq_false_iff, decide_eq_false_iff_not]
        by_contra hcon
        push_neg at hcon
        have := List.inj_on_of_nodup_map hwf.edge_nodup hx he
          (by simp only [hcon.1, hcon.2])
        exact hne this
    · intro d
      rw [hbulk]
      exact mem_destroy_relation

theorem mirror_invariant_witness :
    sharedSegmentStar.WF ∧
    (sharedSegmentStar.split_articulation_point 0 sharedSegmentOpen).isSome = true ∧
    (∀ v o res, sharedSegmentStar.split_articulation_point v o = some res →
      ∀ e ∈ res.1.edges, res.1.mirrored e = true) :=
  ⟨sharedSegmentStar_wf, by decide, (mirror_invariant sharedSegmentStar sharedSegmentStar_wf).2.2.2.1⟩

/-- C25: a call of `clone_boundary_entity` on an open vertex `v` with two
incoming edges returns the open map with the key of `v` set to false: the
flag of `v` is false, every other key keeps its value, and the key of the new
clone, which is the key of no entity of the store before the call, is not open
when the open map holds only keys of the store. -/
theorem clone_boundary_entity_open_map (g : Subgraph) (hwf : g.WF) (v : Nat) (kv : EntityKey)
    (o : EntityOpenMap) (hdeg : g.in_degree v = 2) (hv : g.local_to_global v = some kv)
    (ho : o kv = true) :
    ∃ g' o' k', g.clone_boundary_entity v o = some (g', o') ∧
      o' = o.set kv false ∧ o' kv = false ∧ (∀ k, k ≠ kv → o' k = o k) ∧
      g'.local_to_global (newDescriptor g.vertices) = some k' ∧
      newDescriptor g.vertices ∉ g.vertices.map Prod.fst ∧
      k' ∉ g.bulkData_.entities ∧ k' ∈ g'.bulkData_.entities ∧ k' ≠ kv ∧
      ((∀ k, k ∉ g.bulkData_.entities → o k = false) → o' k' = false) := by
  obtain ⟨e1, e2, hin⟩ := List.length_eq_two.mp hdeg
  obtain ⟨g', k1, hdef, hwf', hk1, hverts, hents, hnew, -⟩ :=
    clone_boundary_entity_spec hwf hin hv ho
  have hkey := new_key_not_mem g.bulkData_.entities kv.rank
  have hne : (⟨kv.rank, maxId g.bulkData_.entities + 1⟩ : EntityKey) ≠ kv := by
    intro hc
    have hin := hwf.l2g_entity hv
    rw [← hc] at hin
    exact hkey hin
  have hset : ∀ k, k ≠ kv → (o.set kv false) k = o k := by
    intro k hk
    unfold EntityOpenMap.set
    rw [if_neg hk]
  refine ⟨g', o.set kv false, _, hdef, rfl, ?_, hset, hnew, newDescriptor_not_mem g.vertices,
    hkey, ?_, hne, ?_⟩
  · unfold EntityOpenMap.set
    rw [if_pos rfl]
  · rw [hents]
    exact List.mem_append_right _ (List.mem_singleton.mpr rfl)
  · intro hall
    rw [hset _ hne]
    exact hall _ hkey

theorem clone_boundary_entity_open_map_witness :
    sharedFaceStar.in_degree 1 = 2 ∧ sharedFaceStar.local_to_global 1 = some (faceKey 1) ∧
    sharedFaceOpen (faceKey 1) = true ∧
    ∃ g' o' k', sharedFaceStar.clone_boundary_entity 1 sharedFaceOpen = some (g', o') ∧
      o' = sharedFaceOpen.set (faceKey 1) false ∧ o' (faceKey 1) = false ∧
      (∀ k, k ≠ faceKey 1 → o' k = sharedFaceOpen k) ∧
      g'.local_to_global (newDescriptor sharedFaceStar.vertices) = some k' ∧
      newDescriptor sharedFaceStar.vertices ∉ sharedFaceStar.vertices.map Prod.fst ∧
      k' ∉ sharedFaceStar.bulkData_.entities ∧ k' ∈ g'.bulkData_.entities ∧ k' ≠ faceKey 1 ∧
      ((∀ k, k ∉ sharedFaceStar.bulkData_.entities → sharedFaceOpen k = false) →
        o' k' = false) :=
  ⟨by decide, by decide, by decide,
    clone_boundary_entity_open_map sharedFaceStar sharedFaceStar_wf 1 (faceKey 1) sharedFaceOpen
      (by decide) (by decide) (by decide)⟩

/-! ## `clone_out_edges` between any two vertices -/

/-- Whether the new entity `kn` is seen related to `t` after one more relation
out of `kn` was declared. -/
theorem any_relations_rank_declare (b : BulkData) (kn t' t : EntityKey) (id rank : Nat) :
    ((b.declare_relation kn t' id).relations_rank kn rank).any
        (fun n => decide (t = n.entity)) = true ↔
      (b.relations_rank kn rank).any (fun n => decide (t = n.entity)) = true ∨
        (t = t' ∧ t'.rank = rank) := by
  simp only [List.any_eq_true, decide_eq_true_eq, BulkData.relations_rank, List.mem_filter,
    mem_relations_of, Relation.entity_rank]
  constructor
  · rintro ⟨n, ⟨⟨d, hd, hseen⟩, hr⟩, ht⟩
    rcases mem_declare_relation.mp hd with h | h
    · exact Or.inl ⟨n, ⟨⟨d, h, hseen⟩, hr⟩, ht⟩
    · right
      subst h
      simp only [Decl.seenFrom, if_true, Option.some.injEq] at hseen
      subst hseen
      exact ⟨ht, hr⟩
  · rintro (⟨n, ⟨⟨d, hd, hseen⟩, hr⟩, ht⟩ | ⟨ht, hr⟩)
    · exact ⟨n, ⟨⟨d, mem_declare_relation.mpr (Or.inl hd), hseen⟩, hr⟩, ht⟩
    · refine ⟨⟨t', id⟩, ⟨⟨⟨kn, t', id⟩, mem_declare_relation.mpr (Or.inr rfl), ?_⟩, hr⟩, ht⟩
      simp [Decl.seenFrom]

/-- The relations in the store after the loop of `clone_out_edges`, for any
new entity: the loop adds, for each relation of the original whose target the
new entity is not seen related to, the relation from the new entity to that
target with the same identifier. -/
theorem mem_clone_relations_any (kn : EntityKey) (l : List Relation) :
    ∀ (b : BulkData),
      (∀ r ∈ l, ∀ r' ∈ l, r.entity = r'.entity → r.identifier = r'.identifier) →
      ∀ d, d ∈ (clone_relations b kn l).relations ↔
        d ∈ b.relations ∨
          ∃ r ∈ l, d = ⟨kn, r.entity, r.identifier⟩ ∧
            ¬ ((b.relations_rank kn (rankPred kn.rank)).any
              (fun n => decide (r.entity = n.entity)) = true) := by
  induction l with
  | nil =>
    intro b _ d
    simp [clone_relations]
  | cons r rs ih =>
    intro b h3 d
    have h3' : ∀ r ∈ rs, ∀ r' ∈ rs, r.entity = r'.entity → r.identifier = r'.identifier :=
      fun x hx y hy => h3 x (List.mem_cons_of_mem _ hx) y (List.mem_cons_of_mem _ hy)
    rw [clone_relations_cons]
    by_cases hstep : (b.relations_rank kn (rankPred kn.rank)).any
        (fun n => decide (r.entity = n.entity)) = true
    · rw [if_pos hstep, ih b h3' d]
      constructor
      · rintro (h | ⟨r', hr', hd, hno⟩)
        · exact Or.inl h
        · exact Or.inr ⟨r', List.mem_cons_of_mem _ hr', hd, hno⟩
      · rintro (h | ⟨r', hr', hd, hno⟩)
        · exact Or.inl h
        · rcases List.mem_cons.mp hr' with rfl | hr''
          · exact absurd hstep hno
          · exact Or.inr ⟨r', hr'', hd, hno⟩
    · rw [if_neg hstep, ih _ h3' d]
      constructor
      · rintro (h | ⟨r', hr', hd, hno⟩)
        · rcases mem_declare_relation.mp h with h | h
          · exact Or.inl h
          · exact Or.inr ⟨r, List.mem_cons_self _ _, h, hstep⟩
        · refine Or.inr ⟨r', List.mem_cons_of_mem _ hr', hd, ?_⟩
          intro hc
          exact hno ((any_relations_rank_declare b kn r.entity r'.entity r.identifier _).mpr
            (Or.inl hc))
      · rintro (h | ⟨r', hr', hd, hno⟩)
        · exact Or.inl (mem_declare_relation.mpr (Or.inl h))
        · rcases List.mem_cons.mp hr' with rfl | hr''
          · exact Or.inl (mem_declare_relation.mpr (Or.inr hd))
          · by_cases hseen : ((b.declare_relation kn r.entity r.identifier).relations_rank kn
                (rankPred kn.rank)).any (fun n => decide (r'.entity = n.entity)) = true
            · rcases (any_relations_rank_declare b kn r.entity r'.entity r.identifier _).mp
                hseen with hc | ⟨hc, -⟩
              · exact absurd hc hno
              · have hid := h3 r' hr' r (List.mem_cons_self _ _) hc
                left
                rw [hd, hc, hid]
                exact mem_declare_relation.mpr (Or.inr rfl)
            · exact Or.inr ⟨r', hr'', hd, hseen⟩

/-- C24: `clone_out_edges(orig, copy)` on a well-formed subgraph returns; the
vertices, the edges, the index map and the entities are unchanged; no stored
relation is removed (the relations of the copy are kept); every relation added
goes out of the copy and repeats, with the same identifier, a relation stored
out of the original; and for every relation `(orig -> t, id)` a relation from the
copy to `t` is stored after the call, which, when the copy had no relation
with `t` before the call, is `(copy -> t, id)` and no other. -/
theorem clone_out_edges_relations (g : Subgraph) (hwf : g.WF) (orig copy : Nat)
    (ko kn : EntityKey) (ho : g.local_to_global orig = some ko)
    (hn : g.local_to_global copy = some kn) :
    ∃ g', g.clone_out_edges orig copy = some g' ∧
      g'.vertices = g.vertices ∧ g'.edges = g.edges ∧
      g'.localGlobalVertexMap = g.localGlobalVertexMap ∧
      g'.bulkData_.entities = g.bulkData_.entities ∧
      (∀ d ∈ g.bulkData_.relations, d ∈ g'.bulkData_.relations) ∧
      (∀ d ∈ g'.bulkData_.relations, d ∉ g.bulkData_.relations →
        d.e_from = kn ∧ (⟨ko, d.e_to, d.local_id⟩ : Decl) ∈ g.bulkData_.relations) ∧
      (∀ t id, (⟨ko, t, id⟩ : Decl) ∈ g.bulkData_.relations →
        ∃ id', (⟨kn, t, id'⟩ : Decl) ∈ g'.bulkData_.relations) ∧
      (∀ t id, (⟨ko, t, id⟩ : Decl) ∈ g.bulkData_.relations →
        (∀ d ∈ g.bulkData_.relations,
          ¬ (d.e_from = kn ∧ d.e_to = t) ∧ ¬ (d.e_from = t ∧ d.e_to = kn)) →
        (⟨kn, t, id⟩ : Decl) ∈ g'.bulkData_.relations ∧
          ∀ id', (⟨kn, t, id'⟩ : Decl) ∈ g'.bulkData_.relations → id' = id) := by
  have heo : ko ∈ g.bulkData_.entities := hwf.l2g_entity ho
  have hen : kn ∈ g.bulkData_.entities := hwf.l2g_entity hn
  have hdef : g.clone_out_edges orig copy = some
      { g with bulkData_ := (clone_relations g.bulkData_ kn
          (g.bulkData_.relations_rank ko (rankPred ko.rank))) } := by
    unfold Subgraph.clone_out_edges
    simp [ho, hn, BulkData.get_entity, heo, hen]
  have hL : ∀ r, r ∈ g.bulkData_.relations_rank ko (rankPred ko.rank) ↔
      (⟨ko, r.entity, r.identifier⟩ : Decl) ∈ g.bulkData_.relations :=
    fun r => mem_relations_rank_pred hwf.rel_rank_le
  have h3 : ∀ r ∈ g.bulkData_.relations_rank ko (rankPred ko.rank),
      ∀ r' ∈ g.bulkData_.relations_rank ko (rankPred ko.rank),
      r.entity = r'.entity → r.identifier = r'.identifier :=
    fun r hr r' hr' he => hwf.rel_fun _ ((hL r).mp hr) _ ((hL r').mp hr') rfl he
  have hmem := mem_clone_relations_any kn _ g.bulkData_ h3
  have hadded : ∀ d ∈ (clone_relations g.bulkData_ kn
      (g.bulkData_.relations_rank ko (rankPred ko.rank))).relations, d ∉ g.bulkData_.relations →
      d.e_from = kn ∧ (⟨ko, d.e_to, d.local_id⟩ : Decl) ∈ g.bulkData_.relations := by
    intro d hd hnot
    rcases (hmem d).mp hd with h | ⟨r, hr, hdr, -⟩
    · exact absurd h hnot
    · rw [hdr]
      exact ⟨rfl, (hL r).mp hr⟩
  refine ⟨_, hdef, rfl, rfl, rfl, clone_relations_entities _ _ _, ?_, hadded, ?_, ?_⟩
  · intro d hd
    exact (hmem d).mpr (Or.inl hd)
  · intro t id hrel
    by_cases hseen : (g.bulkData_.relations_rank kn (rankPred kn.rank)).any
        (fun n => decide (t = n.entity)) = true
    · rw [List.any_eq_true] at hseen
      obtain ⟨n, hnmem, hnt⟩ := hseen
      simp only [decide_eq_true_eq] at hnt
      have := (mem_relations_rank_pred hwf.rel_rank_le).mp hnmem
      rw [← hnt] at this
      exact ⟨n.identifier, (hmem _).mpr (Or.inl this)⟩
    · exact ⟨id, (hmem _).mpr (Or.inr ⟨⟨t, id⟩, (hL _).mpr hrel, rfl, hseen⟩)⟩
  · intro t id hrel hnone
    have hunseen : ¬ ((g.bulkData_.relations_rank kn (rankPred kn.rank)).any
        (fun n => decide (t = n.entity)) = true) := by
      intro hc
      rw [List.any_eq_true] at hc
      obtain ⟨n, hnmem, hnt⟩ := hc
      simp only [decide_eq_true_eq] at hnt
      unfold BulkData.relations_rank at hnmem
      obtain ⟨d, hd, hseen⟩ := mem_relations_of.mp (List.mem_filter.mp hnmem).1
      unfold Decl.seenFrom at hseen
      split at hseen
      · rename_i hfrom
        cases hseen
        exact (hnone d hd).1 ⟨hfrom, hnt.symm⟩
      · split at hseen
        · rename_i hto
          cases hseen
          exact (hnone d hd).2 ⟨hnt.symm, hto⟩
        · cases hseen
    refine ⟨(hmem _).mpr (Or.inr ⟨⟨t, id⟩, (hL _).mpr hrel, rfl, hunseen⟩), ?_⟩
    intro id' hid'
    have hnew : (⟨kn, t, id'⟩ : Decl) ∉ g.bulkData_.relations :=
      fun hc => (hnone _ hc).1 ⟨rfl, rfl⟩
    exact hwf.rel_fun _ (hadded _ hid' hnew).2 _ hrel rfl rfl

theorem clone_out_edges_relations_witness :
    sharedFaceStar.WF ∧ sharedFaceStar.local_to_global 1 = some (faceKey 1) ∧
    sharedFaceStar.local_to_global 2 = some (faceKey 2) ∧
    ∃ g', sharedFaceStar.clone_out_edges 1 2 = some g' ∧
      g'.vertices = sharedFaceStar.vertices ∧ g'.edges = sharedFaceStar.edges ∧
      g'.localGlobalVertexMap = sharedFaceStar.localGlobalVertexMap ∧
      g'.bulkData_.entities = sharedFaceStar.bulkData_.entities ∧
      (∀ d ∈ sharedFaceStar.bulkData_.relations, d ∈ g'.bulkData_.relations) ∧
      (∀ d ∈ g'.bulkData_.relations, d ∉ sharedFaceStar.bulkData_.relations →
        d.e_from = faceKey 2 ∧
          (⟨faceKey 1, d.e_to, d.local_id⟩ : Decl) ∈ sharedFaceStar.bulkData_.relations) ∧
      (∀ t id, (⟨faceKey 1, t, id⟩ : Decl) ∈ sharedFaceStar.bulkData_.relations →
        ∃ id', (⟨faceKey 2, t, id'⟩ : Decl) ∈ g'.bulkData_.relations) ∧
      (∀ t id, (⟨faceKey 1, t, id⟩ : Decl) ∈ sharedFaceStar.bulkData_.relations →
        (∀ d ∈ sharedFaceStar.bulkData_.relations,
          ¬ (d.e_from = faceKey 2 ∧ d.e_to = t) ∧ ¬ (d.e_from = t ∧ d.e_to = faceKey 2)) →
        (⟨faceKey 2, t, id⟩ : Decl) ∈ g'.bulkData_.relations ∧
          ∀ id', (⟨faceKey 2, t, id'⟩ : Decl) ∈ g'.bulkData_.relations → id' = id) :=
  ⟨sharedFaceStar_wf, by decide, by decide,
    clone_out_edges_relations sharedFaceStar sharedFaceStar_wf 1 2 (faceKey 1) (faceKey 2)
      (by decide) (by decide)⟩

/-! ## The open map through the surgery -/

/-- The open map that `clone_boundary_entity` returns is the one it was given,
or that one with one flag reset. -/
theorem clone_boundary_entity_open_cases {g g' : Subgraph} {v : Nat} {o o' : EntityOpenMap}
    (h : g.clone_boundary_entity v o = some (g', o')) :
    o' = o ∨ ∃ kv, o' = o.set kv false := by
  unfold Subgraph.clone_boundary_entity at h
  split at h
  · cases h
    exact Or.inl rfl
  · simp only [Option.bind_eq_bind, Option.bind_eq_some] at h
    obtain ⟨kv, -, h⟩ := h
    split at h
    · cases h
    · simp only [Option.bind_eq_some, Option.some.injEq, Prod.mk.injEq] at h
      obtain ⟨r, -, ⟨g1, nv⟩, -, g2, -, g3, -, e, -, g4, -, ⟨g5, b⟩, -, -, ho⟩ := h
      exact Or.inr ⟨kv, ho.symm⟩

/-- The open map that `split_articulation_point` returns is the one it was
given, or that one with one flag reset. -/
theorem split_articulation_point_open_cases {g : Subgraph} {v : Nat} {o : EntityOpenMap}
    {res : Subgraph × EntityOpenMap × List (Option EntityKey × Option EntityKey)}
    (h : g.split_articulation_point v o = some res) :
    res.2.1 = o ∨ ∃ kv, res.2.1 = o.set kv false := by
  unfold Subgraph.split_articulation_point at h
  simp only [Option.bind_eq_bind, Option.bind_eq_some] at h
  obtain ⟨kv, -, h⟩ := h
  split at h
  · cases h
  · simp only [Option.bind_eq_some] at h
    obtain ⟨r, -, ⟨k, comps⟩, -, h⟩ := h
    by_cases hk : k = 1
    · rw [if_pos hk] at h
      cases h
      exact Or.inl rfl
    · rw [if_neg hk] at h
      simp only [Option.bind_eq_bind, Option.bind_eq_some] at h
      obtain ⟨⟨g1, nv⟩, -, h⟩ := h
      right
      refine ⟨kv, ?_⟩
      split at h
      · simp only [Option.some_bind, Option.bind_eq_some, Option.some.injEq] at h
        obtain ⟨ncv, -, g2, -, removed, -, g3, -, heq⟩ := h
        rw [← heq]
      · simp only [Option.some_bind, Option.bind_eq_some, Option.some.injEq] at h
        obtain ⟨g2, -, removed, -, g3, -, heq⟩ := h
        rw [← heq]

/-- Resetting a flag sets none. -/
theorem open_cases_mono {o o' : EntityOpenMap} (h : o' = o ∨ ∃ kv, o' = o.set kv false) :
    ∀ k, o' k = true → o k = true := by
  rcases h with rfl | ⟨kv, rfl⟩
  · exact fun _ hk => hk
  · intro k hk
    unfold EntityOpenMap.set at hk
    split at hk
    · cases hk
    · exact hk

/-- The loop body `fracture_segment` sets no open flag. -/
theorem fracture_segment_open_mono (less : stkEdge → stkEdge → Bool) (numDim faceRank : Nat)
    (state state' : BulkData × EntityOpenMap) (segment : EntityKey)
    (h : fracture_segment less numDim faceRank state segment = some state') :
    ∀ k, state'.2 k = true → state.2 k = true := by
  unfold fracture_segment at h
  simp only [Option.bind_eq_bind, Option.bind_eq_some] at h
  obtain ⟨subgraph, -, cloned, hcl, sv, -, split, hsp, heq⟩ := h
  cases heq
  have h1 : ∀ k, cloned.2 k = true → state.2 k = true := by
    refine foldlM_invariant _ (fun (acc : Subgraph × EntityOpenMap) =>
      ∀ k, acc.2 k = true → state.2 k = true) _ ?_ _ _ hcl (fun _ hk => hk)
    intro acc face acc' hstep hacc k hk
    simp only [Option.bind_eq_bind, Option.bind_eq_some] at hstep
    obtain ⟨fv, -, hclone⟩ := hstep
    exact hacc k (open_cases_mono (clone_boundary_entity_open_cases hclone) k hk)
  intro k hk
  exact h1 k (open_cases_mono (split_articulation_point_open_cases hsp) k hk)

/-- The loop body `fracture_node` sets no open flag. -/
theorem fracture_node_open_mono (less : stkEdge → stkEdge → Bool)
    (state state' : topology × EntityOpenMap) (entity : EntityKey)
    (h : fracture_node less state entity = some state') :
    ∀ k, state'.2 k = true → state.2 k = true := by
  unfold fracture_node at h
  simp only [Option.bind_eq_bind, Option.bind_eq_some] at h
  obtain ⟨after, hseg, subgraph, -, node, -, split, hsp, conn, -, heq⟩ := h
  cases heq
  have h1 : ∀ k, after.2 k = true → state.2 k = true := by
    refine foldlM_invariant _ (fun (acc : BulkData × EntityOpenMap) =>
      ∀ k, acc.2 k = true → state.2 k = true) _ ?_ _ _ hseg (fun _ hk => hk)
    intro acc seg acc' hstep hacc k hk
    exact hacc k (fracture_segment_open_mono less _ _ acc acc' seg hstep k hk)
  intro k hk
  exact h1 k (open_cases_mono (split_articulation_point_open_cases hsp) k hk)

/-- C26, as stated, fails: on the two quadrilaterals with the shared segment 2,
the boundary segment 1 and their nodes 1, 2 and 5 open, the open-set invariant
holds before `fracture_boundary` and not after it. Segment 1 has one parent, is
not split and stays open, while its node 2 is split and reset to not open. -/
theorem fracture_boundary_open_closed_counterexample :
    graph_initialization (fun _ => twoQuadFull) twoQuadTopology = some twoQuadTrimmed ∧
    open_closed twoQuadTrimmed.bulkData_ twoQuadBoundaryOpen = true ∧
    (fracture_boundary edgeLessSourceTarget twoQuadTrimmed twoQuadBoundaryOpen).map
        (fun r => (open_closed r.1.bulkData_ r.2, r.2 (edgeKey 1), r.2 (nodeKey 2),
          decide ((⟨edgeKey 1, nodeKey 2, 1⟩ : Decl) ∈ r.1.bulkData_.relations))) =
      some (false, true, false, true) := by
  decide

/-- C26, amended: `fracture_boundary` sets no open flag. Every key that is open
in the map it returns was open in the map it was given; the flags it changes
are those it resets, of the entities it clones or splits. -/
theorem fracture_boundary_clears_only (less : stkEdge → stkEdge → Bool) (t t' : topology)
    (o o' : EntityOpenMap) (h : fracture_boundary less t o = some (t', o')) :
    ∀ k, o' k = true → o k = true := by
  unfold fracture_boundary at h
  refine foldlM_invariant _ (fun (acc : topology × EntityOpenMap) =>
    ∀ k, acc.2 k = true → o k = true) _ ?_ _ _ h (fun _ hk => hk)
  intro acc node acc' hstep hacc k hk
  exact hacc k (fracture_node_open_mono less acc acc' node hstep k hk)

theorem fracture_boundary_clears_only_witness :
    ∃ r, fracture_boundary edgeLessSourceTarget twoQuadTrimmed twoQuadBoundaryOpen = some r ∧
      ∀ k, r.2 k = true → twoQuadBoundaryOpen k = true :=
  Exists.imp
    (fun r h => ⟨h, fracture_boundary_clears_only edgeLessSourceTarget twoQuadTrimmed r.1
      twoQuadBoundaryOpen r.2 h⟩)
    (Option.isSome_iff_exists.mp (by decide))

/-! ## Soundness of the component sweep -/

theorem uneighbours_symm {es : List (Nat × Nat)} {x y : Nat} (h : y ∈ uneighbours es x) :
    x ∈ uneighbours es y := by
  obtain ⟨e, he, h1 | h1⟩ := mem_uneighbours.mp h
  · obtain ⟨rfl, rfl⟩ := h1
    exact (uneighbours_of_edge he).2
  · obtain ⟨-, rfl, rfl⟩ := h1
    exact (uneighbours_of_edge he).1

/-- Every vertex the expansion reaches is joined to a seed by a path. -/
theorem ureach_sound (es : List (Nat × Nat)) (fuel : Nat) :
    ∀ (seen : List Nat), ∀ w ∈ ureach es fuel seen,
      ∃ s ∈ seen, Relation.ReflTransGen (fun x y => y ∈ uneighbours es x) s w := by
  induction fuel with
  | zero =>
    intro seen w hw
    exact ⟨w, hw, Relation.ReflTransGen.refl⟩
  | succ k ih =>
    intro seen w hw
    rw [ureach_succ] at hw
    obtain ⟨s, hs, hpath⟩ := ih _ w hw
    rcases List.mem_append.mp hs with h | h
    · exact ⟨s, h, hpath⟩
    · rw [List.mem_dedup, List.mem_filter] at h
      obtain ⟨x, hx, hxs⟩ := List.mem_flatMap.mp h.1
      exact ⟨x, hx, Relation.ReflTransGen.head hxs hpath⟩

/-- Looking a key up in a list that pairs each of its keys with one value. -/
theorem lookup_map_const (l : List Nat) (c x : Nat) :
    (l.map (fun w => (w, c))).lookup x = if x ∈ l then some c else none := by
  induction l with
  | nil => rfl
  | cons a as ih =>
    rw [List.map_cons, List.lookup_cons]
    by_cases hxa : x = a
    · subst hxa
      simp
    · have : (x == a) = false := by simpa using hxa
      rw [this, ih]
      simp [hxa]

/-- One step of the sweep from an unlabelled vertex keeps the labels sound. -/
theorem labels_sound_step (es : List (Nat × Nat)) (n : Nat)
    (hes : ∀ e ∈ es, e.1 < n ∧ e.2 < n) (labels : List (Nat × Nat)) (count u : Nat)
    (hu : u < n) (hnone : labels.lookup u = none) (h : LabelsSound es n labels count) :
    LabelsSound es n
      (labels ++ ((ureach es n [u]).filter
        (fun w => (labels.lookup w).isNone)).map (fun w => (w, count))) (count + 1) := by
  obtain ⟨h1, h2, h3, h4⟩ := h
  have hclosed := ureach_closed es n hes n [u] (List.nodup_singleton u)
    (fun x hx => by rw [List.mem_singleton.mp hx]; exact hu) (by simp)
  have huR : u ∈ ureach es n [u] := ureach_subset es n [u] u (List.mem_singleton.mpr rfl)
  have hsound : ∀ w ∈ ureach es n [u],
      Relation.ReflTransGen (fun x y => y ∈ uneighbours es x) u w := by
    intro w hw
    obtain ⟨s, hs, hp⟩ := ureach_sound es n [u] w hw
    rw [List.mem_singleton.mp hs] at hp
    exact hp
  have hunl : ∀ w, Relation.ReflTransGen (fun x y => y ∈ uneighbours es x) u w →
      labels.lookup w = none ∧ w < n := by
    intro w hw
    induction hw with
    | refl => exact ⟨hnone, hu⟩
    | @tail b z _ hbc ih =>
      refine ⟨?_, uneighbours_lt hes hbc⟩
      cases hl : labels.lookup z with
      | none => rfl
      | some l =>
        have := h2 z l hl b (uneighbours_symm hbc)
        rw [ih.1] at this
        cases this
  have hlk : ∀ x c', (labels ++ ((ureach es n [u]).filter
        (fun w => (labels.lookup w).isNone)).map (fun w => (w, count))).lookup x = some c' ↔
      labels.lookup x = some c' ∨ (x ∈ ureach es n [u] ∧ c' = count) := by
    intro x c'
    rw [List.lookup_append, lookup_map_const]
    constructor
    · intro hx
      cases hl : labels.lookup x with
      | some l =>
        rw [hl] at hx
        simp only [Option.or_some, Option.some.injEq] at hx
        exact Or.inl (by rw [hx])
      | none =>
        rw [hl] at hx
        simp only [Option.none_or] at hx
        split at hx
        · rename_i hmem
          exact Or.inr ⟨(List.mem_filter.mp hmem).1, (Option.some.inj hx).symm⟩
        · cases hx
    · rintro (hx | ⟨hx, rfl⟩)
      · rw [hx]
        rfl
      · have hxn := (hunl x (hsound x hx)).1
        rw [hxn, Option.none_or, if_pos]
        exact List.mem_filter.mpr ⟨hx, by rw [hxn]; rfl⟩
  have hsym : Symmetric (fun x y => y ∈ uneighbours es x) := fun _ _ hxy => uneighbours_symm hxy
  refine ⟨?_, ?_, ?_, ?_⟩
  · intro x c hx
    rcases (hlk x c).mp hx with h | ⟨h, rfl⟩
    · exact ⟨Nat.lt_succ_of_lt (h1 x c h).1, (h1 x c h).2⟩
    · exact ⟨Nat.lt_succ_self _, (hunl x (hsound x h)).2⟩
  · intro x c hx w hw
    rcases (hlk x c).mp hx with h | ⟨h, rfl⟩
    · exact (hlk w c).mpr (Or.inl (h2 x c h w hw))
    · exact (hlk w c).mpr (Or.inr ⟨hclosed x h w hw, rfl⟩)
  · intro c hc
    by_cases hcc : c < count
    · obtain ⟨x, hx⟩ := h3 c hcc
      exact ⟨x, (hlk x c).mpr (Or.inl hx)⟩
    · have : c = count := by omega
      subst this
      exact ⟨u, (hlk u c).mpr (Or.inr ⟨huR, rfl⟩)⟩
  · intro x w c hx hw
    rcases (hlk x c).mp hx with hx' | ⟨hx', hcx⟩ <;>
      rcases (hlk w c).mp hw with hw' | ⟨hw', hcw⟩
    · exact h4 x w c hx' hw'
    · have := (h1 x c hx').1
      omega
    · have := (h1 w c hw').1
      omega
    · exact (Relation.ReflTransGen.symmetric hsym (hsound x hx')).trans (hsound w hw')

/-- The sweep keeps the labels sound. -/
theorem label_components_sound (es : List (Nat × Nat)) (n : Nat)
    (hes : ∀ e ∈ es, e.1 < n ∧ e.2 < n) (us : List Nat) :
    ∀ (labels : List (Nat × Nat)) (count : Nat), (∀ u ∈ us, u < n) →
      LabelsSound es n labels count →
      LabelsSound es n (label_components es n us labels count).1
        (label_components es n us labels count).2 := by
  induction us with
  | nil => intro labels count _ h; exact h
  | cons a as ih =>
    intro labels count hlt h
    have hlt' : ∀ u ∈ as, u < n := fun u hu => hlt u (List.mem_cons_of_mem _ hu)
    unfold label_components
    split
    · exact ih labels count hlt' h
    · rename_i hsome
      have hnone : labels.lookup a = none := by
        cases hl : labels.lookup a with
        | none => rfl
        | some c => rw [hl] at hsome; simp at hsome
      exact ih _ _ hlt'
        (labels_sound_step es n hes labels count a (hlt a (List.mem_cons_self _ _)) hnone h)

/-- The components that `connected_components` reports: neighbours are in the
same component, every component number below the count is in use, and two
vertices of one component are joined by a path. -/
theorem connected_components_sound (n : Nat) (es : List (Nat × Nat))
    (hes : ∀ e ∈ es, e.1 < n ∧ e.2 < n) :
    (∀ u w, u < n → w ∈ uneighbours es u →
      (connected_components n es).2[u]? = (connected_components n es).2[w]?) ∧
    (∀ c, c < (connected_components n es).1 →
      ∃ u, u < n ∧ (connected_components n es).2[u]? = some c) ∧
    (∀ u w c, (connected_components n es).2[u]? = some c →
      (connected_components n es).2[w]? = some c →
      Relation.ReflTransGen (fun x y => y ∈ uneighbours es x) u w) := by
  have hinit : LabelsSound es n [] 0 :=
    ⟨fun _ _ h => by simp at h, fun _ _ h => by simp at h, fun _ h => by omega,
      fun _ _ _ h => by simp at h⟩
  obtain ⟨h1, h2, h3, h4⟩ := label_components_sound es n hes (List.range n) [] 0
    (fun u hu => List.mem_range.mp hu) hinit
  obtain ⟨-, -, hall⟩ := label_components_spec es n (List.range n) [] 0
    (fun _ _ h => by simp at h)
  have hget : ∀ u, u < n → ∀ c, (connected_components n es).2[u]? = some c ↔
      (label_components es n (List.range n) [] 0).1.lookup u = some c := by
    intro u hu c
    obtain ⟨c0, hc0⟩ := Option.isSome_iff_exists.mp (hall u (List.mem_range.mpr hu))
    unfold connected_components
    simp only [List.getElem?_map]
    rw [List.getElem?_range hu]
    simp only [Option.map_some', Option.some.injEq]
    rw [hc0]
    simp
  have hlen : ∀ u c, (connected_components n es).2[u]? = some c → u < n := by
    intro u c h
    have := (List.getElem?_eq_some.mp h).1
    unfold connected_components at this
    simpa using this
  refine ⟨?_, ?_, ?_⟩
  · intro u w hu hw
    have hwn := uneighbours_lt hes hw
    obtain ⟨c0, hc0⟩ := Option.isSome_iff_exists.mp (hall u (List.mem_range.mpr hu))
    rw [(hget u hu c0).mpr hc0, (hget w hwn c0).mpr (h2 u c0 hc0 w hw)]
  · intro c hc
    obtain ⟨u, hu⟩ := h3 c hc
    exact ⟨u, (h1 u c hu).2, (hget u (h1 u c hu).2 c).mpr hu⟩
  · intro u w c hu hw
    exact h4 u w c ((hget u (hlen u c hu) c).mp hu) ((hget w (hlen w c hw) c).mp hw)

/-! ## The components of the undirected projection -/

/-- The map built by the last loop of `undirected_graph`: each vertex is paired
with the component number at its index. -/
theorem component_map_lookup (cc : List Nat)
    (f : List (Nat × Nat) → Nat × Nat → Option (List (Nat × Nat)))
    (hf : ∀ m p, f m p = (cc[p.1]?).bind (fun c => some (mapInsert m p.2 c))) :
    ∀ (ps : List (Nat × Nat)) (m0 m : List (Nat × Nat)),
      ps.foldlM f m0 = some m → (ps.map Prod.snd).Nodup →
      (∀ p ∈ ps, m0.lookup p.2 = none) →
      ∀ u c, m.lookup u = some c ↔
        m0.lookup u = some c ∨ ∃ p ∈ ps, p.2 = u ∧ cc[p.1]? = some c := by
  intro ps
  induction ps with
  | nil =>
    intro m0 m h _ _ u c
    cases h
    simp
  | cons p ps ih =>
    intro m0 m h hnd hnone u c
    rw [List.foldlM_cons, hf] at h
    rw [List.map_cons, List.nodup_cons] at hnd
    cases hc0 : (cc[p.1]?) with
    | none => rw [hc0] at h; cases h
    | some c0 =>
      rw [hc0, Option.some_bind] at h
      simp only [Option.bind_eq_bind, Option.some_bind] at h
      have hp0 : m0.lookup p.2 = none := hnone p (List.mem_cons_self _ _)
      have hm1 : ∀ x y, (mapInsert m0 p.2 c0).lookup x = some y ↔
          m0.lookup x = some y ∨ (x = p.2 ∧ y = c0) := by
        intro x y
        constructor
        · exact mapInsert_lookup_cases m0 p.2 c0
        · rintro (hx | ⟨rfl, rfl⟩)
          · exact mapInsert_lookup_mono _ _ hx
          · obtain ⟨c', hc', hor⟩ := mapInsert_lookup_self m0 p.2 y
            rcases hor with rfl | hor
            · exact hc'
            · rw [hp0] at hor
              cases hor
      have hnone1 : ∀ q ∈ ps, (mapInsert m0 p.2 c0).lookup q.2 = none := by
        intro q hq
        cases hl : (mapInsert m0 p.2 c0).lookup q.2 with
        | none => rfl
        | some y =>
          rcases (hm1 _ _).mp hl with hx | ⟨hx, -⟩
          · rw [hnone q (List.mem_cons_of_mem _ hq)] at hx
            cases hx
          · exact absurd (List.mem_map.mpr ⟨q, hq, hx⟩) hnd.1
      rw [ih _ m h hnd.2 hnone1 u c, hm1]
      constructor
      · rintro ((hx | ⟨rfl, rfl⟩) | ⟨q, hq, hqu, hqc⟩)
        · exact Or.inl hx
        · exact Or.inr ⟨p, List.mem_cons_self _ _, rfl, hc0⟩
        · exact Or.inr ⟨q, List.mem_cons_of_mem _ hq, hqu, hqc⟩
      · rintro (hx | ⟨q, hq, hqu, hqc⟩)
        · exact Or.inl (Or.inl hx)
        · rcases List.mem_cons.mp hq with rfl | hq'
          · rw [hc0] at hqc
            exact Or.inl (Or.inr ⟨hqu.symm, (Option.some.inj hqc).symm⟩)
          · exact Or.inr ⟨q, hq', hqu, hqc⟩

/-- The components that `undirected_graph` reports for the projection without
`v`: the two ends of an edge that avoids `v` are in the same component, every
component number below the count is in use, and two vertices of one component
are joined by a path that avoids `v`. -/
theorem undirected_graph_sound {g : Subgraph} (hwf : g.WF) {v k : Nat}
    {comps : List (Nat × Nat)} (hug : g.undirected_graph v = some (k, comps)) :
    (∀ e ∈ g.edges, e.source ≠ v → e.target ≠ v →
      ∃ c, comps.lookup e.source = some c ∧ comps.lookup e.target = some c) ∧
    (∀ c, c < k → ∃ u, comps.lookup u = some c) ∧
    (∀ u w c, comps.lookup u = some c → comps.lookup w = some c →
      Relation.ReflTransGen (g.joined v) u w) := by
  have hug' := hug
  unfold Subgraph.undirected_graph at hug'
  simp only [Option.bind_eq_bind, Option.bind_eq_some, Option.pure_def, Option.some.injEq,
    Prod.mk.injEq] at hug'
  obtain ⟨uedges, hmap, m, hfold, hk, hm⟩ := hug'
  subst hm
  obtain ⟨hm1, hm2⟩ := mapM_some_mem _ _ _ hmap
  have hnd : ((g.vertices.map Prod.fst).filter (fun w => decide (w ≠ v))).Nodup :=
    hwf.vertex_nodup.filter _
  have hvs : ∀ u, u ∈ (g.vertices.map Prod.fst).filter (fun w => decide (w ≠ v)) ↔
      u ∈ g.vertices.map Prod.fst ∧ u ≠ v := by
    intro u
    rw [List.mem_filter]
    simp
  -- the component map
  have hcomp : ∀ u c, m.lookup u = some c ↔
      ∃ i : Nat, ((g.vertices.map Prod.fst).filter (fun w => decide (w ≠ v)))[i]? = some u ∧
        (connected_components
          ((g.vertices.map Prod.fst).filter (fun w => decide (w ≠ v))).length uedges).2[i]? =
          some c := by
    intro u c
    have := component_map_lookup (connected_components
        ((g.vertices.map Prod.fst).filter (fun w => decide (w ≠ v))).length uedges).2
      _ (fun _ _ => rfl) _ [] m hfold
      (by rw [List.enum_map_snd]; exact hnd) (fun _ _ => rfl) u c
    rw [this]
    constructor
    · rintro (h | ⟨p, hp, hpu, hpc⟩)
      · simp at h
      · refine ⟨p.1, ?_, hpc⟩
        rw [← hpu]
        exact List.mem_enum_iff_getElem?.mp hp
    · rintro ⟨i, hi, hc⟩
      exact Or.inr ⟨(i, u), List.mem_enum_iff_getElem?.mpr hi, rfl, hc⟩
  -- an edge of the subgraph that avoids `v` is an edge of the projection
  have hedge : ∀ e ∈ g.edges, e.source ≠ v → e.target ≠ v →
      ∃ a b : Nat, ((g.vertices.map Prod.fst).filter (fun w => decide (w ≠ v)))[a]? =
          some e.source ∧
        ((g.vertices.map Prod.fst).filter (fun w => decide (w ≠ v)))[b]? = some e.target ∧
        (a, b) ∈ uedges := by
    intro e he hs ht
    obtain ⟨hes, het⟩ := hwf.edge_ends e he
    obtain ⟨a, ha⟩ := List.getElem?_of_mem ((hvs _).mpr ⟨hes, hs⟩)
    obtain ⟨b, hb⟩ := List.getElem?_of_mem ((hvs _).mpr ⟨het, ht⟩)
    have hel : e ∈ ((g.vertices.map Prod.fst).filter (fun w => decide (w ≠ v))).flatMap
        (fun source => (g.out_edges source).filter (fun e => decide (e.target ≠ v))) := by
      rw [List.mem_flatMap]
      refine ⟨e.source, (hvs _).mpr ⟨hes, hs⟩, ?_⟩
      rw [List.mem_filter]
      refine ⟨?_, by simpa using ht⟩
      unfold Subgraph.out_edges
      rw [List.mem_filter]
      exact ⟨he, by simp⟩
    obtain ⟨y, hy, hfy⟩ := hm1 e hel
    rw [(lookup_enum_index hnd _ _).mpr ha, (lookup_enum_index hnd _ _).mpr hb] at hfy
    simp only [Option.some_bind, Option.some.injEq] at hfy
    rw [← hfy] at hy
    exact ⟨a, b, ha, hb, hy⟩
  -- and the other way round
  have hback : ∀ p ∈ uedges, ∃ e ∈ g.edges, e.source ≠ v ∧ e.target ≠ v ∧
      ((g.vertices.map Prod.fst).filter (fun w => decide (w ≠ v)))[p.1]? = some e.source ∧
      ((g.vertices.map Prod.fst).filter (fun w => decide (w ≠ v)))[p.2]? = some e.target := by
    intro p hp
    obtain ⟨e, he, hfe⟩ := hm2 p hp
    simp only [Option.bind_eq_some, Option.some.injEq] at hfe
    obtain ⟨a, ha, b, hb, hab⟩ := hfe
    rw [← hab]
    have h1 := (lookup_enum_index hnd _ _).mp ha
    have h2 := (lookup_enum_index hnd _ _).mp hb
    obtain ⟨source, hsrc, he'⟩ := List.mem_flatMap.mp he
    obtain ⟨he1, he2⟩ := List.mem_filter.mp he'
    obtain ⟨he3, he4⟩ := List.mem_filter.mp he1
    simp only [decide_eq_true_eq] at he2 he4
    exact ⟨e, he3, ((hvs _).mp (List.getElem?_mem h1)).2, he2, h1, h2⟩
  have hlt : ∀ p ∈ uedges,
      p.1 < ((g.vertices.map Prod.fst).filter (fun w => decide (w ≠ v))).length ∧
      p.2 < ((g.vertices.map Prod.fst).filter (fun w => decide (w ≠ v))).length := by
    intro p hp
    obtain ⟨e, -, -, -, h1, h2⟩ := hback p hp
    exact ⟨(List.getElem?_eq_some.mp h1).1, (List.getElem?_eq_some.mp h2).1⟩
  obtain ⟨hs1, hs2, hs3⟩ := connected_components_sound _ uedges hlt
  rw [← hk]
  refine ⟨?_, ?_, ?_⟩
  · intro e he hsv htv
    obtain ⟨a, b, ha, hb, hab⟩ := hedge e he hsv htv
    have haL := (List.getElem?_eq_some.mp ha).1
    obtain ⟨c, hc, -⟩ := connected_components_spec _ uedges a haL
    have hcb := hs1 a b haL (uneighbours_of_edge hab).1
    rw [hc] at hcb
    exact ⟨c, (hcomp _ _).mpr ⟨a, ha, hc⟩, (hcomp _ _).mpr ⟨b, hb, hcb.symm⟩⟩
  · intro c hc
    obtain ⟨i, hi, hic⟩ := hs2 c hc
    exact ⟨_, (hcomp _ _).mpr ⟨i, List.getElem?_eq_getElem hi, hic⟩⟩
  · intro u w c hu hw
    obtain ⟨i, hi, hic⟩ := (hcomp _ _).mp hu
    obtain ⟨j, hj, hjc⟩ := (hcomp _ _).mp hw
    have hpath := hs3 i j c hic hjc
    have hlift : ∀ a b, b ∈ uneighbours uedges a →
        g.joined v
          ((((g.vertices.map Prod.fst).filter (fun w => decide (w ≠ v)))[a]?).getD 0)
          ((((g.vertices.map Prod.fst).filter (fun w => decide (w ≠ v)))[b]?).getD 0) := by
      intro a b hab
      obtain ⟨p, hp, h | h⟩ := mem_uneighbours.mp hab
      · obtain ⟨e, he, hsv, htv, h1, h2⟩ := hback p hp
        rw [h.1] at h1
        rw [h.2] at h2
        rw [h1, h2]
        exact ⟨hsv, htv, e, he, Or.inl ⟨rfl, rfl⟩⟩
      · obtain ⟨e, he, hsv, htv, h1, h2⟩ := hback p hp
        rw [h.2.2] at h1
        rw [h.2.1] at h2
        rw [h1, h2]
        exact ⟨htv, hsv, e, he, Or.inr ⟨rfl, rfl⟩⟩
    have hl := Relation.ReflTransGen.lift (p := g.joined v)
      (fun x => (((g.vertices.map Prod.fst).filter (fun w => decide (w ≠ v)))[x]?).getD 0)
      hlift hpath
    simp only at hl
    rw [hi, hj] at hl
    exact hl

/-! ## Every component of a star holds a parent of its centre -/

/-- In the star of `v` every vertex other than the centre is in the component
of the source of an in-edge of the centre: the chain of relations that leads
from the vertex down to `v` ends in a parent of `v`, and the part of it above
that parent avoids `v`. -/
theorem star_component_has_parent {g : Subgraph} {b : BulkData} {numDim : Nat}
    {v : EntityKey} (hstar : g.IsStar b numDim v) (htr : b.Trimmed numDim) {sv k : Nat}
    {comps : List (Nat × Nat)} (hsv : g.local_to_global sv = some v)
    (hug : g.undirected_graph sv = some (k, comps)) :
    ∀ x, b.UpReach v x → x ≠ v → ∀ u, g.local_to_global u = some x →
      ∃ e ∈ g.in_edges sv, ∃ c, comps.lookup e.source = some c ∧ comps.lookup u = some c := by
  have hwf := hstar.wf
  obtain ⟨hA1, -, -⟩ := undirected_graph_sound hwf hug
  obtain ⟨k', comps', hug', -, hsome, -⟩ := undirected_graph_spec hwf sv
  rw [hug] at hug'
  cases hug'
  intro x hx
  induction hx with
  | refl => intro h; exact absurd rfl h
  | @tail y z hvy hyz ih =>
    intro hzv u hu
    obtain ⟨hrk, -, -, i, hrel⟩ := htr.parent hyz
    have husv : u ≠ sv := by
      rintro rfl
      rw [hsv] at hu
      exact hzv (Option.some.inj hu).symm
    obtain ⟨uy, huy⟩ := (hstar.keys y).mpr hvy
    have hedge : (⟨u, uy, i⟩ : Edge) ∈ g.edges := (hstar.edges u uy z y i hu huy).mpr hrel
    obtain ⟨c, hc⟩ := Option.isSome_iff_exists.mp (hsome u (hwf.l2g_vertex hu) husv)
    by_cases hyv : y = v
    · subst hyv
      have : uy = sv := hwf.l2g_inj huy hsv
      subst this
      refine ⟨⟨u, uy, i⟩, ?_, c, hc, hc⟩
      unfold Subgraph.in_edges
      exact List.mem_filter.mpr ⟨hedge, by simp⟩
    · obtain ⟨e, he, c', hce, hcy⟩ := ih hyv uy huy
      have huysv : uy ≠ sv := by
        rintro rfl
        rw [hsv] at huy
        exact hyv (Option.some.inj huy).symm
      obtain ⟨c'', h1, h2⟩ := hA1 _ hedge husv huysv
      simp only at h1 h2
      rw [hcy] at h2
      cases h2
      exact ⟨e, he, c', hce, h1⟩

/-- In the star of `v` every component of the projection without the centre
holds the source of an in-edge of the centre. -/
theorem star_components_parents {g : Subgraph} {b : BulkData} {numDim : Nat}
    {v : EntityKey} (hstar : g.IsStar b numDim v) (htr : b.Trimmed numDim) {sv k : Nat}
    {comps : List (Nat × Nat)} (hsv : g.local_to_global sv = some v)
    (hug : g.undirected_graph sv = some (k, comps)) :
    ∀ c, c < k → ∃ e ∈ g.in_edges sv, comps.lookup e.source = some c := by
  have hwf := hstar.wf
  obtain ⟨-, hA2, -⟩ := undirected_graph_sound hwf hug
  obtain ⟨k', comps', hug', -, -, hdom⟩ := undirected_graph_spec hwf sv
  rw [hug] at hug'
  cases hug'
  intro c hc
  obtain ⟨u, hu⟩ := hA2 c hc
  obtain ⟨huv, husv⟩ := hdom u (by rw [hu]; rfl)
  obtain ⟨ku, hku, -⟩ := hwf.vertex_l2g huv
  have hkv : ku ≠ v := by
    rintro rfl
    exact husv (hwf.l2g_inj hku hsv)
  obtain ⟨e, he, c', hce, hcu⟩ :=
    star_component_has_parent hstar htr hsv hug ku ((hstar.keys ku).mp ⟨u, hku⟩) hkv u hku
  rw [hu] at hcu
  cases hcu
  exact ⟨e, he, hce⟩

theorem sharedSegmentStore_trimmed : sharedSegmentStore.Trimmed 2 :=
  { numDim_le := by decide
    ent_rank := by decide
    rel_ends := by decide
    rel_rank := by decide
    rel_nodup := by decide
    rel_fun := by decide }

/-- C30: on a trimmed store, `split_articulation_point` applied to the star
subgraph of an open entity `v` returns, every connected component of the
projection without `v` holds a parent of `v` (the source of an in-edge of `v`),
and after the call every new vertex has at least one incoming edge, and so has
`v` itself when there is a component at all, which is the case as soon as `v`
has a parent. -/
theorem split_articulation_point_parents (less : stkEdge → stkEdge → Bool) (b : BulkData)
    (numDim : Nat) (v : EntityKey) (o : EntityOpenMap) (htr : b.Trimmed numDim)
    (hord : EdgeOrder less) (hv : v ∈ b.entities) (ho : o v = true) :
    ∃ g sv k comps, star_subgraph less b numDim v = some g ∧
      g.global_to_local v = some sv ∧ g.undirected_graph sv = some (k, comps) ∧
      (∀ c, c < k → ∃ e ∈ g.in_edges sv, comps.lookup e.source = some c) ∧
      ((∃ p, b.parentOf v p) → 0 < k) ∧
      ∃ res, g.split_articulation_point sv o = some res ∧
        (0 < k → 1 ≤ res.1.in_degree sv) ∧
        (∀ x ∈ res.1.vertices.map Prod.fst, x ∉ g.vertices.map Prod.fst →
          1 ≤ res.1.in_degree x) := by
  obtain ⟨g, hg, hstar⟩ := star_subgraph_spec less b numDim v htr hord hv
  have hwf := hstar.wf
  obtain ⟨sv, hsv⟩ := (hstar.keys v).mpr Relation.ReflTransGen.refl
  obtain ⟨k, comps, hug, hlt, hsome, hdom⟩ := undirected_graph_spec hwf sv
  have hpar := star_components_parents hstar htr hsv hug
  have hvv : sv ∈ g.vertices.map Prod.fst := hwf.l2g_vertex hsv
  obtain ⟨kv', hkv', -, hrankv, -⟩ := hwf.vertex_l2g hvv
  rw [hsv] at hkv'
  cases hkv'
  refine ⟨g, sv, k, comps, hg, (hstar.maps.inverse sv v).mp hsv, hug, hpar, ?_, ?_⟩
  · rintro ⟨p, hp⟩
    obtain ⟨up, hup⟩ := (hstar.keys p).mpr (Relation.ReflTransGen.single hp)
    have hrk := (htr.parent hp).1
    have hne : up ≠ sv := by
      rintro rfl
      rw [hsv] at hup
      have := Option.some.inj hup
      rw [this] at hrk
      omega
    obtain ⟨c, hc⟩ := Option.isSome_iff_exists.mp (hsome up (hwf.l2g_vertex hup) hne)
    have := hlt (up, c) (lookup_mem hc)
    simp only at this
    omega
  · by_cases hk : k = 1
    · subst hk
      refine ⟨_, split_articulation_point_one hsv ho hrankv hug, ?_, ?_⟩
      · intro _
        obtain ⟨e, he, -⟩ := hpar 0 (by omega)
        exact List.length_pos_of_mem he
      · intro x hx hnx
        exact absurd hx hnx
    · obtain ⟨g', nc, nv, hdef, hwf', hlen, hnd, hfresh, hverts, hedges, hnt, -⟩ :=
        split_articulation_point_spec hwf hsv ho hug hk hlt hsome hdom
      obtain ⟨hin_v, hin_x⟩ := split_in_edges hwf hvv hfresh hedges
        (fun e he hm => by
          obtain ⟨c, -, -, hc⟩ := hnt e he hm
          exact List.getElem?_mem hc)
      refine ⟨_, hdef, ?_, ?_⟩
      · intro hk0
        obtain ⟨e, he, hce⟩ := hpar 0 hk0
        have : e ∈ g'.in_edges sv := by
          rw [hin_v]
          refine List.mem_filter.mpr ⟨he, ?_⟩
          unfold movedEdge
          simp [hce]
        exact List.length_pos_of_mem this
      · intro x hx hnx
        simp only at hx
        rw [hverts, List.map_append, List.mem_append] at hx
        rcases hx with hx | hx
        · exact absurd hx hnx
        · have hxnv : x ∈ nv := by
            simpa using hx
          obtain ⟨j, hj⟩ := List.getElem?_of_mem hxnv
          have hjlt : j < nv.length := (List.getElem?_eq_some.mp hj).1
          obtain ⟨e, he, hce⟩ := hpar (j + 1) (by omega)
          have hmoved : movedEdge comps e = true := by
            unfold movedEdge
            simp [hce]
          have hnew : newTarget comps nv e.source = x := by
            unfold newTarget
            rw [hce]
            simp only [Option.getD_some, Nat.add_sub_cancel]
            rw [List.getD_eq_getElem?_getD, hj]
            rfl
          have : (⟨e.source, newTarget comps nv e.source, e.edge_id⟩ : Edge) ∈
              g'.in_edges x := by
            rw [hin_x x hxnv]
            refine List.mem_map.mpr ⟨e, ?_, rfl⟩
            exact List.mem_filter.mpr ⟨List.mem_filter.mpr ⟨he, hmoved⟩, by simpa using hnew⟩
          exact List.length_pos_of_mem this

theorem split_articulation_point_parents_witness :
    sharedSegmentStore.Trimmed 2 ∧ EdgeOrder edgeLessSourceTarget ∧
    edgeKey 1 ∈ sharedSegmentStore.entities ∧ sharedSegmentOpen (edgeKey 1) = true ∧
    ∃ g sv k comps, star_subgraph edgeLessSourceTarget sharedSegmentStore 2 (edgeKey 1) =
        some g ∧
      g.global_to_local (edgeKey 1) = some sv ∧ g.undirected_graph sv = some (k, comps) ∧
      (∀ c, c < k → ∃ e ∈ g.in_edges sv, comps.lookup e.source = some c) ∧
      ((∃ p, sharedSegmentStore.parentOf (edgeKey 1) p) → 0 < k) ∧
      ∃ res, g.split_articulation_point sv sharedSegmentOpen = some res ∧
        (0 < k → 1 ≤ res.1.in_degree sv) ∧
        (∀ x ∈ res.1.vertices.map Prod.fst, x ∉ g.vertices.map Prod.fst →
          1 ≤ res.1.in_degree x) :=
  ⟨sharedSegmentStore_trimmed, edgeLessSourceTarget_order, by decide, by decide,
    split_articulation_point_parents edgeLessSourceTarget sharedSegmentStore 2 (edgeKey 1)
      sharedSegmentOpen sharedSegmentStore_trimmed edgeLessSourceTarget_order (by decide)
      (by decide)⟩

/-! ## The store after the split of the centre of a star -/

/-- The store that `split_articulation_point` leaves when it splits the centre
`v` of a star with `k ≠ 1` components: it is trimmed, it keeps the relations
that do not end in `v` and gains none between entities above `v`, and for each
component `c` the vertex that takes it (the centre for `c = 0`, the new vertex
`c - 1` otherwise) has an entity whose parents are the parents of `v` in
component `c`. -/
theorem split_star_store {g : Subgraph} {numDim : Nat} {v : EntityKey}
    (hstar : g.IsStar g.bulkData_ numDim v) (htr : g.bulkData_.Trimmed numDim) {sv k : Nat}
    {comps : List (Nat × Nat)} {o : EntityOpenMap} (hsv : g.local_to_global sv = some v)
    (ho : o v = true) (hug : g.undirected_graph sv = some (k, comps)) (hk : k ≠ 1) :
    ∃ (g' : Subgraph) (nc : List (Option EntityKey × Option EntityKey)) (nv : List Nat),
      g.split_articulation_point sv o = some (g', o.set v false, nc) ∧
      g'.vertices = g.vertices ++ nv.map (fun x => (x, v.rank)) ∧
      g'.bulkData_.Trimmed numDim ∧
      (∀ d ∈ g.bulkData_.relations, d.e_to ≠ v → d ∈ g'.bulkData_.relations) ∧
      (∀ d ∈ g'.bulkData_.relations, d.e_to ∈ g.bulkData_.entities → d.e_to ≠ v →
        v.rank ≤ d.e_to.rank → d ∈ g.bulkData_.relations) ∧
      (∀ x ∈ nv, ∃ j, nv[j]? = some x ∧ j + 1 < k) ∧
      ∀ c, c < k → ∃ x z, (if c = 0 then x = sv else nv[c - 1]? = some x) ∧
        g'.local_to_global x = some z ∧ z ∈ g'.bulkData_.entities ∧
        (z = v ∨ z ∉ g.bulkData_.entities) ∧
        ∀ p i, (⟨p, z, i⟩ : Decl) ∈ g'.bulkData_.relations ↔
          ∃ e ∈ g.in_edges sv, e.edge_id = i ∧ g.local_to_global e.source = some p ∧
            comps.lookup e.source = some c := by
  have hwf := hstar.wf
  obtain ⟨k', comps', hug', hlt, hsome, hdom⟩ := undirected_graph_spec hwf sv
  rw [hug] at hug'
  cases hug'
  obtain ⟨g', nc, nv, hdef, hwf', hlen, hnd, hfresh, hverts, hedges, hnt, hcopy, g1, hadd,
    hwf1, hnc, hmap, hverts1, hdim1, hmono1, hdim', hrel'⟩ :=
    split_articulation_point_full hwf hsv ho hug hk hlt hsome hdom
  have hl2g' : ∀ u, g'.local_to_global u = g1.local_to_global u := by
    intro u
    unfold Subgraph.local_to_global
    rw [hmap]
  have hve : v ∈ g.bulkData_.entities := hwf.l2g_entity hsv
  -- the key of a new vertex
  have hnew : ∀ x ∈ nv, ∃ kx, g1.local_to_global x = some kx ∧ kx ∉ g.bulkData_.entities := by
    intro x hx
    obtain ⟨kx, hkx, hkn, -⟩ := hcopy x hx
    exact ⟨kx, by rw [← hl2g']; exact hkx, hkn⟩
  -- the in-edge of a parent
  have hparent : ∀ p i, (⟨p, v, i⟩ : Decl) ∈ g.bulkData_.relations →
      ∃ up c, g.local_to_global up = some p ∧ (⟨up, sv, i⟩ : Edge) ∈ g.in_edges sv ∧
        comps.lookup up = some c := by
    intro p i hd
    have hpar : g.bulkData_.parentOf v p :=
      ⟨i, (mem_relations_rank_succ htr.hrank).mpr hd⟩
    obtain ⟨up, hup⟩ := (hstar.keys p).mpr (Relation.ReflTransGen.single hpar)
    have hedge : (⟨up, sv, i⟩ : Edge) ∈ g.edges := (hstar.edges up sv p v i hup hsv).mpr hd
    have hne : up ≠ sv := fun hc => hwf.edge_ne hedge hc
    obtain ⟨c, hc⟩ := Option.isSome_iff_exists.mp (hsome up (hwf.l2g_vertex hup) hne)
    exact ⟨up, c, hup, mem_in_edges.mpr ⟨hedge, rfl⟩, hc⟩
  -- the relation of an in-edge
  have hmirror : ∀ e ∈ g.in_edges sv, ∀ p, g.local_to_global e.source = some p →
      (⟨p, v, e.edge_id⟩ : Decl) ∈ g.bulkData_.relations := by
    intro e he p hp
    obtain ⟨hee, het⟩ := mem_in_edges.mp he
    obtain ⟨ks, kt, hs, ht, hr⟩ := hwf.mirror_rel hee
    rw [hp] at hs
    rw [het, hsv] at ht
    cases hs
    cases ht
    exact hr
  refine ⟨g', nc, nv, hdef, hverts, ?_, ?_, ?_, ?_, ?_⟩
  · exact
      { numDim_le := htr.numDim_le
        ent_rank := fun e he => by
          have := hwf'.ent_rank e he
          rw [hdim', hstar.dim] at this
          exact this
        rel_ends := hwf'.rel_ends
        rel_rank := hwf'.rel_rank
        rel_nodup := hwf'.rel_nodup
        rel_fun := hwf'.rel_fun }
  · intro d hd hto
    refine (hrel' d).mpr (Or.inl ⟨hd, ?_⟩)
    intro e _ _ ks _ hc
    rw [hc] at hto
    exact hto rfl
  · intro d hd hent hto hrk
    rcases (hrel' d).mp hd with h | ⟨x, hx, kx, hkx, hfrom, h⟩ | ⟨e, he, hm, ks, kx, hks, hkx, h⟩
    · exact h.1
    · have := htr.rel_rank _ h
      simp only at this
      omega
    · obtain ⟨c, -, -, hc⟩ := hnt e he hm
      obtain ⟨kx', hkx', hkn⟩ := hnew _ (List.getElem?_mem hc)
      rw [hkx] at hkx'
      cases hkx'
      rw [h] at hent
      exact absurd hent hkn
  · intro x hx
    obtain ⟨j, hj⟩ := List.getElem?_of_mem hx
    have := (List.getElem?_eq_some.mp hj).1
    exact ⟨j, hj, by omega⟩
  · intro c hc
    by_cases hc0 : c = 0
    · subst hc0
      have hsv' : g'.local_to_global sv = some v := by
        rw [hl2g']
        exact hmono1 _ _ hsv
      refine ⟨sv, v, by simp, hsv', hwf'.l2g_entity hsv', Or.inl rfl, ?_⟩
      intro p i
      constructor
      · intro hd
        rcases (hrel' _).mp hd with
          h | ⟨x, hx, kx, hkx, hfrom, h⟩ | ⟨e, he, hm, ks, kx, hks, hkx, h⟩
        · obtain ⟨up, c', hup, hin, hc'⟩ := hparent p i h.1
          refine ⟨⟨up, sv, i⟩, hin, rfl, hup, ?_⟩
          by_contra hne
          have hm : movedEdge comps ⟨up, sv, i⟩ = true := by
            unfold movedEdge
            simpa using hne
          exact h.2 _ hin hm p hup rfl
        · have := htr.rel_rank _ h
          simp only at this
          omega
        · obtain ⟨c', -, -, hc'⟩ := hnt e he hm
          obtain ⟨kx', hkx', hkn⟩ := hnew _ (List.getElem?_mem hc')
          rw [hkx] at hkx'
          cases hkx'
          simp only [Decl.mk.injEq] at h
          rw [← h.2.1] at hkn
          exact absurd hve hkn
      · rintro ⟨e, he, rfl, hp, hce⟩
        refine (hrel' _).mpr (Or.inl ⟨hmirror e he p hp, ?_⟩)
        intro e' he' hm' ks hks hc'
        simp only [Decl.mk.injEq] at hc'
        have hsame : e.source = e'.source := hwf.l2g_inj hp (hc'.1 ▸ hks)
        unfold movedEdge at hm'
        rw [← hsame, hce] at hm'
        simp at hm'
    · have hidx : c - 1 < nv.length := by
        rw [hlen]
        omega
      obtain ⟨kx, hkx, hkn⟩ := hnew _ (List.getElem_mem hidx)
      have hkx' : g'.local_to_global nv[c - 1] = some kx := by
        rw [hl2g']
        exact hkx
      refine ⟨nv[c - 1], kx, by rw [if_neg hc0]; exact List.getElem?_eq_getElem hidx, hkx',
        hwf'.l2g_entity hkx', Or.inr hkn, ?_⟩
      intro p i
      constructor
      · intro hd
        rcases (hrel' _).mp hd with
          h | ⟨x, hx, kx2, hkx2, hfrom, h⟩ | ⟨e, he, hm, ks, kx2, hks, hkx2, h⟩
        · exact absurd (htr.rel_ends _ h.1).2 hkn
        · exact absurd (htr.rel_ends _ h).2 hkn
        · simp only [Decl.mk.injEq] at h
          obtain ⟨hp, hz, hi⟩ := h
          subst hp hz hi
          obtain ⟨c', hc', hc'0, hx'⟩ := hnt e he hm
          have hsame : newTarget comps nv e.source = nv[c - 1] := hwf1.l2g_inj hkx2 hkx
          rw [hsame, ← List.getElem?_eq_getElem hidx] at hx'
          have hcc : c - 1 = c' - 1 := List.getElem?_inj hidx hnd hx'.symm
          refine ⟨e, he, rfl, hks, ?_⟩
          rw [hc']
          congr 1
          omega
      · rintro ⟨e, he, rfl, hp, hce⟩
        have hm : movedEdge comps e = true := by
          unfold movedEdge
          simp [hce, hc0]
        obtain ⟨c', hc', -, hx'⟩ := hnt e he hm
        rw [hce] at hc'
        cases hc'
        refine (hrel' _).mpr (Or.inr (Or.inr ⟨e, he, hm, p, kx, hp, ?_, rfl⟩))
        have hsame : newTarget comps nv e.source = nv[c - 1] := by
          rw [List.getElem?_eq_getElem hidx] at hx'
          exact (Option.some.inj hx').symm
        rw [hsame]
        exact hkx

/-! ## The star of a vertex after the split -/

/-- On a trimmed store the parents of an entity are the sources of the
relations stored into it. -/
theorem BulkData.Trimmed.parentOf_iff {b : BulkData} {numDim : Nat} (h : b.Trimmed numDim)
    (c p : EntityKey) : b.parentOf c p ↔ ∃ i, (⟨p, c, i⟩ : Decl) ∈ b.relations := by
  unfold BulkData.parentOf
  constructor
  · rintro ⟨i, hi⟩
    exact ⟨i, (mem_relations_rank_succ h.hrank).mp hi⟩
  · rintro ⟨i, hi⟩
    exact ⟨i, (mem_relations_rank_succ h.hrank).mpr hi⟩

/-- After the centre `v` of a star was split, the upward closure of the entity
`z` that took component `c` holds every entity of that component. -/
theorem split_star_reach {g : Subgraph} {numDim : Nat} {v : EntityKey}
    (hstar : g.IsStar g.bulkData_ numDim v) (htr : g.bulkData_.Trimmed numDim) {sv k : Nat}
    {comps : List (Nat × Nat)} (hsv : g.local_to_global sv = some v)
    (hug : g.undirected_graph sv = some (k, comps)) {b' : BulkData}
    (htr' : b'.Trimmed numDim)
    (hkeep : ∀ d ∈ g.bulkData_.relations, d.e_to ≠ v → d ∈ b'.relations)
    {c : Nat} {z : EntityKey}
    (hpar : ∀ p i, (⟨p, z, i⟩ : Decl) ∈ b'.relations ↔
      ∃ e ∈ g.in_edges sv, e.edge_id = i ∧ g.local_to_global e.source = some p ∧
        comps.lookup e.source = some c) :
    ∀ x, g.bulkData_.UpReach v x → x ≠ v → ∀ u, g.local_to_global u = some x →
      comps.lookup u = some c → b'.UpReach z x := by
  have hwf := hstar.wf
  obtain ⟨hA1, -, -⟩ := undirected_graph_sound hwf hug
  obtain ⟨k', comps', hug', -, hsome, -⟩ := undirected_graph_spec hwf sv
  rw [hug] at hug'
  cases hug'
  intro x hx
  induction hx with
  | refl => intro h; exact absurd rfl h
  | @tail y x' hvy hyx ih =>
    intro hne u hu hcu
    obtain ⟨-, -, -, i, hrel⟩ := htr.parent hyx
    have husv : u ≠ sv := by
      rintro rfl
      rw [hsv] at hu
      exact hne (Option.some.inj hu).symm
    obtain ⟨uy, huy⟩ := (hstar.keys y).mpr hvy
    have hedge : (⟨u, uy, i⟩ : Edge) ∈ g.edges := (hstar.edges u uy x' y i hu huy).mpr hrel
    by_cases hyv : y = v
    · subst hyv
      have : uy = sv := hwf.l2g_inj huy hsv
      subst this
      have hin : (⟨u, uy, i⟩ : Edge) ∈ g.in_edges uy := mem_in_edges.mpr ⟨hedge, rfl⟩
      have hrel' : (⟨x', z, i⟩ : Decl) ∈ b'.relations :=
        (hpar x' i).mpr ⟨_, hin, rfl, hu, hcu⟩
      exact Relation.ReflTransGen.single ((htr'.parentOf_iff z x').mpr ⟨i, hrel'⟩)
    · have huysv : uy ≠ sv := by
        rintro rfl
        rw [hsv] at huy
        exact hyv (Option.some.inj huy).symm
      obtain ⟨c', h1, h2⟩ := hA1 _ hedge husv huysv
      simp only at h1 h2
      rw [hcu] at h1
      cases h1
      have hy' := ih hyv uy huy h2
      have hrel' : (⟨x', y, i⟩ : Decl) ∈ b'.relations := hkeep _ hrel hyv
      exact Relation.ReflTransGen.tail hy' ((htr'.parentOf_iff y x').mpr ⟨i, hrel'⟩)

/-- After the centre `v` of a star was split, the upward closure of the entity
`z` that took component `c` holds, besides `z`, only entities of that
component. -/
theorem split_star_reach_back {g : Subgraph} {numDim : Nat} {v : EntityKey}
    (hstar : g.IsStar g.bulkData_ numDim v) (htr : g.bulkData_.Trimmed numDim) {sv k : Nat}
    {comps : List (Nat × Nat)} (hsv : g.local_to_global sv = some v)
    (hug : g.undirected_graph sv = some (k, comps)) {b' : BulkData}
    (htr' : b'.Trimmed numDim)
    (hold : ∀ d ∈ b'.relations, d.e_to ∈ g.bulkData_.entities → d.e_to ≠ v →
      v.rank ≤ d.e_to.rank → d ∈ g.bulkData_.relations)
    {c : Nat} {z : EntityKey}
    (hpar : ∀ p i, (⟨p, z, i⟩ : Decl) ∈ b'.relations ↔
      ∃ e ∈ g.in_edges sv, e.edge_id = i ∧ g.local_to_global e.source = some p ∧
        comps.lookup e.source = some c) :
    ∀ x, b'.UpReach z x → x ≠ z →
      g.bulkData_.UpReach v x ∧ x ≠ v ∧
        ∃ u, g.local_to_global u = some x ∧ comps.lookup u = some c := by
  have hwf := hstar.wf
  obtain ⟨hA1, -, -⟩ := undirected_graph_sound hwf hug
  intro x hx
  induction hx with
  | refl => intro h; exact absurd rfl h
  | @tail y x' hzy hyx ih =>
    intro _
    obtain ⟨i, hrel'⟩ := (htr'.parentOf_iff y x').mp hyx
    by_cases hyz : y = z
    · subst hyz
      obtain ⟨e, he, -, hp, hce⟩ := (hpar x' i).mp hrel'
      obtain ⟨hee, het⟩ := mem_in_edges.mp he
      obtain ⟨ks, kt, hs, ht, hr⟩ := hwf.mirror_rel hee
      rw [hp] at hs
      rw [het, hsv] at ht
      cases hs
      cases ht
      have hpo : g.bulkData_.parentOf v x' := (htr.parentOf_iff v x').mpr ⟨_, hr⟩
      refine ⟨Relation.ReflTransGen.single hpo, ?_, e.source, hp, hce⟩
      have := (htr.parent hpo).1
      intro hc
      rw [hc] at this
      omega
    · obtain ⟨hvy, hyv, uy, huy, hcy⟩ := ih hyz
      have hrel : (⟨x', y, i⟩ : Decl) ∈ g.bulkData_.relations :=
        hold _ hrel' (hwf.l2g_entity huy) hyv (htr.upReach_rank hvy)
      have hpo : g.bulkData_.parentOf y x' := (htr.parentOf_iff y x').mpr ⟨_, hrel⟩
      have hvx : g.bulkData_.UpReach v x' := Relation.ReflTransGen.tail hvy hpo
      have hxv : x' ≠ v := by
        have h1 := (htr.parent hpo).1
        have h2 := htr.upReach_rank hvy
        intro hc
        rw [hc] at h1
        omega
      obtain ⟨u, hu⟩ := (hstar.keys x').mpr hvx
      have hedge : (⟨u, uy, i⟩ : Edge) ∈ g.edges := (hstar.edges u uy x' y i hu huy).mpr hrel
      have husv : u ≠ sv := by
        rintro rfl
        rw [hsv] at hu
        exact hxv (Option.some.inj hu).symm
      have huysv : uy ≠ sv := by
        rintro rfl
        rw [hsv] at huy
        exact hyv (Option.some.inj huy).symm
      obtain ⟨c', h1, h2⟩ := hA1 _ hedge husv huysv
      simp only at h1 h2
      rw [hcy] at h2
      cases h2
      exact ⟨hvx, hxv, u, hu, h1⟩

/-- After the centre `v` of a star was split, the star of the entity `z` that
took component `c`, recomputed in the new store, has one component once `z` is
taken out. -/
theorem split_star_component (less : stkEdge → stkEdge → Bool) (hord : EdgeOrder less)
    {g : Subgraph} {numDim : Nat} {v : EntityKey}
    (hstar : g.IsStar g.bulkData_ numDim v) (htr : g.bulkData_.Trimmed numDim) {sv k : Nat}
    {comps : List (Nat × Nat)} (hsv : g.local_to_global sv = some v)
    (hug : g.undirected_graph sv = some (k, comps)) {b' : BulkData}
    (htr' : b'.Trimmed numDim)
    (hkeep : ∀ d ∈ g.bulkData_.relations, d.e_to ≠ v → d ∈ b'.relations)
    (hold : ∀ d ∈ b'.relations, d.e_to ∈ g.bulkData_.entities → d.e_to ≠ v →
      v.rank ≤ d.e_to.rank → d ∈ g.bulkData_.relations)
    {c : Nat} (hc : c < k) {z : EntityKey} (hz : z ∈ b'.entities)
    (hzv : z = v ∨ z ∉ g.bulkData_.entities)
    (hpar : ∀ p i, (⟨p, z, i⟩ : Decl) ∈ b'.relations ↔
      ∃ e ∈ g.in_edges sv, e.edge_id = i ∧ g.local_to_global e.source = some p ∧
        comps.lookup e.source = some c) :
    ∃ gz sz compsz, star_subgraph less b' numDim z = some gz ∧
      gz.global_to_local z = some sz ∧ gz.undirected_graph sz = some (1, compsz) := by
  have hwf := hstar.wf
  obtain ⟨hA1, -, hA3⟩ := undirected_graph_sound hwf hug
  have hfwd := split_star_reach hstar htr hsv hug htr' hkeep hpar
  have hback := split_star_reach_back hstar htr hsv hug htr' hold hpar
  obtain ⟨gz, hgz, hstarz⟩ := star_subgraph_spec less b' numDim z htr' hord hz
  have hwfz := hstarz.wf
  have hbz : gz.bulkData_ = b' := hstarz.store
  obtain ⟨sz, hsz⟩ := (hstarz.keys z).mpr Relation.ReflTransGen.refl
  -- an old entity other than `v` is not `z`
  have hnez : ∀ x ∈ g.bulkData_.entities, x ≠ v → x ≠ z := by
    intro x hx hxv hxz
    rcases hzv with h | h
    · exact hxv (hxz.trans h)
    · exact h (hxz ▸ hx)
  -- the vertex of the new star for a vertex of the component
  have hvert : ∀ a ka, g.local_to_global a = some ka → a ≠ sv → comps.lookup a = some c →
      ∃ w, gz.local_to_global w = some ka ∧ w ≠ sz := by
    intro a ka hka hasv hca
    have hkav : ka ≠ v := by
      rintro rfl
      exact hasv (hwf.l2g_inj hka hsv)
    have hup := hfwd ka ((hstar.keys ka).mp ⟨a, hka⟩) hkav a hka hca
    obtain ⟨w, hw⟩ := (hstarz.keys ka).mpr hup
    refine ⟨w, hw, ?_⟩
    rintro rfl
    rw [hsz] at hw
    exact hnez ka (hwf.l2g_entity hka) hkav (Option.some.inj hw).symm
  -- the root: a parent of `v` in the component
  obtain ⟨e0, he0, hce0⟩ := star_components_parents hstar htr hsv hug c hc
  obtain ⟨hee0, het0⟩ := mem_in_edges.mp he0
  have he0sv : e0.source ≠ sv := fun h => hwf.edge_ne hee0 (h.trans het0.symm)
  obtain ⟨p0, hp0, -⟩ := hwf.vertex_l2g (hwf.edge_ends e0 hee0).1
  obtain ⟨r0, hr0, hr0sz⟩ := hvert e0.source p0 hp0 he0sv hce0
  have hconn : ∀ u ∈ gz.vertices.map Prod.fst, u ≠ sz →
      Relation.ReflTransGen (gz.joined sz) u r0 := by
    intro u hu husz
    obtain ⟨x, hx, -⟩ := hwfz.vertex_l2g hu
    have hxz : x ≠ z := by
      rintro rfl
      exact husz (hwfz.l2g_inj hx hsz)
    obtain ⟨hvx, hxv, ux, hux, hcx⟩ := hback x ((hstarz.keys x).mp ⟨u, hx⟩) hxz
    have hpath := hA3 ux e0.source c hcx hce0
    have hlift : ∀ a, Relation.ReflTransGen (g.joined sv) ux a →
        comps.lookup a = some c ∧ ∃ w ka, g.local_to_global a = some ka ∧
          gz.local_to_global w = some ka ∧ Relation.ReflTransGen (gz.joined sz) u w := by
      intro a ha
      induction ha with
      | refl => exact ⟨hcx, u, x, hux, hx, Relation.ReflTransGen.refl⟩
      | @tail a' a _ hj ih =>
        obtain ⟨hca', w', ka', hka', hw', hpath'⟩ := ih
        obtain ⟨ha'sv, hasv, e, he, hends⟩ := hj
        obtain ⟨ks, kt, hs, ht, hr⟩ := hwf.mirror_rel he
        have hsne : e.source ≠ sv := by
          rcases hends with h | h
          · rw [h.1]; exact ha'sv
          · rw [h.1]; exact hasv
        have htne : e.target ≠ sv := by
          rcases hends with h | h
          · rw [h.2]; exact hasv
          · rw [h.2]; exact ha'sv
        obtain ⟨cc, hcs, hct⟩ := hA1 e he hsne htne
        have hcc : cc = c := by
          rcases hends with h | h
          · rw [h.1, hca'] at hcs
            exact (Option.some.inj hcs).symm
          · rw [h.2, hca'] at hct
            exact (Option.some.inj hct).symm
        subst hcc
        have hktv : kt ≠ v := by
          rintro rfl
          exact htne (hwf.l2g_inj ht hsv)
        have hr' : (⟨ks, kt, e.edge_id⟩ : Decl) ∈ gz.bulkData_.relations := by
          rw [hbz]
          exact hkeep _ hr hktv
        obtain ⟨ws, hws, hwssz⟩ := hvert e.source ks hs hsne hcs
        obtain ⟨wt, hwt, hwtsz⟩ := hvert e.target kt ht htne hct
        have hedge : (⟨ws, wt, e.edge_id⟩ : Edge) ∈ gz.edges :=
          (hstarz.edges ws wt ks kt e.edge_id hws hwt).mpr (hbz ▸ hr')
        rcases hends with h | h
        · have hk1 : ka' = ks := by
            rw [← h.1, hs] at hka'
            exact (Option.some.inj hka').symm
          have hw1 : w' = ws := hwfz.l2g_inj hw' (hk1 ▸ hws)
          refine ⟨by rw [← h.2]; exact hct, wt, kt, by rw [← h.2]; exact ht, hwt, ?_⟩
          refine Relation.ReflTransGen.tail hpath' ?_
          rw [hw1]
          exact ⟨hwssz, hwtsz, _, hedge, Or.inl ⟨rfl, rfl⟩⟩
        · have hk1 : ka' = kt := by
            rw [← h.2, ht] at hka'
            exact (Option.some.inj hka').symm
          have hw1 : w' = wt := hwfz.l2g_inj hw' (hk1 ▸ hwt)
          refine ⟨by rw [← h.1]; exact hcs, ws, ks, by rw [← h.1]; exact hs, hws, ?_⟩
          refine Relation.ReflTransGen.tail hpath' ?_
          rw [hw1]
          exact ⟨hwtsz, hwssz, _, hedge, Or.inr ⟨rfl, rfl⟩⟩
    obtain ⟨-, w, ka, hka, hw, hpw⟩ := hlift _ hpath
    rw [hp0] at hka
    cases hka
    rw [hwfz.l2g_inj hr0 hw]
    exact hpw
  obtain ⟨compsz, hone⟩ := undirected_graph_one hwfz sz r0 (hwfz.l2g_vertex hr0) hr0sz hconn
  exact ⟨gz, sz, compsz, hgz, (hstarz.maps.inverse sz z).mp hsz, hone⟩

/-- C29: on a trimmed store, when `split_articulation_point` is applied to the
star subgraph of an open entity `v` and the projection without `v` has `k > 1`
components, the call returns, and for `v` and for each new vertex the star of
its entity, recomputed in the store the call leaves, has exactly one connected
component once that entity is taken out: none of them is an articulation point
of its own star. -/
theorem split_articulation_point_star_connected (less : stkEdge → stkEdge → Bool)
    (b : BulkData) (numDim : Nat) (v : EntityKey) (o : EntityOpenMap)
    (htr : b.Trimmed numDim) (hord : EdgeOrder less) (hv : v ∈ b.entities)
    (ho : o v = true) :
    ∃ g sv k comps, star_subgraph less b numDim v = some g ∧
      g.global_to_local v = some sv ∧ g.undirected_graph sv = some (k, comps) ∧
      (1 < k → ∃ res, g.split_articulation_point sv o = some res ∧
        ∀ x ∈ res.1.vertices.map Prod.fst, (x = sv ∨ x ∉ g.vertices.map Prod.fst) →
          ∃ z gz sz compsz, res.1.local_to_global x = some z ∧
            star_subgraph less res.1.bulkData_ numDim z = some gz ∧
            gz.global_to_local z = some sz ∧
            gz.undirected_graph sz = some (1, compsz)) := by
  obtain ⟨g, hg, hstar⟩ := star_subgraph_spec less b numDim v htr hord hv
  have hb := hstar.store
  subst hb
  have hwf := hstar.wf
  obtain ⟨sv, hsv⟩ := (hstar.keys v).mpr Relation.ReflTransGen.refl
  obtain ⟨k, comps, hug, -, -, -⟩ := undirected_graph_spec hwf sv
  refine ⟨g, sv, k, comps, hg, (hstar.maps.inverse sv v).mp hsv, hug, ?_⟩
  intro hk
  obtain ⟨g', nc, nv, hdef, hverts, htr', hkeep, hold, hidx, hT⟩ :=
    split_star_store hstar htr hsv ho hug (by omega)
  refine ⟨_, hdef, ?_⟩
  intro x hx hcase
  simp only at hx ⊢
  have hcomp : ∃ c, c < k ∧ (if c = 0 then x = sv else nv[c - 1]? = some x) := by
    rcases hcase with rfl | hnew
    · exact ⟨0, by omega, by simp⟩
    · rw [hverts, List.map_append, List.mem_append] at hx
      rcases hx with hx | hx
      · exact absurd hx hnew
      · have hxnv : x ∈ nv := by simpa using hx
        obtain ⟨j, hj, hjk⟩ := hidx x hxnv
        exact ⟨j + 1, hjk, by simpa using hj⟩
  obtain ⟨c, hc, hcx⟩ := hcomp
  obtain ⟨x', z, hx', hz, hze, hzv, hpar⟩ := hT c hc
  have hxx : x' = x := by
    by_cases hc0 : c = 0
    · rw [if_pos hc0] at hcx hx'
      rw [hcx, hx']
    · rw [if_neg hc0] at hcx hx'
      rw [hcx] at hx'
      exact (Option.some.inj hx').symm
  subst hxx
  obtain ⟨gz, sz, compsz, hgz, hsz, hone⟩ :=
    split_star_component less hord hstar htr hsv hug htr' hkeep hold hc hze hzv hpar
  exact ⟨z, gz, sz, compsz, hz, hgz, hsz, hone⟩

theorem split_articulation_point_star_connected_witness :
    sharedSegmentStore.Trimmed 2 ∧ EdgeOrder edgeLessSourceTarget ∧
    edgeKey 1 ∈ sharedSegmentStore.entities ∧ sharedSegmentOpen (edgeKey 1) = true ∧
    ((star_subgraph edgeLessSourceTarget sharedSegmentStore 2 (edgeKey 1)).bind
      (fun g => (g.global_to_local (edgeKey 1)).bind
        (fun sv => g.undirected_graph sv))).map Prod.fst = some 2 ∧
    ∃ g sv k comps,
      star_subgraph edgeLessSourceTarget sharedSegmentStore 2 (edgeKey 1) = some g ∧
      g.global_to_local (edgeKey 1) = some sv ∧ g.undirected_graph sv = some (k, comps) ∧
      (1 < k → ∃ res, g.split_articulation_point sv sharedSegmentOpen = some res ∧
        ∀ x ∈ res.1.vertices.map Prod.fst, (x = sv ∨ x ∉ g.vertices.map Prod.fst) →
          ∃ z gz sz compsz, res.1.local_to_global x = some z ∧
            star_subgraph edgeLessSourceTarget res.1.bulkData_ 2 z = some gz ∧
            gz.global_to_local z = some sz ∧
            gz.undirected_graph sz = some (1, compsz)) :=
  ⟨sharedSegmentStore_trimmed, edgeLessSourceTarget_order, by decide, by decide, by decide,
    split_articulation_point_star_connected edgeLessSourceTarget sharedSegmentStore 2
      (edgeKey 1) sharedSegmentOpen sharedSegmentStore_trimmed edgeLessSourceTarget_order
      (by decide) (by decide)⟩

end LCM
